import Mathlib

/-!
# xledger: the append-and-fork engine of the ledger

A shallow embedding of `bcs/ledger/xledger/ledger/ledger.go`, and of the write batch
`ldbBatch` of `lib/storage/kvdb/leveldb/ldb_impl.go`.

Conventions of the embedding.

* Byte strings (`[]byte`, block ids, tx ids, keys) are lists of naturals.
* `int64` heights are integers; no theorem below is about the wrap-around at
  `2^63`.  The `size` of an `ldbBatch` is a Go `int` and wraps around.
* `proto.Marshal` / `proto.Unmarshal` are an exact round trip, so the tables of
  the key-value store hold decoded records.  The methods are first embedded
  with `proto.Marshal` succeeding; `Faulty.saveBlock`, `Faulty.handleFork`,
  `Faulty.parallelCheckTx`, `Faulty.confirmCommit` and `Faulty.ConfirmBlock` are
  the same methods with its failures and with the error of `updateBranchInfo`,
  and the theorems about the `Error` field are about them.  The six tables live under distinct
  one-byte key prefixes of one namespace and are kept as six association lists.
* `*pb.InternalBlock` values are pointers in the Go source and the two LRU
  caches hold such pointers.  Block objects therefore live in a heap
  (`Ledger.heap`, the address is the index) and the caches map ids to
  addresses: a field assignment through one pointer is seen through every
  alias, and `proto.Marshal` takes a snapshot of the object.
* A write batch is the list of its operations in call order; `Write` applies
  them atomically, or fails as a whole.  The outcome of `Write` is an input of
  the embedding (`kvErr`), and so is the outcome of a `Put` outside a batch
  (`putErr`).  Reads of the key-value store only fail with "not found".
* Loops that walk `pre_hash` pointers take a fuel argument; `none` stands for
  a walk that has not finished within the fuel.
-/

namespace XLedger

abbrev Bytes := List Nat

abbrev Addr := Nat

/-- Errors surfaced by the ledger (the `Err...` variables of `ledger.go`) and the other
error values the embedded code paths can produce. -/
inductive LedgerError where
  | ErrBlockNotExist
  | ErrTxNotFound
  | ErrTxDuplicated
  | ErrRootBlockAlreadyExist
  | ErrTxNotConfirmed
  | ErrKVNotFound
  | kvWriteFailed
  | coinbaseNotFound
  | genesisConfigInvalid
  | invalidUpdateRequest
  | queryTxFailed
  | sliceOutOfRange
  | marshalFailed
  deriving DecidableEq, Repr, Inhabited

instance instDecidableEqExcept {ε α : Type} [DecidableEq ε] [DecidableEq α] :
    DecidableEq (Except ε α) := fun x y =>
  match x, y with
  | .ok a, .ok b => if h : a = b then isTrue (by rw [h]) else isFalse (fun e => h (by cases e; rfl))
  | .error a, .error b =>
    if h : a = b then isTrue (by rw [h]) else isFalse (fun e => h (by cases e; rfl))
  | .ok _, .error _ => isFalse (fun e => by cases e)
  | .error _, .ok _ => isFalse (fun e => by cases e)

structure TxOutput where
  amount : Bytes := []
  toAddr : Bytes := []
  deriving DecidableEq, Repr, Inhabited

structure TxOutputExt where
  bucket : Bytes := []
  key : Bytes := []
  value : Bytes := []
  deriving DecidableEq, Repr, Inhabited

structure ModifyBlock where
  marked : Bool := false
  effectiveTxid : Bytes := []
  effectiveHeight : Int := 0
  publicKey : Bytes := []
  sign : Bytes := []
  deriving DecidableEq, Repr, Inhabited

structure Transaction where
  txid : Bytes := []
  blockid : Bytes := []
  coinbase : Bool := false
  txOutputs : List TxOutput := []
  desc : Bytes := []
  modifyBlock : Option ModifyBlock := none
  txOutputsExt : List TxOutputExt := []
  payload : Bytes := []
  deriving DecidableEq, Repr, Inhabited

structure InternalBlock where
  version : Int := 0
  blockid : Bytes := []
  preHash : Bytes := []
  proposer : Bytes := []
  sign : Bytes := []
  pubkey : Bytes := []
  merkleRoot : Bytes := []
  height : Int := 0
  timestamp : Int := 0
  transactions : List Transaction := []
  txCount : Int := 0
  merkleTree : List Bytes := []
  curTerm : Int := 0
  curBlockNum : Int := 0
  failedTxs : List (Bytes × Bytes) := []
  targetBits : Int := 0
  justify : Bytes := []
  inTrunk : Bool := false
  nextHash : Bytes := []
  deriving DecidableEq, Repr, Inhabited

structure LedgerMeta where
  rootBlockid : Bytes := []
  tipBlockid : Bytes := []
  trunkHeight : Int := 0
  deriving DecidableEq, Repr, Inhabited

/-- ConfirmStatus of `ledger.go`; the zero value has every flag false and a nil error. -/
structure ConfirmStatus where
  succ : Bool := false
  split : Bool := false
  orphan : Bool := false
  trunkSwitch : Bool := false
  error : Option LedgerError := none
  deriving DecidableEq, Repr, Inhabited

/-- The genesis configuration object built by `NewGenesisBlock` (genesis.go, not part of
the embedded sources); only the configuration bytes it was built from are kept. -/
structure GenesisBlock where
  config : Bytes := []
  deriving DecidableEq, Repr, Inhabited

/-- What the embedded functions take from outside `ledger.go`: the package variable
`DisableTxDedup`, the constructor `NewGenesisBlock` and the reward schedule
`GenesisBlock.CalcAward`. -/
structure Env where
  DisableTxDedup : Bool
  NewGenesisBlock : Bytes → Except LedgerError GenesisBlock
  CalcAward : GenesisBlock → Int → Nat

/-! ## Key-value tables -/

abbrev Table (V : Type) := List (Bytes × V)

def kvGet {V : Type} (t : Table V) (k : Bytes) : Option V :=
  match t with
  | [] => none
  | (k1, v) :: rest => if k1 = k then some v else kvGet rest k

def kvHas {V : Type} (t : Table V) (k : Bytes) : Bool :=
  (kvGet t k).isSome

def kvDel {V : Type} (t : Table V) (k : Bytes) : Table V :=
  t.filter (fun p => decide (p.1 ≠ k))

def kvPut {V : Type} (t : Table V) (k : Bytes) (v : V) : Table V :=
  (k, v) :: kvDel t k

/-- The durable store: one table per key prefix of `baseDB`. -/
structure DB where
  metaTable : Table LedgerMeta := []
  blocksTable : Table InternalBlock := []
  confirmedTable : Table Transaction := []
  heightTable : Table Bytes := []
  pendingTable : Table InternalBlock := []
  branchTable : Table Bytes := []
  deriving DecidableEq, Repr, Inhabited

/-- One queued operation of a `kvdb.Batch`, by the table its key prefix selects. -/
inductive BatchOp where
  | putMeta (m : LedgerMeta)
  | putBlock (id : Bytes) (blk : InternalBlock)
  | delBlock (id : Bytes)
  | putTx (txid : Bytes) (tx : Transaction)
  | putHeight (key : Bytes) (id : Bytes)
  | delHeight (key : Bytes)
  | delPending (id : Bytes)
  | putBranch (id : Bytes) (rec : Bytes)
  | delBranch (id : Bytes)
  deriving DecidableEq, Repr, Inhabited

abbrev Batch := List BatchOp

def applyOp (db : DB) (op : BatchOp) : DB :=
  match op with
  | .putMeta m => { db with metaTable := kvPut db.metaTable [] m }
  | .putBlock id blk => { db with blocksTable := kvPut db.blocksTable id blk }
  | .delBlock id => { db with blocksTable := kvDel db.blocksTable id }
  | .putTx txid tx => { db with confirmedTable := kvPut db.confirmedTable txid tx }
  | .putHeight key id => { db with heightTable := kvPut db.heightTable key id }
  | .delHeight key => { db with heightTable := kvDel db.heightTable key }
  | .delPending id => { db with pendingTable := kvDel db.pendingTable id }
  | .putBranch id rec => { db with branchTable := kvPut db.branchTable id rec }
  | .delBranch id => { db with branchTable := kvDel db.branchTable id }

/-- The effect of a successful `batch.Write()`: every queued operation, in order. -/
def applyBatch (db : DB) (bw : Batch) : DB :=
  bw.foldl applyOp db

/-! ## Height keys -/

def decDigitsCore : Nat → Nat → List Nat → List Nat
  | 0, _, acc => acc
  | fuel + 1, n, acc =>
    if n / 10 = 0 then (48 + n % 10) :: acc
    else decDigitsCore fuel (n / 10) ((48 + n % 10) :: acc)

/-- Decimal digits of a natural number as ASCII codes, most significant first. -/
def decDigits (n : Nat) : List Nat :=
  decDigitsCore (n + 1) n []

def padZero (w : Nat) (ds : List Nat) : List Nat :=
  List.replicate (w - ds.length) 48 ++ ds

/-- The key `fmt.Sprintf("%020d", height)`: width 20, zero padded, a minus sign first for
a negative height. -/
def heightKey (h : Int) : Bytes :=
  if h < 0 then 45 :: padZero 19 (decDigits h.natAbs) else padZero 20 (decDigits h.toNat)

/-! ## LRU caches -/

def BlockCacheSize : Nat := 100

/-- Modelled from the spec: the bounded LRU cache (`lib/cache`, not among the embedded
sources) behind the "Header Cache and Block Cache: bounded LRU caches over headers and
full blocks".  Entries are kept most recently used first and hold the address of the
cached block object; both caches of the ledger are created with capacity `BlockCacheSize`. -/
structure LRUCache where
  entries : List (Bytes × Addr) := []
  deriving DecidableEq, Repr, Inhabited

/-- A hit returns the cached pointer and makes the entry the most recently used. -/
def LRUCache.Get (c : LRUCache) (k : Bytes) : Option Addr × LRUCache :=
  match kvGet c.entries k with
  | some a => (some a, { c with entries := (k, a) :: kvDel c.entries k })
  | none => (none, c)

/-- Insert or replace, as the most recently used entry; beyond the capacity the least
recently used entries are dropped. -/
def LRUCache.Add (c : LRUCache) (k : Bytes) (a : Addr) : LRUCache :=
  { c with entries := ((k, a) :: kvDel c.entries k).take BlockCacheSize }

def LRUCache.Del (c : LRUCache) (k : Bytes) : LRUCache :=
  { c with entries := kvDel c.entries k }

/-! ## The ledger object -/

structure Ledger where
  db : DB := {}
  meta : LedgerMeta := {}
  GenesisBlock : Option GenesisBlock := none
  heap : List InternalBlock := []
  blockCache : LRUCache := {}
  blkHeaderCache : LRUCache := {}
  deriving DecidableEq, Repr, Inhabited

/-- The block object behind a pointer. -/
def Ledger.deref (l : Ledger) (a : Addr) : InternalBlock :=
  l.heap.getD a default

/-- A field assignment through a pointer. -/
def Ledger.modify (l : Ledger) (a : Addr) (f : InternalBlock → InternalBlock) : Ledger :=
  { l with heap := l.heap.set a (f (l.deref a)) }

/-- A new block object; its address is the old heap size. -/
def Ledger.alloc (l : Ledger) (b : InternalBlock) : Ledger :=
  { l with heap := l.heap ++ [b] }

def GetMeta (l : Ledger) : LedgerMeta :=
  l.meta

/-! Field assignments, one function per assigned field. -/

def InternalBlock.setHeight (h : Int) (b : InternalBlock) : InternalBlock :=
  { b with height := h }

def InternalBlock.setInTrunk (v : Bool) (b : InternalBlock) : InternalBlock :=
  { b with inTrunk := v }

def InternalBlock.setNextHash (h : Bytes) (b : InternalBlock) : InternalBlock :=
  { b with nextHash := h }

def InternalBlock.setTransactions (txs : List Transaction) (b : InternalBlock) : InternalBlock :=
  { b with transactions := txs }

def Transaction.setBlockid (id : Bytes) (tx : Transaction) : Transaction :=
  { tx with blockid := id }

def Ledger.setHeaderCache (l : Ledger) (c : LRUCache) : Ledger :=
  { l with blkHeaderCache := c }

def Ledger.setBlockCache (l : Ledger) (c : LRUCache) : Ledger :=
  { l with blockCache := c }

def Ledger.setGenesisBlock (l : Ledger) (gb : XLedger.GenesisBlock) : Ledger :=
  { l with GenesisBlock := some gb }

/-- A successful batch write followed by `l.meta = newMeta`. -/
def Ledger.written (l : Ledger) (bw : Batch) (newMeta : LedgerMeta) : Ledger :=
  { l with db := applyBatch l.db bw, meta := newMeta }

/-! ## Block headers: fetch and save -/

/-- The method `fetchBlock`: the header cache first, then the Blocks table.  A hit returns the
cached pointer; a miss unmarshals a new object (which is not put into the cache). -/
def fetchBlock (l : Ledger) (blockid : Bytes) : Except LedgerError Addr × Ledger :=
  match l.blkHeaderCache.Get blockid with
  | (some a, c) => (.ok a, l.setHeaderCache c)
  | (none, _) =>
    match kvGet l.db.blocksTable blockid with
    | none => (.error .ErrKVNotFound, l)
    | some b => (.ok l.heap.length, l.alloc b)

/-- The puts of one `saveBlock`: the header under its id and, for a trunk block, the Height
Index entry under the zero-padded height. -/
def saveOps (block : InternalBlock) : Batch :=
  if block.inTrunk then
    [BatchOp.putBlock block.blockid block, BatchOp.putHeight (heightKey block.height) block.blockid]
  else [BatchOp.putBlock block.blockid block]

/-- The method `saveBlock`, for a header that `proto.Marshal` accepts: marshal the object as
it is now, put the pointer into the header cache, queue the header and, for a trunk block, its
Height Index entry.  `Faulty.saveBlock` has the return on a failed `proto.Marshal`. -/
def saveBlock (l : Ledger) (a : Addr) (batchWrite : Batch) : Ledger × Batch :=
  (l.setHeaderCache (l.blkHeaderCache.Add (l.deref a).blockid a),
    batchWrite ++ saveOps (l.deref a))

/-- The body loop of `queryBlock`: one Confirmed-Tx lookup per merkle leaf. -/
def loadBody (confirmed : Table Transaction) : List Bytes → Except LedgerError (List Transaction)
  | [] => .ok []
  | txid :: rest =>
    match kvGet confirmed txid with
    | none => .error .ErrKVNotFound
    | some realTx =>
      match loadBody confirmed rest with
      | .error e => .error e
      | .ok txs => .ok (realTx :: txs)

/-- The method `queryBlock`: straight from the Blocks table, never from a cache.  The slice
`block.MerkleTree[:block.TxCount]` panics in Go when `TxCount` is out of range; that is
reported as the error `sliceOutOfRange`. -/
def queryBlock (l : Ledger) (blockid : Bytes) (needBody : Bool) : Except LedgerError InternalBlock :=
  match kvGet l.db.blocksTable blockid with
  | none => .error .ErrBlockNotExist
  | some block =>
    if needBody then
      if 0 ≤ block.txCount ∧ block.txCount ≤ (block.merkleTree.length : Int) then
        match loadBody l.db.confirmedTable (block.merkleTree.take block.txCount.toNat) with
        | .error e => .error e
        | .ok realTransactions => .ok (block.setTransactions realTransactions)
      else .error .sliceOutOfRange
    else .ok block

/-- One step of the loop of `correctTxsBlockid`. -/
def correctTx (blockID : Bytes) (batchWrite : Batch) (tx : Transaction) : Batch :=
  if tx.blockid ≠ blockID then
    batchWrite ++ [BatchOp.putTx tx.txid (tx.setBlockid blockID)]
  else batchWrite

/-- The method `correctTxsBlockid`: point every transaction of the block back at it. -/
def correctTxsBlockid (l : Ledger) (blockID : Bytes) (batchWrite : Batch) :
    Except LedgerError Batch :=
  match queryBlock l blockID true with
  | .error e => .error e
  | .ok block => .ok (block.transactions.foldl (correctTx blockID) batchWrite)

/-- The method `handleFork`.  `p` walks back from the old tip, `q` from the predecessor of the
new tip, one step each per round, until the two ids are equal.  One unit of fuel per
evaluation of the loop condition. -/
def handleFork (fuel : Nat) (l : Ledger) (p q nextHash : Bytes) (batchWrite : Batch) :
    Option (Except LedgerError Addr × Ledger × Batch) :=
  match fuel with
  | 0 => none
  | fuel + 1 =>
    if p = q then
      match fetchBlock l q with
      | (.error qErr, l1) => some (.error qErr, l1, batchWrite)
      | (.ok sa, l1) =>
        let l2 := (l1.modify sa (InternalBlock.setInTrunk true)).modify sa
          (InternalBlock.setNextHash nextHash)
        some (.ok sa, (saveBlock l2 sa batchWrite).1, (saveBlock l2 sa batchWrite).2)
    else
      match fetchBlock l p with
      | (.error pErr, l1) => some (.error pErr, l1, batchWrite)
      | (.ok pa, l1) =>
        let l2 := (l1.modify pa (InternalBlock.setInTrunk false)).modify pa
          (InternalBlock.setNextHash [])
        match fetchBlock l2 q with
        | (.error qErr, l3) => some (.error qErr, l3, batchWrite)
        | (.ok qa, l3) =>
          let l4 := l3.modify qa (InternalBlock.setInTrunk true)
          match correctTxsBlockid l4 (l4.deref qa).blockid batchWrite with
          | .error cerr => some (.error cerr, l4, batchWrite)
          | .ok bw1 =>
            let l5 := l4.modify qa (InternalBlock.setNextHash nextHash)
            let l6 := (saveBlock l5 pa bw1).1
            let bw2 := (saveBlock l5 pa bw1).2
            handleFork fuel (saveBlock l6 qa bw2).1 (l5.deref pa).preHash (l5.deref qa).preHash q
              (saveBlock l6 qa bw2).2

/-- Big-endian unsigned value of a byte string (`big.Int.SetBytes`). -/
def bytesToNat (bs : Bytes) : Nat :=
  bs.foldl (fun acc b => acc * 256 + b) 0

/-- The method `IsValidTx`.  `none` is the nil-pointer panic of `l.GenesisBlock.CalcAward` on a
ledger without genesis configuration. -/
def IsValidTx (env : Env) (l : Ledger) (_idx : Nat) (tx : Transaction) (block : InternalBlock) :
    Option Bool :=
  if tx.coinbase then
    match tx.txOutputs with
    | [] => some false
    | out0 :: _ =>
      match l.GenesisBlock with
      | none => none
      | some gb =>
        if (bytesToNat out0.amount : Int) ≠ (env.CalcAward gb block.height : Int) then some false
        else some true
  else some true

/-- The record of a branch tip: its height in decimal (`strconv.FormatInt`). -/
def branchRecord (h : Int) : Bytes :=
  if h < 0 then 45 :: decDigits h.natAbs else decDigits h.toNat

/-- The operations one `updateBranchInfo` queues. -/
def branchOps (addedBlockid deletedBlockid : Bytes) (addedBlockHeight : Int) : Batch :=
  [BatchOp.delBranch deletedBlockid, BatchOp.putBranch addedBlockid (branchRecord addedBlockHeight)]

/-- Modelled from the spec: `updateBranchInfo` (declared in another file of the package, not
among the embedded sources) performs "Update Branch Registry for the new block" on the
table `"R" + block_id -> branch tip record`: the entry of the block that stops being a tip
is deleted and the new tip is recorded with its height. -/
def updateBranchInfo (addedBlockid deletedBlockid : Bytes) (addedBlockHeight : Int)
    (batch : Batch) : Except LedgerError Batch :=
  .ok (batch ++ branchOps addedBlockid deletedBlockid addedBlockHeight)

/-! ## Confirming a block -/

/-- The map `txData` of `parallelCheckTx`, written in list order. -/
def mkTxData (txs : List Transaction) : Table Transaction :=
  txs.foldl (fun m tx => kvPut m tx.txid tx) []

/-- The map `txExist` of `parallelCheckTx`: one `confirmedTable.Has` per transaction. -/
def mkTxExist (confirmed : Table Transaction) (txs : List Transaction) : Table Bool :=
  txs.foldl (fun m tx => kvPut m tx.txid (kvHas confirmed tx.txid)) []

/-- The method `parallelCheckTx`.  Every transaction gets `Blockid = block.Blockid`, is
marshalled into `txData` and, unless dedup is disabled for a trunk block, probed in the
Confirmed-Tx table.  The workers only differ in the order of their map writes; the list
order is taken.  Returns `(txExist, txData)` and the transactions as the workers left them.
Every transaction is marshalled here; `Faulty.parallelCheckTx` has the nil entries of the
transactions that `proto.Marshal` refuses. -/
def parallelCheckTx (env : Env) (l : Ledger) (txs : List Transaction) (block : InternalBlock) :
    Table Bool × Table Transaction × List Transaction :=
  let txs1 := txs.map (Transaction.setBlockid block.blockid)
  (if !env.DisableTxDedup || !block.inTrunk then mkTxExist l.db.confirmedTable txs1 else [],
    mkTxData txs1, txs1)

/-- The transaction loop of `ConfirmBlock` (the `for _, tx := range realTransactions`).
State of the loop: the coinbase counter, the local `oldBlockCache` and the batch.  A failure
carries the `Error` field the status is returned with. -/
def confirmTxs (db : DB) (blockInTrunk : Bool) (splitHeight : Int)
    (txExist : Table Bool) (txData : Table Transaction) :
    List Transaction → Nat → Table InternalBlock → Batch → Except (Option LedgerError) Batch
  | [], _, _, batchWrite => .ok batchWrite
  | tx :: rest, cbNum, oldBlockCache, batchWrite =>
    let cbNum1 := if tx.coinbase then cbNum + 1 else cbNum
    if cbNum1 > 1 then .error none
    else
      match kvGet txData tx.txid with
      | none => .error none
      | some pbTxBuf =>
        let hasTx := (kvGet txExist tx.txid).getD false
        if !hasTx then
          confirmTxs db blockInTrunk splitHeight txExist txData rest cbNum1 oldBlockCache
            (batchWrite ++ [BatchOp.putTx tx.txid pbTxBuf])
        else
          let oldTx := (kvGet db.confirmedTable tx.txid).getD {}
          match kvGet oldBlockCache oldTx.blockid with
          | some oldBlock =>
            if oldBlock.inTrunk && blockInTrunk && decide (oldBlock.height ≤ splitHeight) then
              .error (some .ErrTxDuplicated)
            else if blockInTrunk then
              confirmTxs db blockInTrunk splitHeight txExist txData rest cbNum1 oldBlockCache
                (batchWrite ++ [BatchOp.putTx tx.txid pbTxBuf])
            else
              confirmTxs db blockInTrunk splitHeight txExist txData rest cbNum1 oldBlockCache
                batchWrite
          | none =>
            match kvGet db.blocksTable oldTx.blockid with
            | none =>
              confirmTxs db blockInTrunk splitHeight txExist txData rest cbNum1 oldBlockCache
                (batchWrite ++ [BatchOp.putTx tx.txid pbTxBuf])
            | some oldBlock =>
              let oldBlockCache1 := kvPut oldBlockCache oldBlock.blockid oldBlock
              if oldBlock.inTrunk && blockInTrunk && decide (oldBlock.height ≤ splitHeight) then
                .error (some .ErrTxDuplicated)
              else if blockInTrunk then
                confirmTxs db blockInTrunk splitHeight txExist txData rest cbNum1 oldBlockCache1
                  (batchWrite ++ [BatchOp.putTx tx.txid pbTxBuf])
              else
                confirmTxs db blockInTrunk splitHeight txExist txData rest cbNum1 oldBlockCache1
                  batchWrite

/-- The method `loadGenesisBlock` for a non-empty ledger (`isEmptyLedger = false`): the
configuration is the `desc` of the first coinbase transaction of the root block. -/
def loadGenesisBlock (env : Env) (l : Ledger) : Except LedgerError GenesisBlock :=
  if l.meta.rootBlockid.length = 0 then .error .ErrBlockNotExist
  else
    match queryBlock l l.meta.rootBlockid true with
    | .error err => .error err
    | .ok rootIb =>
      match rootIb.transactions.find? (fun tx => tx.coinbase) with
      | none => .error .coinbaseNotFound
      | some coinbaseTx => env.NewGenesisBlock coinbaseTx.desc

/-- The end of `ConfirmBlock`, after `batchWrite.Write()` returned `kvErr`: the status and
`l.meta` are set, the caller's block gets its transactions back, a root block reloads the
genesis configuration, and the block enters the block cache. -/
def confirmFinish (env : Env) (kvErr : Option LedgerError) (l1 : Ledger) (a : Addr)
    (txs1 : List Transaction) (newMeta : LedgerMeta) (confirmStatus : ConfirmStatus)
    (isRoot : Bool) (bw4 : Batch) : ConfirmStatus × Ledger :=
  let l2 : Ledger :=
    match kvErr with
    | some _ => l1
    | none => l1.written bw4 newMeta
  let st1 : ConfirmStatus :=
    match kvErr with
    | some e => { confirmStatus with succ := false, error := some e }
    | none => { confirmStatus with succ := true }
  let l3 := l2.modify a (InternalBlock.setTransactions txs1)
  if isRoot then
    match loadGenesisBlock env l3 with
    | .error lErr =>
      ({ st1 with succ := false, error := some lErr },
        l3.setBlockCache (l3.blockCache.Add (l3.deref a).blockid a))
    | .ok gb =>
      (st1, (l3.setGenesisBlock gb).setBlockCache (l3.blockCache.Add (l3.deref a).blockid a))
  else (st1, l3.setBlockCache (l3.blockCache.Add (l3.deref a).blockid a))

/-- The tail of `ConfirmBlock`, from `saveBlock(block, batchWrite)` on.  `a` is the pointer
`block`, whose `Transactions` field is empty until it is restored after the write.  The header
and the new meta record are marshalled; `Faulty.confirmCommit` has the returns on a failed
`proto.Marshal` and on an error of `updateBranchInfo`. -/
def confirmCommit (env : Env) (kvErr : Option LedgerError) (l : Ledger) (a : Addr)
    (realTransactions : List Transaction) (newMeta : LedgerMeta) (splitHeight : Int)
    (confirmStatus : ConfirmStatus) (isRoot : Bool) (batchWrite : Batch) :
    ConfirmStatus × Ledger :=
  let l1 := (saveBlock l a batchWrite).1
  let bw1 := (saveBlock l a batchWrite).2
  let block := l1.deref a
  match updateBranchInfo block.blockid block.preHash block.height bw1 with
  | .error _ => ({ confirmStatus with succ := false }, l1)
  | .ok bw2 =>
    let pc := parallelCheckTx env l1 realTransactions block
    match confirmTxs l1.db block.inTrunk splitHeight pc.1 pc.2.1 pc.2.2 0 [] bw2 with
    | .error e => ({ confirmStatus with succ := false, error := e }, l1)
    | .ok bw3 =>
      confirmFinish env kvErr l1 a pc.2.2 newMeta confirmStatus isRoot
        (bw3 ++ [BatchOp.delPending block.blockid, BatchOp.putMeta newMeta])

/-- The method `ConfirmBlock`.  The caller's block becomes a new heap object (the caller built
it; no cache points at it yet).  `kvErr` is what `batchWrite.Write()` returns, `fuel` bounds
the walk of `handleFork`; `none` is a fork walk that does not finish within the fuel.
`Faulty.ConfirmBlock` is the method with the failures of `proto.Marshal`. -/
def ConfirmBlock (env : Env) (kvErr : Option LedgerError) (fuel : Nat) (l : Ledger)
    (blockArg : InternalBlock) (isRoot : Bool) : Option (ConfirmStatus × Ledger) :=
  let a := l.heap.length
  let realTransactions := blockArg.transactions
  let l0 := l.alloc (blockArg.setTransactions [])
  let confirmStatus : ConfirmStatus := {}
  let newMeta := l0.meta
  let splitHeight := newMeta.trunkHeight
  if isRoot then
    if blockArg.preHash.length > 0 then
      some ({ confirmStatus with succ := false }, l0)
    else if l0.meta.rootBlockid.length > 0 then
      some ({ confirmStatus with succ := false, error := some .ErrRootBlockAlreadyExist }, l0)
    else
      let newMeta1 : LedgerMeta :=
        { rootBlockid := blockArg.blockid, tipBlockid := blockArg.blockid, trunkHeight := 0 }
      let l1 := (l0.modify a (InternalBlock.setInTrunk true)).modify a (InternalBlock.setHeight 0)
      some (confirmCommit env kvErr l1 a realTransactions newMeta1 splitHeight confirmStatus
        isRoot [])
  else
    match fetchBlock l0 blockArg.preHash with
    | (.error _, l1) => some ({ confirmStatus with succ := false }, l1)
    | (.ok pa, l1) =>
      let l2 := l1.modify a (InternalBlock.setHeight ((l1.deref pa).height + 1))
      if (l2.deref pa).blockid = newMeta.tipBlockid then
        let l3 := l2.modify a (InternalBlock.setInTrunk true)
        let l4 := l3.modify pa (InternalBlock.setNextHash (l3.deref a).blockid)
        let newMeta1 : LedgerMeta :=
          { newMeta with tipBlockid := (l4.deref a).blockid, trunkHeight := newMeta.trunkHeight + 1 }
        if !env.DisableTxDedup then
          let l5 := (saveBlock l4 pa []).1
          let l6 := l5.setBlockCache (l5.blockCache.Del (l5.deref pa).blockid)
          some (confirmCommit env kvErr l6 a realTransactions newMeta1 splitHeight confirmStatus
            isRoot (saveBlock l4 pa []).2)
        else
          some (confirmCommit env kvErr l4 a realTransactions newMeta1 splitHeight confirmStatus
            isRoot [])
      else if (l2.deref pa).height + 1 > newMeta.trunkHeight then
        let oldTip := newMeta.tipBlockid
        let newMeta1 : LedgerMeta :=
          { newMeta with trunkHeight := (l2.deref pa).height + 1, tipBlockid := (l2.deref a).blockid }
        let l3 := l2.modify a (InternalBlock.setInTrunk true)
        match handleFork fuel l3 oldTip (l3.deref pa).blockid (l3.deref a).blockid [] with
        | none => none
        | some (.error _, l4, _) => some ({ confirmStatus with succ := false }, l4)
        | some (.ok sa, l4, bw1) =>
          some (confirmCommit env kvErr l4 a realTransactions newMeta1 (l4.deref sa).height
            { confirmStatus with split := true, trunkSwitch := true } isRoot bw1)
      else
        let l3 := l2.modify a (InternalBlock.setInTrunk false)
        some (confirmCommit env kvErr l3 a realTransactions newMeta splitHeight
          { confirmStatus with split := true, trunkSwitch := false, orphan := true } isRoot [])

/-! ## Queries -/

/-- The method `QueryBlock`: the block cache first; a miss reads the store and caches the new
object. -/
def QueryBlock (l : Ledger) (blockid : Bytes) : Except LedgerError Addr × Ledger :=
  match l.blockCache.Get blockid with
  | (some a, c) => (.ok a, l.setBlockCache c)
  | (none, _) =>
    match queryBlock l blockid true with
    | .error err => (.error err, l)
    | .ok blk =>
      (.ok l.heap.length, (l.alloc blk).setBlockCache (l.blockCache.Add blockid l.heap.length))

def QueryBlockHeader (l : Ledger) (blockid : Bytes) : Except LedgerError Addr × Ledger :=
  fetchBlock l blockid

def HasTransaction (l : Ledger) (txid : Bytes) : Bool :=
  kvHas l.db.confirmedTable txid

def QueryTransaction (l : Ledger) (txid : Bytes) : Except LedgerError Transaction :=
  match kvGet l.db.confirmedTable txid with
  | none => .error .ErrTxNotFound
  | some realTx => .ok realTx

/-- The method `IsTxInTrunk`: the `InTrunk` flag of the block the confirmed transaction points
at, read from the block cache when it is there. -/
def IsTxInTrunk (l : Ledger) (txid : Bytes) : Bool × Ledger :=
  match kvGet l.db.confirmedTable txid with
  | none => (false, l)
  | some realTx =>
    match l.blockCache.Get realTx.blockid with
    | (some a, c) => ((l.deref a).inTrunk, l.setBlockCache c)
    | (none, _) =>
      match queryBlock l realTx.blockid false with
      | .error _ => (false, l)
      | .ok blk => (blk.inTrunk, l)

def QueryBlockByHeight (l : Ledger) (height : Int) : Except LedgerError Addr × Ledger :=
  match kvGet l.db.heightTable (heightKey height) with
  | none => (.error .ErrBlockNotExist, l)
  | some blockID => QueryBlock l blockID

/-- The method `QueryBlockByTxid`: the header of the block a confirmed transaction points
at, read from the store. -/
def QueryBlockByTxid (l : Ledger) (txid : Bytes) : Except LedgerError InternalBlock :=
  if !HasTransaction l txid then .error .ErrTxNotConfirmed
  else
    match QueryTransaction l txid with
    | .error err => .error err
    | .ok tx => queryBlock l tx.blockid false

/-- The method `SavePendingBlock`: one `Put` on the Pending table, outside any batch.
`putErr` is what that `Put` returns. -/
def SavePendingBlock (putErr : Option LedgerError) (l : Ledger) (block : InternalBlock) :
    Except LedgerError Unit × Ledger :=
  match putErr with
  | some saveErr => (.error saveErr, l)
  | none =>
    (.ok (), { l with db := { l.db with pendingTable := kvPut l.db.pendingTable block.blockid block } })

/-- The method `GetPendingBlock`. -/
def GetPendingBlock (l : Ledger) (blockID : Bytes) : Except LedgerError InternalBlock :=
  match kvGet l.db.pendingTable blockID with
  | none => .error .ErrBlockNotExist
  | some block => .ok block

/-! ## The reorg walker -/

/-- The loop state of `FindUndoAndTodoBlocks`: the two walking blocks, the `visited` set and
the two lists. -/
structure WalkState where
  oldTip : InternalBlock
  newTip : InternalBlock
  visited : List Bytes
  undoBlocks : List InternalBlock
  todoBlocks : List InternalBlock
  deriving DecidableEq, Repr, Inhabited

/-- The first `if` of the loop body: the step of the old side.  `inl` is the `break`, with
the id of the split block. -/
def walkOld (l : Ledger) (s : WalkState) : Except LedgerError (Bytes ⊕ WalkState) :=
  if s.oldTip.preHash.length > 0 ∧ s.oldTip.height ≥ s.newTip.height then
    match queryBlock l s.oldTip.preHash true with
    | .error oErr => .error oErr
    | .ok oldTip =>
      if oldTip.blockid ∈ s.visited then .ok (.inl oldTip.blockid)
      else .ok (.inr ⟨oldTip, s.newTip, s.visited ++ [oldTip.blockid], s.undoBlocks ++ [oldTip],
        s.todoBlocks⟩)
  else .ok (.inr s)

/-- The second `if` of the loop body: the step of the new side, against the old side as the
first `if` left it. -/
def walkNew (l : Ledger) (s : WalkState) : Except LedgerError (Bytes ⊕ WalkState) :=
  if s.newTip.preHash.length > 0 ∧ s.newTip.height ≥ s.oldTip.height then
    match queryBlock l s.newTip.preHash true with
    | .error nErr => .error nErr
    | .ok newTip =>
      if newTip.blockid ∈ s.visited then .ok (.inl newTip.blockid)
      else .ok (.inr ⟨s.oldTip, newTip, s.visited ++ [newTip.blockid], s.undoBlocks,
        s.todoBlocks ++ [newTip]⟩)
  else .ok (.inr s)

/-- The loop of `FindUndoAndTodoBlocks`, one unit of fuel per round.  The result is the state
at the `break` and the split block id. -/
def walkLoop : Nat → Ledger → WalkState → Option (Except LedgerError (WalkState × Bytes))
  | 0, _, _ => none
  | fuel + 1, l, s =>
    match walkOld l s with
    | .error e => some (.error e)
    | .ok (.inl splitBlockID) => some (.ok (s, splitBlockID))
    | .ok (.inr s1) =>
      match walkNew l s1 with
      | .error e => some (.error e)
      | .ok (.inl splitBlockID) => some (.ok (s1, splitBlockID))
      | .ok (.inr s2) =>
        if s.oldTip.preHash.length = 0 ∧ s.newTip.preHash.length = 0 then
          some (.ok (s2, l.meta.rootBlockid))
        else walkLoop fuel l s2

/-- The closing step: the last element is dropped when it is the split block.  (The lists are
never empty; Go would panic on an empty one.) -/
def dropSplit (splitBlockID : Bytes) (bs : List InternalBlock) : List InternalBlock :=
  match bs.getLast? with
  | some b => if b.blockid = splitBlockID then bs.dropLast else bs
  | none => bs

/-- The method `FindUndoAndTodoBlocks`. -/
def FindUndoAndTodoBlocks (fuel : Nat) (l : Ledger) (curBlockid destBlockid : Bytes) :
    Option (Except LedgerError (List InternalBlock × List InternalBlock)) :=
  if destBlockid = curBlockid then some (.ok ([], []))
  else
    match queryBlock l curBlockid true with
    | .error oErr => some (.error oErr)
    | .ok oldTip =>
      match queryBlock l destBlockid true with
      | .error nErr => some (.error nErr)
      | .ok newTip =>
        match walkLoop fuel l ⟨oldTip, newTip, [oldTip.blockid, newTip.blockid], [oldTip],
            [newTip]⟩ with
        | none => none
        | some (.error e) => some (.error e)
        | some (.ok (s, splitBlockID)) =>
          some (.ok (dropSplit splitBlockID s.undoBlocks, dropSplit splitBlockID s.todoBlocks))

/-! ## Truncation -/

/-- Modelled from the spec: `GetBranchInfo` (declared in another file of the package, not
among the embedded sources) is the step "enumerate all current branch tips" of Truncation: the
ids recorded in the Branch Registry. -/
def GetBranchInfo (l : Ledger) (_targetBlockid : Bytes) (_targetBlockHeight : Int) :
    Except LedgerError (List Bytes) :=
  .ok (l.db.branchTable.map (fun e => e.1))

/-- The loop of `removeBlocks`, one unit of fuel per evaluation of the loop condition.  A
predecessor that is not found ends the walk without an error. -/
def removeLoop : Nat → Ledger → Addr → Addr → Batch → Option (Ledger × Batch)
  | 0, _, _, _, _ => none
  | fuel + 1, l, fromA, toA, batch =>
    if (l.deref fromA).height > (l.deref toA).height then
      let l1 := (l.setHeaderCache (l.blkHeaderCache.Del (l.deref fromA).blockid)).setBlockCache
        (l.blockCache.Del (l.deref fromA).blockid)
      let batch1 := batch ++ [BatchOp.delBlock (l.deref fromA).blockid] ++
        (if (l.deref fromA).inTrunk then [BatchOp.delHeight (heightKey (l.deref fromA).height)]
         else [])
      match fetchBlock l1 (l.deref fromA).preHash with
      | (.error _, l2) => some (l2, batch1)
      | (.ok a2, l2) => removeLoop fuel l2 a2 toA batch1
    else some (l, batch)

/-- The method `removeBlocks`. -/
def removeBlocks (fuel : Nat) (l : Ledger) (fromBlockid toBlockid : Bytes) (batch : Batch) :
    Option (Except LedgerError Unit × Ledger × Batch) :=
  match fetchBlock l fromBlockid with
  | (.error findErr, l1) => some (.error findErr, l1, batch)
  | (.ok fromA, l1) =>
    match fetchBlock l1 toBlockid with
    | (.error findErr, l2) => some (.error findErr, l2, batch)
    | (.ok toA, l2) =>
      match removeLoop fuel l2 fromA toA batch with
      | none => none
      | some (l3, batch1) => some (.ok (), l3, batch1)

/-- The loop of `Truncate` over the branch tips; `blockA` is the pointer `block`. -/
def truncateTips (fuel : Nat) (blockA : Addr) :
    List Bytes → Ledger → Batch → Option (Except LedgerError Unit × Ledger × Batch)
  | [], l, batchWrite => some (.ok (), l, batchWrite)
  | branchTip :: rest, l, batchWrite =>
    match removeBlocks fuel l branchTip (l.deref blockA).blockid batchWrite with
    | none => none
    | some (.error err, l1, b1) => some (.error err, l1, b1)
    | some (.ok _, l1, b1) =>
      match updateBranchInfo (l1.deref blockA).blockid branchTip (l1.deref blockA).height b1 with
      | .error err => some (.error err, l1, b1)
      | .ok b2 => truncateTips fuel blockA rest l1 b2

/-- The method `Truncate`.  `kvErr` is what `batchWrite.Write()` returns, `fuel` bounds each
walk of `removeBlocks`. -/
def Truncate (kvErr : Option LedgerError) (fuel : Nat) (l : Ledger) (utxovmLastID : Bytes) :
    Option (Except LedgerError Unit × Ledger) :=
  match fetchBlock l utxovmLastID with
  | (.error err, l1) => some (.error err, l1)
  | (.ok blockA, l1) =>
    match GetBranchInfo l1 (l1.deref blockA).blockid (l1.deref blockA).height with
    | .error err => some (.error err, l1)
    | .ok branchTips =>
      match truncateTips fuel blockA branchTips l1 [] with
      | none => none
      | some (.error err, l2, _) => some (.error err, l2)
      | some (.ok _, l2, batchWrite) =>
        match kvErr with
        | some err => some (.error err, l2)
        | none =>
          some (.ok (),
            l2.written
              (batchWrite ++ [BatchOp.putMeta
                ⟨l.meta.rootBlockid, utxovmLastID, (l2.deref blockA).height⟩])
              ⟨l.meta.rootBlockid, utxovmLastID, (l2.deref blockA).height⟩)

/-! ## Block verification -/

/-- What `VerifyBlock` takes from outside `ledger.go`: `MakeBlockID` and `VerifyMerkle` of the
package and three methods of the crypto client.  A public key is kept as the bytes that stand
for it.  `VerifyAddressUsingPublicKey` returns a second value that `VerifyBlock` drops. -/
structure VerifyEnv where
  MakeBlockID : InternalBlock → Except LedgerError Bytes
  VerifyMerkle : InternalBlock → Option LedgerError
  GetEcdsaPublicKeyFromJsonStr : Bytes → Except LedgerError Bytes
  VerifyAddressUsingPublicKey : Bytes → Bytes → Bool
  VerifyECDSA : Bytes → Bytes → Bytes → Bool × Option LedgerError

/-- The method `VerifyBlock`: the pair `(bool, error)` it returns. -/
def VerifyBlock (venv : VerifyEnv) (block : InternalBlock) : Bool × Option LedgerError :=
  match venv.MakeBlockID block with
  | .error _ => (false, none)
  | .ok blkid =>
    if blkid ≠ block.blockid then (false, none)
    else
      match venv.VerifyMerkle block with
      | some _ => (false, none)
      | none =>
        match venv.GetEcdsaPublicKeyFromJsonStr block.pubkey with
        | .error _ => (false, none)
        | .ok k =>
          if venv.VerifyAddressUsingPublicKey block.proposer k = false then (false, none)
          else
            match venv.VerifyECDSA k block.sign block.blockid with
            | (valid, err) => if err.isSome || !valid then (false, none) else (true, none)

/-! ## Amending a confirmed transaction -/

/-- The value of a hexadecimal digit given by its character code (`fromHexChar` of
`encoding/hex`). -/
def fromHexChar (c : Nat) : Option Nat :=
  if 48 ≤ c ∧ c ≤ 57 then some (c - 48)
  else if 97 ≤ c ∧ c ≤ 102 then some (c - 97 + 10)
  else if 65 ≤ c ∧ c ≤ 70 then some (c - 65 + 10)
  else none

/-- The bytes `hex.DecodeString` returns, its error being dropped by the caller: the pairs of
digits decoded before the first pair that is not hexadecimal; a last digit without a partner
is left out. -/
def hexDecode : List Nat → Bytes
  | p :: q :: rest =>
    match fromHexChar p, fromHexChar q with
    | some a, some b => (a * 16 + b) :: hexDecode rest
    | _, _ => []
  | _ => []

/-- The method `UpdateBlockChainData`.  The strings are kept as their bytes.  `putErr` is what
`confirmedTable.Put` returns; the method does not look at it. -/
def UpdateBlockChainData (putErr : Option LedgerError) (l : Ledger)
    (txid ptxid publickey sign : Bytes) (height : Int) : Except LedgerError Unit × Ledger :=
  if txid = [] ∨ ptxid = [] then (.error .invalidUpdateRequest, l)
  else
    match QueryTransaction l (hexDecode txid) with
    | .error _ => (.error .queryTxFailed, l)
    | .ok tx =>
      let tx1 : Transaction :=
        { tx with
          modifyBlock := some
            { marked := true, effectiveTxid := ptxid, effectiveHeight := height,
              publicKey := publickey, sign := sign }
          desc := []
          txOutputsExt := [] }
      match putErr with
      | some _ => (.ok (), l)
      | none =>
        (.ok (),
          { l with db := { l.db with confirmedTable := kvPut l.db.confirmedTable tx1.txid tx1 } })

/-! ## The write batch of the LevelDB binding -/

/-- One record of a `leveldb.Batch`. -/
inductive LdbRecord where
  | put (key value : Bytes)
  | delete (key : Bytes)
  deriving DecidableEq, Repr, Inhabited

/-- The errors of the batch methods of `ldb_impl.go`: the
`fmt.Errorf("duplicated key in batch, (HEX) %x", key)` of `PutIfAbsent`, kept with its key, and
what `db.Write` of the LevelDB library returns. -/
inductive LdbError where
  | duplicatedKey (key : Bytes)
  | writeFailed
  deriving DecidableEq, Repr, Inhabited

/-- Go `int` arithmetic on a 64-bit platform: the sum wraps around at `2^63`. -/
def wrapInt (n : Int) : Int :=
  (n + 2 ^ 63) % 2 ^ 64 - 2 ^ 63

/-- The type `ldbBatch`: the records of the `leveldb.Batch` in call order, the running
`size`, and the map `keys` (`string(key)` is the bytes of the key; a key that is not in a Go
map reads as `false`).  The field `db` is only used by `Write`. -/
structure ldbBatch where
  b : List LdbRecord := []
  size : Int := 0
  keys : Table Bool := []
  deriving DecidableEq, Repr, Inhabited

/-- The method `NewBatch` of `LDBDatabase`. -/
def NewBatch : ldbBatch :=
  { b := [], size := 0, keys := [] }

/-- The method `ldbBatch.Put`.  (The metrics counters are not part of the batch.) -/
def ldbBatch.Put (bt : ldbBatch) (key value : Bytes) : Option LdbError × ldbBatch :=
  (none, { bt with b := bt.b ++ [LdbRecord.put key value],
                   size := wrapInt (bt.size + value.length) })

/-- The method `ldbBatch.Delete`: the size grows by the length of the key. -/
def ldbBatch.Delete (bt : ldbBatch) (key : Bytes) : Option LdbError × ldbBatch :=
  (none, { bt with b := bt.b ++ [LdbRecord.delete key],
                   size := wrapInt (bt.size + key.length) })

/-- The method `ldbBatch.PutIfAbsent`. -/
def ldbBatch.PutIfAbsent (bt : ldbBatch) (key value : Bytes) : Option LdbError × ldbBatch :=
  if !(kvGet bt.keys key).getD false then
    (none, { b := bt.b ++ [LdbRecord.put key value],
             size := wrapInt (bt.size + value.length),
             keys := kvPut bt.keys key true })
  else (some (LdbError.duplicatedKey key), bt)

/-- The method `ldbBatch.Exist`. -/
def ldbBatch.Exist (bt : ldbBatch) (key : Bytes) : Bool :=
  (kvGet bt.keys key).getD false

/-- The method `ldbBatch.Write`: `writeErr` is what `db.Write` of the LevelDB library returns;
the batch object is not assigned to. -/
def ldbBatch.Write (writeErr : Option LdbError) (bt : ldbBatch) : Option LdbError × ldbBatch :=
  (writeErr, bt)

/-- The method `ldbBatch.ValueSize`. -/
def ldbBatch.ValueSize (bt : ldbBatch) : Int :=
  bt.size

/-- The method `ldbBatch.Reset`. -/
def ldbBatch.Reset (_bt : ldbBatch) : ldbBatch :=
  { b := [], size := 0, keys := [] }

/-! ## Confirming a block when marshalling or the branch registry fails

The definitions above take `proto.Marshal` to succeed.  The ones below are the same methods
with its failures: `Faults` says which records cannot be marshalled and what
`updateBranchInfo` returns. -/

/-- The failures `ConfirmBlock` can meet besides the batch write: the headers, transactions
and meta records for which `proto.Marshal` returns an error, and the error
`updateBranchInfo` returns (nil when it succeeds). -/
structure Faults where
  marshalBlock : InternalBlock → Bool
  marshalTx : Transaction → Bool
  marshalMeta : LedgerMeta → Bool
  updateBranchInfo : Option LedgerError

/-- Nothing fails. -/
def noFaults : Faults :=
  { marshalBlock := fun _ => false
    marshalTx := fun _ => false
    marshalMeta := fun _ => false
    updateBranchInfo := none }

/-- The method `saveBlock`: the pointer enters the header cache before the error of
`proto.Marshal` is looked at; on an error nothing is queued. -/
def Faulty.saveBlock (f : Faults) (l : Ledger) (a : Addr) (batchWrite : Batch) :
    Option LedgerError × Ledger × Batch :=
  if f.marshalBlock (l.deref a) then
    (some .marshalFailed, l.setHeaderCache (l.blkHeaderCache.Add (l.deref a).blockid a),
      batchWrite)
  else
    (none, l.setHeaderCache (l.blkHeaderCache.Add (l.deref a).blockid a),
      batchWrite ++ saveOps (l.deref a))

/-- The loop of `correctTxsBlockid`: a transaction that has to be rewritten and cannot be
marshalled ends it with the error. -/
def Faulty.correctTxs (f : Faults) (blockID : Bytes) :
    List Transaction → Batch → Except LedgerError Batch
  | [], batchWrite => .ok batchWrite
  | tx :: rest, batchWrite =>
    if tx.blockid ≠ blockID then
      if f.marshalTx (tx.setBlockid blockID) then .error .marshalFailed
      else Faulty.correctTxs f blockID rest
        (batchWrite ++ [BatchOp.putTx tx.txid (tx.setBlockid blockID)])
    else Faulty.correctTxs f blockID rest batchWrite

/-- The method `correctTxsBlockid`. -/
def Faulty.correctTxsBlockid (f : Faults) (l : Ledger) (blockID : Bytes) (batchWrite : Batch) :
    Except LedgerError Batch :=
  match queryBlock l blockID true with
  | .error e => .error e
  | .ok block => Faulty.correctTxs f blockID block.transactions batchWrite

/-- The method `handleFork`, one unit of fuel per evaluation of the loop condition. -/
def Faulty.handleFork (f : Faults) (fuel : Nat) (l : Ledger) (p q nextHash : Bytes)
    (batchWrite : Batch) : Option (Except LedgerError Addr × Ledger × Batch) :=
  match fuel with
  | 0 => none
  | fuel + 1 =>
    if p = q then
      match fetchBlock l q with
      | (.error qErr, l1) => some (.error qErr, l1, batchWrite)
      | (.ok sa, l1) =>
        let l2 := (l1.modify sa (InternalBlock.setInTrunk true)).modify sa
          (InternalBlock.setNextHash nextHash)
        match Faulty.saveBlock f l2 sa batchWrite with
        | (some saveErr, l3, bw1) => some (.error saveErr, l3, bw1)
        | (none, l3, bw1) => some (.ok sa, l3, bw1)
    else
      match fetchBlock l p with
      | (.error pErr, l1) => some (.error pErr, l1, batchWrite)
      | (.ok pa, l1) =>
        let l2 := (l1.modify pa (InternalBlock.setInTrunk false)).modify pa
          (InternalBlock.setNextHash [])
        match fetchBlock l2 q with
        | (.error qErr, l3) => some (.error qErr, l3, batchWrite)
        | (.ok qa, l3) =>
          let l4 := l3.modify qa (InternalBlock.setInTrunk true)
          match Faulty.correctTxsBlockid f l4 (l4.deref qa).blockid batchWrite with
          | .error cerr => some (.error cerr, l4, batchWrite)
          | .ok bw1 =>
            let l5 := l4.modify qa (InternalBlock.setNextHash nextHash)
            match Faulty.saveBlock f l5 pa bw1 with
            | (some saveErr, l6, bw2) => some (.error saveErr, l6, bw2)
            | (none, l6, bw2) =>
              match Faulty.saveBlock f l6 qa bw2 with
              | (some saveErr, l7, bw3) => some (.error saveErr, l7, bw3)
              | (none, l7, bw3) =>
                Faulty.handleFork f fuel l7 (l5.deref pa).preHash (l5.deref qa).preHash q bw3

/-- Modelled from the spec: `updateBranchInfo`, with the error it returns. -/
def Faulty.updateBranchInfo (f : Faults) (addedBlockid deletedBlockid : Bytes)
    (addedBlockHeight : Int) (batch : Batch) : Except LedgerError Batch :=
  match f.updateBranchInfo with
  | some err => .error err
  | none => .ok (batch ++ branchOps addedBlockid deletedBlockid addedBlockHeight)

/-- The map `txData` of `parallelCheckTx`, written in list order: a transaction that cannot be
marshalled gets the entry nil, which reads like no entry. -/
def Faulty.mkTxData (f : Faults) (txs : List Transaction) : Table Transaction :=
  txs.foldl (fun m tx => if f.marshalTx tx then kvDel m tx.txid else kvPut m tx.txid tx) []

/-- The method `parallelCheckTx`. -/
def Faulty.parallelCheckTx (f : Faults) (env : Env) (l : Ledger) (txs : List Transaction)
    (block : InternalBlock) : Table Bool × Table Transaction × List Transaction :=
  let txs1 := txs.map (Transaction.setBlockid block.blockid)
  (if !env.DisableTxDedup || !block.inTrunk then mkTxExist l.db.confirmedTable txs1 else [],
    Faulty.mkTxData f txs1, txs1)

/-- The tail of `ConfirmBlock`, from `saveBlock(block, batchWrite)` on. -/
def Faulty.confirmCommit (f : Faults) (env : Env) (kvErr : Option LedgerError) (l : Ledger)
    (a : Addr) (realTransactions : List Transaction) (newMeta : LedgerMeta) (splitHeight : Int)
    (confirmStatus : ConfirmStatus) (isRoot : Bool) (batchWrite : Batch) :
    ConfirmStatus × Ledger :=
  match Faulty.saveBlock f l a batchWrite with
  | (some _, l1, _) => ({ confirmStatus with succ := false }, l1)
  | (none, l1, bw1) =>
    let block := l1.deref a
    match Faulty.updateBranchInfo f block.blockid block.preHash block.height bw1 with
    | .error _ => ({ confirmStatus with succ := false }, l1)
    | .ok bw2 =>
      let pc := Faulty.parallelCheckTx f env l1 realTransactions block
      match confirmTxs l1.db block.inTrunk splitHeight pc.1 pc.2.1 pc.2.2 0 [] bw2 with
      | .error e => ({ confirmStatus with succ := false, error := e }, l1)
      | .ok bw3 =>
        if f.marshalMeta newMeta then ({ confirmStatus with succ := false }, l1)
        else
          confirmFinish env kvErr l1 a pc.2.2 newMeta confirmStatus isRoot
            (bw3 ++ [BatchOp.delPending block.blockid, BatchOp.putMeta newMeta])

/-- The method `ConfirmBlock`. -/
def Faulty.ConfirmBlock (f : Faults) (env : Env) (kvErr : Option LedgerError) (fuel : Nat)
    (l : Ledger) (blockArg : InternalBlock) (isRoot : Bool) : Option (ConfirmStatus × Ledger) :=
  let a := l.heap.length
  let realTransactions := blockArg.transactions
  let l0 := l.alloc (blockArg.setTransactions [])
  let confirmStatus : ConfirmStatus := {}
  let newMeta := l0.meta
  let splitHeight := newMeta.trunkHeight
  if isRoot then
    if blockArg.preHash.length > 0 then
      some ({ confirmStatus with succ := false }, l0)
    else if l0.meta.rootBlockid.length > 0 then
      some ({ confirmStatus with succ := false, error := some .ErrRootBlockAlreadyExist }, l0)
    else
      let newMeta1 : LedgerMeta :=
        { rootBlockid := blockArg.blockid, tipBlockid := blockArg.blockid, trunkHeight := 0 }
      let l1 := (l0.modify a (InternalBlock.setInTrunk true)).modify a (InternalBlock.setHeight 0)
      some (Faulty.confirmCommit f env kvErr l1 a realTransactions newMeta1 splitHeight
        confirmStatus isRoot [])
  else
    match fetchBlock l0 blockArg.preHash with
    | (.error _, l1) => some ({ confirmStatus with succ := false }, l1)
    | (.ok pa, l1) =>
      let l2 := l1.modify a (InternalBlock.setHeight ((l1.deref pa).height + 1))
      if (l2.deref pa).blockid = newMeta.tipBlockid then
        let l3 := l2.modify a (InternalBlock.setInTrunk true)
        let l4 := l3.modify pa (InternalBlock.setNextHash (l3.deref a).blockid)
        let newMeta1 : LedgerMeta :=
          { newMeta with tipBlockid := (l4.deref a).blockid, trunkHeight := newMeta.trunkHeight + 1 }
        if !env.DisableTxDedup then
          match Faulty.saveBlock f l4 pa [] with
          | (saveErr, l5, bw1) =>
            let l6 := l5.setBlockCache (l5.blockCache.Del (l5.deref pa).blockid)
            match saveErr with
            | some _ => some ({ confirmStatus with succ := false }, l6)
            | none =>
              some (Faulty.confirmCommit f env kvErr l6 a realTransactions newMeta1 splitHeight
                confirmStatus isRoot bw1)
        else
          some (Faulty.confirmCommit f env kvErr l4 a realTransactions newMeta1 splitHeight
            confirmStatus isRoot [])
      else if (l2.deref pa).height + 1 > newMeta.trunkHeight then
        let oldTip := newMeta.tipBlockid
        let newMeta1 : LedgerMeta :=
          { newMeta with trunkHeight := (l2.deref pa).height + 1, tipBlockid := (l2.deref a).blockid }
        let l3 := l2.modify a (InternalBlock.setInTrunk true)
        match Faulty.handleFork f fuel l3 oldTip (l3.deref pa).blockid (l3.deref a).blockid [] with
        | none => none
        | some (.error _, l4, _) => some ({ confirmStatus with succ := false }, l4)
        | some (.ok sa, l4, bw1) =>
          some (Faulty.confirmCommit f env kvErr l4 a realTransactions newMeta1
            (l4.deref sa).height { confirmStatus with split := true, trunkSwitch := true } isRoot
            bw1)
      else
        let l3 := l2.modify a (InternalBlock.setInTrunk false)
        some (Faulty.confirmCommit f env kvErr l3 a realTransactions newMeta splitHeight
          { confirmStatus with split := true, trunkSwitch := false, orphan := true } isRoot [])

/-- The `handleFork` call of `Faulty.ConfirmBlock(B, false)` on its reorg path, as `forkStep`
is that of `ConfirmBlock`. -/
def Faulty.forkStep (f : Faults) (fuel : Nat) (l : Ledger) (B : InternalBlock) :
    Option (Except LedgerError Addr × Ledger × Batch) :=
  match fetchBlock (l.alloc (B.setTransactions [])) B.preHash with
  | (.error e, l1) => some (.error e, l1, [])
  | (.ok pa, l1) =>
    Faulty.handleFork f fuel
      ((l1.modify l.heap.length (InternalBlock.setHeight ((l1.deref pa).height + 1))).modify
        l.heap.length (InternalBlock.setInTrunk true))
      l.meta.tipBlockid (l1.deref pa).blockid B.blockid []

/-- No record fails to marshal and `updateBranchInfo` returns nil. -/
def Faults.Quiet (f : Faults) : Prop :=
  (∀ b, f.marshalBlock b = false) ∧ (∀ tx, f.marshalTx tx = false) ∧
  (∀ m, f.marshalMeta m = false) ∧ f.updateBranchInfo = none

/-! ## Views used to state the theorems -/

/-- Every pointer held by a cache points at an allocated block object (Go pointers never
dangle). -/
def Ledger.PtrsValid (l : Ledger) : Prop :=
  (∀ p ∈ l.blkHeaderCache.entries, p.2 < l.heap.length) ∧
  (∀ p ∈ l.blockCache.entries, p.2 < l.heap.length)

/-- The header `fetchBlock` hands out for an id, as a value: the cached object when the header
cache has the id, else the record of the Blocks table. -/
def headerAt (l : Ledger) (blockid : Bytes) : Option InternalBlock :=
  match kvGet l.blkHeaderCache.entries blockid with
  | some a => some (l.deref a)
  | none => kvGet l.db.blocksTable blockid

/-- What a successful `fetchBlock l blockid` gives: the pointer `pa` to a header with value `P`
in the ledger `l1`; store, meta and block cache are as before, the objects allocated before
are untouched, and `pa` is either a pointer of the header cache or a new object. -/
structure FetchOk (l : Ledger) (blockid : Bytes) (P : InternalBlock) (pa : Addr) (l1 : Ledger) :
    Prop where
  db_eq : l1.db = l.db
  meta_eq : l1.meta = l.meta
  genesis_eq : l1.GenesisBlock = l.GenesisBlock
  blockCache_eq : l1.blockCache = l.blockCache
  deref_pa : l1.deref pa = P
  pa_lt : pa < l1.heap.length
  heap_le : l.heap.length ≤ l1.heap.length
  deref_old : ∀ a, a < l.heap.length → l1.deref a = l.deref a
  origin : (blockid, pa) ∈ l.blkHeaderCache.entries ∨ pa = l.heap.length
  valid : l1.PtrsValid
  header_get : ∀ k, kvGet l1.blkHeaderCache.entries k = kvGet l.blkHeaderCache.entries k
  header_mem : ∀ p, p ∈ l1.blkHeaderCache.entries → p ∈ l.blkHeaderCache.entries

/-- The operation is a put into the Confirmed-Tx table. -/
def BatchOp.isTxPut (op : BatchOp) : Bool :=
  match op with
  | .putTx _ _ => true
  | _ => false

/-- What `QueryBlockHeader` returns, as a value: the header behind the returned pointer. -/
def headerResult (l : Ledger) (blockid : Bytes) : Except LedgerError InternalBlock :=
  match (QueryBlockHeader l blockid).1 with
  | .ok a => .ok ((QueryBlockHeader l blockid).2.deref a)
  | .error e => .error e

/-- What `QueryBlock` returns, as a value: the block behind the returned pointer. -/
def blockResult (l : Ledger) (blockid : Bytes) : Except LedgerError InternalBlock :=
  match (QueryBlock l blockid).1 with
  | .ok a => .ok ((QueryBlock l blockid).2.deref a)
  | .error e => .error e

/-- What `QueryBlockByHeight` returns, as a value. -/
def blockByHeightResult (l : Ledger) (height : Int) : Except LedgerError InternalBlock :=
  match (QueryBlockByHeight l height).1 with
  | .ok a => .ok ((QueryBlockByHeight l height).2.deref a)
  | .error e => .error e

/-- The object at `a` is allocated and no header-cache entry points at it: the caller's block
before its `saveBlock`. -/
def Ledger.Unaliased (l : Ledger) (a : Addr) : Prop :=
  a < l.heap.length ∧ ∀ p ∈ l.blkHeaderCache.entries, p.2 ≠ a

/-- Every record of the Blocks table is stored under its own id. -/
def DB.BlocksCoherent (db : DB) : Prop :=
  ∀ p ∈ db.blocksTable, p.2.blockid = p.1

/-- The `handleFork` call of `ConfirmBlock(B, false)` on its reorg path, with the ledger
the call is made on: `B` allocated, its predecessor fetched, `B.Height` and `B.InTrunk`
assigned.  A missing predecessor is reported as the error of the step. -/
def forkStep (fuel : Nat) (l : Ledger) (B : InternalBlock) :
    Option (Except LedgerError Addr × Ledger × Batch) :=
  match fetchBlock (l.alloc (B.setTransactions [])) B.preHash with
  | (.error e, l1) => some (.error e, l1, [])
  | (.ok pa, l1) =>
    handleFork fuel
      ((l1.modify l.heap.length (InternalBlock.setHeight ((l1.deref pa).height + 1))).modify
        l.heap.length (InternalBlock.setInTrunk true))
      l.meta.tipBlockid (l1.deref pa).blockid B.blockid []

/-- The part of a header no method assigns: id, predecessor and height. -/
def InternalBlock.link (b : InternalBlock) : Bytes × Bytes × Int :=
  (b.blockid, b.preHash, b.height)

/-- The ledger knows the block `X`: the Blocks table has a record under its id with the id,
predecessor and height of `X`, and every header-cache entry for its id points at an object
with the same three fields. -/
def Ledger.Knows (l : Ledger) (X : InternalBlock) : Prop :=
  (kvGet l.db.blocksTable X.blockid).map InternalBlock.link = some X.link ∧
  ∀ e ∈ l.blkHeaderCache.entries, e.1 = X.blockid → (l.deref e.2).link = X.link

/-- A path walked back along `pre_hash`: the first block of `xs` has the id `start`, each
block names the next one as its predecessor, and the last one names `S` (for an empty path
`start` is the id of `S`). -/
def LinkedFrom : Bytes → List InternalBlock → InternalBlock → Prop
  | start, [], S => start = S.blockid
  | start, X :: rest, S => X.blockid = start ∧ LinkedFrom X.preHash rest S

/-- Heights along a path walked back to `S`: every block is one higher than the next. -/
def HeightsTo : List InternalBlock → InternalBlock → Prop
  | [], _ => True
  | X :: rest, S => X.height = (rest.head?.getD S).height + 1 ∧ HeightsTo rest S

/-- The transaction loop of `ConfirmBlock` for the block `B`, placed with the given `InTrunk`
flag and split height, on an empty batch: the transaction checks, and the puts they queue. -/
def txLoop (env : Env) (l : Ledger) (B : InternalBlock) (inTrunk : Bool) (splitHeight : Int) :
    Except (Option LedgerError) Batch :=
  confirmTxs l.db inTrunk splitHeight
    (parallelCheckTx env l B.transactions (B.setInTrunk inTrunk)).1
    (parallelCheckTx env l B.transactions (B.setInTrunk inTrunk)).2.1
    (parallelCheckTx env l B.transactions (B.setInTrunk inTrunk)).2.2 0 [] []

/-- The number a string of ASCII decimal digits stands for. -/
def digitsVal (ds : List Nat) : Nat :=
  ds.foldl (fun acc d => acc * 10 + (d - 48)) 0

/-- The transaction ids a header stands for: its first `tx_count` merkle leaves. -/
def InternalBlock.leaves (b : InternalBlock) : List Bytes :=
  b.merkleTree.take b.txCount.toNat

/-- The stored blocks on the `pre_hash` path from an id, at most `fuel` of them, ending where
a predecessor is not stored. -/
def storedPath : Nat → DB → Bytes → List InternalBlock
  | 0, _, _ => []
  | fuel + 1, db, id =>
    match kvGet db.blocksTable id with
    | none => []
    | some b => b :: storedPath fuel db b.preHash

/-- The trunk as the store has it: the `pre_hash` path from `tip_block_id`, `trunk_height + 1`
blocks long. -/
def trunkPath (l : Ledger) : List InternalBlock :=
  storedPath (l.meta.trunkHeight.toNat + 1) l.db l.meta.tipBlockid

/-- The block store is well formed: every record is stored under its own id and has a
height of at least 0; the root block has height 0; every other block has a stored predecessor
and is one higher than it; and the body of every block can be loaded (its `tx_count` is within
its merkle tree and each of these leaves has a Confirmed-Tx record). -/
def Ledger.StoreWellFormed (l : Ledger) : Prop :=
  ∀ p ∈ l.db.blocksTable,
    p.2.blockid = p.1 ∧ 0 ≤ p.2.height ∧
    (p.1 = l.meta.rootBlockid → p.2.height = 0) ∧
    (p.1 ≠ l.meta.rootBlockid →
      (kvGet l.db.blocksTable p.2.preHash).map (fun q => q.height + 1) = some p.2.height) ∧
    (queryBlock l p.1 true).toOption.isSome = true

/-- The header cache agrees with the store: its pointers are allocated and every cached
header has the id, predecessor and height of the record stored under its key. -/
def Ledger.CacheWellFormed (l : Ledger) : Prop :=
  l.PtrsValid ∧
  ∀ e ∈ l.blkHeaderCache.entries,
    (kvGet l.db.blocksTable e.1).map InternalBlock.link = some (l.deref e.2).link

/-- What a store holds for a block id: id, predecessor and height, the `in_trunk` flag and
`next_hash`. -/
def flagsAt (db : DB) (id : Bytes) : Option ((Bytes × Bytes × Int) × Bool × Bytes) :=
  (kvGet db.blocksTable id).map (fun b => (b.link, b.inTrunk, b.nextHash))

/-- One step back along `pre_hash`: `a` names `b` as its predecessor and is one higher. -/
def InternalBlock.StepsTo (a b : InternalBlock) : Prop :=
  a.preHash = b.blockid ∧ a.height = b.height + 1

/-- The block `queryBlock` with its body returns for the id of a header (the header itself
when the query fails). -/
def loaded (l : Ledger) (Z : InternalBlock) : InternalBlock :=
  match queryBlock l Z.blockid true with
  | .ok b => b
  | .error _ => Z

/-- The loop state of the walker with the two sides exchanged. -/
def WalkState.swap (s : WalkState) : WalkState :=
  ⟨s.newTip, s.oldTip, s.visited, s.todoBlocks, s.undoBlocks⟩

/-- Two paths of stored headers that walk back along `pre_hash`, one level per step, and end
in the same block `S`, which is the only block they share; `P` and `Q` include `S`. -/
structure ForkPaths (l : Ledger) (P Q : List InternalBlock) (S : InternalBlock) : Prop where
  lastP : P.getLast? = some S
  lastQ : Q.getLast? = some S
  chainP : P.Chain' InternalBlock.StepsTo
  chainQ : Q.Chain' InternalBlock.StepsTo
  nodupP : (P.map (fun Z => Z.blockid)).Nodup
  nodupQ : (Q.map (fun Z => Z.blockid)).Nodup
  meet : ∀ x ∈ P, ∀ y ∈ Q, x.blockid = y.blockid → x.blockid = S.blockid
  load : ∀ Z, Z ∈ P ∨ Z ∈ Q →
    queryBlock l Z.blockid true = .ok (loaded l Z) ∧ (loaded l Z).link = Z.link
  pre : ∀ Z, Z ∈ P ∨ Z ∈ Q → Z.blockid ≠ S.blockid → Z.preHash ≠ []

/-- The loop state of the walker at a position on the two paths: the old side has walked
`pd0 ++ [o]` of `P` and stands on `o`, the new side has walked `qd0 ++ [n]` of `Q` and stands
on `n`; the lists hold the loaded blocks walked so far and `visited` their ids. -/
structure WalkAt (l : Ledger) (P Q : List InternalBlock) (s : WalkState)
    (pd0 : List InternalBlock) (o : InternalBlock) (pr : List InternalBlock)
    (qd0 : List InternalBlock) (n : InternalBlock) (qr : List InternalBlock) : Prop where
  splitP : P = pd0 ++ o :: pr
  splitQ : Q = qd0 ++ n :: qr
  oldTip : s.oldTip = loaded l o
  newTip : s.newTip = loaded l n
  undo : s.undoBlocks = (pd0 ++ [o]).map (loaded l)
  todo : s.todoBlocks = (qd0 ++ [n]).map (loaded l)
  visited : ∀ id, id ∈ s.visited ↔
    id ∈ (pd0 ++ [o]).map (fun Z => Z.blockid) ∨ id ∈ (qd0 ++ [n]).map (fun Z => Z.blockid)

/-- Modelled from the spec: undoing a block on the state machine that consumes the walker's
lists (it is not among the embedded sources) requires the state pointer to be at the block and
moves it to the block's predecessor. -/
def undoBlock (ptr : Bytes) (b : InternalBlock) : Option Bytes :=
  if ptr = b.blockid then some b.preHash else none

/-- Modelled from the spec: applying a block requires the state pointer to be at the block's
predecessor and moves it to the block. -/
def applyBlock (ptr : Bytes) (b : InternalBlock) : Option Bytes :=
  if ptr = b.preHash then some b.blockid else none

/-- A list of steps on the state pointer, in list order; `none` when a step is not valid. -/
def runBlocks (step : Bytes → InternalBlock → Option Bytes) :
    Bytes → List InternalBlock → Option Bytes
  | ptr, [] => some ptr
  | ptr, b :: rest =>
    match step ptr b with
    | none => none
    | some p => runBlocks step p rest

/-- Undo the first list in list order, then apply the second list in list order. -/
def undoThenApply (ptr : Bytes) (undo todo : List InternalBlock) : Option Bytes :=
  match runBlocks undoBlock ptr undo with
  | none => none
  | some p => runBlocks applyBlock p todo

/-- One call of `ConfirmBlock`: the block, the `isRoot` flag and what `batchWrite.Write()`
returns for it. -/
structure ConfirmCall where
  block : InternalBlock
  isRoot : Bool
  kvErr : Option LedgerError
  deriving DecidableEq, Repr, Inhabited

/-- A sequence of `ConfirmBlock` calls, each on the ledger the one before left. -/
def runConfirms (env : Env) (fuel : Nat) : Ledger → List ConfirmCall → Option Ledger
  | l, [] => some l
  | l, c :: rest =>
    match ConfirmBlock env c.kvErr fuel l c.block c.isRoot with
    | none => none
    | some r => runConfirms env fuel r.2 rest

/-- The depth of a block id under a predecessor map: the empty id is at depth `-1` and every
other id is one deeper than its predecessor.  An id has a depth when its chain of predecessors
reaches the empty id. -/
inductive Depth (pre : Bytes → Bytes) : Bytes → Int → Prop
  | nil : Depth pre [] (-1)
  | step (k : Bytes) (m : Int) : k ≠ [] → Depth pre (pre k) m → Depth pre k (m + 1)

/-- A header agrees with the predecessor map: its id is not empty, its `pre_hash` is the
predecessor of its id, and its height is the depth of its id. -/
def HonestBlock (pre : Bytes → Bytes) (b : InternalBlock) : Prop :=
  b.blockid ≠ [] ∧ b.preHash = pre b.blockid ∧ Depth pre b.blockid b.height

/-- Every stored record is stored under its own id and agrees with the predecessor map. -/
def DB.StoreHonest (pre : Bytes → Bytes) (db : DB) : Prop :=
  ∀ p ∈ db.blocksTable, p.2.blockid = p.1 ∧ HonestBlock pre p.2

/-- The pointers of the caches are allocated, and every cached header is cached under its own
id and agrees with the predecessor map. -/
def Ledger.CacheHonest (pre : Bytes → Bytes) (l : Ledger) : Prop :=
  l.PtrsValid ∧
  ∀ e ∈ l.blkHeaderCache.entries, (l.deref e.2).blockid = e.1 ∧ HonestBlock pre (l.deref e.2)

/-- The trunk of a ledger with a root, by ids: the tip is at depth `trunk_height`, the ids on
the predecessor chain from the tip are stored, the chain reaches the root after `trunk_height`
steps, and the Height Index maps the height of each of them to it and no other key. -/
structure TrunkOK (pre : Bytes → Bytes) (l : Ledger) : Prop where
  height_nonneg : 0 ≤ l.meta.trunkHeight
  tip_depth : Depth pre l.meta.tipBlockid l.meta.trunkHeight
  stored : ∀ i : Nat, i ≤ l.meta.trunkHeight.toNat →
    (kvGet l.db.blocksTable (pre^[i] l.meta.tipBlockid)).isSome = true
  root : pre^[l.meta.trunkHeight.toNat] l.meta.tipBlockid = l.meta.rootBlockid
  index : ∀ i : Nat, i ≤ l.meta.trunkHeight.toNat →
    kvGet l.db.heightTable (heightKey (l.meta.trunkHeight - i)) = some (pre^[i] l.meta.tipBlockid)
  index_only : ∀ key, (∀ i : Nat, i ≤ l.meta.trunkHeight.toNat →
    key ≠ heightKey (l.meta.trunkHeight - i)) → kvGet l.db.heightTable key = none

/-- The operation writes the Blocks table or the Height Index. -/
def BatchOp.isChainOp (op : BatchOp) : Bool :=
  match op with
  | .putBlock _ _ => true
  | .delBlock _ => true
  | .putHeight _ _ => true
  | .delHeight _ => true
  | _ => false

/-- What a successful `handleFork(p, q, ..)` has done on an honest ledger, `ext` being the
operations it queued and `S` the header it returns: the two predecessor chains meet after `k`
steps in the id of `S`; no id on the old chain up to there is empty; `ext` deletes nothing,
its block puts are honest headers of the two chains, its Height Index puts name ids of the new
chain under their depths, and every id of the new chain up to `S` has both puts. -/
structure ForkDone (pre : Bytes → Bytes) (p q : Bytes) (ext : Batch) (S : InternalBlock)
    (k : Nat) : Prop where
  meet : pre^[k] p = pre^[k] q
  split_id : S.blockid = pre^[k] q
  split_honest : HonestBlock pre S
  old_ne : ∀ i, i ≤ k → pre^[i] p ≠ []
  no_del : ∀ op ∈ ext, (∀ k2, op ≠ BatchOp.delBlock k2) ∧ (∀ k2, op ≠ BatchOp.delHeight k2)
  puts : ∀ op ∈ ext, ∀ id b, op = BatchOp.putBlock id b →
    b.blockid = id ∧ HonestBlock pre b ∧
      ((∃ i, i < k ∧ id = pre^[i] p) ∨ (∃ i, i ≤ k ∧ id = pre^[i] q))
  heights : ∀ op ∈ ext, ∀ key v, op = BatchOp.putHeight key v →
    ∃ i m, i ≤ k ∧ v = pre^[i] q ∧ Depth pre v m ∧ key = heightKey m
  new_path : ∀ i, i ≤ k → ∃ b, BatchOp.putBlock (pre^[i] q) b ∈ ext ∧
    BatchOp.putHeight (heightKey b.height) (pre^[i] q) ∈ ext ∧ HonestBlock pre b ∧
    b.blockid = pre^[i] q

/-- The invariant of a ledger built by `ConfirmBlock` calls whose blocks agree with a
predecessor map: store and header cache agree with the map, no stored block is higher than the
trunk, the Height Index has one entry per key, a ledger without root is empty, and a ledger
with a root has its trunk in order. -/
structure Ledger.Honest (pre : Bytes → Bytes) (l : Ledger) : Prop where
  cache : l.CacheHonest pre
  store : l.db.StoreHonest pre
  below : ∀ p ∈ l.db.blocksTable, p.2.height ≤ l.meta.trunkHeight
  keys : (l.db.heightTable.map (fun e => e.1)).Nodup
  empty : l.meta.rootBlockid = [] →
    l.db.blocksTable = [] ∧ l.db.heightTable = [] ∧ l.meta.tipBlockid = [] ∧
      l.meta.trunkHeight = 0
  trunk : l.meta.rootBlockid ≠ [] → TrunkOK pre l

/-- Invariant I2 as the store shows it: the `pre_hash` path from the tip has
`trunk_height + 1` stored blocks, of heights `trunk_height` down to 0, and ends in the root;
the Height Index has exactly one entry for the height of each of them, which names it, and
maps no height above `trunk_height`. -/
def HeightIndexOK (l : Ledger) : Prop :=
  0 ≤ l.meta.trunkHeight ∧
  (trunkPath l).length = l.meta.trunkHeight.toNat + 1 ∧
  (∀ (i : Nat) (h : i < (trunkPath l).length),
    ((trunkPath l).get ⟨i, h⟩).height = l.meta.trunkHeight - i) ∧
  (trunkPath l).getLast?.map (fun b => b.blockid) = some l.meta.rootBlockid ∧
  (∀ b ∈ trunkPath l,
    kvGet l.db.heightTable (heightKey b.height) = some b.blockid ∧
    (l.db.heightTable.filter (fun e => decide (e.1 = heightKey b.height))).length = 1) ∧
  (∀ h : Int, l.meta.trunkHeight < h → kvGet l.db.heightTable (heightKey h) = none)

/-- The deletes `removeBlocks` queues for one block: its Blocks table entry and, for a trunk
block, its Height Index entry. -/
def removeOps (Z : InternalBlock) : Batch :=
  [BatchOp.delBlock Z.blockid] ++
    (if Z.inTrunk then [BatchOp.delHeight (heightKey Z.height)] else [])

/-- The blocks of the store are linked: every record is stored under its own id, and is one
higher than its predecessor when that is stored.  (A predecessor may be missing.) -/
def DB.Linked (db : DB) : Prop :=
  ∀ p ∈ db.blocksTable, p.2.blockid = p.1 ∧
    ∀ q ∈ kvGet db.blocksTable p.2.preHash, p.2.height = q.height + 1

/-- The header cache shows the store: its pointers are allocated, and every cached header has
the id, predecessor, height and `in_trunk` flag of the record stored under its key. -/
def Ledger.CacheShowsStore (l : Ledger) : Prop :=
  l.PtrsValid ∧
  ∀ e ∈ l.blkHeaderCache.entries,
    (kvGet l.db.blocksTable e.1).map (fun b => (b.link, b.inTrunk)) =
      some ((l.deref e.2).link, (l.deref e.2).inTrunk)

/-- The predecessor `preBlock` of a call `ConfirmBlock(B, false)` that takes the branch
"the branch becomes the trunk" (the one that calls `handleFork`): the predecessor is fetched,
it is not the tip, and `preBlock.Height + 1 > TrunkHeight`.  `none` for a call that takes
another path. -/
def reorgPre (l : Ledger) (B : InternalBlock) : Option InternalBlock :=
  match fetchBlock (l.alloc (B.setTransactions [])) B.preHash with
  | (.error _, _) => none
  | (.ok pa, l1) =>
    let l2 := l1.modify l.heap.length (InternalBlock.setHeight ((l1.deref pa).height + 1))
    if (l2.deref pa).blockid = l.meta.tipBlockid then none
    else if (l2.deref pa).height + 1 > l.meta.trunkHeight then some (l2.deref pa)
    else none

/-- A call of a method of `ldbBatch`, with its arguments (for `Write`: with what the library
returns). -/
inductive BatchCall where
  | Put (key value : Bytes)
  | Delete (key : Bytes)
  | PutIfAbsent (key value : Bytes)
  | Exist (key : Bytes)
  | Write (writeErr : Option LdbError)
  | ValueSize
  | Reset
  deriving DecidableEq, Repr, Inhabited

/-- What a call returns. -/
inductive BatchRet where
  | err (e : Option LdbError)
  | bool (v : Bool)
  | int (n : Int)
  | unit
  deriving DecidableEq, Repr, Inhabited

/-- One call on a batch: what it returns and the batch after it. -/
def ldbBatch.call (bt : ldbBatch) : BatchCall → BatchRet × ldbBatch
  | .Put key value => (BatchRet.err (bt.Put key value).1, (bt.Put key value).2)
  | .Delete key => (BatchRet.err (bt.Delete key).1, (bt.Delete key).2)
  | .PutIfAbsent key value =>
    (BatchRet.err (bt.PutIfAbsent key value).1, (bt.PutIfAbsent key value).2)
  | .Exist key => (BatchRet.bool (bt.Exist key), bt)
  | .Write writeErr => (BatchRet.err (bt.Write writeErr).1, (bt.Write writeErr).2)
  | .ValueSize => (BatchRet.int bt.ValueSize, bt)
  | .Reset => (BatchRet.unit, bt.Reset)

/-- A sequence of calls on a batch: the calls with what each returned, and the batch after
the last one. -/
def ldbBatch.run : ldbBatch → List BatchCall → List (BatchCall × BatchRet) × ldbBatch
  | bt, [] => ([], bt)
  | bt, c :: rest => ((c, (bt.call c).1) :: ((bt.call c).2.run rest).1, ((bt.call c).2.run rest).2)

/-- In a history of calls, a `PutIfAbsent(key, _)` has succeeded since the last `Reset`: some
call `PutIfAbsent(key, value)` returned nil and no later call is a `Reset`. -/
def SucceededSince (hist : List (BatchCall × BatchRet)) (key : Bytes) : Prop :=
  ∃ before later value,
    hist = before ++ (BatchCall.PutIfAbsent key value, BatchRet.err none) :: later ∧
    ∀ e ∈ later, e.1 ≠ BatchCall.Reset

/-- Number of coinbase transactions in a list. -/
def coinbaseCount (txs : List Transaction) : Nat :=
  (txs.filter (fun tx => tx.coinbase)).length

/-! ## A small chain used to instantiate the theorems

`G` is the genesis block, `A1` extends it with `T1`, `F1` is a sibling of `A1` with `T2`, and
`F2` extends `F1`. -/

namespace Example

def env : Env :=
  { DisableTxDedup := false
    NewGenesisBlock := fun cfg => if cfg = [7] then .ok { config := cfg } else .error .genesisConfigInvalid
    CalcAward := fun _ _ => 5 }

def cbTx : Transaction :=
  { txid := [100], coinbase := true, txOutputs := [{ amount := [5] }], desc := [7] }

def T1 : Transaction := { txid := [101] }

def T2 : Transaction := { txid := [102] }

def G : InternalBlock :=
  { blockid := [1], transactions := [cbTx], txCount := 1, merkleTree := [[100]], merkleRoot := [100] }

def A1 : InternalBlock :=
  { version := 1, blockid := [2], preHash := [1], transactions := [T1], txCount := 1,
    merkleTree := [[101]], merkleRoot := [101] }

def F1 : InternalBlock :=
  { version := 1, blockid := [3], preHash := [1], transactions := [T2], txCount := 1,
    merkleTree := [[102]], merkleRoot := [102] }

def F2 : InternalBlock :=
  { version := 1, blockid := [4], preHash := [3], transactions := [], txCount := 0 }

/-- A root block without any transaction. -/
def emptyRoot : InternalBlock := { blockid := [1] }

/-- A block on top of `A1` that holds `T1` again. -/
def dupBlock : InternalBlock :=
  { version := 1, blockid := [9], preHash := [2], transactions := [T1], txCount := 1,
    merkleTree := [[101]], merkleRoot := [101] }

/-- A new block on top of `A1` with a new transaction. -/
def A2 : InternalBlock :=
  { version := 1, blockid := [5], preHash := [2], transactions := [{ txid := [103] }],
    txCount := 1, merkleTree := [[103]], merkleRoot := [103] }

/-- A coinbase transaction without outputs. -/
def cbNoOutputs : Transaction := { txid := [110], coinbase := true }

/-- A coinbase transaction paying 4 where the schedule of `env` says 5. -/
def cbWrongAmount : Transaction := { txid := [111], coinbase := true, txOutputs := [{ amount := [4] }] }

/-- A block on top of the genesis block whose coinbase has no outputs. -/
def badAward1 : InternalBlock :=
  { version := 1, blockid := [6], preHash := [1], transactions := [cbNoOutputs], txCount := 1,
    merkleTree := [[110]], merkleRoot := [110] }

/-- A block on top of the genesis block whose coinbase pays the wrong amount. -/
def badAward2 : InternalBlock :=
  { version := 1, blockid := [7], preHash := [1], transactions := [cbWrongAmount], txCount := 1,
    merkleTree := [[111]], merkleRoot := [111] }

/-- The ledger after `ConfirmBlock` of a block, from a given ledger (the ledger itself when
the call does not return). -/
def after (l : Ledger) (b : InternalBlock) (isRoot : Bool) : Ledger :=
  match ConfirmBlock env none 8 l b isRoot with
  | some r => r.2
  | none => l

/-- The header of `G` in the chain: height 0. -/
def hdrG : InternalBlock := { version := 1, blockid := [1], height := 0 }

/-- The header of `A1` in the chain: on top of `G`, height 1. -/
def hdrA1 : InternalBlock := { version := 1, blockid := [2], preHash := [1], height := 1 }

/-- The header of `F1` in the chain: on top of `G`, height 1. -/
def hdrF1 : InternalBlock := { version := 1, blockid := [3], preHash := [1], height := 1 }

/-- A block on top of `G` that holds the coinbase transaction of `G` again. -/
def A1cb : InternalBlock :=
  { version := 1, blockid := [9], preHash := [1], transactions := [cbTx], txCount := 1,
    merkleTree := [[100]], merkleRoot := [100] }

/-- A block on top of `F1` that holds the coinbase transaction of `G` again. -/
def F2cb : InternalBlock :=
  { version := 1, blockid := [4], preHash := [3], transactions := [cbTx], txCount := 1,
    merkleTree := [[100]], merkleRoot := [100] }

/-- The ledger after `Truncate` to a block id, the batch write succeeding. -/
def afterTruncate (l : Ledger) (id : Bytes) : Ledger :=
  match Truncate none 8 l id with
  | some r => r.2
  | none => l

/-- A block on top of `F1` that holds `T2`, the transaction of `F1`, again. -/
def F2dup : InternalBlock :=
  { version := 1, blockid := [4], preHash := [3], transactions := [T2], txCount := 1,
    merkleTree := [[102]], merkleRoot := [102] }

/-- The record a ledger stores under a block id. -/
def stored (l : Ledger) (id : Bytes) : InternalBlock :=
  (kvGet l.db.blocksTable id).getD default

/-- A second coinbase transaction. -/
def cbTx2 : Transaction :=
  { txid := [120], coinbase := true, txOutputs := [{ amount := [5] }], desc := [7] }

/-- A block that reuses the id of `G` with another predecessor. -/
def collide : InternalBlock :=
  { version := 1, blockid := [1], preHash := [2], transactions := [{ txid := [104] }],
    txCount := 1, merkleTree := [[104]], merkleRoot := [104] }

/-- A root block with an empty id. -/
def rootNoId : InternalBlock :=
  { blockid := [], transactions := [cbTx], txCount := 1, merkleTree := [[100]],
    merkleRoot := [100] }

/-- A root block with an id. -/
def root2 : InternalBlock :=
  { blockid := [1], transactions := [cbTx2], txCount := 1, merkleTree := [[120]],
    merkleRoot := [120] }

/-- A block whose `pre_hash` is empty, confirmed as a non-root block. -/
def childNoId : InternalBlock :=
  { version := 1, blockid := [5], preHash := [], transactions := [T1], txCount := 1,
    merkleTree := [[101]], merkleRoot := [101] }

/-- The predecessor of each id of the chain `G`, `A1`, `F1`, `F2`. -/
def parentOf (id : Bytes) : Bytes :=
  if id = [2] then [1] else if id = [3] then [1] else if id = [4] then [3] else []

/-- The calls that build `s4`. -/
def run4 : List ConfirmCall :=
  [⟨G, true, none⟩, ⟨A1, false, none⟩, ⟨F1, false, none⟩, ⟨F2, false, none⟩]

/-- The ledger holding the genesis block only. -/
def s1 : Ledger := after {} G true

/-- Trunk `G <- A1`. -/
def s2 : Ledger := after s1 A1 false

/-- Trunk `G <- A1`, branch `G <- F1`. -/
def s3 : Ledger := after s2 F1 false

/-- After the reorganisation: trunk `G <- F1 <- F2`, branch `G <- A1`. -/
def s4 : Ledger := after s3 F2 false

/-- The trunk `G`, `A1`, `A2` with the branch block `F1` on `G`. -/
def s5 : Ledger := after (after s2 A2 false) F1 false

/-- The genesis ledger with `A1` and `F1` in the Pending table. -/
def sPending : Ledger := (SavePendingBlock none (SavePendingBlock none s1 A1).2 F1).2

/-- The example environment with `DisableTxDedup = true`. -/
def envNoDedup : Env :=
  { DisableTxDedup := true
    NewGenesisBlock := env.NewGenesisBlock
    CalcAward := env.CalcAward }

/-- A block on top of `A1` with two coinbase transactions. -/
def twoCoinbase : InternalBlock :=
  { version := 1, blockid := [9], preHash := [2], transactions := [cbNoOutputs, cbWrongAmount],
    txCount := 2, merkleTree := [[110], [111]] }

/-- A block on top of `A1` with two different transactions under one txid. -/
def sameTxid : InternalBlock :=
  { version := 1, blockid := [9], preHash := [2],
    transactions := [{ txid := [7], desc := [1] }, { txid := [7], desc := [2] }],
    txCount := 2, merkleTree := [[7], [7]] }

/-- A ledger opened again on its store: no block object is cached. -/
def reopened (l : Ledger) : Ledger :=
  { db := l.db, meta := l.meta, GenesisBlock := l.GenesisBlock }

/-- The example chain after its reorg, opened again. -/
def s4r : Ledger := reopened s4

/-- A block whose predecessor `[7]` is not stored. -/
def orphan : InternalBlock := { version := 1, blockid := [8], preHash := [7], height := 3 }

/-- A store with the root `[1]` and the orphan `[8]`, and empty caches. -/
def sOrphan : Ledger :=
  { db := { blocksTable := [([8], orphan), ([1], (hdrG.setInTrunk true))] }
    meta := { rootBlockid := [1], tipBlockid := [1], trunkHeight := 0 } }

/-- A block on top of `A1cb`. -/
def onA1cb : InternalBlock :=
  { version := 1, blockid := [10], preHash := [9], transactions := [T1], txCount := 1,
    merkleTree := [[101]], merkleRoot := [101] }

/-- The genesis block, then the refused block `A1cb`. -/
def runRefused : List ConfirmCall :=
  [⟨G, true, none⟩, ⟨A1cb, false, none⟩]

/-- A root with an empty id, a block on top of it, and a second root. -/
def runNoId : List ConfirmCall :=
  [⟨rootNoId, true, none⟩, ⟨childNoId, false, none⟩, ⟨root2, true, none⟩]

/-- The genesis block, `A1`, and a block that has the id of the genesis block again. -/
def runCollide : List ConfirmCall :=
  [⟨G, true, none⟩, ⟨A1, false, none⟩, ⟨collide, false, none⟩]

/-- The calls that build `s3`. -/
def run3 : List ConfirmCall :=
  [⟨G, true, none⟩, ⟨A1, false, none⟩, ⟨F1, false, none⟩]

/-- A history with a put, two `PutIfAbsent` of the key `[1]`, a `Reset` and a `PutIfAbsent` of
the key `[2]`. -/
def batchCalls : List BatchCall :=
  [.Put [1] [9], .PutIfAbsent [1] [8], .PutIfAbsent [1] [7, 7], .Delete [2], .Reset,
    .PutIfAbsent [2] [5], .Write none]

/-- The example chain `s3` after the reorg by `F2cb` was refused. -/
def s3Refused : Ledger := after s3 F2cb false

/-- A genesis block with `tx_count` 0. -/
def rootNoCount : InternalBlock :=
  { blockid := [1], transactions := [cbTx], txCount := 0, merkleTree := [[100]],
    merkleRoot := [100] }

/-- A genesis block whose merkle leaf is not the id of its transaction. -/
def rootWrongLeaf : InternalBlock :=
  { blockid := [1], transactions := [cbTx], txCount := 1, merkleTree := [[55]],
    merkleRoot := [55] }

/-- A genesis block with two transactions under one id, the coinbase transaction first. -/
def rootSameTxid : InternalBlock :=
  { blockid := [1], transactions := [cbTx, { txid := [100] }], txCount := 2,
    merkleTree := [[100], [100]] }

/-- The header of the block `[9]` cannot be marshalled. -/
def faultsBlock9 : Faults :=
  { noFaults with marshalBlock := fun b => decide (b.blockid = [9]) }

/-- The header of the block `[1]` cannot be marshalled once it has a `next_hash`. -/
def faultsTip : Faults :=
  { noFaults with marshalBlock := fun b => decide (b.blockid = [1] ∧ b.nextHash ≠ []) }

/-- The header of the block `[2]` cannot be marshalled. -/
def faultsA1 : Faults :=
  { noFaults with marshalBlock := fun b => decide (b.blockid = [2]) }

/-- `updateBranchInfo` fails. -/
def faultsBranch : Faults :=
  { noFaults with updateBranchInfo := some LedgerError.kvWriteFailed }

/-- The transaction `[103]` cannot be marshalled. -/
def faultsTx : Faults :=
  { noFaults with marshalTx := fun tx => decide (tx.txid = [103]) }

/-- No meta record can be marshalled. -/
def faultsMeta : Faults :=
  { noFaults with marshalMeta := fun _ => true }

/-- The trunk `G`, `A1`, `A2` with the branch block `F1`, built with a refused reorg by `F2cb`
before `A2`. -/
def s5Refused : Ledger := after (after s3 F2cb false) A2 false

/-- A block on top of `A2` that holds `T1`, the transaction of `A1`, again. -/
def onA2dup : InternalBlock :=
  { version := 1, blockid := [11], preHash := [5], transactions := [T1], txCount := 1,
    merkleTree := [[101]], merkleRoot := [101] }

/-- A genesis block whose `tx_count` exceeds its merkle tree. -/
def rootBigCount : InternalBlock :=
  { blockid := [1], transactions := [cbTx], txCount := 5, merkleTree := [[100]],
    merkleRoot := [100] }

/-- A store in which the record under the key `[7]` carries the id `[2]`: the trunk `G <- A1`
with `T1` confirmed in `A1`, and a transaction `[150]` whose record points at `[7]`. -/
def sIncoherent : Ledger :=
  { db :=
      { blocksTable :=
          [([2], (hdrA1.setInTrunk true)),
           ([7], { version := 1, blockid := [2], preHash := [1], height := 1 }),
           ([1], ((hdrG.setInTrunk true).setNextHash [2]))]
        confirmedTable :=
          [([101], T1.setBlockid [2]), ([150], { txid := [150], blockid := [7] }),
           ([100], cbTx.setBlockid [1])]
        heightTable := [(heightKey 1, [2]), (heightKey 0, [1])] }
    meta := { rootBlockid := [1], tipBlockid := [2], trunkHeight := 1 } }

/-- A block on top of `A1` that holds the transaction `[150]` and then `T1`. -/
def dupAfter150 : InternalBlock :=
  { version := 1, blockid := [9], preHash := [2], transactions := [{ txid := [150] }, T1],
    txCount := 2, merkleTree := [[150], [101]] }

end Example

/-! # Theorems -/

/-! ## Tables and batches -/

theorem kvDel_cons {V : Type} (k1 : Bytes) (v : V) (rest : Table V) (k : Bytes) :
    kvDel ((k1, v) :: rest) k = if k1 = k then kvDel rest k else (k1, v) :: kvDel rest k := by
  by_cases h : k1 = k <;> simp [kvDel, List.filter_cons, h]

theorem kvGet_cons {V : Type} (k1 : Bytes) (v : V) (rest : Table V) (k : Bytes) :
    kvGet ((k1, v) :: rest) k = if k1 = k then some v else kvGet rest k := rfl

theorem kvGet_kvDel_self {V : Type} (t : Table V) (k : Bytes) : kvGet (kvDel t k) k = none := by
  induction t with
  | nil => rfl
  | cons p rest ih =>
    obtain ⟨k1, v⟩ := p
    rw [kvDel_cons]
    by_cases h : k1 = k
    · simp [h, ih]
    · simp [h, ih, kvGet_cons]

theorem kvGet_kvDel_ne {V : Type} (t : Table V) (k k2 : Bytes) (h : k2 ≠ k) :
    kvGet (kvDel t k) k2 = kvGet t k2 := by
  induction t with
  | nil => rfl
  | cons p rest ih =>
    obtain ⟨k1, v⟩ := p
    rw [kvDel_cons, kvGet_cons]
    by_cases h1 : k1 = k
    · have h2 : ¬ k1 = k2 := fun e => h (e ▸ h1)
      rw [if_pos h1, if_neg h2, ih]
    · rw [if_neg h1, kvGet_cons, ih]

theorem kvGet_kvPut_self {V : Type} (t : Table V) (k : Bytes) (v : V) :
    kvGet (kvPut t k v) k = some v := by
  simp [kvPut, kvGet]

theorem kvGet_kvPut_ne {V : Type} (t : Table V) (k k2 : Bytes) (v : V) (h : k2 ≠ k) :
    kvGet (kvPut t k v) k2 = kvGet t k2 := by
  have h1 : k ≠ k2 := fun e => h e.symm
  simp [kvPut, kvGet, h1, kvGet_kvDel_ne t k k2 h]

theorem kvGet_mem {V : Type} (t : Table V) (k : Bytes) (v : V) (h : kvGet t k = some v) :
    (k, v) ∈ t := by
  induction t with
  | nil => simp [kvGet] at h
  | cons p rest ih =>
    obtain ⟨k1, v1⟩ := p
    by_cases h1 : k1 = k
    · simp [kvGet, h1] at h
      simp [h1, h]
    · simp [kvGet, h1] at h
      exact List.mem_cons_of_mem _ (ih h)

theorem kvDel_subset {V : Type} (t : Table V) (k : Bytes) (p : Bytes × V) (h : p ∈ kvDel t k) :
    p ∈ t := by
  simp only [kvDel, List.mem_filter] at h
  exact h.1

theorem applyBatch_nil (db : DB) : applyBatch db [] = db := rfl

theorem applyBatch_cons (db : DB) (op : BatchOp) (bw : Batch) :
    applyBatch db (op :: bw) = applyBatch (applyOp db op) bw := rfl

theorem applyBatch_append (db : DB) (bw1 bw2 : Batch) :
    applyBatch db (bw1 ++ bw2) = applyBatch (applyBatch db bw1) bw2 := by
  simp [applyBatch, List.foldl_append]

@[simp] theorem alloc_db (l : Ledger) (b : InternalBlock) : (l.alloc b).db = l.db := rfl
@[simp] theorem alloc_meta (l : Ledger) (b : InternalBlock) : (l.alloc b).meta = l.meta := rfl
@[simp] theorem alloc_blockCache (l : Ledger) (b : InternalBlock) : (l.alloc b).blockCache = l.blockCache := rfl
@[simp] theorem alloc_blkHeaderCache (l : Ledger) (b : InternalBlock) :
    (l.alloc b).blkHeaderCache = l.blkHeaderCache := rfl
@[simp] theorem alloc_GenesisBlock (l : Ledger) (b : InternalBlock) :
    (l.alloc b).GenesisBlock = l.GenesisBlock := rfl
@[simp] theorem alloc_heap_length (l : Ledger) (b : InternalBlock) :
    (l.alloc b).heap.length = l.heap.length + 1 := by simp [Ledger.alloc]

@[simp] theorem modify_db (l : Ledger) (a : Addr) (f : InternalBlock → InternalBlock) :
    (l.modify a f).db = l.db := rfl
@[simp] theorem modify_meta (l : Ledger) (a : Addr) (f : InternalBlock → InternalBlock) :
    (l.modify a f).meta = l.meta := rfl
@[simp] theorem modify_blockCache (l : Ledger) (a : Addr) (f : InternalBlock → InternalBlock) :
    (l.modify a f).blockCache = l.blockCache := rfl
@[simp] theorem modify_blkHeaderCache (l : Ledger) (a : Addr) (f : InternalBlock → InternalBlock) :
    (l.modify a f).blkHeaderCache = l.blkHeaderCache := rfl
@[simp] theorem modify_GenesisBlock (l : Ledger) (a : Addr) (f : InternalBlock → InternalBlock) :
    (l.modify a f).GenesisBlock = l.GenesisBlock := rfl
@[simp] theorem modify_heap_length (l : Ledger) (a : Addr) (f : InternalBlock → InternalBlock) :
    (l.modify a f).heap.length = l.heap.length := by simp [Ledger.modify]

theorem deref_alloc_lt (l : Ledger) (b : InternalBlock) (a : Addr) (h : a < l.heap.length) :
    (l.alloc b).deref a = l.deref a := by
  simp [Ledger.deref, Ledger.alloc, List.getD, List.getElem?_append_left h]

theorem deref_alloc_new (l : Ledger) (b : InternalBlock) :
    (l.alloc b).deref l.heap.length = b := by
  simp [Ledger.deref, Ledger.alloc, List.getD]

theorem deref_modify_same (l : Ledger) (a : Addr) (f : InternalBlock → InternalBlock)
    (h : a < l.heap.length) : (l.modify a f).deref a = f (l.deref a) := by
  simp [Ledger.deref, Ledger.modify, List.getD, h]

theorem deref_modify_ne (l : Ledger) (a b : Addr) (f : InternalBlock → InternalBlock)
    (h : a ≠ b) : (l.modify a f).deref b = l.deref b := by
  simp [Ledger.deref, Ledger.modify, List.getD, List.getElem?_set_ne h]

theorem lru_get_fst (c : LRUCache) (k : Bytes) : (c.Get k).1 = kvGet c.entries k := by
  unfold LRUCache.Get
  cases h : kvGet c.entries k <;> simp

theorem lru_get_entries_get (c : LRUCache) (k k2 : Bytes) :
    kvGet (c.Get k).2.entries k2 = kvGet c.entries k2 := by
  unfold LRUCache.Get
  cases h : kvGet c.entries k with
  | none => simp
  | some a =>
    simp only [kvGet_cons]
    by_cases h1 : k = k2
    · subst h1; simp [h]
    · rw [if_neg h1, kvGet_kvDel_ne _ _ _ (fun e => h1 e.symm)]

theorem lru_get_entries_mem (c : LRUCache) (k : Bytes) (p : Bytes × Addr)
    (hp : p ∈ (c.Get k).2.entries) : p ∈ c.entries := by
  unfold LRUCache.Get at hp
  cases h : kvGet c.entries k with
  | none => simpa [h] using hp
  | some a =>
    simp only [h, List.mem_cons] at hp
    rcases hp with hp | hp
    · rw [hp]; exact kvGet_mem _ _ _ h
    · exact kvDel_subset _ _ _ hp

theorem lru_add_entries_mem (c : LRUCache) (k : Bytes) (a : Addr) (p : Bytes × Addr)
    (hp : p ∈ (c.Add k a).entries) : p = (k, a) ∨ p ∈ c.entries := by
  unfold LRUCache.Add at hp
  have h1 := List.mem_of_mem_take hp
  simp only [List.mem_cons] at h1
  rcases h1 with h1 | h1
  · exact Or.inl h1
  · exact Or.inr (kvDel_subset _ _ _ h1)

theorem lru_add_get_self (c : LRUCache) (k : Bytes) (a : Addr) :
    kvGet (c.Add k a).entries k = some a := by
  simp [LRUCache.Add, BlockCacheSize, kvGet_cons]

theorem lru_del_entries_mem (c : LRUCache) (k : Bytes) (p : Bytes × Addr)
    (hp : p ∈ (c.Del k).entries) : p ∈ c.entries :=
  kvDel_subset _ _ _ hp

/-! ## Ledger field assignments -/

@[simp] theorem setHeaderCache_db (l : Ledger) (c : LRUCache) : (l.setHeaderCache c).db = l.db := rfl
@[simp] theorem setHeaderCache_meta (l : Ledger) (c : LRUCache) :
    (l.setHeaderCache c).meta = l.meta := rfl
@[simp] theorem setHeaderCache_heap (l : Ledger) (c : LRUCache) :
    (l.setHeaderCache c).heap = l.heap := rfl
@[simp] theorem setHeaderCache_blockCache (l : Ledger) (c : LRUCache) :
    (l.setHeaderCache c).blockCache = l.blockCache := rfl
@[simp] theorem setHeaderCache_blkHeaderCache (l : Ledger) (c : LRUCache) :
    (l.setHeaderCache c).blkHeaderCache = c := rfl
@[simp] theorem setHeaderCache_genesis (l : Ledger) (c : LRUCache) :
    (l.setHeaderCache c).GenesisBlock = l.GenesisBlock := rfl
@[simp] theorem setHeaderCache_deref (l : Ledger) (c : LRUCache) (a : Addr) :
    (l.setHeaderCache c).deref a = l.deref a := rfl

@[simp] theorem setBlockCache_db (l : Ledger) (c : LRUCache) : (l.setBlockCache c).db = l.db := rfl
@[simp] theorem setBlockCache_meta (l : Ledger) (c : LRUCache) :
    (l.setBlockCache c).meta = l.meta := rfl
@[simp] theorem setBlockCache_heap (l : Ledger) (c : LRUCache) :
    (l.setBlockCache c).heap = l.heap := rfl
@[simp] theorem setBlockCache_blockCache (l : Ledger) (c : LRUCache) :
    (l.setBlockCache c).blockCache = c := rfl
@[simp] theorem setBlockCache_blkHeaderCache (l : Ledger) (c : LRUCache) :
    (l.setBlockCache c).blkHeaderCache = l.blkHeaderCache := rfl
@[simp] theorem setBlockCache_genesis (l : Ledger) (c : LRUCache) :
    (l.setBlockCache c).GenesisBlock = l.GenesisBlock := rfl
@[simp] theorem setBlockCache_deref (l : Ledger) (c : LRUCache) (a : Addr) :
    (l.setBlockCache c).deref a = l.deref a := rfl

@[simp] theorem setGenesisBlock_db (l : Ledger) (g : GenesisBlock) :
    (l.setGenesisBlock g).db = l.db := rfl
@[simp] theorem setGenesisBlock_meta (l : Ledger) (g : GenesisBlock) :
    (l.setGenesisBlock g).meta = l.meta := rfl
@[simp] theorem setGenesisBlock_heap (l : Ledger) (g : GenesisBlock) :
    (l.setGenesisBlock g).heap = l.heap := rfl
@[simp] theorem setGenesisBlock_blockCache (l : Ledger) (g : GenesisBlock) :
    (l.setGenesisBlock g).blockCache = l.blockCache := rfl
@[simp] theorem setGenesisBlock_blkHeaderCache (l : Ledger) (g : GenesisBlock) :
    (l.setGenesisBlock g).blkHeaderCache = l.blkHeaderCache := rfl
@[simp] theorem setGenesisBlock_deref (l : Ledger) (g : GenesisBlock) (a : Addr) :
    (l.setGenesisBlock g).deref a = l.deref a := rfl

@[simp] theorem written_db (l : Ledger) (bw : Batch) (m : LedgerMeta) :
    (l.written bw m).db = applyBatch l.db bw := rfl
@[simp] theorem written_meta (l : Ledger) (bw : Batch) (m : LedgerMeta) :
    (l.written bw m).meta = m := rfl
@[simp] theorem written_heap (l : Ledger) (bw : Batch) (m : LedgerMeta) :
    (l.written bw m).heap = l.heap := rfl
@[simp] theorem written_blockCache (l : Ledger) (bw : Batch) (m : LedgerMeta) :
    (l.written bw m).blockCache = l.blockCache := rfl
@[simp] theorem written_blkHeaderCache (l : Ledger) (bw : Batch) (m : LedgerMeta) :
    (l.written bw m).blkHeaderCache = l.blkHeaderCache := rfl
@[simp] theorem written_genesis (l : Ledger) (bw : Batch) (m : LedgerMeta) :
    (l.written bw m).GenesisBlock = l.GenesisBlock := rfl
@[simp] theorem written_deref (l : Ledger) (bw : Batch) (m : LedgerMeta) (a : Addr) :
    (l.written bw m).deref a = l.deref a := rfl

@[simp] theorem modify_heap_get (l : Ledger) (a : Addr) (f : InternalBlock → InternalBlock) :
    (l.modify a f).heap = l.heap.set a (f (l.deref a)) := rfl

/-! ## Block field assignments -/

@[simp] theorem setHeight_blockid (h : Int) (b : InternalBlock) :
    (b.setHeight h).blockid = b.blockid := rfl
@[simp] theorem setHeight_preHash (h : Int) (b : InternalBlock) :
    (b.setHeight h).preHash = b.preHash := rfl
@[simp] theorem setHeight_height (h : Int) (b : InternalBlock) : (b.setHeight h).height = h := rfl
@[simp] theorem setHeight_inTrunk (h : Int) (b : InternalBlock) :
    (b.setHeight h).inTrunk = b.inTrunk := rfl
@[simp] theorem setHeight_nextHash (h : Int) (b : InternalBlock) :
    (b.setHeight h).nextHash = b.nextHash := rfl
@[simp] theorem setHeight_transactions (h : Int) (b : InternalBlock) :
    (b.setHeight h).transactions = b.transactions := rfl

@[simp] theorem setInTrunk_blockid (v : Bool) (b : InternalBlock) :
    (b.setInTrunk v).blockid = b.blockid := rfl
@[simp] theorem setInTrunk_preHash (v : Bool) (b : InternalBlock) :
    (b.setInTrunk v).preHash = b.preHash := rfl
@[simp] theorem setInTrunk_height (v : Bool) (b : InternalBlock) :
    (b.setInTrunk v).height = b.height := rfl
@[simp] theorem setInTrunk_inTrunk (v : Bool) (b : InternalBlock) : (b.setInTrunk v).inTrunk = v := rfl
@[simp] theorem setInTrunk_nextHash (v : Bool) (b : InternalBlock) :
    (b.setInTrunk v).nextHash = b.nextHash := rfl
@[simp] theorem setInTrunk_transactions (v : Bool) (b : InternalBlock) :
    (b.setInTrunk v).transactions = b.transactions := rfl

@[simp] theorem setNextHash_blockid (n : Bytes) (b : InternalBlock) :
    (b.setNextHash n).blockid = b.blockid := rfl
@[simp] theorem setNextHash_preHash (n : Bytes) (b : InternalBlock) :
    (b.setNextHash n).preHash = b.preHash := rfl
@[simp] theorem setNextHash_height (n : Bytes) (b : InternalBlock) :
    (b.setNextHash n).height = b.height := rfl
@[simp] theorem setNextHash_inTrunk (n : Bytes) (b : InternalBlock) :
    (b.setNextHash n).inTrunk = b.inTrunk := rfl
@[simp] theorem setNextHash_nextHash (n : Bytes) (b : InternalBlock) :
    (b.setNextHash n).nextHash = n := rfl
@[simp] theorem setNextHash_transactions (n : Bytes) (b : InternalBlock) :
    (b.setNextHash n).transactions = b.transactions := rfl

@[simp] theorem setTransactions_blockid (t : List Transaction) (b : InternalBlock) :
    (b.setTransactions t).blockid = b.blockid := rfl
@[simp] theorem setTransactions_preHash (t : List Transaction) (b : InternalBlock) :
    (b.setTransactions t).preHash = b.preHash := rfl
@[simp] theorem setTransactions_height (t : List Transaction) (b : InternalBlock) :
    (b.setTransactions t).height = b.height := rfl
@[simp] theorem setTransactions_inTrunk (t : List Transaction) (b : InternalBlock) :
    (b.setTransactions t).inTrunk = b.inTrunk := rfl
@[simp] theorem setTransactions_nextHash (t : List Transaction) (b : InternalBlock) :
    (b.setTransactions t).nextHash = b.nextHash := rfl
@[simp] theorem setTransactions_transactions (t : List Transaction) (b : InternalBlock) :
    (b.setTransactions t).transactions = t := rfl

@[simp] theorem setBlockid_txid (id : Bytes) (tx : Transaction) : (tx.setBlockid id).txid = tx.txid := rfl
@[simp] theorem setBlockid_blockid (id : Bytes) (tx : Transaction) : (tx.setBlockid id).blockid = id := rfl
@[simp] theorem setBlockid_coinbase (id : Bytes) (tx : Transaction) :
    (tx.setBlockid id).coinbase = tx.coinbase := rfl
@[simp] theorem setBlockid_desc (id : Bytes) (tx : Transaction) : (tx.setBlockid id).desc = tx.desc := rfl

/-! ## fetchBlock and saveBlock -/

theorem fetchBlock_err (l : Ledger) (blockid : Bytes) (h : headerAt l blockid = none) :
    fetchBlock l blockid = (.error .ErrKVNotFound, l) := by
  unfold headerAt at h
  unfold fetchBlock LRUCache.Get
  cases hc : kvGet l.blkHeaderCache.entries blockid with
  | some a => simp [hc] at h
  | none =>
    simp only [hc] at h
    simp [h]

theorem fetchBlock_ok (l : Ledger) (blockid : Bytes) (P : InternalBlock) (hv : l.PtrsValid)
    (h : headerAt l blockid = some P) :
    ∃ pa l1, fetchBlock l blockid = (.ok pa, l1) ∧ FetchOk l blockid P pa l1 := by
  unfold headerAt at h
  cases hc : kvGet l.blkHeaderCache.entries blockid with
  | some a =>
    simp only [hc, Option.some.injEq] at h
    have hmem := kvGet_mem _ _ _ hc
    have hlt : a < l.heap.length := hv.1 _ hmem
    refine ⟨a, l.setHeaderCache (l.blkHeaderCache.Get blockid).2, ?_, ?_⟩
    · unfold fetchBlock LRUCache.Get
      simp [hc]
    · refine ⟨rfl, rfl, rfl, rfl, h, hlt, le_refl _, fun _ _ => rfl, Or.inl hmem, ?_, ?_, ?_⟩
      · exact ⟨fun p hp => hv.1 p (lru_get_entries_mem _ _ _ hp), hv.2⟩
      · intro k; exact lru_get_entries_get _ _ _
      · intro p hp; exact lru_get_entries_mem _ _ _ hp
  | none =>
    simp only [hc] at h
    refine ⟨l.heap.length, l.alloc P, ?_, ?_⟩
    · unfold fetchBlock LRUCache.Get
      simp [hc, h]
    · refine ⟨rfl, rfl, rfl, rfl, ?_, ?_, ?_, ?_, Or.inr rfl, ?_, fun _ => rfl, fun _ hp => hp⟩
      · exact deref_alloc_new l P
      · rw [alloc_heap_length]; exact Nat.lt_succ_self _
      · rw [alloc_heap_length]; exact Nat.le_succ _
      · intro a ha
        exact deref_alloc_lt l P a ha
      · constructor
        · intro p hp
          have h1 : p.2 < l.heap.length := hv.1 p hp
          rw [alloc_heap_length]
          exact Nat.lt_succ_of_lt h1
        · intro p hp
          have h1 : p.2 < l.heap.length := hv.2 p hp
          rw [alloc_heap_length]
          exact Nat.lt_succ_of_lt h1

theorem saveBlock_eq (l : Ledger) (a : Addr) (bw : Batch) :
    saveBlock l a bw =
      (l.setHeaderCache (l.blkHeaderCache.Add (l.deref a).blockid a),
        bw ++ saveOps (l.deref a)) := rfl

theorem headerAt_alloc (l : Ledger) (b : InternalBlock) (id : Bytes) (hv : l.PtrsValid) :
    headerAt (l.alloc b) id = headerAt l id := by
  unfold headerAt
  simp only [alloc_blkHeaderCache, alloc_db]
  cases hc : kvGet l.blkHeaderCache.entries id with
  | none => rfl
  | some a =>
    simp only
    rw [deref_alloc_lt l b a (hv.1 _ (kvGet_mem _ _ _ hc))]

theorem ptrsValid_alloc (l : Ledger) (b : InternalBlock) (hv : l.PtrsValid) :
    (l.alloc b).PtrsValid := by
  constructor
  · intro p hp
    have h1 : p.2 < l.heap.length := hv.1 p hp
    rw [alloc_heap_length]
    exact Nat.lt_succ_of_lt h1
  · intro p hp
    have h1 : p.2 < l.heap.length := hv.2 p hp
    rw [alloc_heap_length]
    exact Nat.lt_succ_of_lt h1

/-- The pointer `fetchBlock` returns after the caller's block was allocated is not the
caller's block. -/
theorem fetchOk_alloc_ne (l : Ledger) (b : InternalBlock) (id : Bytes) (P : InternalBlock)
    (pa : Addr) (l1 : Ledger) (hv : l.PtrsValid) (hf : FetchOk (l.alloc b) id P pa l1) :
    pa ≠ l.heap.length ∧ l.heap.length < l1.heap.length ∧ l1.deref l.heap.length = b := by
  have hlen : l.heap.length < (l.alloc b).heap.length := by
    rw [alloc_heap_length]; exact Nat.lt_succ_self _
  refine ⟨?_, lt_of_lt_of_le hlen hf.heap_le, ?_⟩
  · rcases hf.origin with h | h
    · have h1 : pa < l.heap.length := hv.1 _ h
      exact Nat.ne_of_lt h1
    · rw [h, alloc_heap_length]
      exact Nat.succ_ne_self _
  · rw [hf.deref_old _ hlen, deref_alloc_new]

/-! ## The maps of parallelCheckTx -/

/-- Lookups in a table built by a fold of puts whose value depends on the key only. -/
theorem kvGet_foldl_put_key {V : Type} (g : Bytes → V) (txs : List Transaction) (m0 : Table V)
    (k : Bytes) :
    kvGet (txs.foldl (fun m tx => kvPut m tx.txid (g tx.txid)) m0) k =
      if ∃ tx ∈ txs, tx.txid = k then some (g k) else kvGet m0 k := by
  induction txs generalizing m0 with
  | nil => simp
  | cons tx rest ih =>
    rw [List.foldl_cons, ih]
    by_cases h1 : ∃ t ∈ rest, t.txid = k
    · have h2 : ∃ t ∈ tx :: rest, t.txid = k := by
        obtain ⟨t, ht, hk⟩ := h1
        exact ⟨t, List.mem_cons_of_mem _ ht, hk⟩
      rw [if_pos h1, if_pos h2]
    · rw [if_neg h1]
      by_cases h3 : tx.txid = k
      · have h2 : ∃ t ∈ tx :: rest, t.txid = k := ⟨tx, List.mem_cons_self _ _, h3⟩
        rw [if_pos h2, ← h3, kvGet_kvPut_self]
      · have h2 : ¬ ∃ t ∈ tx :: rest, t.txid = k := by
          rintro ⟨t, ht, hk⟩
          rcases List.mem_cons.1 ht with e | e
          · exact h3 (e ▸ hk)
          · exact h1 ⟨t, e, hk⟩
        rw [if_neg h2, kvGet_kvPut_ne _ _ _ _ (fun e => h3 e.symm)]

/-- Lookups in `txData`: the entry of an id is one of the listed transactions with that id. -/
theorem kvGet_foldl_put_tx (txs : List Transaction) (m0 : Table Transaction) (k : Bytes) :
    (∃ tx ∈ txs, tx.txid = k ∧
        kvGet (txs.foldl (fun m tx => kvPut m tx.txid tx) m0) k = some tx) ∨
      ((∀ tx ∈ txs, tx.txid ≠ k) ∧
        kvGet (txs.foldl (fun m tx => kvPut m tx.txid tx) m0) k = kvGet m0 k) := by
  induction txs generalizing m0 with
  | nil => right; simp
  | cons tx rest ih =>
    rw [List.foldl_cons]
    rcases ih (kvPut m0 tx.txid tx) with ⟨t, ht, hk, hg⟩ | ⟨hne, hg⟩
    · exact Or.inl ⟨t, List.mem_cons_of_mem _ ht, hk, hg⟩
    · by_cases h3 : tx.txid = k
      · left
        refine ⟨tx, List.mem_cons_self _ _, h3, ?_⟩
        rw [hg, ← h3, kvGet_kvPut_self]
      · right
        refine ⟨?_, ?_⟩
        · intro t ht
          rcases List.mem_cons.1 ht with e | e
          · rw [e]; exact h3
          · exact hne t e
        · rw [hg, kvGet_kvPut_ne _ _ _ _ (fun e => h3 e.symm)]

theorem mkTxExist_get (confirmed : Table Transaction) (txs : List Transaction) (k : Bytes) :
    kvGet (mkTxExist confirmed txs) k =
      if ∃ tx ∈ txs, tx.txid = k then some (kvHas confirmed k) else none := by
  unfold mkTxExist
  rw [kvGet_foldl_put_key (fun k => kvHas confirmed k)]
  rfl

theorem mkTxData_get_mem (txs : List Transaction) (tx : Transaction) (h : tx ∈ txs) :
    ∃ d ∈ txs, d.txid = tx.txid ∧ kvGet (mkTxData txs) tx.txid = some d := by
  unfold mkTxData
  rcases kvGet_foldl_put_tx txs [] tx.txid with ⟨t, ht, hk, hg⟩ | ⟨hne, _⟩
  · exact ⟨t, ht, hk, hg⟩
  · exact absurd rfl (hne tx h)

theorem mkTxData_get_some (txs : List Transaction) (k : Bytes) (d : Transaction)
    (h : kvGet (mkTxData txs) k = some d) : d ∈ txs ∧ d.txid = k := by
  unfold mkTxData at h
  rcases kvGet_foldl_put_tx txs [] k with ⟨t, ht, hk, hg⟩ | ⟨_, hg⟩
  · rw [hg] at h
    cases h
    exact ⟨ht, hk⟩
  · rw [hg] at h
    simp [kvGet] at h

theorem coinbaseCount_cons (tx : Transaction) (rest : List Transaction) :
    coinbaseCount (tx :: rest) = (if tx.coinbase then 1 else 0) + coinbaseCount rest := by
  unfold coinbaseCount
  by_cases h : tx.coinbase = true <;> simp [List.filter_cons, h, Nat.add_comm]

theorem coinbaseCount_map_blockid (txs : List Transaction) (id : Bytes) :
    coinbaseCount (txs.map (Transaction.setBlockid id)) = coinbaseCount txs := by
  induction txs with
  | nil => rfl
  | cons tx rest ih =>
    rw [List.map_cons, coinbaseCount_cons, coinbaseCount_cons, ih, setBlockid_coinbase]

/-- A batch of Confirmed-Tx puts leaves the other tables alone. -/
theorem applyBatch_txPuts (db : DB) (bw : Batch) (h : ∀ op ∈ bw, op.isTxPut = true) :
    (applyBatch db bw).metaTable = db.metaTable ∧
    (applyBatch db bw).blocksTable = db.blocksTable ∧
    (applyBatch db bw).heightTable = db.heightTable ∧
    (applyBatch db bw).pendingTable = db.pendingTable ∧
    (applyBatch db bw).branchTable = db.branchTable := by
  induction bw generalizing db with
  | nil => simp [applyBatch]
  | cons op rest ih =>
    rw [applyBatch_cons]
    have h1 := h op (List.mem_cons_self _ _)
    have h2 := ih (applyOp db op) (fun o ho => h o (List.mem_cons_of_mem _ ho))
    cases op <;> simp [BatchOp.isTxPut] at h1
    simpa [applyOp] using h2

/-! ## The transaction loop -/

/-- The puts the transaction loop queues when every transaction is written. -/
theorem isTxPut_map (f : Transaction → Transaction) (txs : List Transaction) :
    ∀ op ∈ txs.map (fun tx => BatchOp.putTx tx.txid (f tx)), op.isTxPut = true := by
  intro op hop
  obtain ⟨tx, _, rfl⟩ := List.mem_map.1 hop
  rfl

/-- The transaction loop on transactions without a prior confirmed entry: every transaction
is queued, in order. -/
theorem confirmTxs_fresh (db : DB) (inTrunk : Bool) (sh : Int) (txExist : Table Bool)
    (txData : Table Transaction) (txs : List Transaction) (cbNum : Nat)
    (obc : Table InternalBlock) (bw : Batch)
    (hex : ∀ tx ∈ txs, (kvGet txExist tx.txid).getD false = false)
    (hdata : ∀ tx ∈ txs, ∃ d, kvGet txData tx.txid = some d)
    (hcb : cbNum + coinbaseCount txs ≤ 1) :
    confirmTxs db inTrunk sh txExist txData txs cbNum obc bw =
      .ok (bw ++ txs.map (fun tx => BatchOp.putTx tx.txid ((kvGet txData tx.txid).getD default))) := by
  induction txs generalizing cbNum bw with
  | nil => simp [confirmTxs]
  | cons tx rest ih =>
    rw [coinbaseCount_cons] at hcb
    obtain ⟨d, hd⟩ := hdata tx (List.mem_cons_self _ _)
    have he := hex tx (List.mem_cons_self _ _)
    have hcb1 : ¬ (if tx.coinbase = true then cbNum + 1 else cbNum) > 1 := by
      by_cases hc : tx.coinbase = true
      · simp only [hc, if_true] at hcb ⊢; omega
      · simp only [hc] at hcb ⊢; simp; omega
    have hcb2 : (if tx.coinbase = true then cbNum + 1 else cbNum) + coinbaseCount rest ≤ 1 := by
      by_cases hc : tx.coinbase = true
      · simp only [hc, if_true] at hcb ⊢; omega
      · simp only [hc] at hcb ⊢; simp at hcb ⊢; omega
    unfold confirmTxs
    simp only [hcb1, if_false, hd, he, Bool.not_false, if_true]
    rw [ih _ _ (fun t ht => hex t (List.mem_cons_of_mem _ ht))
      (fun t ht => hdata t (List.mem_cons_of_mem _ ht)) hcb2]
    simp [hd]

/-- The outputs of `parallelCheckTx` for transactions without a confirmed entry. -/
theorem parallelCheckTx_fresh (env : Env) (l : Ledger) (txs : List Transaction)
    (block : InternalBlock)
    (hfresh : ∀ tx ∈ txs, kvGet l.db.confirmedTable tx.txid = none) :
    (∀ tx ∈ (parallelCheckTx env l txs block).2.2,
      (kvGet (parallelCheckTx env l txs block).1 tx.txid).getD false = false) ∧
    (∀ tx ∈ (parallelCheckTx env l txs block).2.2,
      ∃ d, kvGet (parallelCheckTx env l txs block).2.1 tx.txid = some d) := by
  refine ⟨?_, ?_⟩
  · intro tx htx
    obtain ⟨t, ht, rfl⟩ := List.mem_map.1 htx
    unfold parallelCheckTx
    by_cases hc : (!env.DisableTxDedup || !block.inTrunk) = true
    · simp only [hc, if_true]
      rw [mkTxExist_get]
      split
      · simp [kvHas, hfresh t ht]
      · rfl
    · simp only [hc]
      rfl
  · intro tx htx
    obtain ⟨d, _, _, hd⟩ := mkTxData_get_mem _ tx htx
    exact ⟨d, hd⟩

theorem parallelCheckTx_txs (env : Env) (l : Ledger) (txs : List Transaction)
    (block : InternalBlock) :
    (parallelCheckTx env l txs block).2.2 = txs.map (Transaction.setBlockid block.blockid) := rfl

/-- The operations of a whole successful commit tail, given the puts `ext` of the transaction
loop. -/
theorem confirmCommit_fresh (env : Env) (L : Ledger) (a : Addr) (txs : List Transaction)
    (newMeta : LedgerMeta) (sh : Int) (st : ConfirmStatus) (bw : Batch)
    (hfresh : ∀ tx ∈ txs, kvGet L.db.confirmedTable tx.txid = none)
    (hcb : coinbaseCount txs ≤ 1) :
    ∃ ext, (∀ op ∈ ext, BatchOp.isTxPut op = true) ∧
      (confirmCommit env none L a txs newMeta sh st false bw).1 = { st with succ := true } ∧
      (confirmCommit env none L a txs newMeta sh st false bw).2.meta = newMeta ∧
      (confirmCommit env none L a txs newMeta sh st false bw).2.db =
        applyBatch L.db (bw ++ saveOps (L.deref a) ++
          branchOps (L.deref a).blockid (L.deref a).preHash (L.deref a).height ++ ext ++
          [BatchOp.delPending (L.deref a).blockid, BatchOp.putMeta newMeta]) := by
  obtain ⟨hp2, hp3⟩ := parallelCheckTx_fresh env
    (L.setHeaderCache (L.blkHeaderCache.Add (L.deref a).blockid a)) txs (L.deref a) hfresh
  have hcb2 : 0 + coinbaseCount (parallelCheckTx env
      (L.setHeaderCache (L.blkHeaderCache.Add (L.deref a).blockid a)) txs (L.deref a)).2.2 ≤ 1 := by
    rw [parallelCheckTx_txs, coinbaseCount_map_blockid]; omega
  have hloop := confirmTxs_fresh L.db (L.deref a).inTrunk sh _ _ _ 0 []
    (bw ++ saveOps (L.deref a) ++
      branchOps (L.deref a).blockid (L.deref a).preHash (L.deref a).height) hp2 hp3 hcb2
  refine ⟨List.map (fun tx => BatchOp.putTx tx.txid ((kvGet (parallelCheckTx env
      (L.setHeaderCache (L.blkHeaderCache.Add (L.deref a).blockid a)) txs (L.deref a)).2.1
        tx.txid).getD default)) (parallelCheckTx env
      (L.setHeaderCache (L.blkHeaderCache.Add (L.deref a).blockid a)) txs (L.deref a)).2.2,
    isTxPut_map _ _, ?_, ?_, ?_⟩
  · unfold confirmCommit
    simp only [saveBlock_eq, updateBranchInfo, setHeaderCache_deref, setHeaderCache_db, hloop]
    rfl
  · unfold confirmCommit
    simp only [saveBlock_eq, updateBranchInfo, setHeaderCache_deref, setHeaderCache_db, hloop]
    rfl
  · unfold confirmCommit
    simp only [saveBlock_eq, updateBranchInfo, setHeaderCache_deref, setHeaderCache_db, hloop]
    rfl

/-! ## Tables after the operations of a commit -/

theorem applyBatch_saveOps (db : DB) (b : InternalBlock) :
    (applyBatch db (saveOps b)).blocksTable = kvPut db.blocksTable b.blockid b ∧
    (applyBatch db (saveOps b)).heightTable =
      (if b.inTrunk then kvPut db.heightTable (heightKey b.height) b.blockid else db.heightTable) ∧
    (applyBatch db (saveOps b)).metaTable = db.metaTable ∧
    (applyBatch db (saveOps b)).confirmedTable = db.confirmedTable ∧
    (applyBatch db (saveOps b)).pendingTable = db.pendingTable ∧
    (applyBatch db (saveOps b)).branchTable = db.branchTable := by
  unfold saveOps
  by_cases h : b.inTrunk = true <;> simp [h, applyBatch, applyOp]

theorem applyBatch_branchOps (db : DB) (x y : Bytes) (h : Int) :
    (applyBatch db (branchOps x y h)).blocksTable = db.blocksTable ∧
    (applyBatch db (branchOps x y h)).heightTable = db.heightTable ∧
    (applyBatch db (branchOps x y h)).metaTable = db.metaTable ∧
    (applyBatch db (branchOps x y h)).confirmedTable = db.confirmedTable ∧
    (applyBatch db (branchOps x y h)).pendingTable = db.pendingTable := by
  simp [branchOps, applyBatch, applyOp]

theorem applyBatch_commitTail (db : DB) (id : Bytes) (m : LedgerMeta) :
    (applyBatch db [BatchOp.delPending id, BatchOp.putMeta m]).blocksTable = db.blocksTable ∧
    (applyBatch db [BatchOp.delPending id, BatchOp.putMeta m]).heightTable = db.heightTable ∧
    (applyBatch db [BatchOp.delPending id, BatchOp.putMeta m]).metaTable = kvPut db.metaTable [] m ∧
    (applyBatch db [BatchOp.delPending id, BatchOp.putMeta m]).confirmedTable = db.confirmedTable ∧
    (applyBatch db [BatchOp.delPending id, BatchOp.putMeta m]).pendingTable =
      kvDel db.pendingTable id ∧
    (applyBatch db [BatchOp.delPending id, BatchOp.putMeta m]).branchTable = db.branchTable := by
  simp [applyBatch, applyOp]

/-! ## C1: trunk extend -/

/-- C1 (trunk extend).  With `DisableTxDedup = false`, let `B` be a block whose `pre_hash` is
the id of the current tip, where the tip header the engine fetches is `P` (stored under its own
id, and `B` is not its own predecessor), whose transactions have no entry in the Confirmed-Tx
table and hold at most one coinbase.  Then `ConfirmBlock(B, false)` with a successful batch
write returns `succ = true` with `split`, `orphan`, `trunk_switch` false and no error; the new
meta has tip `B.id`, the trunk height plus one and the old root, and is the persisted meta
record; `B` is stored with `in_trunk = true` and height `P.height + 1` (and an empty
transaction list); and the stored old tip is `P` with `next_hash = B.id`. -/
theorem confirmBlock_trunk_extend (env : Env) (fuel : Nat) (l : Ledger) (B P : InternalBlock)
    (hdedup : env.DisableTxDedup = false)
    (hv : l.PtrsValid)
    (hpre : B.preHash = l.meta.tipBlockid)
    (htip : headerAt l l.meta.tipBlockid = some P)
    (hPid : P.blockid = l.meta.tipBlockid)
    (hnew : B.blockid ≠ l.meta.tipBlockid)
    (hfresh : ∀ tx ∈ B.transactions, kvGet l.db.confirmedTable tx.txid = none)
    (hcb : coinbaseCount B.transactions ≤ 1) :
    ∃ l2, ConfirmBlock env none fuel l B false =
        some ({ succ := true, split := false, orphan := false, trunkSwitch := false,
                error := none }, l2) ∧
      l2.meta = { rootBlockid := l.meta.rootBlockid, tipBlockid := B.blockid,
                  trunkHeight := l.meta.trunkHeight + 1 } ∧
      kvGet l2.db.metaTable [] = some l2.meta ∧
      kvGet l2.db.blocksTable B.blockid =
        some (((B.setTransactions []).setHeight (P.height + 1)).setInTrunk true) ∧
      kvGet l2.db.blocksTable l.meta.tipBlockid = some (P.setNextHash B.blockid) := by
  have hv0 := ptrsValid_alloc l (B.setTransactions []) hv
  have ht0 : headerAt (l.alloc (B.setTransactions [])) B.preHash = some P := by
    rw [headerAt_alloc _ _ _ hv, hpre, htip]
  obtain ⟨pa, l1, hfetch, hf⟩ := fetchBlock_ok _ _ _ hv0 ht0
  obtain ⟨hne, hlt, hderef⟩ := fetchOk_alloc_ne l _ _ _ _ _ hv hf
  have hpa := hf.pa_lt
  have hdp := hf.deref_pa
  have hdb : l1.db = l.db := hf.db_eq
  have hmeta : l1.meta = l.meta := hf.meta_eq
  have hne2 : l.heap.length ≠ pa := fun e => hne e.symm
  -- the two objects after the assignments of the trunk-extend branch
  have hA : ∀ (f g : InternalBlock → InternalBlock) (h : InternalBlock → InternalBlock),
      (((l1.modify l.heap.length f).modify l.heap.length g).modify pa h).deref l.heap.length =
        g (f (B.setTransactions [])) := by
    intro f g h
    rw [deref_modify_ne _ _ _ _ hne, deref_modify_same _ _ _ (by simpa using hlt),
      deref_modify_same _ _ _ hlt, hderef]
  have hP : ∀ (f g : InternalBlock → InternalBlock) (h : InternalBlock → InternalBlock),
      (((l1.modify l.heap.length f).modify l.heap.length g).modify pa h).deref pa = h P := by
    intro f g h
    rw [deref_modify_same _ _ _ (by simpa using hpa), deref_modify_ne _ _ _ _ hne2,
      deref_modify_ne _ _ _ _ hne2, hdp]
  unfold ConfirmBlock
  simp only [Bool.false_eq_true, if_false, hfetch, alloc_meta, deref_modify_ne _ _ _ _ hne2, hdp,
    hPid, if_true, hdedup, Bool.not_false, saveBlock_eq, setBlockCache_deref,
    setHeaderCache_deref, deref_modify_same _ _ _ hlt, hderef,
    deref_modify_same _ (l.heap.length) _ (show l.heap.length < (l1.modify l.heap.length _).heap.length by simpa using hlt)]
  simp only [hA, hP, setInTrunk_blockid, setHeight_blockid, setTransactions_blockid,
    setNextHash_blockid, List.nil_append]
  obtain ⟨ext, hext, hst, hm, hd⟩ := confirmCommit_fresh env
    (((((l1.modify l.heap.length (InternalBlock.setHeight (P.height + 1))).modify l.heap.length
      (InternalBlock.setInTrunk true)).modify pa (InternalBlock.setNextHash B.blockid)).setHeaderCache
        ((((l1.modify l.heap.length (InternalBlock.setHeight (P.height + 1))).modify l.heap.length
          (InternalBlock.setInTrunk true)).modify pa
            (InternalBlock.setNextHash B.blockid)).blkHeaderCache.Add P.blockid pa)).setBlockCache
        (((((l1.modify l.heap.length (InternalBlock.setHeight (P.height + 1))).modify l.heap.length
          (InternalBlock.setInTrunk true)).modify pa
            (InternalBlock.setNextHash B.blockid)).setHeaderCache
              ((((l1.modify l.heap.length (InternalBlock.setHeight (P.height + 1))).modify l.heap.length
                (InternalBlock.setInTrunk true)).modify pa
                  (InternalBlock.setNextHash B.blockid)).blkHeaderCache.Add P.blockid pa)).blockCache.Del
          P.blockid))
    l.heap.length B.transactions
    { rootBlockid := l.meta.rootBlockid, tipBlockid := B.blockid,
      trunkHeight := l.meta.trunkHeight + 1 }
    l.meta.trunkHeight {} (saveOps (P.setNextHash B.blockid))
    (by simpa [hdb] using hfresh) hcb
  simp only [setBlockCache_deref, setHeaderCache_deref, hA, setBlockCache_db, setHeaderCache_db,
    modify_db, hdb, setInTrunk_blockid, setHeight_blockid, setTransactions_blockid,
    setInTrunk_preHash, setHeight_preHash, setTransactions_preHash, setInTrunk_height,
    setHeight_height] at hd
  refine ⟨_, congrArg some (Prod.ext hst rfl), hm, ?_, ?_, ?_⟩
  · rw [hm, hd, applyBatch_append, (applyBatch_commitTail _ _ _).2.2.1, kvGet_kvPut_self]
  · rw [hd, applyBatch_append, (applyBatch_commitTail _ _ _).1, applyBatch_append,
      (applyBatch_txPuts _ _ hext).2.1, applyBatch_append, (applyBatch_branchOps _ _ _ _).1,
      applyBatch_append, (applyBatch_saveOps _ _).1, setInTrunk_blockid, setHeight_blockid,
      setTransactions_blockid, kvGet_kvPut_self]
  · rw [hd, applyBatch_append, (applyBatch_commitTail _ _ _).1, applyBatch_append,
      (applyBatch_txPuts _ _ hext).2.1, applyBatch_append, (applyBatch_branchOps _ _ _ _).1,
      applyBatch_append, (applyBatch_saveOps _ _).1, (applyBatch_saveOps _ _).1,
      setInTrunk_blockid, setHeight_blockid,
      setTransactions_blockid, kvGet_kvPut_ne _ _ _ _ (fun e => hnew e.symm), setNextHash_blockid,
      hPid, kvGet_kvPut_self]

/-- Witness of C1 on the example chain: `A1` extends the genesis ledger. -/
theorem confirmBlock_trunk_extend_witness :
    ∃ l2, ConfirmBlock Example.env none 0 Example.s1 Example.A1 false =
        some ({ succ := true, split := false, orphan := false, trunkSwitch := false,
                error := none }, l2) ∧
      l2.meta = { rootBlockid := [1], tipBlockid := [2], trunkHeight := 1 } ∧
      kvGet l2.db.metaTable [] = some l2.meta ∧
      kvGet l2.db.blocksTable [2] =
        some (((Example.A1.setTransactions []).setHeight 1).setInTrunk true) ∧
      kvGet l2.db.blocksTable [1] =
        some ((((Example.G.setTransactions [Example.cbTx.setBlockid [1]]).setInTrunk true).setHeight 0).setNextHash [2]) :=
  confirmBlock_trunk_extend Example.env 0 Example.s1 Example.A1
    (((Example.G.setTransactions [Example.cbTx.setBlockid [1]]).setInTrunk true).setHeight 0)
    rfl (by unfold Ledger.PtrsValid; decide) (by decide) (by decide) (by decide) (by decide)
    (by decide) (by decide)

/-- One round of the transaction loop that does not fail: the coinbase counter stays at most
one, the transaction has its `txData` bytes, and the loop goes on with or without a put. -/
theorem confirmTxs_cons_ok (db : DB) (inTrunk : Bool) (sh : Int) (txExist : Table Bool)
    (txData : Table Transaction) (tx : Transaction) (rest : List Transaction) (cbNum : Nat)
    (obc : Table InternalBlock) (bw bw2 : Batch)
    (h : confirmTxs db inTrunk sh txExist txData (tx :: rest) cbNum obc bw = .ok bw2) :
    (if tx.coinbase then cbNum + 1 else cbNum) ≤ 1 ∧
    ∃ d, kvGet txData tx.txid = some d ∧ ∃ obc2,
      (confirmTxs db inTrunk sh txExist txData rest (if tx.coinbase then cbNum + 1 else cbNum) obc2
          (bw ++ [BatchOp.putTx tx.txid d]) = .ok bw2 ∨
        ((kvGet txExist tx.txid).getD false = true ∧ inTrunk = false ∧
          confirmTxs db inTrunk sh txExist txData rest (if tx.coinbase then cbNum + 1 else cbNum)
            obc2 bw = .ok bw2)) := by
  by_cases hcb : (if tx.coinbase = true then cbNum + 1 else cbNum) > 1
  · simp [confirmTxs, hcb] at h
  · refine ⟨by omega, ?_⟩
    cases hd : kvGet txData tx.txid with
    | none => simp [confirmTxs, hcb, hd] at h
    | some d =>
      refine ⟨d, rfl, ?_⟩
      cases hex : (kvGet txExist tx.txid).getD false with
      | false =>
        refine ⟨obc, Or.inl ?_⟩
        simpa [confirmTxs, hcb, hd, hex] using h
      | true =>
        cases hit : inTrunk with
        | false =>
          cases hob : kvGet obc ((kvGet db.confirmedTable tx.txid).getD {}).blockid with
          | some ob =>
            refine ⟨obc, Or.inr ⟨rfl, rfl, ?_⟩⟩
            simpa [confirmTxs, hcb, hd, hex, hit, hob] using h
          | none =>
            cases hbl : kvGet db.blocksTable ((kvGet db.confirmedTable tx.txid).getD {}).blockid with
            | none =>
              refine ⟨obc, Or.inl ?_⟩
              simpa [confirmTxs, hcb, hd, hex, hit, hob, hbl] using h
            | some ob =>
              refine ⟨kvPut obc ob.blockid ob, Or.inr ⟨rfl, rfl, ?_⟩⟩
              simpa [confirmTxs, hcb, hd, hex, hit, hob, hbl] using h
        | true =>
          cases hob : kvGet obc ((kvGet db.confirmedTable tx.txid).getD {}).blockid with
          | some ob =>
            refine ⟨obc, Or.inl ?_⟩
            by_cases hdup : ob.inTrunk = true ∧ ob.height ≤ sh
            · simp [confirmTxs, hcb, hd, hex, hit, hob, hdup.1, hdup.2] at h
            · rw [hit] at h
              rw [confirmTxs] at h
              simp only [hcb, if_false, hd, hex, hob, Bool.not_true, Bool.false_eq_true,
                Bool.and_true, if_true] at h
              rw [if_neg (by simpa using hdup)] at h
              exact h
          | none =>
            cases hbl : kvGet db.blocksTable ((kvGet db.confirmedTable tx.txid).getD {}).blockid with
            | none =>
              refine ⟨obc, Or.inl ?_⟩
              simpa [confirmTxs, hcb, hd, hex, hit, hob, hbl] using h
            | some ob =>
              refine ⟨kvPut obc ob.blockid ob, Or.inl ?_⟩
              by_cases hdup : ob.inTrunk = true ∧ ob.height ≤ sh
              · simp [confirmTxs, hcb, hd, hex, hit, hob, hbl, hdup.1, hdup.2] at h
              · rw [hit] at h
                rw [confirmTxs] at h
                simp only [hcb, if_false, hd, hex, hob, hbl, Bool.not_true, Bool.false_eq_true,
                  Bool.and_true, if_true] at h
                rw [if_neg (by simpa using hdup)] at h
                exact h

/-- What a successful run of the transaction loop adds to the batch: puts of listed
transactions with their `txData` bytes, among them one for each transaction whose existence
probe was negative; and the block has at most one coinbase. -/
theorem confirmTxs_ok (db : DB) (inTrunk : Bool) (sh : Int) (txExist : Table Bool)
    (txData : Table Transaction) (txs : List Transaction) (cbNum : Nat)
    (obc : Table InternalBlock) (bw bw2 : Batch) (hcb0 : cbNum ≤ 1)
    (h : confirmTxs db inTrunk sh txExist txData txs cbNum obc bw = .ok bw2) :
    ∃ ext, bw2 = bw ++ ext ∧
      (∀ op ∈ ext, ∃ tx ∈ txs, ∃ d, kvGet txData tx.txid = some d ∧ op = BatchOp.putTx tx.txid d) ∧
      (∀ tx ∈ txs, (kvGet txExist tx.txid).getD false = false →
        ∃ d, kvGet txData tx.txid = some d ∧ BatchOp.putTx tx.txid d ∈ ext) ∧
      cbNum + coinbaseCount txs ≤ 1 := by
  induction txs generalizing cbNum obc bw with
  | nil =>
    simp only [confirmTxs, Except.ok.injEq] at h
    exact ⟨[], by simp [h], by simp, by simp, by simpa [coinbaseCount] using hcb0⟩
  | cons tx rest ih =>
    obtain ⟨hcb1, d, hd, obc2, hstep⟩ := confirmTxs_cons_ok _ _ _ _ _ _ _ _ _ _ _ h
    have hcc : cbNum + coinbaseCount (tx :: rest) =
        (if tx.coinbase then cbNum + 1 else cbNum) + coinbaseCount rest := by
      rw [coinbaseCount_cons]
      by_cases hc : tx.coinbase = true
      · simp only [hc, if_true]; omega
      · simp only [hc]; simp
    rcases hstep with hstep | ⟨hex, _, hstep⟩
    · obtain ⟨ext, he, hops, hfr, hc⟩ := ih _ _ _ hcb1 hstep
      refine ⟨BatchOp.putTx tx.txid d :: ext, by simp [he], ?_, ?_, by omega⟩
      · intro op hop
        rcases List.mem_cons.1 hop with e | e
        · exact ⟨tx, List.mem_cons_self _ _, d, hd, e⟩
        · obtain ⟨t, ht, d2, hd2, e2⟩ := hops op e
          exact ⟨t, List.mem_cons_of_mem _ ht, d2, hd2, e2⟩
      · intro t ht hf
        rcases List.mem_cons.1 ht with e | e
        · subst e
          exact ⟨d, hd, List.mem_cons_self _ _⟩
        · obtain ⟨d2, hd2, hm⟩ := hfr t e hf
          exact ⟨d2, hd2, List.mem_cons_of_mem _ hm⟩
    · obtain ⟨ext, he, hops, hfr, hc⟩ := ih _ _ _ hcb1 hstep
      refine ⟨ext, he, ?_, ?_, by omega⟩
      · intro op hop
        obtain ⟨t, ht, d2, hd2, e2⟩ := hops op hop
        exact ⟨t, List.mem_cons_of_mem _ ht, d2, hd2, e2⟩
      · intro t ht hf
        rcases List.mem_cons.1 ht with e | e
        · subst e
          rw [hex] at hf
          cases hf
        · exact hfr t e hf

/-! ## The commit tail, unfolded -/

theorem parallelCheckTx_congr (env : Env) (l l2 : Ledger) (txs : List Transaction)
    (block : InternalBlock) (h : l.db = l2.db) :
    parallelCheckTx env l txs block = parallelCheckTx env l2 txs block := by
  unfold parallelCheckTx
  rw [h]

theorem confirmCommit_eq (env : Env) (kvErr : Option LedgerError) (L : Ledger) (a : Addr)
    (txs : List Transaction) (newMeta : LedgerMeta) (sh : Int) (st : ConfirmStatus)
    (isRoot : Bool) (bw : Batch) :
    confirmCommit env kvErr L a txs newMeta sh st isRoot bw =
      match confirmTxs L.db (L.deref a).inTrunk sh
          (parallelCheckTx env L txs (L.deref a)).1 (parallelCheckTx env L txs (L.deref a)).2.1
          (txs.map (Transaction.setBlockid (L.deref a).blockid)) 0 []
          (bw ++ saveOps (L.deref a) ++
            branchOps (L.deref a).blockid (L.deref a).preHash (L.deref a).height) with
      | .error e => ({ st with succ := false, error := e }, (saveBlock L a bw).1)
      | .ok bw3 =>
        confirmFinish env kvErr (saveBlock L a bw).1 a
          (txs.map (Transaction.setBlockid (L.deref a).blockid)) newMeta st isRoot
          (bw3 ++ [BatchOp.delPending (L.deref a).blockid, BatchOp.putMeta newMeta]) := rfl

theorem confirmFinish_nonroot_ok (env : Env) (L : Ledger) (a : Addr) (txs1 : List Transaction)
    (newMeta : LedgerMeta) (st : ConfirmStatus) (bw4 : Batch) :
    confirmFinish env none L a txs1 newMeta st false bw4 =
      ({ st with succ := true },
        ((L.written bw4 newMeta).modify a (InternalBlock.setTransactions txs1)).setBlockCache
          (L.blockCache.Add
            (((L.written bw4 newMeta).modify a (InternalBlock.setTransactions txs1)).deref a).blockid
            a)) := rfl

theorem confirmFinish_nonroot_err (env : Env) (e : LedgerError) (L : Ledger) (a : Addr)
    (txs1 : List Transaction) (newMeta : LedgerMeta) (st : ConfirmStatus) (bw4 : Batch) :
    confirmFinish env (some e) L a txs1 newMeta st false bw4 =
      ({ st with succ := false, error := some e },
        (L.modify a (InternalBlock.setTransactions txs1)).setBlockCache
          (L.blockCache.Add
            ((L.modify a (InternalBlock.setTransactions txs1)).deref a).blockid a)) := rfl

/-- The Confirmed-Tx table after the puts of the transaction loop. -/
theorem applyBatch_txPuts_confirmed (txData : Table Transaction) (ext : Batch) (db : DB)
    (k : Bytes)
    (hops : ∀ op ∈ ext, ∃ k1 d, kvGet txData k1 = some d ∧ op = BatchOp.putTx k1 d) :
    ((∃ d, BatchOp.putTx k d ∈ ext) →
        kvGet (applyBatch db ext).confirmedTable k = kvGet txData k) ∧
      ((¬ ∃ d, BatchOp.putTx k d ∈ ext) →
        kvGet (applyBatch db ext).confirmedTable k = kvGet db.confirmedTable k) := by
  induction ext generalizing db with
  | nil =>
    refine ⟨?_, fun _ => rfl⟩
    rintro ⟨d, hd⟩
    cases hd
  | cons op rest ih =>
    obtain ⟨k1, d1, hd1, rfl⟩ := hops _ (List.mem_cons_self _ _)
    have ih2 := ih (applyOp db (BatchOp.putTx k1 d1))
      (fun o ho => hops o (List.mem_cons_of_mem _ ho))
    rw [applyBatch_cons]
    by_cases hr : ∃ d, BatchOp.putTx k d ∈ rest
    · refine ⟨fun _ => ih2.1 hr, fun hn => ?_⟩
      obtain ⟨d, hd⟩ := hr
      exact absurd ⟨d, List.mem_cons_of_mem _ hd⟩ hn
    · by_cases hk : k1 = k
      · subst hk
        refine ⟨fun _ => ?_, fun hn => ?_⟩
        · rw [ih2.2 hr, hd1]
          simp [applyOp, kvGet_kvPut_self]
        · exact absurd ⟨d1, List.mem_cons_self _ _⟩ hn
      · refine ⟨?_, fun _ => ?_⟩
        · rintro ⟨d, hd⟩
          rcases List.mem_cons.1 hd with e | e
          · injection e with e1 _
            exact absurd e1.symm hk
          · exact absurd ⟨d, e⟩ hr
        · rw [ih2.2 hr]
          simp [applyOp, kvGet_kvPut_ne _ _ _ _ (fun e : k = k1 => hk e.symm)]

/-- Every `txData` entry is one of the transactions as the workers left them: it carries the
id of the block being confirmed. -/
theorem parallelCheckTx_data_blockid (env : Env) (l : Ledger) (txs : List Transaction)
    (block : InternalBlock) (k : Bytes) (d : Transaction)
    (h : kvGet (parallelCheckTx env l txs block).2.1 k = some d) :
    d.txid = k ∧ d.blockid = block.blockid := by
  have h1 := mkTxData_get_some _ _ _ h
  obtain ⟨t, _, rfl⟩ := List.mem_map.1 h1.1
  exact ⟨h1.2, rfl⟩

/-- The existence probe of `parallelCheckTx` for a block that is not in the trunk. -/
theorem parallelCheckTx_exist_branch (env : Env) (l : Ledger) (txs : List Transaction)
    (block : InternalBlock) (hb : block.inTrunk = false) (tx : Transaction) (htx : tx ∈ txs) :
    (kvGet (parallelCheckTx env l txs block).1 tx.txid).getD false =
      kvHas l.db.confirmedTable tx.txid := by
  unfold parallelCheckTx
  simp only [hb, Bool.not_false, Bool.or_true, if_true]
  rw [mkTxExist_get, if_pos ⟨tx.setBlockid block.blockid, List.mem_map.2 ⟨tx, htx, rfl⟩, rfl⟩]
  rfl

/-- The existence probe of `parallelCheckTx` when transaction dedup is enabled. -/
theorem parallelCheckTx_exist_dedup (env : Env) (l : Ledger) (txs : List Transaction)
    (block : InternalBlock) (hd : env.DisableTxDedup = false) (tx : Transaction)
    (htx : tx ∈ txs) :
    (kvGet (parallelCheckTx env l txs block).1 tx.txid).getD false =
      kvHas l.db.confirmedTable tx.txid := by
  unfold parallelCheckTx
  simp only [hd, Bool.not_false, Bool.true_or, if_true]
  rw [mkTxExist_get, if_pos ⟨tx.setBlockid block.blockid, List.mem_map.2 ⟨tx, htx, rfl⟩, rfl⟩]
  rfl

/-- `IsTxInTrunk` for a confirmed transaction whose block is in the block cache. -/
theorem isTxInTrunk_of_cached (l : Ledger) (txid : Bytes) (d : Transaction) (a : Addr)
    (h1 : kvGet l.db.confirmedTable txid = some d)
    (h2 : kvGet l.blockCache.entries d.blockid = some a) :
    (IsTxInTrunk l txid).1 = (l.deref a).inTrunk := by
  unfold IsTxInTrunk LRUCache.Get
  simp [h1, h2]

/-! ## C3: fork without reorg -/

/-- C3 (fork without reorg), amended.  Let `B` be a block whose `pre_hash` names a header `P`
the engine fetches, with `P.id` different from the tip and `P.height + 1 <= trunk_height`.
If `ConfirmBlock(B, false)` returns `succ = true`, then the status is `split = true`,
`orphan = true`, `trunk_switch = false` with no error; the meta is unchanged; `B` is stored
with `in_trunk = false` and height `P.height + 1`; the Height Index is unchanged; every stored
header under an id other than `B.id` is unchanged; and `IsTxInTrunk` is false for every
transaction of `B` that had no confirmed entry before. -/
theorem confirmBlock_branch_extend (env : Env) (kvErr : Option LedgerError) (fuel : Nat)
    (l l2 : Ledger) (B P : InternalBlock) (st : ConfirmStatus)
    (hv : l.PtrsValid)
    (hP : headerAt l B.preHash = some P)
    (hPne : P.blockid ≠ l.meta.tipBlockid)
    (hh : P.height + 1 ≤ l.meta.trunkHeight)
    (hs : ConfirmBlock env kvErr fuel l B false = some (st, l2))
    (hsucc : st.succ = true) :
    st = { succ := true, split := true, orphan := true, trunkSwitch := false, error := none } ∧
    l2.meta = l.meta ∧
    kvGet l2.db.blocksTable B.blockid =
      some (((B.setTransactions []).setHeight (P.height + 1)).setInTrunk false) ∧
    l2.db.heightTable = l.db.heightTable ∧
    (∀ id, id ≠ B.blockid → kvGet l2.db.blocksTable id = kvGet l.db.blocksTable id) ∧
    (∀ tx ∈ B.transactions, kvGet l.db.confirmedTable tx.txid = none →
      (IsTxInTrunk l2 tx.txid).1 = false) := by
  have hv0 := ptrsValid_alloc l (B.setTransactions []) hv
  have ht0 : headerAt (l.alloc (B.setTransactions [])) B.preHash = some P := by
    rw [headerAt_alloc _ _ _ hv, hP]
  obtain ⟨pa, l1, hfetch, hf⟩ := fetchBlock_ok _ _ _ hv0 ht0
  obtain ⟨hne, hlt, hderef⟩ := fetchOk_alloc_ne l _ _ _ _ _ hv hf
  have hdp := hf.deref_pa
  have hdb : l1.db = l.db := hf.db_eq
  have hne2 : l.heap.length ≠ pa := fun e => hne e.symm
  have hgt : ¬ P.height + 1 > l.meta.trunkHeight := not_lt.2 hh
  have hA : ∀ (f g : InternalBlock → InternalBlock),
      ((l1.modify l.heap.length f).modify l.heap.length g).deref l.heap.length =
        g (f (B.setTransactions [])) := by
    intro f g
    rw [deref_modify_same _ _ _ (by simpa using hlt), deref_modify_same _ _ _ hlt, hderef]
  unfold ConfirmBlock at hs
  simp only [Bool.false_eq_true, if_false, hfetch, alloc_meta, deref_modify_ne _ _ _ _ hne2, hdp,
    hPne, hgt, Option.some.injEq] at hs
  rw [confirmCommit_eq] at hs
  simp only [hA, modify_db, hdb, setInTrunk_blockid, setHeight_blockid, setTransactions_blockid,
    setInTrunk_preHash, setHeight_preHash, setTransactions_preHash, setInTrunk_height,
    setHeight_height, setInTrunk_inTrunk, List.nil_append, saveBlock_eq] at hs
  have hBv : (((B.setTransactions []).setHeight (P.height + 1)).setInTrunk false).inTrunk = false :=
    rfl
  cases hloop : confirmTxs l.db false l.meta.trunkHeight
        (parallelCheckTx env
            ((l1.modify l.heap.length (InternalBlock.setHeight (P.height + 1))).modify l.heap.length
              (InternalBlock.setInTrunk false))
            B.transactions
            (((B.setTransactions []).setHeight (P.height + 1)).setInTrunk false)).1
        (parallelCheckTx env
              ((l1.modify l.heap.length (InternalBlock.setHeight (P.height + 1))).modify l.heap.length
                (InternalBlock.setInTrunk false))
              B.transactions
              (((B.setTransactions []).setHeight (P.height + 1)).setInTrunk false)).2.1
        (List.map (Transaction.setBlockid B.blockid) B.transactions) 0 []
        (saveOps (((B.setTransactions []).setHeight (P.height + 1)).setInTrunk false) ++
          branchOps B.blockid B.preHash (P.height + 1)) with
  | error e =>
    rw [hloop] at hs
    simp only [Prod.mk.injEq] at hs
    rw [← hs.1] at hsucc
    cases hsucc
  | ok bw3 =>
    rw [hloop] at hs
    dsimp only at hs
    cases kvErr with
    | some e =>
      rw [confirmFinish_nonroot_err] at hs
      simp only [Prod.mk.injEq] at hs
      rw [← hs.1] at hsucc
      cases hsucc
    | none =>
      rw [confirmFinish_nonroot_ok] at hs
      simp only [Prod.mk.injEq] at hs
      obtain ⟨hst, hl2⟩ := hs
      obtain ⟨ext, rfl, hops, hfr, _⟩ := confirmTxs_ok _ _ _ _ _ _ _ _ _ _ (Nat.zero_le 1) hloop
      have hext : ∀ op ∈ ext, BatchOp.isTxPut op = true := by
        intro op hop
        obtain ⟨_, _, _, _, rfl⟩ := hops op hop
        rfl
      have hdb2 : l2.db = applyBatch l.db
          (saveOps (((B.setTransactions []).setHeight (P.height + 1)).setInTrunk false) ++
            branchOps B.blockid B.preHash (P.height + 1) ++ ext ++
            [BatchOp.delPending B.blockid, BatchOp.putMeta l.meta]) := by
        rw [← hl2]
        simp [hdb]
      have hblocks : l2.db.blocksTable = kvPut l.db.blocksTable B.blockid
          (((B.setTransactions []).setHeight (P.height + 1)).setInTrunk false) := by
        rw [hdb2, applyBatch_append, (applyBatch_commitTail _ _ _).1, applyBatch_append,
          (applyBatch_txPuts _ _ hext).2.1, applyBatch_append, (applyBatch_branchOps _ _ _ _).1,
          (applyBatch_saveOps _ _).1]
        rfl
      refine ⟨hst.symm, ?_, ?_, ?_, ?_, ?_⟩
      · rw [← hl2]; rfl
      · rw [hblocks, kvGet_kvPut_self]
      · rw [hdb2, applyBatch_append, (applyBatch_commitTail _ _ _).2.1, applyBatch_append,
          (applyBatch_txPuts _ _ hext).2.2.1, applyBatch_append,
          (applyBatch_branchOps _ _ _ _).2.1, (applyBatch_saveOps _ _).2.1, if_neg (by simp)]
      · intro id hid
        rw [hblocks, kvGet_kvPut_ne _ _ _ _ hid]
      · intro tx htx hnone
        have hprobe := parallelCheckTx_exist_branch env
          ((l1.modify l.heap.length (InternalBlock.setHeight (P.height + 1))).modify l.heap.length
              (InternalBlock.setInTrunk false)) B.transactions
          (((B.setTransactions []).setHeight (P.height + 1)).setInTrunk false) rfl tx htx
        simp only [modify_db, hdb, kvHas, hnone, Option.isSome_none] at hprobe
        obtain ⟨d, hd, hmem⟩ := hfr (tx.setBlockid B.blockid)
          (List.mem_map.2 ⟨tx, htx, rfl⟩) hprobe
        rw [setBlockid_txid] at hd hmem
        have hdb3 := (parallelCheckTx_data_blockid _ _ _ _ _ _ hd).2
        rw [setInTrunk_blockid, setHeight_blockid, setTransactions_blockid] at hdb3
        have hconf : kvGet l2.db.confirmedTable tx.txid = some d := by
          rw [hdb2, applyBatch_append, (applyBatch_commitTail _ _ _).2.2.2.1, applyBatch_append,
            (applyBatch_txPuts_confirmed _ ext _ tx.txid
              (fun op hop => by
                obtain ⟨t, _, d2, hd2, e⟩ := hops op hop
                exact ⟨t.txid, d2, hd2, e⟩)).1 ⟨d, hmem⟩, hd]
        have hcache : kvGet l2.blockCache.entries d.blockid = some l.heap.length := by
          rw [← hl2, hdb3]
          simp only [setBlockCache_blockCache]
          rw [deref_modify_same _ _ _ (by simpa using hlt)]
          simp only [written_deref, setHeaderCache_deref, hA, setTransactions_blockid,
            setInTrunk_blockid, setHeight_blockid]
          exact lru_add_get_self _ _ _
        rw [isTxInTrunk_of_cached l2 tx.txid d l.heap.length hconf hcache, ← hl2]
        simp only [setBlockCache_deref]
        rw [deref_modify_same _ _ _ (by simpa using hlt)]
        simp only [written_deref, setHeaderCache_deref, hA]
        rfl

/-- Witness of C3 on the example chain: `F1` forks off the genesis block below the tip `A1`. -/
theorem confirmBlock_branch_extend_witness :
    Example.s3.meta = Example.s2.meta ∧
    kvGet Example.s3.db.blocksTable [3] =
      some (((Example.F1.setTransactions []).setHeight 1).setInTrunk false) ∧
    Example.s3.db.heightTable = Example.s2.db.heightTable ∧
    (IsTxInTrunk Example.s3 [102]).1 = false :=
  have h := confirmBlock_branch_extend Example.env none 8 Example.s2 Example.s3 Example.F1
    ((((Example.G.setTransactions [Example.cbTx.setBlockid [1]]).setInTrunk true).setHeight
      0).setNextHash [2])
    { succ := true, split := true, orphan := true, trunkSwitch := false, error := none }
    (by unfold Ledger.PtrsValid; decide) (by decide) (by decide) (by decide) (by decide) rfl
  ⟨h.2.1, h.2.2.1, h.2.2.2.1, h.2.2.2.2.2 Example.T2 (by decide) (by decide)⟩

/-- Counterexample to C3 as stated: on the trunk `G <- A1` the stored block `A1` is confirmed
once more.  Its predecessor `G` is stored, is not the tip, and `G.height + 1 <= trunk_height`,
the call succeeds as a fork without reorg, and the stored header of `A1`, which had
`in_trunk = true`, now has `in_trunk = false`: a previously stored header has changed. -/
theorem confirmBlock_branch_overwrites_stored :
    (headerAt Example.s2 Example.A1.preHash).map (fun P => (P.blockid, P.height)) = some ([1], 0) ∧
    Example.s2.meta.tipBlockid = [2] ∧ Example.s2.meta.trunkHeight = 1 ∧
    (kvGet Example.s2.db.blocksTable [2]).map (fun b => b.inTrunk) = some true ∧
    (ConfirmBlock Example.env none 0 Example.s2 Example.A1 false).map (fun r => r.1) =
      some { succ := true, split := true, orphan := true, trunkSwitch := false, error := none } ∧
    (ConfirmBlock Example.env none 0 Example.s2 Example.A1 false).map
        (fun r => (kvGet r.2.db.blocksTable [2]).map (fun b => b.inTrunk)) = some (some false) := by
  decide

/-! ## C5: rejection of a root block -/

/-- C5 (root rejection), amended.  If `ConfirmBlock(B, true)` is called and `B.pre_hash` is
non-empty or the ledger already has a root, the call returns `succ = false` and leaves the
store and the meta as they were.  The error is `ErrRootBlockAlreadyExist` when `B.pre_hash` is
empty; when `B.pre_hash` is non-empty the `pre_hash` check comes first and the status is
returned with no error value. -/
theorem confirmBlock_root_rejected (env : Env) (kvErr : Option LedgerError) (fuel : Nat)
    (l : Ledger) (B : InternalBlock)
    (h : B.preHash ≠ [] ∨ l.meta.rootBlockid ≠ []) :
    ∃ st l2, ConfirmBlock env kvErr fuel l B true = some (st, l2) ∧
      st.succ = false ∧ st.split = false ∧ st.orphan = false ∧ st.trunkSwitch = false ∧
      (B.preHash = [] → st.error = some LedgerError.ErrRootBlockAlreadyExist) ∧
      (B.preHash ≠ [] → st.error = none) ∧
      l2.db = l.db ∧ l2.meta = l.meta := by
  by_cases hp : B.preHash = []
  · have hr : l.meta.rootBlockid ≠ [] := by
      rcases h with h | h
      · exact absurd hp h
      · exact h
    have hr2 : l.meta.rootBlockid.length > 0 := List.length_pos.2 hr
    refine ⟨{ succ := false, error := some .ErrRootBlockAlreadyExist },
      l.alloc (B.setTransactions []), ?_, rfl, rfl, rfl, rfl, fun _ => rfl,
      fun hn => absurd hp hn, rfl, rfl⟩
    unfold ConfirmBlock
    simp [hp, hr2]
  · have hp2 : B.preHash.length > 0 := List.length_pos.2 hp
    refine ⟨{ succ := false }, l.alloc (B.setTransactions []), ?_, rfl, rfl, rfl, rfl,
      fun hn => absurd hn hp, fun _ => rfl, rfl, rfl⟩
    unfold ConfirmBlock
    simp [hp2]

/-- Witness of C5: a second root block offered to the genesis ledger of the example chain. -/
theorem confirmBlock_root_rejected_witness :
    ∃ st l2, ConfirmBlock Example.env none 0 Example.s1 Example.G true = some (st, l2) ∧
      st.succ = false ∧ st.split = false ∧ st.orphan = false ∧ st.trunkSwitch = false ∧
      (Example.G.preHash = [] → st.error = some LedgerError.ErrRootBlockAlreadyExist) ∧
      (Example.G.preHash ≠ [] → st.error = none) ∧
      l2.db = Example.s1.db ∧ l2.meta = Example.s1.meta :=
  confirmBlock_root_rejected Example.env none 0 Example.s1 Example.G (Or.inr (by decide))

/-- Counterexample to C5 as stated: a root block with a non-empty `pre_hash`, offered to the
empty ledger, is rejected with `succ = false` but the error is nil, not
`ErrRootBlockAlreadyExist`. -/
theorem confirmBlock_root_prehash_no_error :
    (ConfirmBlock Example.env none 0 {} { blockid := [1], preHash := [9] } true).map
        (fun r => r.1) =
      some { succ := false, split := false, orphan := false, trunkSwitch := false,
             error := none } := by
  decide

/-- One round of the transaction loop that fails: by the coinbase counter or missing bytes
(nil error), by a duplicated transaction, or later in the loop. -/
theorem confirmTxs_cons_err (db : DB) (inTrunk : Bool) (sh : Int) (txExist : Table Bool)
    (txData : Table Transaction) (tx : Transaction) (rest : List Transaction) (cbNum : Nat)
    (obc : Table InternalBlock) (bw : Batch) (e : Option LedgerError)
    (h : confirmTxs db inTrunk sh txExist txData (tx :: rest) cbNum obc bw = .error e) :
    ((if tx.coinbase then cbNum + 1 else cbNum) > 1 ∧ e = none) ∨
    (kvGet txData tx.txid = none ∧ e = none) ∨
    (e = some LedgerError.ErrTxDuplicated) ∨
    ((if tx.coinbase then cbNum + 1 else cbNum) ≤ 1 ∧ ∃ obc2 bw2,
      confirmTxs db inTrunk sh txExist txData rest (if tx.coinbase then cbNum + 1 else cbNum)
        obc2 bw2 = .error e) := by
  by_cases hcb : (if tx.coinbase = true then cbNum + 1 else cbNum) > 1
  · left
    refine ⟨hcb, ?_⟩
    simp [confirmTxs, hcb] at h
    exact h.symm
  · right
    cases hd : kvGet txData tx.txid with
    | none =>
      left
      refine ⟨rfl, ?_⟩
      simp [confirmTxs, hcb, hd] at h
      exact h.symm
    | some d =>
      right
      have hle : (if tx.coinbase = true then cbNum + 1 else cbNum) ≤ 1 := by omega
      cases hex : (kvGet txExist tx.txid).getD false with
      | false =>
        right
        refine ⟨hle, obc, bw ++ [BatchOp.putTx tx.txid d], ?_⟩
        simpa [confirmTxs, hcb, hd, hex] using h
      | true =>
        cases hob : kvGet obc ((kvGet db.confirmedTable tx.txid).getD {}).blockid with
        | some ob =>
          by_cases hdup : (ob.inTrunk && inTrunk && decide (ob.height ≤ sh)) = true
          · left
            rw [confirmTxs] at h
            simp only [hcb, if_false, hd, hex, hob, Bool.not_true, Bool.false_eq_true, hdup,
              if_true, Except.error.injEq] at h
            exact h.symm
          · right
            rw [confirmTxs] at h
            simp only [hcb, if_false, hd, hex, hob, Bool.not_true, Bool.false_eq_true, hdup]
              at h
            by_cases hit : inTrunk = true
            · rw [if_pos hit] at h
              exact ⟨hle, _, _, h⟩
            · rw [if_neg hit] at h
              exact ⟨hle, _, _, h⟩
        | none =>
          cases hbl : kvGet db.blocksTable ((kvGet db.confirmedTable tx.txid).getD {}).blockid with
          | none =>
            right
            refine ⟨hle, obc, bw ++ [BatchOp.putTx tx.txid d], ?_⟩
            simpa [confirmTxs, hcb, hd, hex, hob, hbl] using h
          | some ob =>
            by_cases hdup : (ob.inTrunk && inTrunk && decide (ob.height ≤ sh)) = true
            · left
              rw [confirmTxs] at h
              simp only [hcb, if_false, hd, hex, hob, hbl, Bool.not_true, Bool.false_eq_true,
                hdup, if_true, Except.error.injEq] at h
              exact h.symm
            · right
              rw [confirmTxs] at h
              simp only [hcb, if_false, hd, hex, hob, hbl, Bool.not_true, Bool.false_eq_true,
                hdup] at h
              by_cases hit : inTrunk = true
              · rw [if_pos hit] at h
                exact ⟨hle, _, _, h⟩
              · rw [if_neg hit] at h
                exact ⟨hle, _, _, h⟩

/-- A transaction loop that ends with a nil error met a second coinbase transaction (every
transaction having its `txData` bytes). -/
theorem confirmTxs_err_none (db : DB) (inTrunk : Bool) (sh : Int) (txExist : Table Bool)
    (txData : Table Transaction) (txs : List Transaction) (cbNum : Nat)
    (obc : Table InternalBlock) (bw : Batch)
    (hdata : ∀ tx ∈ txs, ∃ d, kvGet txData tx.txid = some d)
    (h : confirmTxs db inTrunk sh txExist txData txs cbNum obc bw = .error none) :
    cbNum + coinbaseCount txs > 1 := by
  induction txs generalizing cbNum obc bw with
  | nil => simp [confirmTxs] at h
  | cons tx rest ih =>
    have hcc : cbNum + coinbaseCount (tx :: rest) =
        (if tx.coinbase then cbNum + 1 else cbNum) + coinbaseCount rest := by
      rw [coinbaseCount_cons]
      by_cases hc : tx.coinbase = true
      · simp only [hc, if_true]; omega
      · simp only [hc]; simp
    rcases confirmTxs_cons_err _ _ _ _ _ _ _ _ _ _ _ h with ⟨h1, _⟩ | ⟨h1, _⟩ | h1 | ⟨_, o2, b2, h1⟩
    · omega
    · obtain ⟨d, hd⟩ := hdata tx (List.mem_cons_self _ _)
      rw [hd] at h1
      cases h1
    · cases h1
    · have := ih _ _ _ (fun t ht => hdata t (List.mem_cons_of_mem _ ht)) h1
      omega

/-- The error of a failed transaction loop is nil or `ErrTxDuplicated`. -/
theorem confirmTxs_err_kind (db : DB) (inTrunk : Bool) (sh : Int) (txExist : Table Bool)
    (txData : Table Transaction) (txs : List Transaction) (cbNum : Nat)
    (obc : Table InternalBlock) (bw : Batch) (e : Option LedgerError)
    (h : confirmTxs db inTrunk sh txExist txData txs cbNum obc bw = .error e) :
    e = none ∨ e = some LedgerError.ErrTxDuplicated := by
  induction txs generalizing cbNum obc bw with
  | nil => simp [confirmTxs] at h
  | cons tx rest ih =>
    rcases confirmTxs_cons_err _ _ _ _ _ _ _ _ _ _ _ h with ⟨_, h1⟩ | ⟨_, h1⟩ | h1 | ⟨_, o2, b2, h1⟩
    · exact Or.inl h1
    · exact Or.inl h1
    · exact Or.inr h1
    · exact ih _ _ _ h1

/-- After the batch write a failure always carries an error value. -/
theorem confirmFinish_fail_error (env : Env) (kvErr : Option LedgerError) (L : Ledger)
    (a : Addr) (txs1 : List Transaction) (newMeta : LedgerMeta) (st : ConfirmStatus)
    (isRoot : Bool) (bw4 : Batch)
    (h : (confirmFinish env kvErr L a txs1 newMeta st isRoot bw4).1.succ = false) :
    (confirmFinish env kvErr L a txs1 newMeta st isRoot bw4).1.error ≠ none := by
  unfold confirmFinish at h ⊢
  cases kvErr with
  | some e =>
    cases isRoot with
    | false => simp
    | true =>
      simp only [if_true] at h ⊢
      split <;> simp
  | none =>
    cases isRoot with
    | false => simp at h
    | true =>
      simp only [if_true] at h ⊢
      split
      · simp
      · rename_i gb hg
        rw [hg] at h
        simp at h

theorem mkTxData_map_has (txs : List Transaction) (id : Bytes) :
    ∀ tx ∈ txs.map (Transaction.setBlockid id),
      ∃ d, kvGet (mkTxData (txs.map (Transaction.setBlockid id))) tx.txid = some d := by
  intro tx htx
  obtain ⟨d, _, _, hd⟩ := mkTxData_get_mem _ tx htx
  exact ⟨d, hd⟩

/-- A commit tail that fails with a nil error met a second coinbase transaction. -/
theorem confirmCommit_nil_error (env : Env) (kvErr : Option LedgerError) (L : Ledger)
    (a : Addr) (txs : List Transaction) (newMeta : LedgerMeta) (sh : Int) (st : ConfirmStatus)
    (isRoot : Bool) (bw : Batch)
    (hf : (confirmCommit env kvErr L a txs newMeta sh st isRoot bw).1.succ = false)
    (he : (confirmCommit env kvErr L a txs newMeta sh st isRoot bw).1.error = none) :
    coinbaseCount txs > 1 := by
  rw [confirmCommit_eq] at hf he
  cases hloop : confirmTxs L.db (L.deref a).inTrunk sh
      (parallelCheckTx env L txs (L.deref a)).1 (parallelCheckTx env L txs (L.deref a)).2.1
      (txs.map (Transaction.setBlockid (L.deref a).blockid)) 0 []
      (bw ++ saveOps (L.deref a) ++
        branchOps (L.deref a).blockid (L.deref a).preHash (L.deref a).height) with
  | error e =>
    rw [hloop] at he
    dsimp only at he
    subst he
    have h1 := confirmTxs_err_none _ _ _ _ _ _ _ _ _ (mkTxData_map_has txs _) hloop
    rw [coinbaseCount_map_blockid] at h1
    omega
  | ok bw3 =>
    rw [hloop] at hf he
    dsimp only at hf he
    exact absurd he (confirmFinish_fail_error _ _ _ _ _ _ _ _ _ hf)

/-! ## C7: a failure that is reported after the commit -/

/-- C7 (atomic failure) at its failing input: a root block without a coinbase transaction,
offered to the empty ledger.  The batch is written and the meta swapped, then the reload of the
genesis configuration fails and the status is turned into `succ = false`: the call reports a
failure although the Meta record, the Blocks table, the Height Index and the in-memory meta
have all changed. -/
theorem confirmBlock_root_fails_after_commit :
    (ConfirmBlock Example.env none 0 {} Example.emptyRoot true).map (fun r => r.1) =
      some { succ := false, split := false, orphan := false, trunkSwitch := false,
             error := some LedgerError.coinbaseNotFound } ∧
    (ConfirmBlock Example.env none 0 {} Example.emptyRoot true).map (fun r => r.2.meta) =
      some { rootBlockid := [1], tipBlockid := [1], trunkHeight := 0 } ∧
    (ConfirmBlock Example.env none 0 {} Example.emptyRoot true).map
        (fun r => kvGet r.2.db.metaTable []) =
      some (some { rootBlockid := [1], tipBlockid := [1], trunkHeight := 0 }) ∧
    (ConfirmBlock Example.env none 0 {} Example.emptyRoot true).map
        (fun r => (kvGet r.2.db.blocksTable [1]).isSome) = some true ∧
    (ConfirmBlock Example.env none 0 {} Example.emptyRoot true).map
        (fun r => kvGet r.2.db.heightTable (heightKey 0)) = some (some [1]) ∧
    (({} : Ledger).meta = {} ∧ ({} : Ledger).db = {}) := by
  decide

/-! ## C8: a failed confirm seen by readers -/

/-- C8 (a failed confirm is invisible to readers) at its failing inputs, on the trunk
`G <- A1`.  A block on top of `A1` that repeats `T1` is rejected with `ErrTxDuplicated`; before
the call `QueryBlockHeader` does not find the block and returns the tip header with an empty
`next_hash`, after the call it returns the rejected block, and the tip header names it as
`next_hash`.  A new block whose batch write fails is rejected with the write error, and
`QueryBlock` returns it afterwards. -/
theorem confirmBlock_failure_visible :
    (ConfirmBlock Example.env none 0 Example.s2 Example.dupBlock false).map (fun r => r.1) =
      some { succ := false, split := false, orphan := false, trunkSwitch := false,
             error := some LedgerError.ErrTxDuplicated } ∧
    headerResult Example.s2 [9] = .error LedgerError.ErrKVNotFound ∧
    (ConfirmBlock Example.env none 0 Example.s2 Example.dupBlock false).map
        (fun r => (headerResult r.2 [9]).toOption.map (fun b => b.blockid)) = some (some [9]) ∧
    (headerResult Example.s2 [2]).toOption.map (fun b => b.nextHash) = some [] ∧
    (ConfirmBlock Example.env none 0 Example.s2 Example.dupBlock false).map
        (fun r => (headerResult r.2 [2]).toOption.map (fun b => b.nextHash)) = some (some [9]) ∧
    (ConfirmBlock Example.env (some LedgerError.kvWriteFailed) 0 Example.s2 Example.A2 false).map
        (fun r => r.1) =
      some { succ := false, split := false, orphan := false, trunkSwitch := false,
             error := some LedgerError.kvWriteFailed } ∧
    blockResult Example.s2 [5] = .error LedgerError.ErrBlockNotExist ∧
    (ConfirmBlock Example.env (some LedgerError.kvWriteFailed) 0 Example.s2 Example.A2 false).map
        (fun r => (blockResult r.2 [5]).toOption.map (fun b => b.blockid)) = some (some [5]) := by
  decide

/-! ## C10: the coinbase reward check -/

/-- C10 (coinbase reward sanity) at its failing inputs, on the genesis ledger.  `IsValidTx`
rejects a coinbase without outputs and a coinbase whose first output differs from
`CalcAward`, but `ConfirmBlock` never calls it: both blocks are confirmed with `succ = true`
and become the tip. -/
theorem confirmBlock_accepts_bad_award :
    IsValidTx Example.env Example.s1 0 Example.cbNoOutputs
      ((Example.badAward1.setHeight 1).setInTrunk true) = some false ∧
    IsValidTx Example.env Example.s1 0 Example.cbWrongAmount
      ((Example.badAward2.setHeight 1).setInTrunk true) = some false ∧
    (ConfirmBlock Example.env none 0 Example.s1 Example.badAward1 false).map
        (fun r => (r.1, r.2.meta.tipBlockid)) =
      some ({ succ := true, split := false, orphan := false, trunkSwitch := false,
              error := none }, [6]) ∧
    (ConfirmBlock Example.env none 0 Example.s1 Example.badAward2 false).map
        (fun r => (r.1, r.2.meta.tipBlockid)) =
      some ({ succ := true, split := false, orphan := false, trunkSwitch := false,
              error := none }, [7]) := by
  decide

/-! ## Reading a body back -/

theorem loadBody_ok (table : Table Transaction) (txs : List Transaction)
    (h : ∀ tx ∈ txs, kvGet table tx.txid = some tx) :
    loadBody table (txs.map (fun tx => tx.txid)) = .ok txs := by
  induction txs with
  | nil => rfl
  | cons tx rest ih =>
    rw [List.map_cons, loadBody, h tx (List.mem_cons_self _ _)]
    simp only
    rw [ih (fun t ht => h t (List.mem_cons_of_mem _ ht))]

theorem mkTxData_nodup (txs : List Transaction) (hn : (txs.map (fun tx => tx.txid)).Nodup)
    (tx : Transaction) (h : tx ∈ txs) : kvGet (mkTxData txs) tx.txid = some tx := by
  obtain ⟨d, hd, hid, hg⟩ := mkTxData_get_mem txs tx h
  have : d = tx := List.inj_on_of_nodup_map hn hd h hid
  rw [hg, this]

theorem map_txid_setBlockid (txs : List Transaction) (id : Bytes) :
    (txs.map (Transaction.setBlockid id)).map (fun tx => tx.txid) =
      txs.map (fun tx => tx.txid) := by
  rw [List.map_map]
  rfl

/-- The Confirmed-Tx table after the commit of a block whose transactions have distinct ids and
no earlier entry: each id maps to the transaction as confirmed. -/
theorem confirmed_after_fresh (env : Env) (L : Ledger) (txs : List Transaction)
    (block : InternalBlock) (db : DB)
    (hn : (txs.map (fun tx => tx.txid)).Nodup) :
    ∀ tx ∈ txs.map (Transaction.setBlockid block.blockid),
      kvGet (applyBatch db
        ((txs.map (Transaction.setBlockid block.blockid)).map (fun tx => BatchOp.putTx tx.txid
          ((kvGet (parallelCheckTx env L txs block).2.1 tx.txid).getD default)))).confirmedTable
        tx.txid = some tx := by
  intro tx htx
  have hn1 : ((txs.map (Transaction.setBlockid block.blockid)).map (fun tx => tx.txid)).Nodup := by
    rw [map_txid_setBlockid]; exact hn
  have hd : ∀ t ∈ txs.map (Transaction.setBlockid block.blockid),
      kvGet (parallelCheckTx env L txs block).2.1 t.txid = some t :=
    fun t ht => mkTxData_nodup _ hn1 t ht
  have h1 := (applyBatch_txPuts_confirmed (parallelCheckTx env L txs block).2.1
    ((txs.map (Transaction.setBlockid block.blockid)).map (fun tx => BatchOp.putTx tx.txid
      ((kvGet (parallelCheckTx env L txs block).2.1 tx.txid).getD default))) db tx.txid
    (by
      intro op hop
      obtain ⟨t, ht, rfl⟩ := List.mem_map.1 hop
      exact ⟨t.txid, t, hd t ht, by rw [hd t ht]; rfl⟩)).1
    ⟨tx, List.mem_map.2 ⟨tx, htx, by rw [hd tx htx]; rfl⟩⟩
  rw [h1, hd tx htx]

theorem find_coinbase_map (txs : List Transaction) (id : Bytes) :
    (txs.map (Transaction.setBlockid id)).find? (fun tx => tx.coinbase) =
      (txs.find? (fun tx => tx.coinbase)).map (Transaction.setBlockid id) := by
  induction txs with
  | nil => rfl
  | cons tx rest ih =>
    rw [List.map_cons, List.find?_cons, List.find?_cons, setBlockid_coinbase]
    cases tx.coinbase with
    | true => rfl
    | false => exact ih

theorem find_coinbase_of_count (txs : List Transaction) (h : coinbaseCount txs ≥ 1) :
    ∃ c, txs.find? (fun tx => tx.coinbase) = some c ∧ c ∈ txs ∧ c.coinbase = true := by
  induction txs with
  | nil => simp [coinbaseCount] at h
  | cons tx rest ih =>
    by_cases hc : tx.coinbase = true
    · exact ⟨tx, by simp [List.find?_cons, hc], List.mem_cons_self _ _, hc⟩
    · rw [coinbaseCount_cons] at h
      simp only [hc, Bool.false_eq_true, if_false, Nat.zero_add] at h
      obtain ⟨c, h1, h2, h3⟩ := ih h
      refine ⟨c, ?_, List.mem_cons_of_mem _ h2, h3⟩
      simp [List.find?_cons, hc, h1]

theorem confirmFinish_root_ok (env : Env) (L : Ledger) (a : Addr) (txs1 : List Transaction)
    (newMeta : LedgerMeta) (st : ConfirmStatus) (bw4 : Batch) (gb : GenesisBlock)
    (hg : loadGenesisBlock env
      ((L.written bw4 newMeta).modify a (InternalBlock.setTransactions txs1)) = .ok gb) :
    confirmFinish env none L a txs1 newMeta st true bw4 =
      ({ st with succ := true },
        (((L.written bw4 newMeta).modify a (InternalBlock.setTransactions txs1)).setGenesisBlock
          gb).setBlockCache
          (L.blockCache.Add
            (((L.written bw4 newMeta).modify a (InternalBlock.setTransactions txs1)).deref a).blockid
            a)) := by
  unfold confirmFinish
  simp only [if_true, hg]
  rfl

theorem blockByHeightResult_cached (l : Ledger) (h : Int) (id : Bytes) (a : Addr)
    (h1 : kvGet l.db.heightTable (heightKey h) = some id)
    (h2 : kvGet l.blockCache.entries id = some a) :
    blockByHeightResult l h = .ok (l.deref a) := by
  unfold blockByHeightResult QueryBlockByHeight QueryBlock LRUCache.Get
  simp [h1, h2]

/-! ## C4: genesis -/

/-- The genesis block, for `ConfirmBlock` without failures of marshalling.  On a ledger whose
`root_block_id` is empty, let `B0` be a block
with empty `pre_hash` and a non-empty id, holding exactly one coinbase transaction whose `desc` is a
loadable genesis configuration, whose first `tx_count` merkle leaves are the (distinct) ids of
its transactions, none of which has a confirmed entry.  Then `ConfirmBlock(B0, true)` with a
successful batch write returns `succ = true`; `GetMeta` returns
`{root = B0.id, tip = B0.id, trunk_height = 0}`; `B0` is stored with height 0 and
`in_trunk = true`; and `QueryBlockByHeight(0)` returns `B0` (with the height and `in_trunk`
the engine assigned and every transaction pointing at `B0.id`). -/
theorem confirmBlock_genesis (env : Env) (fuel : Nat) (l : Ledger) (B0 : InternalBlock)
    (gb : GenesisBlock)
    (hroot : l.meta.rootBlockid = [])
    (hpre : B0.preHash = [])
    (hid : B0.blockid ≠ [])
    (hcb : coinbaseCount B0.transactions = 1)
    (hcfg : ∀ tx ∈ B0.transactions, tx.coinbase = true → env.NewGenesisBlock tx.desc = .ok gb)
    (htc : 0 ≤ B0.txCount ∧ B0.txCount ≤ (B0.merkleTree.length : Int))
    (hleaves : B0.merkleTree.take B0.txCount.toNat = B0.transactions.map (fun tx => tx.txid))
    (hnodup : (B0.transactions.map (fun tx => tx.txid)).Nodup)
    (hfresh : ∀ tx ∈ B0.transactions, kvGet l.db.confirmedTable tx.txid = none) :
    ∃ l2, ConfirmBlock env none fuel l B0 true =
        some ({ succ := true, split := false, orphan := false, trunkSwitch := false,
                error := none }, l2) ∧
      GetMeta l2 = { rootBlockid := B0.blockid, tipBlockid := B0.blockid, trunkHeight := 0 } ∧
      kvGet l2.db.blocksTable B0.blockid =
        some (((B0.setTransactions []).setInTrunk true).setHeight 0) ∧
      blockByHeightResult l2 0 =
        .ok (((B0.setTransactions (B0.transactions.map (Transaction.setBlockid B0.blockid))).setInTrunk
          true).setHeight 0) := by
  have hlt : l.heap.length < (l.alloc (B0.setTransactions [])).heap.length := by
    rw [alloc_heap_length]; exact Nat.lt_succ_self _
  have hA : ∀ (f g : InternalBlock → InternalBlock),
      (((l.alloc (B0.setTransactions [])).modify l.heap.length f).modify l.heap.length g).deref
        l.heap.length = g (f (B0.setTransactions [])) := by
    intro f g
    rw [deref_modify_same _ _ _ (by simp), deref_modify_same _ _ _ hlt,
      deref_alloc_new]
  have hp0 : ¬ B0.preHash.length > 0 := by rw [hpre]; simp
  have hr0 : ¬ l.meta.rootBlockid.length > 0 := by rw [hroot]; simp
  unfold ConfirmBlock
  simp only [if_true, hp0, hr0, if_false, alloc_meta]
  rw [confirmCommit_eq]
  simp only [hA, modify_db, alloc_db, setInTrunk_blockid, setHeight_blockid,
    setTransactions_blockid, setInTrunk_preHash, setHeight_preHash, setTransactions_preHash,
    setHeight_height, setHeight_inTrunk, setInTrunk_inTrunk, List.nil_append, saveBlock_eq]
  generalize hL1 : ((l.alloc (B0.setTransactions [])).modify l.heap.length
      (InternalBlock.setInTrunk true)).modify l.heap.length (InternalBlock.setHeight 0) = L1
  have hL1db : L1.db = l.db := by rw [← hL1]; rfl
  have hL1bc : L1.blockCache = l.blockCache := by rw [← hL1]; rfl
  have hL1len : l.heap.length < L1.heap.length := by
    rw [← hL1]; simp
  have hL1d : L1.deref l.heap.length =
      ((B0.setTransactions []).setInTrunk true).setHeight 0 := by
    rw [← hL1]; exact hA _ _
  obtain ⟨hp2, hp3⟩ := parallelCheckTx_fresh env L1 B0.transactions
    (((B0.setTransactions []).setInTrunk true).setHeight 0) (by rw [hL1db]; exact hfresh)
  have hcb2 : 0 + coinbaseCount (parallelCheckTx env L1 B0.transactions
      (((B0.setTransactions []).setInTrunk true).setHeight 0)).2.2 ≤ 1 := by
    rw [parallelCheckTx_txs, coinbaseCount_map_blockid]; omega
  have hloop := confirmTxs_fresh l.db true l.meta.trunkHeight _ _ _ 0 []
    (saveOps (((B0.setTransactions []).setInTrunk true).setHeight 0) ++
      branchOps B0.blockid B0.preHash 0) hp2 hp3 hcb2
  rw [parallelCheckTx_txs] at hloop
  simp only [setInTrunk_blockid, setHeight_blockid, setTransactions_blockid] at hloop
  rw [hloop]
  dsimp only
  have hext := isTxPut_map (fun tx => (kvGet (parallelCheckTx env L1 B0.transactions
      (((B0.setTransactions []).setInTrunk true).setHeight 0)).2.1 tx.txid).getD default)
      (List.map (Transaction.setBlockid B0.blockid) B0.transactions)
  have hconf := confirmed_after_fresh env L1 B0.transactions
    (((B0.setTransactions []).setInTrunk true).setHeight 0)
    (applyBatch l.db (saveOps (((B0.setTransactions []).setInTrunk true).setHeight 0) ++
      branchOps B0.blockid B0.preHash 0)) hnodup
  simp only [setInTrunk_blockid, setHeight_blockid, setTransactions_blockid] at hconf
  generalize hextd : List.map (fun tx => BatchOp.putTx tx.txid
      ((kvGet (parallelCheckTx env L1 B0.transactions
        (((B0.setTransactions []).setInTrunk true).setHeight 0)).2.1 tx.txid).getD default))
      (List.map (Transaction.setBlockid B0.blockid) B0.transactions) = ext at hext hconf ⊢
  generalize hbw : saveOps (((B0.setTransactions []).setInTrunk true).setHeight 0) ++
      branchOps B0.blockid B0.preHash 0 ++ ext ++
      [BatchOp.delPending B0.blockid,
        BatchOp.putMeta { rootBlockid := B0.blockid, tipBlockid := B0.blockid, trunkHeight := 0 }]
      = bw4
  have hblocks : (applyBatch l.db bw4).blocksTable = kvPut l.db.blocksTable B0.blockid
      (((B0.setTransactions []).setInTrunk true).setHeight 0) := by
    rw [← hbw, applyBatch_append, (applyBatch_commitTail _ _ _).1, applyBatch_append,
      (applyBatch_txPuts _ _ hext).2.1, applyBatch_append, (applyBatch_branchOps _ _ _ _).1,
      (applyBatch_saveOps _ _).1]
    rfl
  have hheight : (applyBatch l.db bw4).heightTable =
      kvPut l.db.heightTable (heightKey 0) B0.blockid := by
    rw [← hbw, applyBatch_append, (applyBatch_commitTail _ _ _).2.1, applyBatch_append,
      (applyBatch_txPuts _ _ hext).2.2.1, applyBatch_append, (applyBatch_branchOps _ _ _ _).2.1,
      (applyBatch_saveOps _ _).2.1]
    rfl
  have hconf2 : ∀ tx ∈ List.map (Transaction.setBlockid B0.blockid) B0.transactions,
      kvGet (applyBatch l.db bw4).confirmedTable tx.txid = some tx := by
    intro tx htx
    rw [← hbw, applyBatch_append, (applyBatch_commitTail _ _ _).2.2.2.1, applyBatch_append]
    exact hconf tx htx
  obtain ⟨c, hfind, hcm, hcc⟩ := find_coinbase_of_count B0.transactions (by omega)
  have hgen : loadGenesisBlock env
      (((L1.setHeaderCache (L1.blkHeaderCache.Add B0.blockid l.heap.length)).written bw4
        { rootBlockid := B0.blockid, tipBlockid := B0.blockid, trunkHeight := 0 }).modify
        l.heap.length (InternalBlock.setTransactions
          (List.map (Transaction.setBlockid B0.blockid) B0.transactions))) = .ok gb := by
    unfold loadGenesisBlock queryBlock
    simp only [modify_meta, written_meta, modify_db, written_db, setHeaderCache_db, hL1db,
      hblocks, kvGet_kvPut_self, if_true]
    rw [if_neg (by simp [hid])]
    have htc2 : 0 ≤ (((B0.setTransactions []).setInTrunk true).setHeight 0).txCount ∧
        (((B0.setTransactions []).setInTrunk true).setHeight 0).txCount ≤
          ((((B0.setTransactions []).setInTrunk true).setHeight 0).merkleTree.length : Int) := htc
    rw [if_pos htc2]
    have hbody : loadBody (applyBatch l.db bw4).confirmedTable
        (List.take (((B0.setTransactions []).setInTrunk true).setHeight 0).txCount.toNat
          (((B0.setTransactions []).setInTrunk true).setHeight 0).merkleTree) =
        .ok (List.map (Transaction.setBlockid B0.blockid) B0.transactions) := by
      have e1 : List.take (((B0.setTransactions []).setInTrunk true).setHeight 0).txCount.toNat
          (((B0.setTransactions []).setInTrunk true).setHeight 0).merkleTree =
          (List.map (Transaction.setBlockid B0.blockid) B0.transactions).map (fun tx => tx.txid) := by
        rw [map_txid_setBlockid]; exact hleaves
      rw [e1]
      exact loadBody_ok _ _ hconf2
    rw [hbody]
    simp only [setTransactions_transactions, find_coinbase_map, hfind, Option.map_some']
    rw [setBlockid_desc]
    exact hcfg c hcm hcc
  rw [confirmFinish_root_ok _ _ _ _ _ _ _ gb hgen]
  refine ⟨_, rfl, rfl, ?_, ?_⟩
  · simp only [setBlockCache_db, setGenesisBlock_db, modify_db, written_db, setHeaderCache_db,
      hL1db, hblocks, kvGet_kvPut_self]
  · rw [blockByHeightResult_cached _ 0 B0.blockid l.heap.length]
    · simp only [setBlockCache_deref, setGenesisBlock_deref]
      rw [deref_modify_same _ _ _ (by simpa using hL1len)]
      simp only [written_deref, setHeaderCache_deref, hL1d]
      rfl
    · simp only [setBlockCache_db, setGenesisBlock_db, modify_db, written_db, setHeaderCache_db,
        hL1db, hheight, kvGet_kvPut_self]
    · simp only [setBlockCache_blockCache]
      rw [deref_modify_same _ _ _ (by simpa using hL1len)]
      simp only [written_deref, setHeaderCache_deref, hL1d, setTransactions_blockid,
        setInTrunk_blockid, setHeight_blockid]
      exact lru_add_get_self _ _ _

/-! ## What fetchBlock, saveBlock and handleFork leave alone -/

theorem fetchBlock_frame (l l1 : Ledger) (id : Bytes) (r : Except LedgerError Addr)
    (h : fetchBlock l id = (r, l1)) :
    l1.db = l.db ∧ l1.meta = l.meta ∧ l1.blockCache = l.blockCache ∧
    l1.GenesisBlock = l.GenesisBlock ∧
    l.heap.length ≤ l1.heap.length ∧
    (∀ x, x < l.heap.length → l1.deref x = l.deref x) ∧
    (∀ p, p ∈ l1.blkHeaderCache.entries → p ∈ l.blkHeaderCache.entries) ∧
    (∀ pa, r = .ok pa → (id, pa) ∈ l.blkHeaderCache.entries ∨ pa = l.heap.length) := by
  unfold fetchBlock LRUCache.Get at h
  cases hc : kvGet l.blkHeaderCache.entries id with
  | some a =>
    simp only [hc, Prod.mk.injEq] at h
    obtain ⟨rfl, rfl⟩ := h
    refine ⟨rfl, rfl, rfl, rfl, le_refl _, fun _ _ => rfl, ?_, ?_⟩
    · intro p hp
      simp only [setHeaderCache_blkHeaderCache, List.mem_cons] at hp
      rcases hp with hp | hp
      · rw [hp]; exact kvGet_mem _ _ _ hc
      · exact kvDel_subset _ _ _ hp
    · intro pa hpa
      cases hpa
      exact Or.inl (kvGet_mem _ _ _ hc)
  | none =>
    simp only [hc] at h
    cases hb : kvGet l.db.blocksTable id with
    | none =>
      simp only [hb, Prod.mk.injEq] at h
      obtain ⟨rfl, rfl⟩ := h
      exact ⟨rfl, rfl, rfl, rfl, le_refl _, fun _ _ => rfl, fun _ hp => hp,
        fun pa hpa => by cases hpa⟩
    | some b =>
      simp only [hb, Prod.mk.injEq] at h
      obtain ⟨rfl, rfl⟩ := h
      refine ⟨rfl, rfl, rfl, rfl, ?_, fun x hx => deref_alloc_lt l b x hx, fun _ hp => hp, ?_⟩
      · rw [alloc_heap_length]; exact Nat.le_succ _
      · intro pa hpa
        cases hpa
        exact Or.inr rfl

/-- `fetchBlock` keeps an unaliased object unaliased and untouched, and never returns it. -/
theorem fetchBlock_unaliased (l l1 : Ledger) (id : Bytes) (r : Except LedgerError Addr)
    (a : Addr) (hu : l.Unaliased a) (h : fetchBlock l id = (r, l1)) :
    l1.Unaliased a ∧ l1.deref a = l.deref a ∧ (∀ pa, r = .ok pa → pa ≠ a) := by
  obtain ⟨_, _, _, _, hle, hold, hmem, horg⟩ := fetchBlock_frame l l1 id r h
  refine ⟨⟨lt_of_lt_of_le hu.1 hle, fun p hp => hu.2 p (hmem p hp)⟩, hold a hu.1, ?_⟩
  intro pa hpa
  rcases horg pa hpa with h1 | h1
  · exact hu.2 _ h1
  · rw [h1]; exact Nat.ne_of_gt hu.1

theorem modify_unaliased (l : Ledger) (a pa : Addr) (f : InternalBlock → InternalBlock)
    (hu : l.Unaliased a) (hne : pa ≠ a) :
    (l.modify pa f).Unaliased a ∧ (l.modify pa f).deref a = l.deref a :=
  ⟨⟨by rw [modify_heap_length]; exact hu.1, hu.2⟩, deref_modify_ne _ _ _ _ hne⟩

theorem saveBlock_unaliased (l : Ledger) (a pa : Addr) (bw : Batch)
    (hu : l.Unaliased a) (hne : pa ≠ a) :
    (saveBlock l pa bw).1.Unaliased a ∧ (saveBlock l pa bw).1.deref a = l.deref a := by
  rw [saveBlock_eq]
  refine ⟨⟨hu.1, ?_⟩, rfl⟩
  intro p hp
  rcases lru_add_entries_mem _ _ _ _ hp with h1 | h1
  · rw [h1]; exact hne
  · exact hu.2 p h1

theorem saveBlock_frame (l : Ledger) (pa : Addr) (bw : Batch) :
    (saveBlock l pa bw).1.db = l.db ∧ (saveBlock l pa bw).1.meta = l.meta ∧
    (saveBlock l pa bw).1.blockCache = l.blockCache ∧
    (saveBlock l pa bw).1.GenesisBlock = l.GenesisBlock ∧
    (saveBlock l pa bw).1.heap = l.heap :=
  ⟨rfl, rfl, rfl, rfl, rfl⟩

/-- `handleFork` only reads the store: store, meta and block cache are as before, and an
unaliased object (the block being confirmed) is neither touched nor cached. -/
theorem handleFork_frame (fuel : Nat) (l : Ledger) (p q n : Bytes) (bw : Batch)
    (r : Except LedgerError Addr) (l2 : Ledger) (bw2 : Batch) (a : Addr)
    (hu : l.Unaliased a)
    (h : handleFork fuel l p q n bw = some (r, l2, bw2)) :
    l2.db = l.db ∧ l2.meta = l.meta ∧ l2.blockCache = l.blockCache ∧
    l2.GenesisBlock = l.GenesisBlock ∧
    l2.Unaliased a ∧ l2.deref a = l.deref a ∧ (∀ sa, r = .ok sa → sa ≠ a) := by
  induction fuel generalizing l p q n bw with
  | zero => simp [handleFork] at h
  | succ fuel ih =>
    rw [handleFork] at h
    by_cases hpq : p = q
    · simp only [hpq, if_true] at h
      cases hf : fetchBlock l q with
      | mk r1 l1 =>
        obtain ⟨hdb, hm, hbc, hg, _, _, _, _⟩ := fetchBlock_frame l l1 q r1 hf
        obtain ⟨hu1, hd1, hne1⟩ := fetchBlock_unaliased l l1 q r1 a hu hf
        rw [hf] at h
        cases r1 with
        | error e =>
          simp only [Option.some.injEq, Prod.mk.injEq] at h
          obtain ⟨rfl, rfl, rfl⟩ := h
          exact ⟨hdb, hm, hbc, hg, hu1, hd1, fun sa hsa => by cases hsa⟩
        | ok sa =>
          simp only [Option.some.injEq, Prod.mk.injEq] at h
          obtain ⟨rfl, rfl, rfl⟩ := h
          have hsa := hne1 sa rfl
          obtain ⟨hu2, hd2⟩ := modify_unaliased l1 a sa (InternalBlock.setInTrunk true) hu1 hsa
          obtain ⟨hu3, hd3⟩ := modify_unaliased _ a sa (InternalBlock.setNextHash n) hu2 hsa
          obtain ⟨hu4, hd4⟩ := saveBlock_unaliased _ a sa bw hu3 hsa
          refine ⟨hdb, hm, hbc, hg, hu4, ?_, fun s hs => by cases hs; exact hsa⟩
          rw [hd4, hd3, hd2, hd1]
    · simp only [hpq, if_false] at h
      cases hf : fetchBlock l p with
      | mk r1 l1 =>
        obtain ⟨hdb, hm, hbc, hg, _, _, _, _⟩ := fetchBlock_frame l l1 p r1 hf
        obtain ⟨hu1, hd1, hne1⟩ := fetchBlock_unaliased l l1 p r1 a hu hf
        rw [hf] at h
        cases r1 with
        | error e =>
          simp only [Option.some.injEq, Prod.mk.injEq] at h
          obtain ⟨rfl, rfl, rfl⟩ := h
          exact ⟨hdb, hm, hbc, hg, hu1, hd1, fun sa hsa => by cases hsa⟩
        | ok pa =>
          simp only at h
          have hpa := hne1 pa rfl
          obtain ⟨hu2, hd2⟩ := modify_unaliased l1 a pa (InternalBlock.setInTrunk false) hu1 hpa
          obtain ⟨hu3, hd3⟩ := modify_unaliased _ a pa (InternalBlock.setNextHash []) hu2 hpa
          cases hf2 : fetchBlock ((l1.modify pa (InternalBlock.setInTrunk false)).modify pa
              (InternalBlock.setNextHash [])) q with
          | mk r2 l3 =>
            obtain ⟨hdb2, hm2, hbc2, hg2, _, _, _, _⟩ := fetchBlock_frame _ l3 q r2 hf2
            obtain ⟨hu4, hd4, hne4⟩ := fetchBlock_unaliased _ l3 q r2 a hu3 hf2
            rw [hf2] at h
            cases r2 with
            | error e =>
              simp only [Option.some.injEq, Prod.mk.injEq] at h
              obtain ⟨rfl, rfl, rfl⟩ := h
              refine ⟨by rw [hdb2]; exact hdb, by rw [hm2]; exact hm, by rw [hbc2]; exact hbc,
                by rw [hg2]; exact hg, hu4, ?_, fun sa hsa => by cases hsa⟩
              rw [hd4, hd3, hd2, hd1]
            | ok qa =>
              simp only at h
              have hqa := hne4 qa rfl
              obtain ⟨hu5, hd5⟩ := modify_unaliased l3 a qa (InternalBlock.setInTrunk true) hu4 hqa
              cases hc : correctTxsBlockid (l3.modify qa (InternalBlock.setInTrunk true))
                  ((l3.modify qa (InternalBlock.setInTrunk true)).deref qa).blockid bw with
              | error e =>
                rw [hc] at h
                simp only [Option.some.injEq, Prod.mk.injEq] at h
                obtain ⟨rfl, rfl, rfl⟩ := h
                refine ⟨by rw [modify_db, hdb2]; exact hdb, by rw [modify_meta, hm2]; exact hm,
                  by rw [modify_blockCache, hbc2]; exact hbc,
                  by rw [modify_GenesisBlock, hg2]; exact hg, hu5, ?_,
                  fun sa hsa => by cases hsa⟩
                rw [hd5, hd4, hd3, hd2, hd1]
              | ok bw1 =>
                rw [hc] at h
                simp only at h
                obtain ⟨hu6, hd6⟩ := modify_unaliased _ a qa (InternalBlock.setNextHash n) hu5 hqa
                obtain ⟨hu7, hd7⟩ := saveBlock_unaliased _ a pa bw1 hu6 hpa
                obtain ⟨hu8, hd8⟩ := saveBlock_unaliased _ a qa
                  (saveBlock ((l3.modify qa (InternalBlock.setInTrunk true)).modify qa
                    (InternalBlock.setNextHash n)) pa bw1).2 hu7 hqa
                obtain ⟨k1, k2, k3, k4, k5, k6, k7⟩ := ih _ _ _ _ _ hu8 h
                refine ⟨?_, ?_, ?_, ?_, k5, ?_, k7⟩
                · rw [k1]; show l3.db = l.db; rw [hdb2]; exact hdb
                · rw [k2]; show l3.meta = l.meta; rw [hm2]; exact hm
                · rw [k3]; show l3.blockCache = l.blockCache; rw [hbc2]; exact hbc
                · rw [k4]; show l3.GenesisBlock = l.GenesisBlock; rw [hg2]; exact hg
                · rw [k6, hd8, hd7, hd6, hd5, hd4, hd3, hd2, hd1]

/-! ## C6: a transaction confirmed twice in the trunk -/

/-- One round of the transaction loop either fails or goes on with the rest; the local
`oldBlockCache` only ever holds records of the Blocks table. -/
theorem confirmTxs_cons_step (db : DB) (inTrunk : Bool) (sh : Int) (txExist : Table Bool)
    (txData : Table Transaction) (t : Transaction) (rest : List Transaction) (cbNum : Nat)
    (obc : Table InternalBlock) (bw : Batch) (hco : db.BlocksCoherent)
    (hobc : ∀ k b, kvGet obc k = some b → kvGet db.blocksTable k = some b) :
    (∃ e, confirmTxs db inTrunk sh txExist txData (t :: rest) cbNum obc bw = .error e) ∨
    ∃ cb2 obc2 bw2, (∀ k b, kvGet obc2 k = some b → kvGet db.blocksTable k = some b) ∧
      confirmTxs db inTrunk sh txExist txData (t :: rest) cbNum obc bw =
        confirmTxs db inTrunk sh txExist txData rest cb2 obc2 bw2 := by
  by_cases hcb : (if t.coinbase = true then cbNum + 1 else cbNum) > 1
  · left
    exact ⟨none, by simp [confirmTxs, hcb]⟩
  · cases hd : kvGet txData t.txid with
    | none => left; exact ⟨none, by simp [confirmTxs, hcb, hd]⟩
    | some d =>
      by_cases hex : (kvGet txExist t.txid).getD false = true
      · cases hc : kvGet obc ((kvGet db.confirmedTable t.txid).getD {}).blockid with
        | some oldBlock =>
          by_cases hdup : (oldBlock.inTrunk && inTrunk && decide (oldBlock.height ≤ sh)) = true
          · left
            exact ⟨some .ErrTxDuplicated, by simp [confirmTxs, hcb, hd, hex, hc, hdup]⟩
          · right
            cases inTrunk with
            | true =>
              have hdup2 : ¬(oldBlock.inTrunk = true ∧ oldBlock.height ≤ sh) := by
                simpa using hdup
              exact ⟨(if t.coinbase = true then cbNum + 1 else cbNum), obc, bw ++ [BatchOp.putTx t.txid d], hobc,
                by simp [confirmTxs, hcb, hd, hex, hc, hdup2]⟩
            | false =>
              exact ⟨(if t.coinbase = true then cbNum + 1 else cbNum), obc, bw, hobc, by simp [confirmTxs, hcb, hd, hex, hc]⟩
        | none =>
          cases hb : kvGet db.blocksTable ((kvGet db.confirmedTable t.txid).getD {}).blockid with
          | none =>
            right
            exact ⟨(if t.coinbase = true then cbNum + 1 else cbNum), obc, bw ++ [BatchOp.putTx t.txid d], hobc,
              by simp [confirmTxs, hcb, hd, hex, hc, hb]⟩
          | some oldBlock =>
            by_cases hdup : (oldBlock.inTrunk && inTrunk && decide (oldBlock.height ≤ sh)) = true
            · left
              exact ⟨some .ErrTxDuplicated, by simp [confirmTxs, hcb, hd, hex, hc, hb, hdup]⟩
            · right
              have hobc2 : ∀ k b, kvGet (kvPut obc oldBlock.blockid oldBlock) k = some b →
                  kvGet db.blocksTable k = some b := by
                intro k b hk
                by_cases hkk : k = oldBlock.blockid
                · rw [hkk, kvGet_kvPut_self] at hk
                  cases hk
                  rw [hkk, hco _ (kvGet_mem _ _ _ hb)]
                  exact hb
                · rw [kvGet_kvPut_ne _ _ _ _ hkk] at hk
                  exact hobc k b hk
              cases inTrunk with
              | true =>
                have hdup2 : ¬(oldBlock.inTrunk = true ∧ oldBlock.height ≤ sh) := by
                  simpa using hdup
                exact ⟨(if t.coinbase = true then cbNum + 1 else cbNum), kvPut obc oldBlock.blockid oldBlock,
                  bw ++ [BatchOp.putTx t.txid d], hobc2,
                  by simp [confirmTxs, hcb, hd, hex, hc, hb, hdup2]⟩
              | false =>
                exact ⟨(if t.coinbase = true then cbNum + 1 else cbNum), kvPut obc oldBlock.blockid oldBlock, bw, hobc2,
                  by simp [confirmTxs, hcb, hd, hex, hc, hb]⟩
      · right
        exact ⟨(if t.coinbase = true then cbNum + 1 else cbNum), obc, bw ++ [BatchOp.putTx t.txid d], hobc,
          by simp [confirmTxs, hcb, hd, hex]⟩

/-- The round of the transaction loop for a transaction of a trunk block that is already
confirmed in a trunk block at or below the split height fails. -/
theorem confirmTxs_head_dup (db : DB) (sh : Int) (txExist : Table Bool)
    (txData : Table Transaction) (tx : Transaction) (rest : List Transaction) (cbNum : Nat)
    (obc : Table InternalBlock) (bw : Batch) (old : Transaction) (ob : InternalBlock)
    (hobc : ∀ k b, kvGet obc k = some b → kvGet db.blocksTable k = some b)
    (hex : (kvGet txExist tx.txid).getD false = true)
    (hold : kvGet db.confirmedTable tx.txid = some old)
    (hob : kvGet db.blocksTable old.blockid = some ob)
    (htr : ob.inTrunk = true) (hh : ob.height ≤ sh) :
    ∃ e, confirmTxs db true sh txExist txData (tx :: rest) cbNum obc bw = .error e := by
  by_cases hcb : (if tx.coinbase = true then cbNum + 1 else cbNum) > 1
  · exact ⟨none, by simp [confirmTxs, hcb]⟩
  · cases hd : kvGet txData tx.txid with
    | none => exact ⟨none, by simp [confirmTxs, hcb, hd]⟩
    | some d =>
      cases hc : kvGet obc old.blockid with
      | some oldBlock =>
        have h1 := hobc _ _ hc
        rw [hob] at h1
        cases h1
        exact ⟨some .ErrTxDuplicated, by simp [confirmTxs, hcb, hd, hex, hold, hc, htr, hh]⟩
      | none =>
        exact ⟨some .ErrTxDuplicated, by simp [confirmTxs, hcb, hd, hex, hold, hc, hob, htr, hh]⟩

/-- The transaction loop of a trunk block fails when one of its transactions is already
confirmed in a trunk block at or below the split height. -/
theorem confirmTxs_dup (db : DB) (sh : Int) (txExist : Table Bool)
    (txData : Table Transaction) (txs : List Transaction) (tx old : Transaction)
    (ob : InternalBlock) (hco : db.BlocksCoherent)
    (htx : tx ∈ txs) (hex : (kvGet txExist tx.txid).getD false = true)
    (hold : kvGet db.confirmedTable tx.txid = some old)
    (hob : kvGet db.blocksTable old.blockid = some ob)
    (htr : ob.inTrunk = true) (hh : ob.height ≤ sh) (cbNum : Nat)
    (obc : Table InternalBlock) (bw : Batch)
    (hobc : ∀ k b, kvGet obc k = some b → kvGet db.blocksTable k = some b) :
    ∃ e, confirmTxs db true sh txExist txData txs cbNum obc bw = .error e := by
  induction txs generalizing cbNum obc bw with
  | nil => cases htx
  | cons t rest ih =>
    by_cases hte : tx = t
    · subst hte
      exact confirmTxs_head_dup db sh txExist txData tx rest cbNum obc bw old ob hobc hex hold
        hob htr hh
    · have hmem : tx ∈ rest := by
        rcases List.mem_cons.1 htx with h | h
        · exact absurd h hte
        · exact h
      rcases confirmTxs_cons_step db true sh txExist txData t rest cbNum obc bw hco hobc with
        h | ⟨cb2, obc2, bw2, hinv, heq⟩
      · exact h
      · rw [heq]
        exact ih hmem cb2 obc2 bw2 hinv

/-- The commit tail for a trunk block with an already confirmed transaction: the confirm
fails, with `ErrTxDuplicated` unless a second coinbase transaction is met, and neither the
store nor the meta record changes. -/
theorem confirmCommit_dup (env : Env) (kvErr : Option LedgerError) (L : Ledger) (a : Addr)
    (txs : List Transaction) (newMeta : LedgerMeta) (sh : Int) (st : ConfirmStatus)
    (isRoot : Bool) (bw : Batch) (tx old : Transaction) (ob : InternalBlock)
    (db0 : DB) (m0 : LedgerMeta)
    (hd : env.DisableTxDedup = false) (hdb : L.db = db0) (hm0 : L.meta = m0)
    (hco : db0.BlocksCoherent)
    (hit : (L.deref a).inTrunk = true) (htx : tx ∈ txs)
    (hold : kvGet db0.confirmedTable tx.txid = some old)
    (hob : kvGet db0.blocksTable old.blockid = some ob)
    (htr : ob.inTrunk = true) (hh : ob.height ≤ sh) :
    (confirmCommit env kvErr L a txs newMeta sh st isRoot bw).1.succ = false ∧
    (coinbaseCount txs ≤ 1 →
      (confirmCommit env kvErr L a txs newMeta sh st isRoot bw).1.error =
        some LedgerError.ErrTxDuplicated) ∧
    (confirmCommit env kvErr L a txs newMeta sh st isRoot bw).2.db = db0 ∧
    (confirmCommit env kvErr L a txs newMeta sh st isRoot bw).2.meta = m0 := by
  subst hdb
  subst hm0
  have hex : (kvGet (parallelCheckTx env L txs (L.deref a)).1
      (tx.setBlockid (L.deref a).blockid).txid).getD false = true := by
    have h1 := parallelCheckTx_exist_dedup env L txs (L.deref a) hd tx htx
    have h2 : (tx.setBlockid (L.deref a).blockid).txid = tx.txid := rfl
    rw [h2, h1]
    unfold kvHas
    rw [hold]
    rfl
  have hmem : tx.setBlockid (L.deref a).blockid ∈
      txs.map (Transaction.setBlockid (L.deref a).blockid) := List.mem_map.2 ⟨tx, htx, rfl⟩
  obtain ⟨e, he⟩ := confirmTxs_dup L.db sh (parallelCheckTx env L txs (L.deref a)).1
    (parallelCheckTx env L txs (L.deref a)).2.1
    (txs.map (Transaction.setBlockid (L.deref a).blockid))
    (tx.setBlockid (L.deref a).blockid) old ob hco hmem hex hold hob htr hh 0 []
    (bw ++ saveOps (L.deref a) ++
      branchOps (L.deref a).blockid (L.deref a).preHash (L.deref a).height)
    (fun k b hk => by cases hk)
  rw [confirmCommit_eq, hit, he]
  refine ⟨rfl, ?_, rfl, rfl⟩
  intro hcb
  rcases confirmTxs_err_kind _ _ _ _ _ _ _ _ _ _ he with h1 | h1
  · subst h1
    have h2 := confirmTxs_err_none _ _ _ _ _ _ _ _ _ (mkTxData_map_has txs _) he
    rw [coinbaseCount_map_blockid] at h2
    omega
  · subst h1
    rfl

theorem unaliased_alloc (l : Ledger) (b : InternalBlock) (hv : l.PtrsValid) :
    (l.alloc b).Unaliased l.heap.length := by
  refine ⟨by rw [alloc_heap_length]; exact Nat.lt_succ_self _, ?_⟩
  intro p hp
  exact Nat.ne_of_lt (hv.1 p hp)

/-- The refusal of a transaction confirmed in the trunk, for `ConfirmBlock` without failures
of marshalling.  With `DisableTxDedup = false`, on a ledger whose
Blocks table stores every record under its own id, let `B` be a block whose `pre_hash` names
a header `P` and that holds a transaction `tx` with a Confirmed-Tx record `old` whose block
`ob` is stored with `in_trunk = true`; and let `B` be placed in the trunk, either by trunk
extend (`P` is the tip, `ob.height` is at most the old trunk height) or by reorg (`P` is not
the tip, `P.height + 1` exceeds the trunk height, fork handling succeeds with the common
ancestor `sa`, and `ob.height` is at most the height of `sa`).  Then `ConfirmBlock(B, false)`
returns `succ = false`, the error is `TxDuplicated` when `B` holds at most one coinbase
transaction, and the store and the meta record are as before. -/
theorem confirmBlock_double_spend (env : Env) (kvErr : Option LedgerError) (fuel : Nat)
    (l : Ledger) (B P : InternalBlock) (tx old : Transaction) (ob : InternalBlock)
    (hdedup : env.DisableTxDedup = false)
    (hv : l.PtrsValid) (hco : l.db.BlocksCoherent)
    (hP : headerAt l B.preHash = some P)
    (htx : tx ∈ B.transactions)
    (hold : kvGet l.db.confirmedTable tx.txid = some old)
    (hob : kvGet l.db.blocksTable old.blockid = some ob)
    (htr : ob.inTrunk = true)
    (hplace : (P.blockid = l.meta.tipBlockid ∧ ob.height ≤ l.meta.trunkHeight) ∨
      (P.blockid ≠ l.meta.tipBlockid ∧ P.height + 1 > l.meta.trunkHeight ∧
        ∃ sa L4 bw1, forkStep fuel l B = some (.ok sa, L4, bw1) ∧
          ob.height ≤ (L4.deref sa).height)) :
    ∃ r, ConfirmBlock env kvErr fuel l B false = some r ∧
      r.1.succ = false ∧
      (coinbaseCount B.transactions ≤ 1 → r.1.error = some LedgerError.ErrTxDuplicated) ∧
      r.2.db = l.db ∧ r.2.meta = l.meta := by
  have hv0 := ptrsValid_alloc l (B.setTransactions []) hv
  have ht0 : headerAt (l.alloc (B.setTransactions [])) B.preHash = some P := by
    rw [headerAt_alloc _ _ _ hv, hP]
  obtain ⟨pa, l1, hfetch, hf⟩ := fetchBlock_ok _ _ _ hv0 ht0
  obtain ⟨hne, hlt, hderef⟩ := fetchOk_alloc_ne l _ _ _ _ _ hv hf
  have hpa := hf.pa_lt
  have hdp := hf.deref_pa
  have hdb : l1.db = l.db := hf.db_eq
  have hmeta : l1.meta = l.meta := hf.meta_eq
  have hne2 : l.heap.length ≠ pa := fun e => hne e.symm
  obtain ⟨hu1, _, _⟩ := fetchBlock_unaliased _ _ _ _ _ (unaliased_alloc l _ hv) hfetch
  rcases hplace with ⟨hPid, hh⟩ | ⟨hPid, hgt, sa, L4, bw1, hfork, hh⟩
  · have hA : ∀ (f g : InternalBlock → InternalBlock) (h : InternalBlock → InternalBlock),
        (((l1.modify l.heap.length f).modify l.heap.length g).modify pa h).deref l.heap.length =
          g (f (B.setTransactions [])) := by
      intro f g h
      rw [deref_modify_ne _ _ _ _ hne, deref_modify_same _ _ _ (by simpa using hlt),
        deref_modify_same _ _ _ hlt, hderef]
    unfold ConfirmBlock
    simp only [Bool.false_eq_true, if_false, hfetch, alloc_meta, deref_modify_ne _ _ _ _ hne2, hdp,
      hPid, if_true, hdedup, Bool.not_false]
    refine ⟨_, rfl, ?_⟩
    refine confirmCommit_dup env kvErr _ _ _ _ _ _ _ _ tx old ob l.db l.meta hdedup ?_ ?_ hco ?_
      htx hold hob htr hh
    · simp only [saveBlock_eq, setBlockCache_db, setHeaderCache_db, modify_db, hdb]
    · simp only [saveBlock_eq, setBlockCache_meta, setHeaderCache_meta, modify_meta, hmeta]
    · simp only [saveBlock_eq, setBlockCache_deref, setHeaderCache_deref, hA]
      rfl
  · have hu3 : ((l1.modify l.heap.length (InternalBlock.setHeight ((l1.deref pa).height + 1))).modify
        l.heap.length (InternalBlock.setInTrunk true)).Unaliased l.heap.length :=
      ⟨by simpa using hlt, hu1.2⟩
    unfold forkStep at hfork
    rw [hfetch] at hfork
    dsimp only at hfork
    obtain ⟨k1, k2, _, _, _, k6, _⟩ := handleFork_frame _ _ _ _ _ _ _ _ _ _ hu3 hfork
    have hd3 : ((l1.modify l.heap.length (InternalBlock.setHeight ((l1.deref pa).height + 1))).modify
        l.heap.length (InternalBlock.setInTrunk true)).deref l.heap.length =
        ((B.setTransactions []).setHeight ((l1.deref pa).height + 1)).setInTrunk true := by
      rw [deref_modify_same _ _ _ (by simpa using hlt), deref_modify_same _ _ _ hlt, hderef]
    have hgt2 : P.height + 1 > l.meta.trunkHeight := hgt
    unfold ConfirmBlock
    simp only [Bool.false_eq_true, if_false, hfetch, alloc_meta, deref_modify_ne _ _ _ _ hne2,
      hPid, hd3, setInTrunk_blockid, setHeight_blockid, setTransactions_blockid]
    rw [hdp] at hfork ⊢
    simp only [hPid, if_false, hgt2, if_true, hfork]
    refine ⟨_, rfl, ?_⟩
    refine confirmCommit_dup env kvErr _ _ _ _ _ _ _ _ tx old ob l.db l.meta hdedup ?_ ?_ hco ?_
      htx hold hob htr hh
    · rw [k1]; simp only [modify_db, hdb]
    · rw [k2]; simp only [modify_meta, hmeta]
    · rw [k6, hd3]
      rfl

/-! ## Height keys are injective -/

theorem digitsVal_decDigitsCore (fuel n : Nat) (acc : List Nat) (h : n < fuel) :
    (decDigitsCore fuel n acc).foldl (fun a d => a * 10 + (d - 48)) 0 =
      acc.foldl (fun a d => a * 10 + (d - 48)) n := by
  induction fuel generalizing n acc with
  | zero => omega
  | succ fuel ih =>
    unfold decDigitsCore
    by_cases h0 : n / 10 = 0
    · rw [if_pos h0]
      simp only [List.foldl_cons]
      congr 1
      omega
    · rw [if_neg h0]
      rw [ih (n / 10) _ (by omega)]
      simp only [List.foldl_cons]
      congr 1
      omega

theorem digitsVal_decDigits (n : Nat) : digitsVal (decDigits n) = n := by
  unfold digitsVal decDigits
  rw [digitsVal_decDigitsCore _ _ _ (Nat.lt_succ_self n)]
  rfl

theorem digitsVal_replicate (k : Nat) (ds : List Nat) :
    digitsVal (List.replicate k 48 ++ ds) = digitsVal ds := by
  induction k with
  | zero => rfl
  | succ k ih =>
    rw [List.replicate_succ, List.cons_append]
    unfold digitsVal at ih ⊢
    rw [List.foldl_cons]
    exact ih

theorem digitsVal_padZero (w n : Nat) : digitsVal (padZero w (decDigits n)) = n := by
  unfold padZero
  rw [digitsVal_replicate, digitsVal_decDigits]

theorem decDigitsCore_ge (fuel n : Nat) (acc : List Nat) (hacc : ∀ x ∈ acc, 48 ≤ x) :
    ∀ x ∈ decDigitsCore fuel n acc, 48 ≤ x := by
  induction fuel generalizing n acc with
  | zero => exact hacc
  | succ fuel ih =>
    unfold decDigitsCore
    have h1 : ∀ x ∈ (48 + n % 10) :: acc, 48 ≤ x := by
      intro x hx
      rcases List.mem_cons.1 hx with h | h
      · omega
      · exact hacc x h
    by_cases h0 : n / 10 = 0
    · rw [if_pos h0]; exact h1
    · rw [if_neg h0]; exact ih _ _ h1

theorem padZero_ge (w n : Nat) : ∀ x ∈ padZero w (decDigits n), 48 ≤ x := by
  intro x hx
  unfold padZero at hx
  rcases List.mem_append.1 hx with h | h
  · have := (List.mem_replicate.1 h).2
    omega
  · exact decDigitsCore_ge _ _ _ (fun _ h0 => by cases h0) x h

/-- Different heights have different Height Index keys. -/
theorem heightKey_inj (h1 h2 : Int) (h : heightKey h1 = heightKey h2) : h1 = h2 := by
  unfold heightKey at h
  by_cases c1 : h1 < 0
  · by_cases c2 : h2 < 0
    · rw [if_pos c1, if_pos c2] at h
      have h3 := congrArg digitsVal (List.cons.inj h).2
      rw [digitsVal_padZero, digitsVal_padZero] at h3
      omega
    · rw [if_pos c1, if_neg c2] at h
      have h3 := padZero_ge 20 h2.toNat 45 (by rw [← h]; exact List.mem_cons_self _ _)
      omega
  · by_cases c2 : h2 < 0
    · rw [if_neg c1, if_pos c2] at h
      have h3 := padZero_ge 20 h1.toNat 45 (by rw [h]; exact List.mem_cons_self _ _)
      omega
    · rw [if_neg c1, if_neg c2] at h
      have h3 := congrArg digitsVal h
      rw [digitsVal_padZero, digitsVal_padZero] at h3
      omega

/-! ## The Height Index after a batch -/

/-- The Height Index entry of a key after a batch without height deletes, all of whose puts
under the key carry the same id. -/
theorem applyBatch_height (bw : Batch) (k v : Bytes) (db : DB)
    (hdel : ∀ op ∈ bw, ∀ k2, op ≠ BatchOp.delHeight k2)
    (hput : ∀ op ∈ bw, ∀ v2, op = BatchOp.putHeight k v2 → v2 = v)
    (h : BatchOp.putHeight k v ∈ bw ∨ kvGet db.heightTable k = some v) :
    kvGet (applyBatch db bw).heightTable k = some v := by
  induction bw generalizing db with
  | nil =>
    rcases h with h | h
    · cases h
    · exact h
  | cons op rest ih =>
    rw [applyBatch_cons]
    apply ih
    · intro o ho; exact hdel o (List.mem_cons_of_mem _ ho)
    · intro o ho; exact hput o (List.mem_cons_of_mem _ ho)
    · by_cases hop : ∃ v2, op = BatchOp.putHeight k v2
      · obtain ⟨v2, rfl⟩ := hop
        have := hput _ (List.mem_cons_self _ _) v2 rfl
        subst this
        right
        simp [applyOp, kvGet_kvPut_self]
      · rcases h with h | h
        · rcases List.mem_cons.1 h with h1 | h1
          · exact absurd ⟨v, h1.symm⟩ hop
          · exact Or.inl h1
        · right
          cases op with
          | putHeight k2 v2 =>
            have hk : k ≠ k2 := by
              intro e
              exact hop ⟨v2, by rw [e]⟩
            simp only [applyOp]
            rw [kvGet_kvPut_ne _ _ _ _ hk]
            exact h
          | delHeight k2 => exact absurd rfl (hdel _ (List.mem_cons_self _ _) k2)
          | putMeta m => exact h
          | putBlock id blk => exact h
          | delBlock id => exact h
          | putTx t x => exact h
          | delPending id => exact h
          | putBranch id r => exact h
          | delBranch id => exact h

/-! ## Blocks the ledger knows, through the steps of handleFork -/

theorem link_setInTrunk (v : Bool) (b : InternalBlock) : (b.setInTrunk v).link = b.link := rfl

theorem link_setNextHash (n : Bytes) (b : InternalBlock) : (b.setNextHash n).link = b.link := rfl

theorem link_blockid (b X : InternalBlock) (h : b.link = X.link) : b.blockid = X.blockid :=
  congrArg (fun t => t.1) h

theorem link_preHash (b X : InternalBlock) (h : b.link = X.link) : b.preHash = X.preHash :=
  congrArg (fun t => t.2.1) h

theorem link_height (b X : InternalBlock) (h : b.link = X.link) : b.height = X.height :=
  congrArg (fun t => t.2.2) h

/-- An assignment that keeps id, predecessor and height keeps them for every object. -/
theorem modify_link (l : Ledger) (a x : Addr) (f : InternalBlock → InternalBlock)
    (hf : ∀ b, (f b).link = b.link) : ((l.modify a f).deref x).link = (l.deref x).link := by
  by_cases hx : a = x
  · subst hx
    by_cases hlt : a < l.heap.length
    · rw [deref_modify_same _ _ _ hlt, hf]
    · have : (l.modify a f).heap = l.heap := by
        rw [modify_heap_get]
        exact List.set_eq_of_length_le (Nat.le_of_not_lt hlt)
      unfold Ledger.deref
      rw [this]
  · rw [deref_modify_ne _ _ _ _ hx]

theorem ptrsValid_modify (l : Ledger) (a : Addr) (f : InternalBlock → InternalBlock)
    (hv : l.PtrsValid) : (l.modify a f).PtrsValid :=
  ⟨fun p hp => by rw [modify_heap_length]; exact hv.1 p hp,
   fun p hp => by rw [modify_heap_length]; exact hv.2 p hp⟩

theorem ptrsValid_saveBlock (l : Ledger) (a : Addr) (bw : Batch) (hv : l.PtrsValid)
    (ha : a < l.heap.length) : (saveBlock l a bw).1.PtrsValid := by
  rw [saveBlock_eq]
  refine ⟨?_, hv.2⟩
  intro p hp
  rcases lru_add_entries_mem _ _ _ _ hp with h | h
  · rw [h]; exact ha
  · exact hv.1 p h

theorem knows_modify (l : Ledger) (a : Addr) (f : InternalBlock → InternalBlock)
    (X : InternalBlock) (hf : ∀ b, (f b).link = b.link) (hk : l.Knows X) :
    (l.modify a f).Knows X :=
  ⟨hk.1, fun e he h1 => by rw [modify_link _ _ _ _ hf]; exact hk.2 e he h1⟩

/-- An assignment to an object that no header-cache entry points at. -/
theorem knows_modify_unaliased (l : Ledger) (a : Addr) (f : InternalBlock → InternalBlock)
    (X : InternalBlock) (hu : l.Unaliased a) (hk : l.Knows X) : (l.modify a f).Knows X :=
  ⟨hk.1, fun e he h1 => by
    rw [deref_modify_ne _ _ _ _ (fun h => hu.2 e he h.symm)]
    exact hk.2 e he h1⟩

theorem knows_alloc (l : Ledger) (b X : InternalBlock) (hv : l.PtrsValid) (hk : l.Knows X) :
    (l.alloc b).Knows X :=
  ⟨hk.1, fun e he h1 => by
    rw [deref_alloc_lt _ _ _ (hv.1 e he)]
    exact hk.2 e he h1⟩

theorem knows_fetchOk (l l1 : Ledger) (id : Bytes) (H : InternalBlock) (pa : Addr)
    (X : InternalBlock) (hv : l.PtrsValid) (hf : FetchOk l id H pa l1) (hk : l.Knows X) :
    l1.Knows X := by
  refine ⟨by rw [hf.db_eq]; exact hk.1, ?_⟩
  intro e he h1
  have hmem := hf.header_mem e he
  rw [hf.deref_old _ (hv.1 e hmem)]
  exact hk.2 e hmem h1

theorem knows_saveBlock (l : Ledger) (a : Addr) (bw : Batch) (X : InternalBlock)
    (hne : (l.deref a).blockid ≠ X.blockid) (hk : l.Knows X) :
    (saveBlock l a bw).1.Knows X := by
  rw [saveBlock_eq]
  refine ⟨hk.1, ?_⟩
  intro e he h1
  rcases lru_add_entries_mem _ _ _ _ he with h | h
  · rw [h] at h1
    exact absurd h1 hne
  · exact hk.2 e h h1

/-- The header of a known block is fetched, with its id, predecessor and height. -/
theorem fetchBlock_knows (l : Ledger) (X : InternalBlock) (hv : l.PtrsValid) (hk : l.Knows X) :
    ∃ pa l1 H, fetchBlock l X.blockid = (.ok pa, l1) ∧ FetchOk l X.blockid H pa l1 ∧
      H.link = X.link := by
  cases hc : kvGet l.blkHeaderCache.entries X.blockid with
  | some a =>
    have hH : headerAt l X.blockid = some (l.deref a) := by
      unfold headerAt; rw [hc]
    obtain ⟨pa, l1, h1, h2⟩ := fetchBlock_ok l X.blockid _ hv hH
    exact ⟨pa, l1, _, h1, h2, hk.2 _ (kvGet_mem _ _ _ hc) rfl⟩
  | none =>
    cases hb : kvGet l.db.blocksTable X.blockid with
    | none =>
      have := hk.1
      rw [hb] at this
      cases this
    | some b =>
      have hH : headerAt l X.blockid = some b := by
        unfold headerAt; rw [hc]; exact hb
      obtain ⟨pa, l1, h1, h2⟩ := fetchBlock_ok l X.blockid _ hv hH
      have h3 := hk.1
      rw [hb] at h3
      exact ⟨pa, l1, b, h1, h2, Option.some.inj h3⟩

theorem queryBlock_congr (l l2 : Ledger) (id : Bytes) (nb : Bool) (h : l2.db = l.db) :
    queryBlock l2 id nb = queryBlock l id nb := by
  unfold queryBlock
  rw [h]

/-- The puts `correctTxsBlockid` queues are Confirmed-Tx puts. -/
theorem correctTx_foldl (id : Bytes) (txs : List Transaction) (bw : Batch) :
    ∃ cext, txs.foldl (correctTx id) bw = bw ++ cext ∧ ∀ op ∈ cext, op.isTxPut = true := by
  induction txs generalizing bw with
  | nil => exact ⟨[], by simp, fun _ h => by cases h⟩
  | cons tx rest ih =>
    rw [List.foldl_cons]
    obtain ⟨c, hc, hp⟩ := ih (correctTx id bw tx)
    unfold correctTx at hc ⊢
    by_cases hb : tx.blockid ≠ id
    · rw [if_pos hb] at hc ⊢
      refine ⟨[BatchOp.putTx tx.txid (tx.setBlockid id)] ++ c, ?_, ?_⟩
      · rw [hc, List.append_assoc]
      · intro op hop
        rcases List.mem_append.1 hop with h | h
        · rw [List.mem_singleton.1 h]; rfl
        · exact hp op h
    · rw [if_neg hb] at hc ⊢
      exact ⟨c, hc, hp⟩

theorem correctTxsBlockid_ok (l : Ledger) (id : Bytes) (bw : Batch)
    (h : (queryBlock l id true).toOption.isSome = true) :
    ∃ cext, correctTxsBlockid l id bw = .ok (bw ++ cext) ∧ ∀ op ∈ cext, op.isTxPut = true := by
  unfold correctTxsBlockid
  cases hq : queryBlock l id true with
  | error e => rw [hq] at h; cases h
  | ok blk =>
    obtain ⟨c, hc, hp⟩ := correctTx_foldl id blk.transactions bw
    exact ⟨c, by simp only [hc], hp⟩

/-- One round of the loop of `handleFork` on two known blocks with different ids, with the
two headers it saves: the old block keeps id, predecessor and height and is saved off the
trunk with an empty `next_hash`; the new block is saved on the trunk with `next_hash = n`. -/
theorem handleFork_round_flags (fuel : Nat) (L : Ledger) (n : Bytes) (bw : Batch)
    (Pp Q : InternalBlock) (hv : L.PtrsValid) (hkP : L.Knows Pp) (hkQ : L.Knows Q)
    (hpq : Pp.blockid ≠ Q.blockid)
    (hqb : (queryBlock L Q.blockid true).toOption.isSome = true) :
    ∃ L2 cext bP bQ,
      handleFork (fuel + 1) L Pp.blockid Q.blockid n bw =
        handleFork fuel L2 Pp.preHash Q.preHash Q.blockid
          (bw ++ cext ++ saveOps bP ++ saveOps bQ) ∧
      (∀ op ∈ cext, op.isTxPut = true) ∧
      (bP.link = Pp.link ∧ bP.inTrunk = false ∧ bP.nextHash = []) ∧
      (bQ.link = Q.link ∧ bQ.inTrunk = true ∧ bQ.nextHash = n) ∧
      L2.PtrsValid ∧ L2.db = L.db ∧
      (∀ X, L.Knows X → X.blockid ≠ Pp.blockid → X.blockid ≠ Q.blockid → L2.Knows X) := by
  obtain ⟨pa, l1, Hp, hfp, hFp, hlp⟩ := fetchBlock_knows L Pp hv hkP
  obtain ⟨l2, hl2⟩ : ∃ l2, l2 = (l1.modify pa (InternalBlock.setInTrunk false)).modify pa
      (InternalBlock.setNextHash []) := ⟨_, rfl⟩
  have hv2 : l2.PtrsValid := by
    rw [hl2]; exact ptrsValid_modify _ _ _ (ptrsValid_modify _ _ _ hFp.valid)
  have hk2 : ∀ X, L.Knows X → l2.Knows X := by
    intro X hX
    rw [hl2]
    exact knows_modify _ _ _ _ (link_setNextHash []) (knows_modify _ _ _ _ (link_setInTrunk false)
      (knows_fetchOk _ _ _ _ _ _ hv hFp hX))
  have hlen2 : l2.heap.length = l1.heap.length := by
    rw [hl2, modify_heap_length, modify_heap_length]
  have hd2 : l2.deref pa = (Hp.setInTrunk false).setNextHash [] := by
    rw [hl2, deref_modify_same _ _ _ (by rw [modify_heap_length]; exact hFp.pa_lt),
      deref_modify_same _ _ _ hFp.pa_lt, hFp.deref_pa]
  have hdb2 : l2.db = L.db := by rw [hl2, modify_db, modify_db, hFp.db_eq]
  have hent2 : l2.blkHeaderCache = l1.blkHeaderCache := by
    rw [hl2, modify_blkHeaderCache, modify_blkHeaderCache]
  obtain ⟨qa, l3, Hq, hfq, hFq, hlq⟩ := fetchBlock_knows l2 Q hv2 (hk2 Q hkQ)
  have hne : pa ≠ qa := by
    rcases hFq.origin with o2 | o2
    · rw [hent2] at o2
      have o2L := hFp.header_mem _ o2
      rcases hFp.origin with o1 | o1
      · intro e
        have h1 := link_blockid _ _ (hkP.2 _ o1 rfl)
        have h2 := link_blockid _ _ (hkQ.2 _ o2L rfl)
        rw [e] at h1
        exact hpq (h1.symm.trans h2)
      · have h3 : qa < L.heap.length := hv.1 _ o2L
        rw [o1]
        exact Nat.ne_of_gt h3
    · have h3 := hFp.pa_lt
      rw [hlen2] at o2
      rw [o2]
      exact Nat.ne_of_lt h3
  have hpa3 : pa < l3.heap.length := lt_of_lt_of_le (by rw [hlen2]; exact hFp.pa_lt) hFq.heap_le
  obtain ⟨l5, hl5⟩ : ∃ l5, l5 = (l3.modify qa (InternalBlock.setInTrunk true)).modify qa
      (InternalBlock.setNextHash n) := ⟨_, rfl⟩
  have hd4 : (l3.modify qa (InternalBlock.setInTrunk true)).deref qa = Hq.setInTrunk true := by
    rw [deref_modify_same _ _ _ hFq.pa_lt, hFq.deref_pa]
  have hd5q : l5.deref qa = (Hq.setInTrunk true).setNextHash n := by
    rw [hl5, deref_modify_same _ _ _ (by rw [modify_heap_length]; exact hFq.pa_lt), hd4]
  have hd5p : l5.deref pa = (Hp.setInTrunk false).setNextHash [] := by
    rw [hl5, deref_modify_ne _ _ _ _ (fun e => hne e.symm),
      deref_modify_ne _ _ _ _ (fun e => hne e.symm),
      hFq.deref_old _ (by rw [hlen2]; exact hFp.pa_lt), hd2]
  have hdb3 : l3.db = L.db := by rw [hFq.db_eq, hdb2]
  have hqb4 : (queryBlock (l3.modify qa (InternalBlock.setInTrunk true)) Q.blockid true).toOption.isSome
      = true := by
    rw [queryBlock_congr L _ _ _ (by rw [modify_db, hdb3])]
    exact hqb
  obtain ⟨cext, hcx, hcp⟩ := correctTxsBlockid_ok _ Q.blockid bw hqb4
  have hidq : (Hq.setInTrunk true).blockid = Q.blockid := link_blockid _ _ hlq
  have hv5 : l5.PtrsValid := by
    rw [hl5]; exact ptrsValid_modify _ _ _ (ptrsValid_modify _ _ _ hFq.valid)
  have hlen5 : l5.heap.length = l3.heap.length := by
    rw [hl5, modify_heap_length, modify_heap_length]
  have hk5 : ∀ X, L.Knows X → l5.Knows X := by
    intro X hX
    rw [hl5]
    exact knows_modify _ _ _ _ (link_setNextHash n) (knows_modify _ _ _ _ (link_setInTrunk true)
      (knows_fetchOk _ _ _ _ _ _ hv2 hFq (hk2 X hX)))
  refine ⟨(saveBlock (saveBlock l5 pa (bw ++ cext)).1 qa
      ((bw ++ cext) ++ saveOps ((Hp.setInTrunk false).setNextHash [])) ).1,
    cext, (Hp.setInTrunk false).setNextHash [], (Hq.setInTrunk true).setNextHash n,
    ?_, hcp, ⟨hlp, rfl, rfl⟩, ⟨hlq, rfl, rfl⟩, ?_, ?_, ?_⟩
  · rw [handleFork, if_neg hpq, hfp]
    dsimp only
    rw [← hl2, hfq]
    dsimp only
    rw [hd4, hidq, hcx]
    dsimp only
    rw [← hl5]
    simp only [saveBlock_eq, setHeaderCache_deref, hd5p, hd5q, setNextHash_preHash,
      setInTrunk_preHash, link_preHash _ _ hlp, link_preHash _ _ hlq]
  · apply ptrsValid_saveBlock
    · exact ptrsValid_saveBlock _ _ _ hv5 (by rw [hlen5]; exact hpa3)
    · rw [saveBlock_eq]; simp only [setHeaderCache_heap]; rw [hlen5]; exact hFq.pa_lt
  · rw [saveBlock_eq, saveBlock_eq]
    simp only [setHeaderCache_db]
    rw [hl5, modify_db, modify_db, hdb3]
  · intro X hX h1 h2
    apply knows_saveBlock
    · rw [saveBlock_eq, setHeaderCache_deref, hd5q]
      exact fun e => h2 (e.symm.trans hidq)
    · apply knows_saveBlock
      · rw [hd5p]
        exact fun e => h1 (e.symm.trans (link_blockid _ _ hlp))
      · exact hk5 X hX

/-- One round of the loop of `handleFork` on two known blocks with different ids: the old
block is saved off the trunk, the new one on the trunk with its Height Index entry, and the
walk goes on from their predecessors. -/
theorem handleFork_round (fuel : Nat) (L : Ledger) (n : Bytes) (bw : Batch)
    (Pp Q : InternalBlock) (hv : L.PtrsValid) (hkP : L.Knows Pp) (hkQ : L.Knows Q)
    (hpq : Pp.blockid ≠ Q.blockid)
    (hqb : (queryBlock L Q.blockid true).toOption.isSome = true) :
    ∃ L2 cext bP bQ,
      handleFork (fuel + 1) L Pp.blockid Q.blockid n bw =
        handleFork fuel L2 Pp.preHash Q.preHash Q.blockid
          (bw ++ cext ++ saveOps bP ++ saveOps bQ) ∧
      (∀ op ∈ cext, op.isTxPut = true) ∧
      bP.inTrunk = false ∧ bQ.inTrunk = true ∧ bQ.link = Q.link ∧
      L2.PtrsValid ∧ L2.db = L.db ∧
      (∀ X, L.Knows X → X.blockid ≠ Pp.blockid → X.blockid ≠ Q.blockid → L2.Knows X) := by
  obtain ⟨L2, cext, bP, bQ, h1, h2, h3, h4, h5, h6, h7⟩ :=
    handleFork_round_flags fuel L n bw Pp Q hv hkP hkQ hpq hqb
  exact ⟨L2, cext, bP, bQ, h1, h2, h3.2.1, h4.2.1, h4.1, h5, h6, h7⟩

theorem nodup_ids_step (Pp Q : InternalBlock) (ps qs : List InternalBlock) (S : InternalBlock)
    (h : (((Pp :: ps) ++ (Q :: qs) ++ [S]).map (fun X => X.blockid)).Nodup) :
    Pp.blockid ≠ Q.blockid ∧
    (∀ X ∈ ps ++ qs ++ [S], X.blockid ≠ Pp.blockid ∧ X.blockid ≠ Q.blockid) ∧
    ((ps ++ qs ++ [S]).map (fun X => X.blockid)).Nodup := by
  have hperm : List.Perm ((Pp :: ps) ++ (Q :: qs) ++ [S]) (Pp :: Q :: (ps ++ qs ++ [S])) := by
    simp only [List.cons_append, List.append_assoc]
    exact List.Perm.cons _ List.perm_middle
  have h2 := (hperm.map (fun X => X.blockid)).nodup_iff.1 h
  rw [List.map_cons, List.map_cons, List.nodup_cons, List.nodup_cons] at h2
  obtain ⟨h3, h4, h5⟩ := h2
  refine ⟨?_, ?_, h5⟩
  · intro e
    exact h3 (by rw [e]; exact List.mem_cons_self _ _)
  · intro X hX
    have hm : X.blockid ∈ (ps ++ qs ++ [S]).map (fun X => X.blockid) :=
      List.mem_map.2 ⟨X, hX, rfl⟩
    refine ⟨?_, ?_⟩
    · intro e
      exact h3 (by rw [← e]; exact List.mem_cons_of_mem _ hm)
    · intro e
      exact h4 (by rw [← e]; exact hm)

/-- The walk of `handleFork` along two paths of known blocks of the same length that meet in
`S`: with one unit of fuel per block of a path and one more it returns `S`, saved on the trunk
with `next_hash` naming the last block of the new path; every block of the new path gets its
Height Index entry, and no other Height Index operation is queued before `S` is saved. -/
theorem handleFork_walk (qs : List InternalBlock) :
    ∀ (ps : List InternalBlock) (S : InternalBlock) (fuel : Nat) (L : Ledger) (p q n : Bytes)
      (bw : Batch),
      ps.length = qs.length → qs.length + 1 ≤ fuel → L.PtrsValid →
      LinkedFrom p ps S → LinkedFrom q qs S →
      ((ps ++ qs ++ [S]).map (fun X => X.blockid)).Nodup →
      (∀ X ∈ ps ++ qs ++ [S], L.Knows X) →
      (∀ X ∈ qs, (queryBlock L X.blockid true).toOption.isSome = true) →
      ∃ sa L2 ext,
        handleFork fuel L p q n bw = some (.ok sa, L2, bw ++ ext ++ saveOps (L2.deref sa)) ∧
        (L2.deref sa).link = S.link ∧ (L2.deref sa).inTrunk = true ∧
        (L2.deref sa).nextHash = ((qs.getLast?).map (fun X => X.blockid)).getD n ∧
        (∀ op ∈ ext, ∀ k2, op ≠ BatchOp.delHeight k2) ∧
        (∀ op ∈ ext, ∀ k v, op = BatchOp.putHeight k v →
          ∃ Y ∈ qs, k = heightKey Y.height ∧ v = Y.blockid) ∧
        (∀ X ∈ qs, BatchOp.putHeight (heightKey X.height) X.blockid ∈ ext) := by
  induction qs with
  | nil =>
    intro ps S fuel L p q n bw hlen hfuel hv hp hq _ hk _
    cases ps with
    | cons Pp ps => simp at hlen
    | nil =>
      cases fuel with
      | zero => simp at hfuel
      | succ f =>
        have hp1 : p = S.blockid := hp
        have hq1 : q = S.blockid := hq
        subst hp1
        subst hq1
        obtain ⟨pa, l1, H, hf, hF, hl⟩ := fetchBlock_knows L S hv (hk S (by simp))
        have hd : ((l1.modify pa (InternalBlock.setInTrunk true)).modify pa
            (InternalBlock.setNextHash n)).deref pa = (H.setInTrunk true).setNextHash n := by
          rw [deref_modify_same _ _ _ (by rw [modify_heap_length]; exact hF.pa_lt),
            deref_modify_same _ _ _ hF.pa_lt, hF.deref_pa]
        refine ⟨pa, (saveBlock ((l1.modify pa (InternalBlock.setInTrunk true)).modify pa
            (InternalBlock.setNextHash n)) pa bw).1, [], ?_, ?_, ?_, ?_, ?_, ?_, ?_⟩
        · rw [handleFork, if_pos rfl, hf]
          simp only [saveBlock_eq, setHeaderCache_deref, List.append_nil]
        · rw [saveBlock_eq, setHeaderCache_deref, hd]
          exact hl
        · rw [saveBlock_eq, setHeaderCache_deref, hd]
          rfl
        · rw [saveBlock_eq, setHeaderCache_deref, hd]
          rfl
        · intro op hop; cases hop
        · intro op hop; cases hop
        · intro X hX; cases hX
  | cons Q qs ih =>
    intro ps S fuel L p q n bw hlen hfuel hv hp hq hnd hk hqb
    cases ps with
    | nil => simp at hlen
    | cons Pp ps =>
      cases fuel with
      | zero => simp at hfuel
      | succ f =>
        obtain ⟨hpid, hp2⟩ := hp
        obtain ⟨hqid, hq2⟩ := hq
        subst hpid
        subst hqid
        obtain ⟨hpq, hother, hnd2⟩ := nodup_ids_step Pp Q ps qs S hnd
        have hsub : ∀ X, X ∈ ps ++ qs ++ [S] → X ∈ (Pp :: ps) ++ (Q :: qs) ++ [S] := by
          intro X hX
          simp only [List.mem_append, List.mem_cons, List.mem_singleton] at hX ⊢
          tauto
        obtain ⟨L2, cext, bP, bQ, hround, hcp, hbP, hbQ, hlQ, hv2, hdb2, hk2⟩ :=
          handleFork_round f L n bw Pp Q hv (hk Pp (by simp)) (hk Q (by simp)) hpq
            (hqb Q (List.mem_cons_self _ _))
        obtain ⟨sa, L3, ext, hres, h1, h2, h3, h4, h5, h6⟩ :=
          ih ps S f L2 Pp.preHash Q.preHash Q.blockid (bw ++ cext ++ saveOps bP ++ saveOps bQ)
            (by simpa using hlen) (by simpa using hfuel) hv2 hp2 hq2 hnd2
            (fun X hX => hk2 X (hk X (hsub X hX)) (hother X hX).1 (hother X hX).2)
            (fun X hX => by
              rw [queryBlock_congr L L2 _ _ hdb2]
              exact hqb X (List.mem_cons_of_mem _ hX))
        have hsP : saveOps bP = [BatchOp.putBlock bP.blockid bP] := by
          unfold saveOps; rw [hbP]; rfl
        have hsQ : saveOps bQ =
            [BatchOp.putBlock bQ.blockid bQ, BatchOp.putHeight (heightKey Q.height) Q.blockid] := by
          unfold saveOps
          rw [hbQ, link_height _ _ hlQ, link_blockid _ _ hlQ]
          rfl
        refine ⟨sa, L3, cext ++ saveOps bP ++ saveOps bQ ++ ext, ?_, h1, h2, ?_, ?_, ?_, ?_⟩
        · rw [hround, hres]
          simp only [List.append_assoc]
        · rw [h3]
          cases qs with
          | nil => rfl
          | cons Y r => rfl
        · intro op hop k2 e
          subst e
          simp only [List.mem_append] at hop
          rcases hop with ((hop | hop) | hop) | hop
          · have := hcp _ hop
            cases this
          · rw [hsP] at hop
            simp at hop
          · rw [hsQ] at hop
            simp at hop
          · exact h4 _ hop k2 rfl
        · intro op hop k v e
          subst e
          simp only [List.mem_append] at hop
          rcases hop with ((hop | hop) | hop) | hop
          · have := hcp _ hop
            cases this
          · rw [hsP] at hop
            simp at hop
          · rw [hsQ] at hop
            simp only [List.mem_cons, List.mem_singleton, BatchOp.putHeight.injEq,
              List.not_mem_nil, or_false] at hop
            rcases hop with hop | hop
            · cases hop
            · exact ⟨Q, List.mem_cons_self _ _, hop.1, hop.2⟩
          · obtain ⟨Y, hY, e1, e2⟩ := h5 _ hop k v rfl
            exact ⟨Y, List.mem_cons_of_mem _ hY, e1, e2⟩
        · intro X hX
          rcases List.mem_cons.1 hX with e | hX2
          · subst e
            simp only [List.mem_append]
            left; right
            rw [hsQ]
            simp
          · exact List.mem_append_right _ (h6 X hX2)

/-! ## The transaction loop does not read the batch -/

/-- One round of the transaction loop, for every batch at once: it fails, or goes on with
one more put, or goes on with the batch as it is. -/
theorem confirmTxs_cons_shape (db : DB) (inTrunk : Bool) (sh : Int) (txExist : Table Bool)
    (txData : Table Transaction) (t : Transaction) (rest : List Transaction) (cbNum : Nat)
    (obc : Table InternalBlock) :
    (∃ e, ∀ bw, confirmTxs db inTrunk sh txExist txData (t :: rest) cbNum obc bw = .error e) ∨
    (∃ cb2 obc2 op, ∀ bw, confirmTxs db inTrunk sh txExist txData (t :: rest) cbNum obc bw =
        confirmTxs db inTrunk sh txExist txData rest cb2 obc2 (bw ++ [op])) ∨
    (∃ cb2 obc2, ∀ bw, confirmTxs db inTrunk sh txExist txData (t :: rest) cbNum obc bw =
        confirmTxs db inTrunk sh txExist txData rest cb2 obc2 bw) := by
  by_cases hcb : (if t.coinbase = true then cbNum + 1 else cbNum) > 1
  · left
    exact ⟨none, fun bw => by simp [confirmTxs, hcb]⟩
  · cases hd : kvGet txData t.txid with
    | none => left; exact ⟨none, fun bw => by simp [confirmTxs, hcb, hd]⟩
    | some d =>
      by_cases hex : (kvGet txExist t.txid).getD false = true
      · cases hc : kvGet obc ((kvGet db.confirmedTable t.txid).getD {}).blockid with
        | some oldBlock =>
          by_cases hdup : (oldBlock.inTrunk && inTrunk && decide (oldBlock.height ≤ sh)) = true
          · left
            exact ⟨some .ErrTxDuplicated, fun bw => by simp [confirmTxs, hcb, hd, hex, hc, hdup]⟩
          · right
            cases inTrunk with
            | true =>
              have hdup2 : ¬(oldBlock.inTrunk = true ∧ oldBlock.height ≤ sh) := by
                simpa using hdup
              left
              exact ⟨(if t.coinbase = true then cbNum + 1 else cbNum), obc,
                BatchOp.putTx t.txid d, fun bw => by simp [confirmTxs, hcb, hd, hex, hc, hdup2]⟩
            | false =>
              right
              exact ⟨(if t.coinbase = true then cbNum + 1 else cbNum), obc,
                fun bw => by simp [confirmTxs, hcb, hd, hex, hc]⟩
        | none =>
          cases hb : kvGet db.blocksTable ((kvGet db.confirmedTable t.txid).getD {}).blockid with
          | none =>
            right; left
            exact ⟨(if t.coinbase = true then cbNum + 1 else cbNum), obc,
              BatchOp.putTx t.txid d, fun bw => by simp [confirmTxs, hcb, hd, hex, hc, hb]⟩
          | some oldBlock =>
            by_cases hdup : (oldBlock.inTrunk && inTrunk && decide (oldBlock.height ≤ sh)) = true
            · left
              exact ⟨some .ErrTxDuplicated,
                fun bw => by simp [confirmTxs, hcb, hd, hex, hc, hb, hdup]⟩
            · right
              cases inTrunk with
              | true =>
                have hdup2 : ¬(oldBlock.inTrunk = true ∧ oldBlock.height ≤ sh) := by
                  simpa using hdup
                left
                exact ⟨(if t.coinbase = true then cbNum + 1 else cbNum),
                  kvPut obc oldBlock.blockid oldBlock, BatchOp.putTx t.txid d,
                  fun bw => by simp [confirmTxs, hcb, hd, hex, hc, hb, hdup2]⟩
              | false =>
                right
                exact ⟨(if t.coinbase = true then cbNum + 1 else cbNum),
                  kvPut obc oldBlock.blockid oldBlock,
                  fun bw => by simp [confirmTxs, hcb, hd, hex, hc, hb]⟩
      · right; left
        exact ⟨(if t.coinbase = true then cbNum + 1 else cbNum), obc,
          BatchOp.putTx t.txid d, fun bw => by simp [confirmTxs, hcb, hd, hex]⟩

/-- The transaction loop on a batch `bw` is the loop on the empty batch, with its puts
appended to `bw`. -/
theorem confirmTxs_on_batch (db : DB) (inTrunk : Bool) (sh : Int) (txExist : Table Bool)
    (txData : Table Transaction) (txs : List Transaction) (cbNum : Nat)
    (obc : Table InternalBlock) (bw : Batch) :
    confirmTxs db inTrunk sh txExist txData txs cbNum obc bw =
      (confirmTxs db inTrunk sh txExist txData txs cbNum obc []).map (fun ext => bw ++ ext) := by
  induction txs generalizing cbNum obc bw with
  | nil => simp [confirmTxs, Except.map]
  | cons t rest ih =>
    rcases confirmTxs_cons_shape db inTrunk sh txExist txData t rest cbNum obc with
      ⟨e, h⟩ | ⟨cb2, obc2, op, h⟩ | ⟨cb2, obc2, h⟩
    · rw [h bw, h []]; rfl
    · rw [h bw, h [], ih cb2 obc2 (bw ++ [op]), ih cb2 obc2 ([] ++ [op])]
      cases confirmTxs db inTrunk sh txExist txData rest cb2 obc2 [] with
      | error e => rfl
      | ok ext => simp [Except.map]
    · rw [h bw, h [], ih cb2 obc2 bw]

theorem parallelCheckTx_block (env : Env) (l l2 : Ledger) (txs : List Transaction)
    (b b2 : InternalBlock) (hdb : l.db = l2.db) (hid : b.blockid = b2.blockid)
    (hit : b.inTrunk = b2.inTrunk) :
    parallelCheckTx env l txs b = parallelCheckTx env l2 txs b2 := by
  unfold parallelCheckTx
  rw [hdb, hid, hit]

/-- The commit tail of a non-root block whose transaction loop passes, with a successful
batch write: the status has `succ = true`, the meta is the new meta, and the store is the old
one after the whole batch. -/
theorem confirmCommit_ok (env : Env) (L l : Ledger) (a : Addr) (B : InternalBlock)
    (newMeta : LedgerMeta) (sh : Int) (st : ConfirmStatus) (bw ext : Batch) (inTrunk : Bool)
    (hdb : L.db = l.db) (hid : (L.deref a).blockid = B.blockid)
    (hit : (L.deref a).inTrunk = inTrunk)
    (hloop : txLoop env l B inTrunk sh = .ok ext) :
    (∀ op ∈ ext, BatchOp.isTxPut op = true) ∧
    (confirmCommit env none L a B.transactions newMeta sh st false bw).1 =
      { st with succ := true } ∧
    (confirmCommit env none L a B.transactions newMeta sh st false bw).2.meta = newMeta ∧
    (confirmCommit env none L a B.transactions newMeta sh st false bw).2.db =
      applyBatch l.db (bw ++ saveOps (L.deref a) ++
        branchOps (L.deref a).blockid (L.deref a).preHash (L.deref a).height ++ ext ++
        [BatchOp.delPending (L.deref a).blockid, BatchOp.putMeta newMeta]) := by
  unfold txLoop at hloop
  have hpc : parallelCheckTx env L B.transactions (L.deref a) =
      parallelCheckTx env l B.transactions (B.setInTrunk inTrunk) :=
    parallelCheckTx_block env L l _ _ _ hdb (by rw [hid]; rfl) (by rw [hit]; rfl)
  have hext : ∀ op ∈ ext, BatchOp.isTxPut op = true := by
    obtain ⟨ext2, he, hops, _, _⟩ := confirmTxs_ok _ _ _ _ _ _ _ _ _ _ (Nat.zero_le 1) hloop
    rw [List.nil_append] at he
    subst he
    intro op hop
    obtain ⟨tx, _, d, _, rfl⟩ := hops op hop
    rfl
  have hrun : confirmTxs L.db (L.deref a).inTrunk sh
      (parallelCheckTx env L B.transactions (L.deref a)).1
      (parallelCheckTx env L B.transactions (L.deref a)).2.1
      (B.transactions.map (Transaction.setBlockid (L.deref a).blockid)) 0 []
      (bw ++ saveOps (L.deref a) ++
        branchOps (L.deref a).blockid (L.deref a).preHash (L.deref a).height) =
      .ok (bw ++ saveOps (L.deref a) ++
        branchOps (L.deref a).blockid (L.deref a).preHash (L.deref a).height ++ ext) := by
    rw [confirmTxs_on_batch, ← parallelCheckTx_txs env L B.transactions (L.deref a), hpc, hdb,
      hit, hloop]
    rfl
  rw [confirmCommit_eq, hrun]
  dsimp only
  rw [confirmFinish_nonroot_ok]
  refine ⟨hext, rfl, rfl, ?_⟩
  simp only [setBlockCache_db, modify_db, written_db, saveBlock_eq, setHeaderCache_db, hdb,
    List.append_assoc]

/-! ## Heights along a path -/

theorem heightsTo_bounds (xs : List InternalBlock) (S : InternalBlock) (h : HeightsTo xs S) :
    ∀ X ∈ xs, S.height < X.height ∧ X.height ≤ (xs.head?.getD S).height := by
  induction xs with
  | nil => intro X hX; cases hX
  | cons Z rest ih =>
    obtain ⟨h1, h2⟩ := h
    have hz : S.height < Z.height := by
      cases rest with
      | nil =>
        simp only [List.head?_nil, Option.getD_none] at h1
        omega
      | cons Y r =>
        have := (ih h2 Y (List.mem_cons_self _ _)).1
        simp only [List.head?_cons, Option.getD_some] at h1
        omega
    intro X hX
    simp only [List.head?_cons, Option.getD_some]
    rcases List.mem_cons.1 hX with e | hX2
    · subst e
      exact ⟨hz, le_refl _⟩
    · have := ih h2 X hX2
      exact ⟨this.1, by omega⟩

theorem heightsTo_inj (xs : List InternalBlock) (S : InternalBlock) (h : HeightsTo xs S) :
    ∀ X ∈ xs, ∀ Y ∈ xs, X.height = Y.height → X = Y := by
  induction xs with
  | nil => intro X hX; cases hX
  | cons Z rest ih =>
    obtain ⟨h1, h2⟩ := h
    have hb := heightsTo_bounds rest S h2
    intro X hX Y hY e
    rcases List.mem_cons.1 hX with eX | hX2
    · rcases List.mem_cons.1 hY with eY | hY2
      · rw [eX, eY]
      · have := (hb Y hY2).2
        subst eX
        omega
    · rcases List.mem_cons.1 hY with eY | hY2
      · have := (hb X hX2).2
        subst eY
        omega
      · exact ih h2 X hX2 Y hY2 e

theorem heightsTo_cover (xs : List InternalBlock) (S : InternalBlock) (h : HeightsTo xs S)
    (k : Int) (h1 : S.height < k) (h2 : k ≤ (xs.head?.getD S).height) :
    ∃ X ∈ xs, X.height = k := by
  induction xs with
  | nil =>
    simp only [List.head?_nil, Option.getD_none] at h2
    omega
  | cons Z rest ih =>
    obtain ⟨h3, h4⟩ := h
    simp only [List.head?_cons, Option.getD_some] at h2
    by_cases e : k = Z.height
    · exact ⟨Z, List.mem_cons_self _ _, e.symm⟩
    · obtain ⟨X, hX, hk⟩ := ih h4 (by omega)
      exact ⟨X, List.mem_cons_of_mem _ hX, hk⟩

/-! ## C2: reorg -/

/-- C2 (reorg).  Let the old trunk walk back from the tip along `T :: ps` to the block `S`,
and let the path of `B` walk back from its predecessor along `P :: qs` to the same `S`, both
paths having the same number of blocks, all of them with different ids and known to the ledger
(stored under their ids, cached headers agreeing on id, predecessor and height), the blocks
of the new path with loadable bodies and heights counting up by one from `S`; let
`P.height + 1` exceed the trunk height, `B.id` differ from `S.id`, and let the transaction
loop of `B` as a trunk block with split height `S.height` pass.  Then with one unit of fuel per
block of the new path and one more, and a successful batch write, `ConfirmBlock(B, false)`
returns `succ = true, split = true, trunk_switch = true, orphan = false`; the new meta has tip
`B.id` and trunk height `P.height + 1`; `B` is stored with `in_trunk = true`; `S` is stored
with `in_trunk = true` and `next_hash` naming the last block of the new path (its child); the
Height Index maps `P.height + 1` to `B.id` and every height above `S.height` up to `P.height`
to the block of the new path at that height. -/
theorem confirmBlock_reorg (env : Env) (fuel : Nat) (l : Ledger) (B P T S : InternalBlock)
    (qs ps : List InternalBlock) (ext : Batch)
    (hv : l.PtrsValid)
    (hold : LinkedFrom l.meta.tipBlockid (T :: ps) S)
    (hnewp : LinkedFrom B.preHash (P :: qs) S)
    (hlen : ps.length = qs.length)
    (hheights : HeightsTo (P :: qs) S)
    (hnd : (((T :: ps) ++ (P :: qs) ++ [S]).map (fun X => X.blockid)).Nodup)
    (hk : ∀ X ∈ (T :: ps) ++ (P :: qs) ++ [S], l.Knows X)
    (hbody : ∀ X ∈ P :: qs, (queryBlock l X.blockid true).toOption.isSome = true)
    (hgt : P.height + 1 > l.meta.trunkHeight)
    (hB : B.blockid ≠ S.blockid)
    (hfuel : qs.length + 2 ≤ fuel)
    (htx : txLoop env l B true S.height = .ok ext) :
    ∃ l2, ConfirmBlock env none fuel l B false =
        some ({ succ := true, split := true, orphan := false, trunkSwitch := true,
                error := none }, l2) ∧
      l2.meta = { rootBlockid := l.meta.rootBlockid, tipBlockid := B.blockid,
                  trunkHeight := P.height + 1 } ∧
      kvGet l2.db.blocksTable B.blockid =
        some (((B.setTransactions []).setHeight (P.height + 1)).setInTrunk true) ∧
      (kvGet l2.db.blocksTable S.blockid).map (fun b => (b.inTrunk, b.nextHash)) =
        some (true, ((P :: qs).getLast?.getD P).blockid) ∧
      kvGet l2.db.heightTable (heightKey (P.height + 1)) = some B.blockid ∧
      (∀ h, S.height < h → h ≤ P.height →
        ∃ X ∈ P :: qs, X.height = h ∧
          kvGet l2.db.heightTable (heightKey h) = some X.blockid) := by
  have hv0 := ptrsValid_alloc l (B.setTransactions []) hv
  have hPid : P.blockid = B.preHash := hnewp.1
  have hTid : T.blockid = l.meta.tipBlockid := hold.1
  have hTP : T.blockid ≠ P.blockid := (nodup_ids_step T P ps qs S hnd).1
  obtain ⟨pa, l1, H, hfetch, hF, hlink⟩ := fetchBlock_knows _ P hv0
    (knows_alloc l _ P hv (hk P (by simp)))
  rw [hPid] at hfetch
  obtain ⟨hne, hlt, hderef⟩ := fetchOk_alloc_ne l _ _ _ _ _ hv hF
  have hne2 : l.heap.length ≠ pa := fun e => hne e.symm
  have hdp := hF.deref_pa
  obtain ⟨hu1, _, _⟩ := fetchBlock_unaliased _ _ _ _ _ (unaliased_alloc l _ hv) hfetch
  have hHid : H.blockid = B.preHash := (link_blockid _ _ hlink).trans hPid
  have hHh : H.height = P.height := link_height _ _ hlink
  obtain ⟨l3, hl3⟩ : ∃ l3, l3 = (l1.modify l.heap.length
      (InternalBlock.setHeight (H.height + 1))).modify l.heap.length
      (InternalBlock.setInTrunk true) := ⟨_, rfl⟩
  have hu2 : (l1.modify l.heap.length (InternalBlock.setHeight (H.height + 1))).Unaliased
      l.heap.length := ⟨by simpa using hlt, hu1.2⟩
  have hu3 : l3.Unaliased l.heap.length := by
    rw [hl3]; exact ⟨by simpa using hlt, hu1.2⟩
  have hv3 : l3.PtrsValid := by
    rw [hl3]; exact ptrsValid_modify _ _ _ (ptrsValid_modify _ _ _ hF.valid)
  have hk3 : ∀ X ∈ (T :: ps) ++ (P :: qs) ++ [S], l3.Knows X := by
    intro X hX
    rw [hl3]
    exact knows_modify_unaliased _ _ _ _ hu2 (knows_modify_unaliased _ _ _ _ hu1
      (knows_fetchOk _ _ _ _ _ _ hv0 hF (knows_alloc l _ X hv (hk X hX))))
  have hdb3 : l3.db = l.db := by rw [hl3, modify_db, modify_db, hF.db_eq, alloc_db]
  have hm3 : l3.meta = l.meta := by rw [hl3, modify_meta, modify_meta, hF.meta_eq, alloc_meta]
  have hd3 : l3.deref l.heap.length =
      ((B.setTransactions []).setHeight (H.height + 1)).setInTrunk true := by
    rw [hl3, deref_modify_same _ _ _ (by simpa using hlt), deref_modify_same _ _ _ hlt, hderef]
  have hd3p : l3.deref pa = H := by
    rw [hl3, deref_modify_ne _ _ _ _ hne2, deref_modify_ne _ _ _ _ hne2, hdp]
  obtain ⟨sa, L4, fext, hres, h1, h2, h3, h4, h5, h6⟩ :=
    handleFork_walk (P :: qs) (T :: ps) S fuel l3 l.meta.tipBlockid B.preHash B.blockid []
      (by simpa using hlen) (by simpa using hfuel) hv3 hold hnewp hnd hk3
      (fun X hX => by rw [queryBlock_congr l l3 _ _ hdb3]; exact hbody X hX)
  obtain ⟨k1, k2, _, _, _, k6, _⟩ := handleFork_frame _ _ _ _ _ _ _ _ _ _ hu3 hres
  have hd4 : L4.deref l.heap.length =
      ((B.setTransactions []).setHeight (H.height + 1)).setInTrunk true := by rw [k6, hd3]
  obtain ⟨hext, c1, c2, c3⟩ := confirmCommit_ok env L4 l l.heap.length B
    { rootBlockid := l.meta.rootBlockid, tipBlockid := B.blockid, trunkHeight := P.height + 1 }
    S.height { split := true, trunkSwitch := true } ([] ++ fext ++ saveOps (L4.deref sa)) ext true
    (by rw [k1, hdb3]) (by rw [hd4]; rfl) (by rw [hd4]; rfl) htx
  have hsS : saveOps (L4.deref sa) = [BatchOp.putBlock S.blockid (L4.deref sa),
      BatchOp.putHeight (heightKey S.height) S.blockid] := by
    unfold saveOps
    rw [h2, link_blockid _ _ h1, link_height _ _ h1]
    rfl
  have hsB : saveOps (L4.deref l.heap.length) =
      [BatchOp.putBlock B.blockid (((B.setTransactions []).setHeight (P.height + 1)).setInTrunk true),
        BatchOp.putHeight (heightKey (P.height + 1)) B.blockid] := by
    rw [hd4, hHh]
    rfl
  have hbounds := heightsTo_bounds (P :: qs) S hheights
  simp only [List.head?_cons, Option.getD_some] at hbounds
  -- the Height Index operations of the whole batch
  obtain ⟨whole, hwhole⟩ : ∃ w : Batch, w = [] ++ fext ++ saveOps (L4.deref sa) ++
      saveOps (L4.deref l.heap.length) ++
      branchOps (L4.deref l.heap.length).blockid (L4.deref l.heap.length).preHash
        (L4.deref l.heap.length).height ++ ext ++
      [BatchOp.delPending (L4.deref l.heap.length).blockid,
        BatchOp.putMeta
          { rootBlockid := l.meta.rootBlockid, tipBlockid := B.blockid,
            trunkHeight := P.height + 1 }] := ⟨_, rfl⟩
  have hclass : ∀ op ∈ whole,
      (∀ k2, op ≠ BatchOp.delHeight k2) ∧
      (∀ k v, op = BatchOp.putHeight k v →
        (∃ Y ∈ P :: qs, k = heightKey Y.height ∧ v = Y.blockid) ∨
        (k = heightKey S.height ∧ v = S.blockid) ∨
        (k = heightKey (P.height + 1) ∧ v = B.blockid)) := by
    intro op hop
    rw [hwhole] at hop
    simp only [List.mem_append] at hop
    rcases hop with (((((hop | hop) | hop) | hop) | hop) | hop) | hop
    · cases hop
    · exact ⟨h4 op hop, fun k v e => Or.inl (h5 op hop k v e)⟩
    · rw [hsS] at hop
      simp only [List.mem_cons, List.mem_singleton, List.not_mem_nil, or_false] at hop
      rcases hop with hop | hop
      · subst hop
        exact ⟨fun _ e => (by cases e), fun _ _ e => (by cases e)⟩
      · subst hop
        refine ⟨fun _ e => (by cases e), fun k v e => ?_⟩
        cases e
        exact Or.inr (Or.inl ⟨rfl, rfl⟩)
    · rw [hsB] at hop
      simp only [List.mem_cons, List.mem_singleton, List.not_mem_nil, or_false] at hop
      rcases hop with hop | hop
      · subst hop
        exact ⟨fun _ e => (by cases e), fun _ _ e => (by cases e)⟩
      · subst hop
        refine ⟨fun _ e => (by cases e), fun k v e => ?_⟩
        cases e
        exact Or.inr (Or.inr ⟨rfl, rfl⟩)
    · unfold branchOps at hop
      simp only [List.mem_cons, List.mem_singleton, List.not_mem_nil, or_false] at hop
      rcases hop with hop | hop
      · subst hop
        exact ⟨fun _ e => (by cases e), fun _ _ e => (by cases e)⟩
      · subst hop
        exact ⟨fun _ e => (by cases e), fun _ _ e => (by cases e)⟩
    · have hp := hext op hop
      refine ⟨fun _ e => ?_, fun _ _ e => ?_⟩
      · subst e; cases hp
      · subst e; cases hp
    · simp only [List.mem_cons, List.mem_singleton, List.not_mem_nil, or_false] at hop
      rcases hop with hop | hop
      · subst hop
        exact ⟨fun _ e => (by cases e), fun _ _ e => (by cases e)⟩
      · subst hop
        exact ⟨fun _ e => (by cases e), fun _ _ e => (by cases e)⟩
  have hpath : ∀ X ∈ P :: qs,
      kvGet (confirmCommit env none L4 l.heap.length B.transactions
        { rootBlockid := l.meta.rootBlockid, tipBlockid := B.blockid,
          trunkHeight := P.height + 1 } S.height { split := true, trunkSwitch := true } false
        ([] ++ fext ++ saveOps (L4.deref sa))).2.db.heightTable (heightKey X.height) =
        some X.blockid := by
    intro X hX
    rw [c3, ← hwhole]
    apply applyBatch_height
    · intro op hop; exact (hclass op hop).1
    · intro op hop v2 e
      rcases (hclass op hop).2 _ _ e with ⟨Y, hY, e1, e2⟩ | ⟨e1, _⟩ | ⟨e1, _⟩
      · have := heightsTo_inj _ _ hheights X hX Y hY (heightKey_inj _ _ e1)
        rw [e2, this]
      · have := heightKey_inj _ _ e1
        have := (hbounds X hX).1
        omega
      · have := heightKey_inj _ _ e1
        have := (hbounds X hX).2
        omega
    · left
      rw [hwhole]
      simp only [List.mem_append]
      exact Or.inl (Or.inl (Or.inl (Or.inl (Or.inl (Or.inr (h6 X hX))))))
  unfold ConfirmBlock
  simp only [Bool.false_eq_true, if_false, hfetch, alloc_meta, deref_modify_ne _ _ _ _ hne2, hdp,
    hHid]
  rw [← hl3, hd3]
  simp only [setInTrunk_blockid, setHeight_blockid, setTransactions_blockid, hd3p, hHid, hres,
    deref_modify_same _ _ _ hlt, hderef]
  rw [if_neg (by rw [← hTid, ← hPid]; exact fun e => hTP e.symm), if_pos (by rw [hHh]; exact hgt)]
  simp only [link_height _ _ h1, hHh]
  refine ⟨_, congrArg some (Prod.ext c1 rfl), c2, ?_, ?_, ?_, ?_⟩
  · rw [c3, applyBatch_append, (applyBatch_commitTail _ _ _).1, applyBatch_append,
      (applyBatch_txPuts _ _ hext).2.1, applyBatch_append, (applyBatch_branchOps _ _ _ _).1,
      applyBatch_append, hsB]
    simp [applyBatch, applyOp, kvGet_kvPut_self]
  · rw [c3, applyBatch_append, (applyBatch_commitTail _ _ _).1, applyBatch_append,
      (applyBatch_txPuts _ _ hext).2.1, applyBatch_append, (applyBatch_branchOps _ _ _ _).1,
      applyBatch_append, hsB, applyBatch_append, hsS]
    simp only [applyBatch, applyOp, List.foldl_cons, List.foldl_nil]
    rw [kvGet_kvPut_ne _ _ _ _ (fun e => hB e.symm), kvGet_kvPut_self]
    simp only [Option.map_some', h2, h3]
    rfl
  · rw [c3, ← hwhole]
    apply applyBatch_height
    · intro op hop; exact (hclass op hop).1
    · intro op hop v2 e
      rcases (hclass op hop).2 _ _ e with ⟨Y, hY, e1, e2⟩ | ⟨e1, _⟩ | ⟨_, e2⟩
      · have := heightKey_inj _ _ e1
        have := (hbounds Y hY).2
        omega
      · have := heightKey_inj _ _ e1
        have := (hbounds P (List.mem_cons_self _ _)).1
        omega
      · exact e2
    · left
      rw [hwhole, hsB]
      simp
  · intro h hh1 hh2
    obtain ⟨X, hX, e⟩ := heightsTo_cover (P :: qs) S hheights h hh1 (by simpa using hh2)
    refine ⟨X, hX, e, ?_⟩
    rw [← e]
    exact hpath X hX

/-- Witness of C2 on the example chain: with the trunk `G <- A1` and the branch `G <- F1`,
`F2` on top of `F1` switches the trunk to `G <- F1 <- F2`; the common ancestor is `G`. -/
theorem confirmBlock_reorg_witness :
    ∃ l2, ConfirmBlock Example.env none 8 Example.s3 Example.F2 false =
        some ({ succ := true, split := true, orphan := false, trunkSwitch := true,
                error := none }, l2) ∧
      l2.meta = { rootBlockid := Example.s3.meta.rootBlockid, tipBlockid := Example.F2.blockid,
                  trunkHeight := Example.hdrF1.height + 1 } ∧
      kvGet l2.db.blocksTable Example.F2.blockid =
        some (((Example.F2.setTransactions []).setHeight (Example.hdrF1.height + 1)).setInTrunk
          true) ∧
      (kvGet l2.db.blocksTable Example.hdrG.blockid).map (fun b => (b.inTrunk, b.nextHash)) =
        some (true, (([Example.hdrF1].getLast?).getD Example.hdrF1).blockid) ∧
      kvGet l2.db.heightTable (heightKey (Example.hdrF1.height + 1)) =
        some Example.F2.blockid ∧
      (∀ h, Example.hdrG.height < h → h ≤ Example.hdrF1.height →
        ∃ X ∈ [Example.hdrF1], X.height = h ∧
          kvGet l2.db.heightTable (heightKey h) = some X.blockid) :=
  confirmBlock_reorg Example.env 8 Example.s3 Example.F2 Example.hdrF1 Example.hdrA1
    Example.hdrG [] [] []
    (by unfold Ledger.PtrsValid; decide)
    (by simp only [LinkedFrom]; decide)
    (by simp only [LinkedFrom]; decide)
    rfl
    (by simp only [HeightsTo]; decide)
    (by decide)
    (by unfold Ledger.Knows; decide)
    (by decide)
    (by decide)
    (by decide)
    (by decide)
    (by decide)

/-! ## C11: more than one coinbase transaction -/

/-- `handleFork` writes nothing: the store and the meta record are as before, whatever it
returns. -/
theorem handleFork_db (fuel : Nat) (l : Ledger) (p q n : Bytes) (bw : Batch)
    (r : Except LedgerError Addr) (l2 : Ledger) (bw2 : Batch)
    (h : handleFork fuel l p q n bw = some (r, l2, bw2)) :
    l2.db = l.db ∧ l2.meta = l.meta := by
  induction fuel generalizing l p q n bw with
  | zero => simp [handleFork] at h
  | succ fuel ih =>
    rw [handleFork] at h
    by_cases hpq : p = q
    · simp only [hpq, if_true] at h
      cases hf : fetchBlock l q with
      | mk r1 l1 =>
        obtain ⟨hdb, hm, _⟩ := fetchBlock_frame l l1 q r1 hf
        rw [hf] at h
        cases r1 with
        | error e =>
          simp only [Option.some.injEq, Prod.mk.injEq] at h
          obtain ⟨_, rfl, _⟩ := h
          exact ⟨hdb, hm⟩
        | ok sa =>
          simp only [Option.some.injEq, Prod.mk.injEq] at h
          obtain ⟨_, rfl, _⟩ := h
          exact ⟨hdb, hm⟩
    · simp only [hpq, if_false] at h
      cases hf : fetchBlock l p with
      | mk r1 l1 =>
        obtain ⟨hdb, hm, _⟩ := fetchBlock_frame l l1 p r1 hf
        rw [hf] at h
        cases r1 with
        | error e =>
          simp only [Option.some.injEq, Prod.mk.injEq] at h
          obtain ⟨_, rfl, _⟩ := h
          exact ⟨hdb, hm⟩
        | ok pa =>
          simp only at h
          cases hf2 : fetchBlock ((l1.modify pa (InternalBlock.setInTrunk false)).modify pa
              (InternalBlock.setNextHash [])) q with
          | mk r2 l3 =>
            obtain ⟨hdb2, hm2, _⟩ := fetchBlock_frame _ l3 q r2 hf2
            rw [hf2] at h
            cases r2 with
            | error e =>
              simp only [Option.some.injEq, Prod.mk.injEq] at h
              obtain ⟨_, rfl, _⟩ := h
              exact ⟨by rw [hdb2]; exact hdb, by rw [hm2]; exact hm⟩
            | ok qa =>
              simp only at h
              cases hc : correctTxsBlockid (l3.modify qa (InternalBlock.setInTrunk true))
                  ((l3.modify qa (InternalBlock.setInTrunk true)).deref qa).blockid bw with
              | error e =>
                rw [hc] at h
                simp only [Option.some.injEq, Prod.mk.injEq] at h
                obtain ⟨_, rfl, _⟩ := h
                exact ⟨by rw [modify_db, hdb2]; exact hdb, by rw [modify_meta, hm2]; exact hm⟩
              | ok bw1 =>
                rw [hc] at h
                simp only at h
                obtain ⟨k1, k2⟩ := ih _ _ _ _ _ h
                refine ⟨?_, ?_⟩
                · rw [k1]; show l3.db = l.db; rw [hdb2]; exact hdb
                · rw [k2]; show l3.meta = l.meta; rw [hm2]; exact hm

/-- The commit tail for a block with more than one coinbase transaction fails and writes
nothing. -/
theorem confirmCommit_many_coinbase (env : Env) (kvErr : Option LedgerError) (L : Ledger)
    (a : Addr) (txs : List Transaction) (newMeta : LedgerMeta) (sh : Int) (st : ConfirmStatus)
    (isRoot : Bool) (bw : Batch) (hcb : coinbaseCount txs > 1) :
    (confirmCommit env kvErr L a txs newMeta sh st isRoot bw).1.succ = false ∧
    (confirmCommit env kvErr L a txs newMeta sh st isRoot bw).2.db = L.db ∧
    (confirmCommit env kvErr L a txs newMeta sh st isRoot bw).2.meta = L.meta := by
  rw [confirmCommit_eq]
  cases hloop : confirmTxs L.db (L.deref a).inTrunk sh
      (parallelCheckTx env L txs (L.deref a)).1 (parallelCheckTx env L txs (L.deref a)).2.1
      (txs.map (Transaction.setBlockid (L.deref a).blockid)) 0 []
      (bw ++ saveOps (L.deref a) ++
        branchOps (L.deref a).blockid (L.deref a).preHash (L.deref a).height) with
  | error e => exact ⟨rfl, rfl, rfl⟩
  | ok bw3 =>
    obtain ⟨_, _, _, _, h4⟩ := confirmTxs_ok _ _ _ _ _ _ _ _ _ _ (Nat.zero_le 1) hloop
    rw [coinbaseCount_map_blockid] at h4
    omega

theorem modify_blockid (l : Ledger) (a x : Addr) (f : InternalBlock → InternalBlock)
    (hf : ∀ b, (f b).blockid = b.blockid) :
    ((l.modify a f).deref x).blockid = (l.deref x).blockid := by
  by_cases hx : a = x
  · subst hx
    by_cases hlt : a < l.heap.length
    · rw [deref_modify_same _ _ _ hlt, hf]
    · have : (l.modify a f).heap = l.heap := by
        rw [modify_heap_get]
        exact List.set_eq_of_length_le (Nat.le_of_not_lt hlt)
      unfold Ledger.deref
      rw [this]
  · rw [deref_modify_ne _ _ _ _ hx]

/-- The ways `ConfirmBlock` ends: the fork walk of a reorg does not finish within the fuel; or
it fails before the commit tail, the store and the meta record being as before; or it ends in
the commit tail, entered with the store and the meta record as before. -/
theorem confirmBlock_shape (env : Env) (kvErr : Option LedgerError) (fuel : Nat)
    (l : Ledger) (B : InternalBlock) (isRoot : Bool) :
    (ConfirmBlock env kvErr fuel l B isRoot = none ∧ isRoot = false ∧ forkStep fuel l B = none) ∨
    (∃ st L, ConfirmBlock env kvErr fuel l B isRoot = some (st, L) ∧ st.succ = false ∧
      L.db = l.db ∧ L.meta = l.meta) ∨
    (∃ L a nm sh st bw, ConfirmBlock env kvErr fuel l B isRoot =
        some (confirmCommit env kvErr L a B.transactions nm sh st isRoot bw) ∧
      L.db = l.db ∧ L.meta = l.meta) := by
  have hlt0 : l.heap.length < (l.alloc (B.setTransactions [])).heap.length := by
    rw [alloc_heap_length]; exact Nat.lt_succ_self _
  cases isRoot with
  | true =>
    by_cases h1 : B.preHash.length > 0
    · right; left
      unfold ConfirmBlock
      simp only [if_true, h1]
      exact ⟨_, _, rfl, rfl, rfl, rfl⟩
    · by_cases h2 : l.meta.rootBlockid.length > 0
      · right; left
        unfold ConfirmBlock
        simp only [if_true, h1, if_false, alloc_meta, h2]
        exact ⟨_, _, rfl, rfl, rfl, rfl⟩
      · right; right
        unfold ConfirmBlock
        simp only [if_true, h1, if_false, alloc_meta, h2]
        exact ⟨_, _, _, _, _, _, rfl, rfl, rfl⟩
  | false =>
    cases hf : fetchBlock (l.alloc (B.setTransactions [])) B.preHash with
    | mk r1 l1 =>
      obtain ⟨hdb, hm, _, _, hle, hold, _, _⟩ := fetchBlock_frame _ l1 _ r1 hf
      cases r1 with
      | error e =>
        right; left
        unfold ConfirmBlock
        simp only [Bool.false_eq_true, if_false, hf]
        exact ⟨_, _, rfl, rfl, hdb, hm⟩
      | ok pa =>
        have hlt : l.heap.length < l1.heap.length := lt_of_lt_of_le hlt0 hle
        have hderef : l1.deref l.heap.length = B.setTransactions [] := by
          rw [hold _ hlt0, deref_alloc_new]
        have hbid : ((l1.modify l.heap.length
            (InternalBlock.setHeight ((l1.deref pa).height + 1))).deref pa).blockid =
            (l1.deref pa).blockid := modify_blockid _ _ _ _ (fun _ => rfl)
        have hbid3 : (((l1.modify l.heap.length
            (InternalBlock.setHeight ((l1.deref pa).height + 1))).modify l.heap.length
            (InternalBlock.setInTrunk true)).deref pa).blockid = (l1.deref pa).blockid :=
          (modify_blockid _ _ _ (InternalBlock.setInTrunk true) (fun _ => rfl)).trans hbid
        have hB3 : (((l1.modify l.heap.length
            (InternalBlock.setHeight ((l1.deref pa).height + 1))).modify l.heap.length
            (InternalBlock.setInTrunk true)).deref l.heap.length).blockid = B.blockid :=
          (modify_blockid _ _ _ (InternalBlock.setInTrunk true) (fun _ => rfl)).trans
            ((modify_blockid _ _ _ (InternalBlock.setHeight ((l1.deref pa).height + 1))
              (fun _ => rfl)).trans (by rw [hderef]; rfl))
        by_cases ht : (l1.deref pa).blockid = l.meta.tipBlockid
        · by_cases hd : env.DisableTxDedup = true
          · right; right
            unfold ConfirmBlock
            simp only [Bool.false_eq_true, if_false, hf, alloc_meta, hbid, ht, if_true, hd,
              Bool.not_true]
            refine ⟨_, _, _, _, _, _, rfl, ?_, ?_⟩
            · simp only [modify_db, hdb, alloc_db]
            · simp only [modify_meta, hm, alloc_meta]
          · have hd2 : env.DisableTxDedup = false := by
              cases h : env.DisableTxDedup
              · rfl
              · exact absurd h hd
            right; right
            unfold ConfirmBlock
            simp only [Bool.false_eq_true, if_false, hf, alloc_meta, hbid, ht, if_true, hd2,
              Bool.not_false]
            refine ⟨_, _, _, _, _, _, rfl, ?_, ?_⟩
            · simp only [setBlockCache_db, saveBlock_eq, setHeaderCache_db, modify_db, hdb,
                alloc_db]
            · simp only [setBlockCache_meta, saveBlock_eq, setHeaderCache_meta, modify_meta, hm,
                alloc_meta]
        · have hh : ((l1.modify l.heap.length
              (InternalBlock.setHeight ((l1.deref pa).height + 1))).deref pa).height + 1 >
              l.meta.trunkHeight ∨ ¬ ((l1.modify l.heap.length
              (InternalBlock.setHeight ((l1.deref pa).height + 1))).deref pa).height + 1 >
              l.meta.trunkHeight := Classical.em _
          rcases hh with hh | hh
          · cases hk : handleFork fuel ((l1.modify l.heap.length
                (InternalBlock.setHeight ((l1.deref pa).height + 1))).modify l.heap.length
                (InternalBlock.setInTrunk true)) l.meta.tipBlockid (l1.deref pa).blockid
                B.blockid [] with
            | none =>
              left
              refine ⟨?_, rfl, ?_⟩
              · unfold ConfirmBlock
                simp only [Bool.false_eq_true, if_false, hf, alloc_meta, hbid, ht, hh, if_true,
                  hbid3, hB3, hk]
              · unfold forkStep
                rw [hf]
                exact hk
            | some res =>
              obtain ⟨r2, L4, bw1⟩ := res
              obtain ⟨k1, k2⟩ := handleFork_db _ _ _ _ _ _ _ _ _ hk
              cases r2 with
              | error e =>
                right; left
                unfold ConfirmBlock
                simp only [Bool.false_eq_true, if_false, hf, alloc_meta, hbid, ht, hh, if_true,
                  hbid3, hB3, hk]
                refine ⟨_, _, rfl, rfl, ?_, ?_⟩
                · rw [k1]; simp only [modify_db, hdb, alloc_db]
                · rw [k2]; simp only [modify_meta, hm, alloc_meta]
              | ok sa =>
                right; right
                unfold ConfirmBlock
                simp only [Bool.false_eq_true, if_false, hf, alloc_meta, hbid, ht, hh, if_true,
                  hbid3, hB3, hk]
                refine ⟨_, _, _, _, _, _, rfl, ?_, ?_⟩
                · rw [k1]; simp only [modify_db, hdb, alloc_db]
                · rw [k2]; simp only [modify_meta, hm, alloc_meta]
          · right; right
            unfold ConfirmBlock
            simp only [Bool.false_eq_true, if_false, hf, alloc_meta, hbid, ht, hh]
            refine ⟨_, _, _, _, _, _, rfl, ?_, ?_⟩
            · simp only [modify_db, hdb, alloc_db]
            · simp only [modify_meta, hm, alloc_meta]

/-- C11 (multiple coinbase).  For every ledger state, every `is_root` flag and every block `B`
whose transaction list holds more than one coinbase transaction: when `ConfirmBlock(B, is_root)`
returns, it returns `succ = false` and neither the key-value store nor the meta record has
changed; and it returns unless the block is placed by a reorg whose fork walk does not end
within the fuel (`forkStep` is that walk). -/
theorem confirmBlock_multiple_coinbase (env : Env) (kvErr : Option LedgerError) (fuel : Nat)
    (l : Ledger) (B : InternalBlock) (isRoot : Bool)
    (hcb : coinbaseCount B.transactions > 1) :
    (∀ r, ConfirmBlock env kvErr fuel l B isRoot = some r →
      r.1.succ = false ∧ r.2.db = l.db ∧ r.2.meta = l.meta) ∧
    (ConfirmBlock env kvErr fuel l B isRoot = none →
      isRoot = false ∧ forkStep fuel l B = none) := by
  rcases confirmBlock_shape env kvErr fuel l B isRoot with
    ⟨h1, h2, h3⟩ | ⟨st, L, h1, h2, h3, h4⟩ | ⟨L, a, nm, sh, st, bw, h1, h2, h3⟩
  · exact ⟨fun r hr => (by rw [h1] at hr; cases hr), fun _ => ⟨h2, h3⟩⟩
  · refine ⟨fun r hr => ?_, fun hn => by rw [h1] at hn; cases hn⟩
    rw [h1] at hr
    cases hr
    exact ⟨h2, h3, h4⟩
  · refine ⟨fun r hr => ?_, fun hn => by rw [h1] at hn; cases hn⟩
    rw [h1] at hr
    cases hr
    obtain ⟨c1, c2, c3⟩ := confirmCommit_many_coinbase env kvErr L a B.transactions nm sh st
      isRoot bw hcb
    exact ⟨c1, c2.trans h2, c3.trans h3⟩

/-- Witness of C11 on the genesis ledger: a block on top of `G` with two coinbase
transactions. -/
theorem confirmBlock_multiple_coinbase_witness :
    (∀ r, ConfirmBlock Example.env none 8 Example.s1
        (Example.badAward1.setTransactions [Example.cbNoOutputs, Example.cbWrongAmount]) false =
          some r →
      r.1.succ = false ∧ r.2.db = Example.s1.db ∧ r.2.meta = Example.s1.meta) ∧
    (ConfirmBlock Example.env none 8 Example.s1
        (Example.badAward1.setTransactions [Example.cbNoOutputs, Example.cbWrongAmount]) false =
          none →
      false = false ∧ forkStep 8 Example.s1
        (Example.badAward1.setTransactions [Example.cbNoOutputs, Example.cbWrongAmount]) = none) :=
  confirmBlock_multiple_coinbase Example.env none 8 Example.s1
    (Example.badAward1.setTransactions [Example.cbNoOutputs, Example.cbWrongAmount]) false
    (by decide)

/-! ## C12: the tip after a truncation -/

/-- C12 (invariant I1) at its failing input.  On the genesis ledger `ConfirmBlock(A1cb, false)`
is refused with `TxDuplicated`: nothing is stored, but `saveBlock` has put the block into the
header cache.  `Truncate(A1cb.id)` then finds the block through `fetchBlock`, succeeds and
commits the meta record `tip = A1cb.id, trunk_height = 1`, in memory and in the Meta table,
although the Blocks table holds no block under that id: the root is set and the tip names no
stored block. -/
theorem truncate_to_uncommitted_block :
    (ConfirmBlock Example.env none 8 Example.s1 Example.A1cb false).map
        (fun r => (r.1.succ, r.1.error)) = some (false, some LedgerError.ErrTxDuplicated) ∧
    (Example.after Example.s1 Example.A1cb false).db = Example.s1.db ∧
    (Example.after Example.s1 Example.A1cb false).meta = Example.s1.meta ∧
    (Truncate none 8 (Example.after Example.s1 Example.A1cb false) [9]).map (fun r => r.1) =
      some (.ok ()) ∧
    (Example.afterTruncate (Example.after Example.s1 Example.A1cb false) [9]).meta =
      { rootBlockid := [1], tipBlockid := [9], trunkHeight := 1 } ∧
    kvGet (Example.afterTruncate (Example.after Example.s1 Example.A1cb false) [9]).db.metaTable
      [] = some { rootBlockid := [1], tipBlockid := [9], trunkHeight := 1 } ∧
    kvGet (Example.afterTruncate (Example.after Example.s1 Example.A1cb false) [9]).db.blocksTable
      [9] = none := by
  decide

/-! ## C14, C15: a transaction twice in the trunk -/

/-- C14 (invariant I4) at its failing input.  With the trunk `G <- A1` and the branch
`G <- F1` (`F1` holds `T2`), the block `F2dup` on top of `F1` holds `T2` again.
`ConfirmBlock(F2dup, false)` is a reorg and returns `succ = true`: the duplicate check reads
`F1` from the Blocks table, where it still has `in_trunk = false`.  Afterwards the trunk is
`F2dup, F1, G` and `T2` is a merkle leaf of both `F2dup` and `F1`. -/
theorem reorg_accepts_duplicate_of_new_path :
    (ConfirmBlock Example.env none 8 Example.s3 Example.F2dup false).map (fun r => r.1) =
      some { succ := true, split := true, orphan := false, trunkSwitch := true,
             error := none } ∧
    (Example.after Example.s3 Example.F2dup false).meta =
      { rootBlockid := [1], tipBlockid := [4], trunkHeight := 2 } ∧
    (trunkPath (Example.after Example.s3 Example.F2dup false)).map
        (fun b => (b.blockid, b.preHash, b.leaves)) =
      [([4], [3], [[102]]), ([3], [1], [[102]]), ([1], [], [[100]])] := by
  decide

/-- C15 (invariant I3) at its failing input, the state of C14: `F1` is on the trunk and
`T2` is its merkle leaf, but the Confirmed-Tx record of `T2` names `F2dup` as its block. -/
theorem confirmed_tx_points_at_other_trunk_block :
    (trunkPath (Example.after Example.s3 Example.F2dup false)).map (fun b => b.blockid) =
      [[4], [3], [1]] ∧
    (kvGet (Example.after Example.s3 Example.F2dup false).db.blocksTable [3]).map
        (fun b => (b.leaves, b.inTrunk)) = some ([[102]], true) ∧
    (kvGet (Example.after Example.s3 Example.F2dup false).db.confirmedTable [102]).map
        (fun t => t.blockid) = some [4] := by
  decide

/-! ## C16: next_hash after a truncation and after a refused reorg -/

/-- C16 (next_hash invariant) at its failing inputs.  After the reorg of the example chain
(trunk `G <- F1 <- F2`), `Truncate(F1.id)` succeeds, makes `F1` the tip and removes `F2`, and
the stored tip still has `next_hash = F2.id`.  And with the trunk `G <- A1` and the branch
`G <- F1`, a reorg by `F2cb` that is refused with `TxDuplicated`, followed by the trunk
extension `A2`, leaves the trunk block `A1` stored with `in_trunk = false` and
`next_hash = A2.id`. -/
theorem next_hash_not_maintained :
    (Truncate none 8 Example.s4 [3]).map (fun r => r.1) = some (.ok ()) ∧
    (Example.afterTruncate Example.s4 [3]).meta =
      { rootBlockid := [1], tipBlockid := [3], trunkHeight := 1 } ∧
    (kvGet (Example.afterTruncate Example.s4 [3]).db.blocksTable [3]).map
        (fun b => (b.inTrunk, b.height, b.nextHash)) = some (true, 1, [4]) ∧
    kvGet (Example.afterTruncate Example.s4 [3]).db.blocksTable [4] = none ∧
    (ConfirmBlock Example.env none 8 Example.s3 Example.F2cb false).map
        (fun r => r.1.succ) = some false ∧
    (ConfirmBlock Example.env none 8 (Example.after Example.s3 Example.F2cb false)
        Example.A2 false).map (fun r => r.1.succ) = some true ∧
    (kvGet (Example.after (Example.after Example.s3 Example.F2cb false) Example.A2
        false).db.blocksTable [2]).map (fun b => (b.inTrunk, b.height, b.nextHash)) =
      some (false, 1, [5]) := by
  decide

/-! ## C17: IsTxInTrunk after a refused reorg -/

/-- C17 (`IsTxInTrunk` decides trunk membership) at its failing input.  With the trunk
`G <- A1` and the branch `G <- F1`, the reorg by `F2cb` is refused with `TxDuplicated` and
leaves the store as it was; the trunk extension `A2` then succeeds.  The trunk is
`A2, A1, G` and `T1` is a merkle leaf of `A1`, but `IsTxInTrunk(T1)` is false (it was true
before the two calls). -/
theorem isTxInTrunk_false_for_trunk_tx :
    (ConfirmBlock Example.env none 8 Example.s3 Example.F2cb false).map
        (fun r => (r.1.succ, r.1.error)) = some (false, some LedgerError.ErrTxDuplicated) ∧
    (Example.after Example.s3 Example.F2cb false).db = Example.s3.db ∧
    (ConfirmBlock Example.env none 8 (Example.after Example.s3 Example.F2cb false)
        Example.A2 false).map (fun r => r.1) =
      some { succ := true, split := false, orphan := false, trunkSwitch := false,
             error := none } ∧
    (trunkPath (Example.after (Example.after Example.s3 Example.F2cb false) Example.A2
        false)).map (fun b => (b.blockid, b.leaves)) =
      [([5], [[103]]), ([2], [[101]]), ([1], [[100]])] ∧
    (IsTxInTrunk (Example.after (Example.after Example.s3 Example.F2cb false) Example.A2
        false) [101]).1 = false ∧
    (IsTxInTrunk Example.s3 [101]).1 = true := by
  decide

/-! ## C18: the batch of handleFork -/

/-- A batch that neither puts nor deletes a block under an id leaves its record alone. -/
theorem applyBatch_blocks_frame (bw : Batch) (k : Bytes) (db : DB)
    (hput : ∀ op ∈ bw, ∀ v, op ≠ BatchOp.putBlock k v)
    (hdel : ∀ op ∈ bw, op ≠ BatchOp.delBlock k) :
    kvGet (applyBatch db bw).blocksTable k = kvGet db.blocksTable k := by
  induction bw generalizing db with
  | nil => rfl
  | cons op rest ih =>
    rw [applyBatch_cons, ih _ (fun o ho => hput o (List.mem_cons_of_mem _ ho))
      (fun o ho => hdel o (List.mem_cons_of_mem _ ho))]
    cases op with
    | putBlock id blk =>
      have hk : k ≠ id := by
        intro e
        exact hput _ (List.mem_cons_self _ _) blk (by rw [e])
      simp only [applyOp]
      exact kvGet_kvPut_ne _ _ _ _ hk
    | delBlock id =>
      have hk : k ≠ id := by
        intro e
        exact hdel _ (List.mem_cons_self _ _) (by rw [e])
      simp only [applyOp]
      exact kvGet_kvDel_ne _ _ _ hk
    | putMeta m => rfl
    | putTx t x => rfl
    | putHeight a b => rfl
    | delHeight a => rfl
    | delPending id => rfl
    | putBranch id r => rfl
    | delBranch id => rfl

/-- Confirmed-Tx puts leave the Blocks table alone. -/
theorem applyBatch_txPuts_blocks (bw : Batch) (db : DB) (h : ∀ op ∈ bw, op.isTxPut = true) :
    (applyBatch db bw).blocksTable = db.blocksTable := by
  induction bw generalizing db with
  | nil => rfl
  | cons op rest ih =>
    rw [applyBatch_cons, ih _ (fun o ho => h o (List.mem_cons_of_mem _ ho))]
    have := h op (List.mem_cons_self _ _)
    cases op with
    | putTx t x => rfl
    | putBlock id blk => cases this
    | delBlock id => cases this
    | putMeta m => cases this
    | putHeight a b => cases this
    | delHeight a => cases this
    | delPending id => cases this
    | putBranch id r => cases this
    | delBranch id => cases this

/-- The record under the id of a saved header, after its `saveOps`. -/
theorem applyBatch_saveOps_self (db : DB) (b : InternalBlock) :
    kvGet (applyBatch db (saveOps b)).blocksTable b.blockid = some b := by
  unfold saveOps
  by_cases h : b.inTrunk = true
  · rw [if_pos h]
    simp [applyBatch, applyOp, kvGet_kvPut_self]
  · rw [if_neg h]
    simp [applyBatch, applyOp, kvGet_kvPut_self]

/-- The records under other ids, after the `saveOps` of a header. -/
theorem applyBatch_saveOps_ne (db : DB) (b : InternalBlock) (k : Bytes) (h : k ≠ b.blockid) :
    kvGet (applyBatch db (saveOps b)).blocksTable k = kvGet db.blocksTable k := by
  unfold saveOps
  by_cases hb : b.inTrunk = true
  · rw [if_pos hb]
    simp [applyBatch, applyOp, kvGet_kvPut_ne _ _ _ _ h]
  · rw [if_neg hb]
    simp [applyBatch, applyOp, kvGet_kvPut_ne _ _ _ _ h]

/-- The operations of a `saveOps`: block puts under the id of the header, no block delete. -/
theorem saveOps_ops (b : InternalBlock) :
    (∀ op ∈ saveOps b, ∀ k v, op = BatchOp.putBlock k v → k = b.blockid) ∧
    (∀ op ∈ saveOps b, ∀ k, op ≠ BatchOp.delBlock k) := by
  unfold saveOps
  by_cases hb : b.inTrunk = true
  · rw [if_pos hb]
    refine ⟨?_, ?_⟩
    · intro op hop k v e
      subst e
      simp at hop
      exact hop.1
    · intro op hop k e
      subst e
      simp at hop
  · rw [if_neg hb]
    refine ⟨?_, ?_⟩
    · intro op hop k v e
      subst e
      simp at hop
      exact hop.1
    · intro op hop k e
      subst e
      simp at hop

/-- The walk of `handleFork` along two paths of known blocks of the same length that meet in
`S`, with the headers its batch holds: the blocks of the old path are off the trunk with an
empty `next_hash`, each block of the new path is on the trunk and names its successor (`n` for
the first one), and `S` is on the trunk and names the last block of the new path. -/
theorem handleFork_walk_blocks (qs : List InternalBlock) :
    ∀ (ps : List InternalBlock) (S : InternalBlock) (fuel : Nat) (L : Ledger) (p q n : Bytes)
      (bw : Batch),
      ps.length = qs.length → qs.length + 1 ≤ fuel → L.PtrsValid →
      LinkedFrom p ps S → LinkedFrom q qs S →
      ((ps ++ qs ++ [S]).map (fun X => X.blockid)).Nodup →
      (∀ X ∈ ps ++ qs ++ [S], L.Knows X) →
      (∀ X ∈ qs, (queryBlock L X.blockid true).toOption.isSome = true) →
      ∃ sa L2 ext,
        handleFork fuel L p q n bw = some (.ok sa, L2, bw ++ ext) ∧
        (L2.deref sa).link = S.link ∧ (L2.deref sa).inTrunk = true ∧
        (L2.deref sa).nextHash = ((qs.getLast?).map (fun X => X.blockid)).getD n ∧
        (∀ op ∈ ext, ∀ k v, op = BatchOp.putBlock k v →
          k ∈ (ps ++ qs ++ [S]).map (fun X => X.blockid)) ∧
        (∀ op ∈ ext, ∀ k, op ≠ BatchOp.delBlock k) ∧
        ∀ db0 : DB,
          (∀ Z ∈ ps, flagsAt (applyBatch db0 ext) Z.blockid = some (Z.link, false, [])) ∧
          (∀ pr ∈ List.zip qs (n :: qs.map (fun X => X.blockid)),
            flagsAt (applyBatch db0 ext) pr.1.blockid = some (pr.1.link, true, pr.2)) ∧
          flagsAt (applyBatch db0 ext) S.blockid =
            some (S.link, true, ((qs.getLast?).map (fun X => X.blockid)).getD n) := by
  induction qs with
  | nil =>
    intro ps S fuel L p q n bw hlen hfuel hv hp hq _ hk _
    cases ps with
    | cons Pp ps => simp at hlen
    | nil =>
      cases fuel with
      | zero => simp at hfuel
      | succ f =>
        have hp1 : p = S.blockid := hp
        have hq1 : q = S.blockid := hq
        subst hp1
        subst hq1
        obtain ⟨pa, l1, H, hf, hF, hl⟩ := fetchBlock_knows L S hv (hk S (by simp))
        have hd : ((l1.modify pa (InternalBlock.setInTrunk true)).modify pa
            (InternalBlock.setNextHash n)).deref pa = (H.setInTrunk true).setNextHash n := by
          rw [deref_modify_same _ _ _ (by rw [modify_heap_length]; exact hF.pa_lt),
            deref_modify_same _ _ _ hF.pa_lt, hF.deref_pa]
        have hid : ((H.setInTrunk true).setNextHash n).blockid = S.blockid :=
          link_blockid _ _ hl
        refine ⟨pa, (saveBlock ((l1.modify pa (InternalBlock.setInTrunk true)).modify pa
            (InternalBlock.setNextHash n)) pa bw).1, saveOps ((H.setInTrunk true).setNextHash n),
            ?_, ?_, ?_, ?_, ?_, ?_, ?_⟩
        · rw [handleFork, if_pos rfl, hf]
          simp only [saveBlock_eq, setHeaderCache_deref, hd]
        · rw [saveBlock_eq, setHeaderCache_deref, hd]
          exact hl
        · rw [saveBlock_eq, setHeaderCache_deref, hd]
          rfl
        · rw [saveBlock_eq, setHeaderCache_deref, hd]
          rfl
        · intro op hop k v e
          have := (saveOps_ops _).1 op hop k v e
          rw [this, hid]
          simp
        · exact (saveOps_ops _).2
        · intro db0
          refine ⟨fun Z hZ => (by cases hZ), fun pr hpr => (by simp at hpr), ?_⟩
          unfold flagsAt
          rw [← hid, applyBatch_saveOps_self]
          simp only [Option.map_some']
          rw [show ((H.setInTrunk true).setNextHash n).link = S.link from hl]
          rfl
  | cons Q qs ih =>
    intro ps S fuel L p q n bw hlen hfuel hv hp hq hnd hk hqb
    cases ps with
    | nil => simp at hlen
    | cons Pp ps =>
      cases fuel with
      | zero => simp at hfuel
      | succ f =>
        obtain ⟨hpid, hp2⟩ := hp
        obtain ⟨hqid, hq2⟩ := hq
        subst hpid
        subst hqid
        obtain ⟨hpq, hother, hnd2⟩ := nodup_ids_step Pp Q ps qs S hnd
        have hsub : ∀ X, X ∈ ps ++ qs ++ [S] → X ∈ (Pp :: ps) ++ (Q :: qs) ++ [S] := by
          intro X hX
          simp only [List.mem_append, List.mem_cons, List.mem_singleton] at hX ⊢
          tauto
        obtain ⟨L2, cext, bP, bQ, hround, hcp, ⟨hlP, hbP, hnP⟩, ⟨hlQ, hbQ, hnQ⟩, hv2, hdb2, hk2⟩ :=
          handleFork_round_flags f L n bw Pp Q hv (hk Pp (by simp)) (hk Q (by simp)) hpq
            (hqb Q (List.mem_cons_self _ _))
        obtain ⟨sa, L3, ext, hres, h1, h2, h3, h4, h5, h6⟩ :=
          ih ps S f L2 Pp.preHash Q.preHash Q.blockid (bw ++ cext ++ saveOps bP ++ saveOps bQ)
            (by simpa using hlen) (by simpa using hfuel) hv2 hp2 hq2 hnd2
            (fun X hX => hk2 X (hk X (hsub X hX)) (hother X hX).1 (hother X hX).2)
            (fun X hX => by
              rw [queryBlock_congr L L2 _ _ hdb2]
              exact hqb X (List.mem_cons_of_mem _ hX))
        have hidP : bP.blockid = Pp.blockid := link_blockid _ _ hlP
        have hidQ : bQ.blockid = Q.blockid := link_blockid _ _ hlQ
        -- the walk below does not touch the two blocks of this round
        have hnotin : ∀ id, (∀ X ∈ ps ++ qs ++ [S], X.blockid ≠ id) →
            (∀ op ∈ ext, ∀ v, op ≠ BatchOp.putBlock id v) := by
          intro id hid op hop v e
          have hm := h4 op hop id v e
          obtain ⟨X, hX, hXe⟩ := List.mem_map.1 hm
          exact hid X hX hXe
        have hafter : ∀ (db0 : DB) (id : Bytes), (∀ X ∈ ps ++ qs ++ [S], X.blockid ≠ id) →
            kvGet (applyBatch db0 (cext ++ saveOps bP ++ saveOps bQ ++ ext)).blocksTable id =
              kvGet (applyBatch (applyBatch (applyBatch db0 cext) (saveOps bP))
                (saveOps bQ)).blocksTable id := by
          intro db0 id hid
          rw [applyBatch_append, applyBatch_append, applyBatch_append]
          exact applyBatch_blocks_frame ext id _ (hnotin id hid) (fun op hop => h5 op hop id)
        refine ⟨sa, L3, cext ++ saveOps bP ++ saveOps bQ ++ ext, ?_, h1, h2, ?_, ?_, ?_, ?_⟩
        · rw [hround, hres]
          simp only [List.append_assoc]
        · rw [h3]
          cases qs with
          | nil => rfl
          | cons Y r => rfl
        · intro op hop k v e
          subst e
          simp only [List.mem_append] at hop
          rcases hop with ((hop | hop) | hop) | hop
          · have := hcp _ hop
            cases this
          · have := (saveOps_ops bP).1 _ hop k v rfl
            rw [this, hidP]
            simp
          · have := (saveOps_ops bQ).1 _ hop k v rfl
            rw [this, hidQ]
            simp
          · have hm := h4 _ hop k v rfl
            obtain ⟨X, hX, hXe⟩ := List.mem_map.1 hm
            exact List.mem_map.2 ⟨X, hsub X hX, hXe⟩
        · intro op hop k e
          subst e
          simp only [List.mem_append] at hop
          rcases hop with ((hop | hop) | hop) | hop
          · have := hcp _ hop
            cases this
          · exact (saveOps_ops bP).2 _ hop k rfl
          · exact (saveOps_ops bQ).2 _ hop k rfl
          · exact h5 _ hop k rfl
        · intro db0
          have hrest := h6 (applyBatch db0 (cext ++ saveOps bP ++ saveOps bQ))
          have hsplit : applyBatch db0 (cext ++ saveOps bP ++ saveOps bQ ++ ext) =
              applyBatch (applyBatch db0 (cext ++ saveOps bP ++ saveOps bQ)) ext :=
            applyBatch_append _ _ _
          have hPflag : flagsAt (applyBatch db0 (cext ++ saveOps bP ++ saveOps bQ ++ ext))
              Pp.blockid = some (Pp.link, false, []) := by
            unfold flagsAt
            rw [hafter db0 Pp.blockid (fun X hX => (hother X hX).1),
              applyBatch_saveOps_ne _ _ _ (by rw [hidQ]; exact hpq), ← hidP,
              applyBatch_saveOps_self]
            simp only [Option.map_some', hlP, hbP, hnP]
          have hQflag : flagsAt (applyBatch db0 (cext ++ saveOps bP ++ saveOps bQ ++ ext))
              Q.blockid = some (Q.link, true, n) := by
            unfold flagsAt
            rw [hafter db0 Q.blockid (fun X hX => (hother X hX).2), ← hidQ,
              applyBatch_saveOps_self]
            simp only [Option.map_some', hlQ, hbQ, hnQ]
          refine ⟨?_, ?_, ?_⟩
          · intro Z hZ
            rcases List.mem_cons.1 hZ with e | hZ2
            · rw [e]; exact hPflag
            · rw [hsplit]; exact hrest.1 Z hZ2
          · intro pr hpr
            rw [List.map_cons, List.zip_cons_cons] at hpr
            rcases List.mem_cons.1 hpr with e | hpr2
            · rw [e]; exact hQflag
            · rw [hsplit]; exact hrest.2.1 pr hpr2
          · rw [hsplit, hrest.2.2]
            cases qs with
            | nil => rfl
            | cons Y r => rfl

/-! ## C18: paths of a well-formed store -/

/-- What well-formedness says about a stored block. -/
theorem storeWellFormed_get (l : Ledger) (hs : l.StoreWellFormed) (id : Bytes) (b : InternalBlock)
    (h : kvGet l.db.blocksTable id = some b) :
    b.blockid = id ∧ 0 ≤ b.height ∧
    (id = l.meta.rootBlockid → b.height = 0) ∧
    (id ≠ l.meta.rootBlockid →
      (kvGet l.db.blocksTable b.preHash).map (fun q => q.height + 1) = some b.height) ∧
    (queryBlock l id true).toOption.isSome = true :=
  hs (id, b) (kvGet_mem _ _ _ h)

/-- A stored block other than the root has a stored predecessor, one lower. -/
theorem storeWellFormed_pred (l : Ledger) (hs : l.StoreWellFormed) (X : InternalBlock)
    (hX : kvGet l.db.blocksTable X.blockid = some X) (hne : X.blockid ≠ l.meta.rootBlockid) :
    ∃ P, kvGet l.db.blocksTable P.blockid = some P ∧ P.blockid = X.preHash ∧
      P.height + 1 = X.height := by
  have h := (storeWellFormed_get l hs _ _ hX).2.2.2.1 hne
  cases hp : kvGet l.db.blocksTable X.preHash with
  | none => rw [hp] at h; cases h
  | some P =>
    rw [hp] at h
    have hid := (storeWellFormed_get l hs _ _ hp).1
    exact ⟨P, by rw [hid]; exact hp, hid, Option.some.inj h⟩

/-- A stored block of height 0 is the root. -/
theorem storeWellFormed_height_zero (l : Ledger) (hs : l.StoreWellFormed) (X : InternalBlock)
    (hX : kvGet l.db.blocksTable X.blockid = some X) (h0 : X.height = 0) :
    X.blockid = l.meta.rootBlockid := by
  by_contra hne
  obtain ⟨P, hP, _, hh⟩ := storeWellFormed_pred l hs X hX hne
  have := (storeWellFormed_get l hs _ _ hP).2.1
  omega

/-- Two stored blocks of the same height walk back along `pre_hash` to a common block over two
paths of the same length whose blocks are stored and pairwise different. -/
theorem storeWellFormed_paths (l : Ledger) (hs : l.StoreWellFormed) :
    ∀ (n : Nat) (X Y : InternalBlock),
      kvGet l.db.blocksTable X.blockid = some X → kvGet l.db.blocksTable Y.blockid = some Y →
      X.height = n → Y.height = n →
      ∃ ps qs S, LinkedFrom X.blockid ps S ∧ LinkedFrom Y.blockid qs S ∧
        ps.length = qs.length ∧ ps.length ≤ n ∧
        (∀ Z ∈ ps ++ qs ++ [S], kvGet l.db.blocksTable Z.blockid = some Z ∧ Z.height ≤ n) ∧
        ((ps ++ qs ++ [S]).map (fun Z => Z.blockid)).Nodup := by
  intro n
  induction n with
  | zero =>
    intro X Y hX hY hhX hhY
    have h1 := storeWellFormed_height_zero l hs X hX (by simpa using hhX)
    have h2 := storeWellFormed_height_zero l hs Y hY (by simpa using hhY)
    refine ⟨[], [], X, rfl, ?_, rfl, le_refl _, ?_, ?_⟩
    · exact h2.trans h1.symm
    · intro Z hZ
      simp only [List.nil_append, List.mem_singleton] at hZ
      subst hZ
      exact ⟨hX, le_of_eq hhX⟩
    · simp
  | succ k ih =>
    intro X Y hX hY hhX hhY
    by_cases hxy : X.blockid = Y.blockid
    · refine ⟨[], [], X, rfl, hxy.symm, rfl, Nat.zero_le _, ?_, ?_⟩
      · intro Z hZ
        simp only [List.nil_append, List.mem_singleton] at hZ
        subst hZ
        exact ⟨hX, le_of_eq hhX⟩
      · simp
    · have hXr : X.blockid ≠ l.meta.rootBlockid := by
        intro e
        have := (storeWellFormed_get l hs _ _ hX).2.2.1 e
        rw [this] at hhX
        simp at hhX
        omega
      have hYr : Y.blockid ≠ l.meta.rootBlockid := by
        intro e
        have := (storeWellFormed_get l hs _ _ hY).2.2.1 e
        rw [this] at hhY
        simp at hhY
        omega
      obtain ⟨PX, hPX, hPXid, hPXh⟩ := storeWellFormed_pred l hs X hX hXr
      obtain ⟨PY, hPY, hPYid, hPYh⟩ := storeWellFormed_pred l hs Y hY hYr
      have e1 : PX.height = (k : Int) := by
        rw [hhX] at hPXh
        push_cast at hPXh
        omega
      have e2 : PY.height = (k : Int) := by
        rw [hhY] at hPYh
        push_cast at hPYh
        omega
      obtain ⟨ps, qs, S, hlp, hlq, hlen, hle, hall, hnd⟩ := ih PX PY hPX hPY e1 e2
      have hfresh : ∀ W : InternalBlock, kvGet l.db.blocksTable W.blockid = some W →
          W.height = ((k + 1 : Nat) : Int) →
          W.blockid ∉ (ps ++ qs ++ [S]).map (fun Z => Z.blockid) := by
        intro W hW hWh hm
        obtain ⟨Z, hZ, hZe⟩ := List.mem_map.1 hm
        obtain ⟨hZs, hZh⟩ := hall Z hZ
        have hZe2 : Z.blockid = W.blockid := hZe
        rw [hZe2, hW] at hZs
        have : W = Z := Option.some.inj hZs
        rw [← this, hWh] at hZh
        push_cast at hZh
        omega
      refine ⟨X :: ps, Y :: qs, S, ⟨rfl, by rw [← hPXid]; exact hlp⟩,
        ⟨rfl, by rw [← hPYid]; exact hlq⟩, by simp [hlen], by simp; omega, ?_, ?_⟩
      · intro Z hZ
        have hperm : List.Perm ((X :: ps) ++ (Y :: qs) ++ [S]) (X :: Y :: (ps ++ qs ++ [S])) := by
          simp only [List.cons_append, List.append_assoc]
          exact List.Perm.cons _ List.perm_middle
        have hZ2 := hperm.mem_iff.1 hZ
        have hstep : ∀ W, W ∈ ps ++ qs ++ [S] →
            kvGet l.db.blocksTable W.blockid = some W ∧ W.height ≤ ((k + 1 : Nat) : Int) := by
          intro W hW
          obtain ⟨a, b⟩ := hall W hW
          refine ⟨a, ?_⟩
          push_cast
          omega
        rcases List.mem_cons.1 hZ2 with e | hZ3
        · subst e; exact ⟨hX, le_of_eq hhX⟩
        · rcases List.mem_cons.1 hZ3 with e | hZ4
          · subst e; exact ⟨hY, le_of_eq hhY⟩
          · exact hstep Z hZ4
      · have hperm : List.Perm ((X :: ps) ++ (Y :: qs) ++ [S]) (X :: Y :: (ps ++ qs ++ [S])) := by
          simp only [List.cons_append, List.append_assoc]
          exact List.Perm.cons _ List.perm_middle
        apply (hperm.map (fun Z => Z.blockid)).nodup_iff.2
        rw [List.map_cons, List.map_cons, List.nodup_cons, List.nodup_cons]
        refine ⟨?_, hfresh Y hY hhY, hnd⟩
        intro hm
        rcases List.mem_cons.1 hm with e | hm2
        · exact hxy e
        · exact hfresh X hX hhX hm2

/-- A stored block of a ledger whose header cache agrees with the store is known. -/
theorem knows_of_wellFormed (l : Ledger) (hc : l.CacheWellFormed) (Z : InternalBlock)
    (hZ : kvGet l.db.blocksTable Z.blockid = some Z) : l.Knows Z := by
  refine ⟨by rw [hZ]; rfl, ?_⟩
  intro e he h1
  have := hc.2 e he
  rw [h1, hZ] at this
  exact (Option.some.inj this).symm

/-- C18 (fork handler postcondition).  On a well-formed block store whose header cache agrees
with it, let `X` (the old tip) and `Y` (the predecessor of the new tip) be stored blocks of the
same height.  Then there are a block `S` and two `pre_hash` paths `ps` from `X` and `qs` from
`Y` down to, but excluding, `S`, all of these blocks stored and pairwise different, so that `S`
is the lowest common ancestor of `X` and `Y`; and with one unit of fuel per level and one more
`handleFork(X.id, Y.id, n)` returns `S` and appends to the batch operations after which, on any
store, every block of `ps` has `in_trunk = false` and an empty `next_hash`, every block of `qs`
has `in_trunk = true` and `next_hash` naming its successor on the new path (`n` for `Y`
itself), and `S` has `in_trunk = true` and `next_hash` naming its child on the new path (the
last block of `qs`, or `n` when `X = Y`). -/
theorem handleFork_postcondition (l : Ledger) (X Y : InternalBlock) (n : Bytes) (bw : Batch)
    (fuel : Nat) (hs : l.StoreWellFormed) (hc : l.CacheWellFormed)
    (hX : kvGet l.db.blocksTable X.blockid = some X)
    (hY : kvGet l.db.blocksTable Y.blockid = some Y)
    (hh : X.height = Y.height) (hfuel : X.height.toNat + 1 ≤ fuel) :
    ∃ ps qs S sa L2 ext,
      LinkedFrom X.blockid ps S ∧ LinkedFrom Y.blockid qs S ∧
      (∀ Z ∈ ps ++ qs ++ [S], kvGet l.db.blocksTable Z.blockid = some Z) ∧
      ((ps ++ qs ++ [S]).map (fun Z => Z.blockid)).Nodup ∧
      handleFork fuel l X.blockid Y.blockid n bw = some (.ok sa, L2, bw ++ ext) ∧
      (L2.deref sa).link = S.link ∧
      ∀ db0 : DB,
        (∀ Z ∈ ps, flagsAt (applyBatch db0 ext) Z.blockid = some (Z.link, false, [])) ∧
        (∀ pr ∈ List.zip qs (n :: qs.map (fun Z => Z.blockid)),
          flagsAt (applyBatch db0 ext) pr.1.blockid = some (pr.1.link, true, pr.2)) ∧
        flagsAt (applyBatch db0 ext) S.blockid =
          some (S.link, true, ((qs.getLast?).map (fun Z => Z.blockid)).getD n) := by
  have h0 := (storeWellFormed_get l hs _ _ hX).2.1
  have hn : X.height = (X.height.toNat : Int) := (Int.toNat_of_nonneg h0).symm
  obtain ⟨ps, qs, S, hlp, hlq, hlen, hle, hall, hnd⟩ :=
    storeWellFormed_paths l hs X.height.toNat X Y hX hY hn (hh ▸ hn)
  obtain ⟨sa, L2, ext, hres, h1, _, _, _, _, h6⟩ :=
    handleFork_walk_blocks qs ps S fuel l X.blockid Y.blockid n bw hlen
      (by rw [← hlen]; omega) hc.1 hlp hlq hnd
      (fun Z hZ => knows_of_wellFormed l hc Z (hall Z hZ).1)
      (fun Z hZ => (storeWellFormed_get l hs _ _
        (hall Z (by simp [hZ])).1).2.2.2.2)
  exact ⟨ps, qs, S, sa, L2, ext, hlp, hlq, fun Z hZ => (hall Z hZ).1, hnd, hres, h1, h6⟩

theorem handleFork_postcondition_witness :
    ∃ ps qs S sa L2 ext,
      LinkedFrom [2] ps S ∧ LinkedFrom [3] qs S ∧
      (∀ Z ∈ ps ++ qs ++ [S], kvGet Example.s3.db.blocksTable Z.blockid = some Z) ∧
      ((ps ++ qs ++ [S]).map (fun Z => Z.blockid)).Nodup ∧
      handleFork 2 Example.s3 [2] [3] [4] [] = some (.ok sa, L2, [] ++ ext) ∧
      (L2.deref sa).link = S.link ∧
      ∀ db0 : DB,
        (∀ Z ∈ ps, flagsAt (applyBatch db0 ext) Z.blockid = some (Z.link, false, [])) ∧
        (∀ pr ∈ List.zip qs ([4] :: qs.map (fun Z => Z.blockid)),
          flagsAt (applyBatch db0 ext) pr.1.blockid = some (pr.1.link, true, pr.2)) ∧
        flagsAt (applyBatch db0 ext) S.blockid =
          some (S.link, true, ((qs.getLast?).map (fun Z => Z.blockid)).getD [4]) :=
  handleFork_postcondition Example.s3
    (((Example.A1.setTransactions []).setHeight 1).setInTrunk true)
    ((Example.F1.setTransactions []).setHeight 1) [4] [] 2
    (by unfold Ledger.StoreWellFormed; decide) (by unfold Ledger.CacheWellFormed Ledger.PtrsValid; decide)
    (by decide) (by decide) (by decide) (by decide)

/-! ## C19: the walk of FindUndoAndTodoBlocks -/

/-- Along a path that steps one level at a time, a block is as many levels above the last
block as there are blocks after it. -/
theorem stepsTo_chain_height (pr : List InternalBlock) :
    ∀ (o S : InternalBlock), List.Chain' InternalBlock.StepsTo (o :: pr) →
      (o :: pr).getLast? = some S → o.height = S.height + pr.length := by
  induction pr with
  | nil =>
    intro o S _ hl
    simp only [List.getLast?_singleton, Option.some.injEq] at hl
    subst hl
    simp
  | cons x pr ih =>
    intro o S hc hl
    rw [List.chain'_cons] at hc
    rw [List.getLast?_cons_cons] at hl
    have := ih x S hc.2 hl
    have h1 := hc.1.2
    rw [h1, this]
    simp only [List.length_cons]
    push_cast
    ring

/-- In a list with pairwise different ids, a block of a first part that has the id of the last
block is the last block: nothing follows the first part. -/
theorem nodup_ids_last (A B : List InternalBlock) (S y : InternalBlock)
    (hnd : ((A ++ B).map (fun Z => Z.blockid)).Nodup) (hl : (A ++ B).getLast? = some S)
    (hy : y ∈ A) (he : y.blockid = S.blockid) : B = [] := by
  by_contra hB
  rw [List.getLast?_append_of_ne_nil _ hB] at hl
  have hS : S ∈ B := List.mem_of_getLast?_eq_some hl
  rw [List.map_append, List.nodup_append] at hnd
  exact hnd.2.2 (List.mem_map.2 ⟨y, hy, rfl⟩) (by rw [he]; exact List.mem_map.2 ⟨S, hS, rfl⟩)

theorem forkPaths_symm (l : Ledger) (P Q : List InternalBlock) (S : InternalBlock)
    (h : ForkPaths l P Q S) : ForkPaths l Q P S :=
  { lastP := h.lastQ
    lastQ := h.lastP
    chainP := h.chainQ
    chainQ := h.chainP
    nodupP := h.nodupQ
    nodupQ := h.nodupP
    meet := fun x hx y hy e => by
      have := h.meet y hy x hx e.symm
      rw [e]; exact this
    load := fun Z hZ => h.load Z hZ.symm
    pre := fun Z hZ => h.pre Z hZ.symm }

theorem walkState_swap_swap (s : WalkState) : s.swap.swap = s := by
  cases s; rfl

theorem walkAt_symm (l : Ledger) (P Q : List InternalBlock) (s : WalkState)
    (pd0 : List InternalBlock) (o : InternalBlock) (pr : List InternalBlock)
    (qd0 : List InternalBlock) (n : InternalBlock) (qr : List InternalBlock)
    (h : WalkAt l P Q s pd0 o pr qd0 n qr) : WalkAt l Q P s.swap qd0 n qr pd0 o pr :=
  { splitP := h.splitQ
    splitQ := h.splitP
    oldTip := h.newTip
    newTip := h.oldTip
    undo := h.todo
    todo := h.undo
    visited := fun id => (h.visited id).trans Or.comm }

/-- The step of the new side is the step of the old side with the sides exchanged. -/
theorem walkNew_eq_swap (l : Ledger) (s : WalkState) :
    walkNew l s =
      match walkOld l s.swap with
      | .error e => .error e
      | .ok (.inl id) => .ok (.inl id)
      | .ok (.inr s1) => .ok (.inr s1.swap) := by
  unfold walkNew walkOld WalkState.swap
  dsimp only
  split_ifs with h1
  · cases hq : queryBlock l s.newTip.preHash true with
    | error e => rfl
    | ok b =>
      dsimp only
      split_ifs with h2
      · rfl
      · rfl
  · cases s; rfl

/-- The position of a block on its path tells its height above `S`. -/
theorem walkAt_heights (l : Ledger) (P Q : List InternalBlock) (S : InternalBlock)
    (s : WalkState) (pd0 : List InternalBlock) (o : InternalBlock) (pr : List InternalBlock)
    (qd0 : List InternalBlock) (n : InternalBlock) (qr : List InternalBlock)
    (hF : ForkPaths l P Q S) (hW : WalkAt l P Q s pd0 o pr qd0 n qr) :
    s.oldTip.height = S.height + pr.length ∧ s.newTip.height = S.height + qr.length := by
  have hoP : o ∈ P := by rw [hW.splitP]; simp
  have hnQ : n ∈ Q := by rw [hW.splitQ]; simp
  refine ⟨?_, ?_⟩
  · rw [hW.oldTip, link_height _ _ (hF.load o (Or.inl hoP)).2]
    apply stepsTo_chain_height pr o S
    · have := hF.chainP
      rw [hW.splitP] at this
      exact this.right_of_append
    · have := hF.lastP
      rw [hW.splitP, List.getLast?_append_cons] at this
      exact this
  · rw [hW.newTip, link_height _ _ (hF.load n (Or.inr hnQ)).2]
    apply stepsTo_chain_height qr n S
    · have := hF.chainQ
      rw [hW.splitQ] at this
      exact this.right_of_append
    · have := hF.lastQ
      rw [hW.splitQ, List.getLast?_append_cons] at this
      exact this

/-- A block with blocks after it on its path is not `S` and names a predecessor. -/
theorem walkAt_old_pre (l : Ledger) (P Q : List InternalBlock) (S : InternalBlock)
    (s : WalkState) (pd0 : List InternalBlock) (o : InternalBlock) (pr : List InternalBlock)
    (qd0 : List InternalBlock) (n : InternalBlock) (qr : List InternalBlock)
    (hF : ForkPaths l P Q S) (hW : WalkAt l P Q s pd0 o pr qd0 n qr) (hpr : pr ≠ []) :
    s.oldTip.preHash ≠ [] := by
  have hoP : o ∈ P := by rw [hW.splitP]; simp
  rw [hW.oldTip, link_preHash _ _ (hF.load o (Or.inl hoP)).2]
  apply hF.pre o (Or.inl hoP)
  intro e
  have hnd := hF.nodupP
  have hl := hF.lastP
  rw [hW.splitP, show pd0 ++ o :: pr = (pd0 ++ [o]) ++ pr by simp] at hnd hl
  exact hpr (nodup_ids_last _ _ S o hnd hl (by simp) e)

/-- The step of the old side at a position of the walk: it stays when the old side is the
lower one, breaks with the id of `S` when the step reaches `S` and the new side stands on it,
and else moves one block down the old path. -/
theorem walkOld_spec (l : Ledger) (P Q : List InternalBlock) (S : InternalBlock)
    (s : WalkState) (pd0 : List InternalBlock) (o : InternalBlock) (pr : List InternalBlock)
    (qd0 : List InternalBlock) (n : InternalBlock) (qr : List InternalBlock)
    (hF : ForkPaths l P Q S) (hW : WalkAt l P Q s pd0 o pr qd0 n qr)
    (hne : pr ≠ [] ∨ qr ≠ []) :
    (pr.length < qr.length → walkOld l s = .ok (.inr s)) ∧
    (qr.length ≤ pr.length → ∃ x pr2, pr = x :: pr2 ∧
      ((pr2 = [] ∧ qr = [] ∧ walkOld l s = .ok (.inl S.blockid)) ∨
       ((pr2 ≠ [] ∨ qr ≠ []) ∧ ∃ s1, walkOld l s = .ok (.inr s1) ∧
          WalkAt l P Q s1 (pd0 ++ [o]) x pr2 qd0 n qr))) := by
  obtain ⟨hho, hhn⟩ := walkAt_heights l P Q S s pd0 o pr qd0 n qr hF hW
  refine ⟨?_, ?_⟩
  · intro hlt
    unfold walkOld
    rw [if_neg]
    rintro ⟨_, hge⟩
    rw [hho, hhn] at hge
    have : (pr.length : Int) < qr.length := by exact_mod_cast hlt
    omega
  · intro hle
    have hpr : pr ≠ [] := by
      intro e
      rw [e] at hle
      have : qr = [] := List.length_eq_zero.1 (Nat.le_zero.1 hle)
      rcases hne with h | h
      · exact h e
      · exact h this
    obtain ⟨x, pr2, rfl⟩ := List.exists_cons_of_ne_nil hpr
    refine ⟨x, pr2, rfl, ?_⟩
    have hoP : o ∈ P := by rw [hW.splitP]; simp
    have hxP : x ∈ P := by rw [hW.splitP]; simp
    have hpre := walkAt_old_pre l P Q S s pd0 o _ qd0 n qr hF hW hpr
    have hguard : s.oldTip.preHash.length > 0 ∧ s.oldTip.height ≥ s.newTip.height := by
      refine ⟨List.length_pos.2 hpre, ?_⟩
      rw [hho, hhn]
      have : (qr.length : Int) ≤ (x :: pr2).length := by exact_mod_cast hle
      omega
    have hchain : InternalBlock.StepsTo o x := by
      have := hF.chainP
      rw [hW.splitP] at this
      exact (List.chain'_cons.1 this.right_of_append).1
    have hq : queryBlock l s.oldTip.preHash true = .ok (loaded l x) := by
      rw [hW.oldTip, link_preHash _ _ (hF.load o (Or.inl hoP)).2, hchain.1]
      exact (hF.load x (Or.inl hxP)).1
    have hxid : (loaded l x).blockid = x.blockid := link_blockid _ _ (hF.load x (Or.inl hxP)).2
    have hndP := hF.nodupP
    have hlP := hF.lastP
    have hvis : x.blockid ∈ s.visited ↔ (pr2 = [] ∧ qr = []) := by
      rw [hW.visited]
      constructor
      · intro h
        rcases h with h | h
        · exfalso
          rw [hW.splitP, show pd0 ++ o :: x :: pr2 = (pd0 ++ [o]) ++ x :: pr2 by simp,
            List.map_append, List.nodup_append] at hndP
          exact hndP.2.2 h (by simp)
        · obtain ⟨y, hy, hye⟩ := List.mem_map.1 h
          have hyQ : y ∈ Q := by
            rw [hW.splitQ]
            simp only [List.mem_append, List.mem_singleton, List.mem_cons] at hy ⊢
            tauto
          have hye2 : y.blockid = x.blockid := hye
          have hxS : x.blockid = S.blockid := hF.meet x hxP y hyQ hye2.symm
          refine ⟨?_, ?_⟩
          · rw [hW.splitP, show pd0 ++ o :: x :: pr2 = (pd0 ++ [o, x]) ++ pr2 by simp]
              at hndP hlP
            exact nodup_ids_last _ _ S x hndP hlP (by simp) hxS
          · have hndQ := hF.nodupQ
            have hlQ := hF.lastQ
            rw [hW.splitQ, show qd0 ++ n :: qr = (qd0 ++ [n]) ++ qr by simp] at hndQ hlQ
            exact nodup_ids_last _ _ S y hndQ hlQ hy (hye2.trans hxS)
      · rintro ⟨e1, e2⟩
        right
        subst e1
        subst e2
        have hx : x = S := by
          rw [hW.splitP, List.getLast?_append_cons] at hlP
          simpa using hlP
        have hn : n = S := by
          have := hF.lastQ
          rw [hW.splitQ, List.getLast?_append_cons] at this
          simpa using this
        rw [hx, ← hn]
        simp
    by_cases hb : pr2 = [] ∧ qr = []
    · left
      refine ⟨hb.1, hb.2, ?_⟩
      have hx : x = S := by
        rw [hW.splitP, hb.1, List.getLast?_append_cons] at hlP
        simpa using hlP
      unfold walkOld
      rw [if_pos hguard, hq]
      dsimp only
      rw [hxid, if_pos (hvis.2 hb), hx]
    · right
      refine ⟨by tauto, ⟨loaded l x, s.newTip, s.visited ++ [(loaded l x).blockid],
        s.undoBlocks ++ [loaded l x], s.todoBlocks⟩, ?_, ?_⟩
      · unfold walkOld
        rw [if_pos hguard, hq]
        dsimp only
        rw [if_neg (fun h => hb (hvis.1 (hxid ▸ h)))]
      · exact
          { splitP := by rw [hW.splitP]; simp
            splitQ := hW.splitQ
            oldTip := rfl
            newTip := hW.newTip
            undo := by
              show s.undoBlocks ++ [loaded l x] = _
              rw [hW.undo]; simp
            todo := hW.todo
            visited := by
              intro id
              show id ∈ s.visited ++ [(loaded l x).blockid] ↔ _
              rw [hxid, List.mem_append, hW.visited, List.map_append (fun Z => Z.blockid)
                (pd0 ++ [o]) [x], List.mem_append]
              constructor
              · rintro ((h | h) | h)
                · exact Or.inl (Or.inl h)
                · exact Or.inr h
                · exact Or.inl (Or.inr h)
              · rintro ((h | h) | h)
                · exact Or.inl (Or.inl h)
                · exact Or.inr h
                · exact Or.inl (Or.inr h) }

/-- The step of the new side at a position of the walk, as `walkOld_spec` with the sides
exchanged. -/
theorem walkNew_spec (l : Ledger) (P Q : List InternalBlock) (S : InternalBlock)
    (s : WalkState) (pd0 : List InternalBlock) (o : InternalBlock) (pr : List InternalBlock)
    (qd0 : List InternalBlock) (n : InternalBlock) (qr : List InternalBlock)
    (hF : ForkPaths l P Q S) (hW : WalkAt l P Q s pd0 o pr qd0 n qr)
    (hne : pr ≠ [] ∨ qr ≠ []) :
    (qr.length < pr.length → walkNew l s = .ok (.inr s)) ∧
    (pr.length ≤ qr.length → ∃ y qr2, qr = y :: qr2 ∧
      ((qr2 = [] ∧ pr = [] ∧ walkNew l s = .ok (.inl S.blockid)) ∨
       ((pr ≠ [] ∨ qr2 ≠ []) ∧ ∃ s1, walkNew l s = .ok (.inr s1) ∧
          WalkAt l P Q s1 pd0 o pr (qd0 ++ [n]) y qr2))) := by
  obtain ⟨h1, h2⟩ := walkOld_spec l Q P S s.swap qd0 n qr pd0 o pr (forkPaths_symm l P Q S hF)
    (walkAt_symm l P Q s pd0 o pr qd0 n qr hW) hne.symm
  refine ⟨?_, ?_⟩
  · intro hlt
    rw [walkNew_eq_swap, h1 hlt]
    dsimp only
    rw [walkState_swap_swap]
  · intro hle
    obtain ⟨y, qr2, e, hc⟩ := h2 hle
    refine ⟨y, qr2, e, ?_⟩
    rcases hc with ⟨e1, e2, hw⟩ | ⟨hne2, s1, hw, hW1⟩
    · left
      refine ⟨e1, e2, ?_⟩
      rw [walkNew_eq_swap, hw]
    · right
      refine ⟨hne2.symm, s1.swap, ?_, ?_⟩
      · rw [walkNew_eq_swap, hw]
      · have := walkAt_symm l Q P s1 (qd0 ++ [n]) y qr2 pd0 o pr hW1
        exact this

theorem dropSplit_last_ne (id : Bytes) (A : List InternalBlock) (z : InternalBlock)
    (h : z.blockid ≠ id) : dropSplit id (A ++ [z]) = A ++ [z] := by
  unfold dropSplit
  rw [List.getLast?_concat]
  dsimp only
  rw [if_neg h]

theorem dropSplit_last_eq (id : Bytes) (A : List InternalBlock) (z : InternalBlock)
    (h : z.blockid = id) : dropSplit id (A ++ [z]) = A := by
  unfold dropSplit
  rw [List.getLast?_concat]
  dsimp only
  rw [if_pos h, List.dropLast_concat]

/-- The closing step on the undo list when the walk breaks: the old side stands on `S`, which
is dropped, or one block above it, and nothing is dropped; either way the list is the old
path without `S`. -/
theorem walkAt_dropSplit_undo (l : Ledger) (P Q : List InternalBlock) (S : InternalBlock)
    (s : WalkState) (pd0 : List InternalBlock) (o : InternalBlock) (pr : List InternalBlock)
    (qd0 : List InternalBlock) (n : InternalBlock) (qr : List InternalBlock)
    (hF : ForkPaths l P Q S) (hW : WalkAt l P Q s pd0 o pr qd0 n qr)
    (hpr : pr = [] ∨ ∃ x, pr = [x]) :
    dropSplit S.blockid s.undoBlocks = P.dropLast.map (loaded l) := by
  have hoP : o ∈ P := by rw [hW.splitP]; simp
  have hoid : (loaded l o).blockid = o.blockid := link_blockid _ _ (hF.load o (Or.inl hoP)).2
  have hlP := hF.lastP
  rw [hW.undo, List.map_append, List.map_cons, List.map_nil]
  rcases hpr with e | ⟨x, e⟩
  · subst e
    have ho : o = S := by
      rw [hW.splitP, List.getLast?_append_cons] at hlP
      simpa using hlP
    rw [dropSplit_last_eq _ _ _ (by rw [hoid, ho]), hW.splitP, List.dropLast_concat]
  · subst e
    have hne : o.blockid ≠ S.blockid := by
      intro e
      have hnd := hF.nodupP
      rw [hW.splitP, show pd0 ++ [o, x] = (pd0 ++ [o]) ++ [x] by simp] at hnd hlP
      have := nodup_ids_last _ _ S o hnd hlP (by simp) e
      cases this
    rw [dropSplit_last_ne _ _ _ (by rw [hoid]; exact hne), hW.splitP,
      show pd0 ++ [o, x] = (pd0 ++ [o]) ++ [x] by simp, List.dropLast_concat]
    simp

theorem walkAt_dropSplit_todo (l : Ledger) (P Q : List InternalBlock) (S : InternalBlock)
    (s : WalkState) (pd0 : List InternalBlock) (o : InternalBlock) (pr : List InternalBlock)
    (qd0 : List InternalBlock) (n : InternalBlock) (qr : List InternalBlock)
    (hF : ForkPaths l P Q S) (hW : WalkAt l P Q s pd0 o pr qd0 n qr)
    (hqr : qr = [] ∨ ∃ y, qr = [y]) :
    dropSplit S.blockid s.todoBlocks = Q.dropLast.map (loaded l) :=
  walkAt_dropSplit_undo l Q P S s.swap qd0 n qr pd0 o pr (forkPaths_symm l P Q S hF)
    (walkAt_symm l P Q s pd0 o pr qd0 n qr hW) hqr

theorem walkAt_new_pre (l : Ledger) (P Q : List InternalBlock) (S : InternalBlock)
    (s : WalkState) (pd0 : List InternalBlock) (o : InternalBlock) (pr : List InternalBlock)
    (qd0 : List InternalBlock) (n : InternalBlock) (qr : List InternalBlock)
    (hF : ForkPaths l P Q S) (hW : WalkAt l P Q s pd0 o pr qd0 n qr) (hqr : qr ≠ []) :
    s.newTip.preHash ≠ [] :=
  walkAt_old_pre l Q P S s.swap qd0 n qr pd0 o pr (forkPaths_symm l P Q S hF)
    (walkAt_symm l P Q s pd0 o pr qd0 n qr hW) hqr

/-- The both-ends-at-a-root exit of the loop is not taken while a side has blocks to walk. -/
theorem walkAt_not_both_empty (l : Ledger) (P Q : List InternalBlock) (S : InternalBlock)
    (s : WalkState) (pd0 : List InternalBlock) (o : InternalBlock) (pr : List InternalBlock)
    (qd0 : List InternalBlock) (n : InternalBlock) (qr : List InternalBlock)
    (hF : ForkPaths l P Q S) (hW : WalkAt l P Q s pd0 o pr qd0 n qr)
    (hne : pr ≠ [] ∨ qr ≠ []) :
    ¬(s.oldTip.preHash.length = 0 ∧ s.newTip.preHash.length = 0) := by
  rintro ⟨h1, h2⟩
  rcases hne with h | h
  · exact walkAt_old_pre l P Q S s pd0 o pr qd0 n qr hF hW h (List.length_eq_zero.1 h1)
  · exact walkAt_new_pre l P Q S s pd0 o pr qd0 n qr hF hW h (List.length_eq_zero.1 h2)

/-- The loop of the walker from a position on the two paths: with one unit of fuel per block
still to walk it breaks with the id of `S`, and after the closing step the two lists are the
two paths without `S`, as loaded blocks, each listed from its tip. -/
theorem walkLoop_spec (l : Ledger) (P Q : List InternalBlock) (S : InternalBlock)
    (hF : ForkPaths l P Q S) :
    ∀ (fuel : Nat) (s : WalkState) (pd0 : List InternalBlock) (o : InternalBlock)
      (pr : List InternalBlock) (qd0 : List InternalBlock) (n : InternalBlock)
      (qr : List InternalBlock),
      WalkAt l P Q s pd0 o pr qd0 n qr → (pr ≠ [] ∨ qr ≠ []) → pr.length + qr.length ≤ fuel →
      ∃ s2, walkLoop fuel l s = some (.ok (s2, S.blockid)) ∧
        dropSplit S.blockid s2.undoBlocks = P.dropLast.map (loaded l) ∧
        dropSplit S.blockid s2.todoBlocks = Q.dropLast.map (loaded l) := by
  intro fuel
  induction fuel with
  | zero =>
    intro s pd0 o pr qd0 n qr _ hne hm
    exfalso
    have h1 : pr.length = 0 := by omega
    have h2 : qr.length = 0 := by omega
    rcases hne with h | h
    · exact h (List.length_eq_zero.1 h1)
    · exact h (List.length_eq_zero.1 h2)
  | succ f ih =>
    intro s pd0 o pr qd0 n qr hW hne hm
    have hnb := walkAt_not_both_empty l P Q S s pd0 o pr qd0 n qr hF hW hne
    rw [walkLoop]
    by_cases hcmp : qr.length ≤ pr.length
    · obtain ⟨x, pr2, e, hc⟩ := (walkOld_spec l P Q S s pd0 o pr qd0 n qr hF hW hne).2 hcmp
      subst e
      rcases hc with ⟨e1, e2, hwo⟩ | ⟨hne1, s1, hwo, hW1⟩
      · rw [hwo]
        exact ⟨s, rfl,
          walkAt_dropSplit_undo l P Q S s pd0 o _ qd0 n qr hF hW (Or.inr ⟨x, by rw [e1]⟩),
          walkAt_dropSplit_todo l P Q S s pd0 o _ qd0 n qr hF hW (Or.inl e2)⟩
      · rw [hwo]
        dsimp only
        by_cases hcmp2 : pr2.length ≤ qr.length
        · obtain ⟨y, qr2, e, hc2⟩ :=
            (walkNew_spec l P Q S s1 _ x pr2 qd0 n qr hF hW1 hne1).2 hcmp2
          subst e
          rcases hc2 with ⟨e1, e2, hwn⟩ | ⟨hne2, s2, hwn, hW2⟩
          · rw [hwn]
            exact ⟨s1, rfl,
              walkAt_dropSplit_undo l P Q S s1 _ x pr2 qd0 n _ hF hW1 (Or.inl e2),
              walkAt_dropSplit_todo l P Q S s1 _ x pr2 qd0 n _ hF hW1 (Or.inr ⟨y, by rw [e1]⟩)⟩
          · rw [hwn]
            dsimp only
            rw [if_neg hnb]
            exact ih s2 _ x pr2 _ y qr2 hW2 hne2 (by
              simp only [List.length_cons] at hm
              omega)
        · rw [(walkNew_spec l P Q S s1 _ x pr2 qd0 n qr hF hW1 hne1).1 (by omega)]
          dsimp only
          rw [if_neg hnb]
          exact ih s1 _ x pr2 qd0 n qr hW1 hne1 (by
            simp only [List.length_cons] at hm
            omega)
    · rw [(walkOld_spec l P Q S s pd0 o pr qd0 n qr hF hW hne).1 (by omega)]
      dsimp only
      obtain ⟨y, qr2, e, hc2⟩ :=
        (walkNew_spec l P Q S s pd0 o pr qd0 n qr hF hW hne).2 (by omega)
      subst e
      rcases hc2 with ⟨e1, e2, hwn⟩ | ⟨hne2, s2, hwn, hW2⟩
      · rw [hwn]
        exact ⟨s, rfl,
          walkAt_dropSplit_undo l P Q S s pd0 o pr qd0 n _ hF hW (Or.inl e2),
          walkAt_dropSplit_todo l P Q S s pd0 o pr qd0 n _ hF hW (Or.inr ⟨y, by rw [e1]⟩)⟩
      · rw [hwn]
        dsimp only
        rw [if_neg hnb]
        exact ih s2 pd0 o pr _ y qr2 hW2 hne2 (by
          simp only [List.length_cons] at hm
          omega)

/-- The first block of a path walked back from an id has that id. -/
theorem linkedFrom_head (start : Bytes) (xs : List InternalBlock) (S : InternalBlock)
    (h : LinkedFrom start xs S) : (xs.head?.getD S).blockid = start := by
  cases xs with
  | nil => exact h.symm
  | cons X rest => exact h.1

/-- Any two stored blocks of a well-formed store walk back along `pre_hash`, one level per
step, to a common block over two paths whose blocks are stored, are not the root and are
pairwise different. -/
theorem storeWellFormed_fork (l : Ledger) (hs : l.StoreWellFormed) :
    ∀ (n : Nat) (X Y : InternalBlock),
      kvGet l.db.blocksTable X.blockid = some X → kvGet l.db.blocksTable Y.blockid = some Y →
      max X.height Y.height = n →
      ∃ ps qs S, LinkedFrom X.blockid ps S ∧ LinkedFrom Y.blockid qs S ∧
        HeightsTo ps S ∧ HeightsTo qs S ∧
        (ps.length : Int) = X.height - S.height ∧ (qs.length : Int) = Y.height - S.height ∧
        (∀ Z ∈ ps ++ qs ++ [S], kvGet l.db.blocksTable Z.blockid = some Z ∧ Z.height ≤ n) ∧
        (∀ Z ∈ ps ++ qs, Z.blockid ≠ l.meta.rootBlockid) ∧
        ((ps ++ qs ++ [S]).map (fun Z => Z.blockid)).Nodup := by
  intro n
  induction n with
  | zero =>
    intro X Y hX hY hmax
    have hX0 := (storeWellFormed_get l hs _ _ hX).2.1
    have hY0 := (storeWellFormed_get l hs _ _ hY).2.1
    have hXh : X.height = 0 := by
      have := le_max_left X.height Y.height
      rw [hmax] at this
      simp at this
      omega
    have hYh : Y.height = 0 := by
      have := le_max_right X.height Y.height
      rw [hmax] at this
      simp at this
      omega
    have h1 := storeWellFormed_height_zero l hs X hX hXh
    have h2 := storeWellFormed_height_zero l hs Y hY hYh
    refine ⟨[], [], X, rfl, h2.trans h1.symm, trivial, trivial, by simp, by simp [hXh, hYh],
      ?_, by simp, by simp⟩
    intro Z hZ
    simp only [List.nil_append, List.mem_singleton] at hZ
    subst hZ
    exact ⟨hX, by rw [hXh]; simp⟩
  | succ k ih =>
    intro X Y hX hY hmax
    have hX0 := (storeWellFormed_get l hs _ _ hX).2.1
    have hY0 := (storeWellFormed_get l hs _ _ hY).2.1
    have hXle : X.height ≤ ((k + 1 : Nat) : Int) := by rw [← hmax]; exact le_max_left _ _
    have hYle : Y.height ≤ ((k + 1 : Nat) : Int) := by rw [← hmax]; exact le_max_right _ _
    by_cases hxy : X.blockid = Y.blockid
    · refine ⟨[], [], X, rfl, hxy.symm, trivial, trivial, by simp, ?_, ?_, by simp, by simp⟩
      · have : X = Y := by
          rw [hxy, hY] at hX
          exact (Option.some.inj hX).symm
        rw [this]; simp
      · intro Z hZ
        simp only [List.nil_append, List.mem_singleton] at hZ
        subst hZ
        exact ⟨hX, hXle⟩
    · -- a block of height `k + 1` is not the root and is not among blocks of height `≤ k`
      have hnonroot : ∀ W : InternalBlock, kvGet l.db.blocksTable W.blockid = some W →
          W.height = ((k + 1 : Nat) : Int) → W.blockid ≠ l.meta.rootBlockid := by
        intro W hW hWh e
        have := (storeWellFormed_get l hs _ _ hW).2.2.1 e
        rw [this] at hWh
        push_cast at hWh
        omega
      have hfresh : ∀ (W : InternalBlock) (zs : List InternalBlock),
          kvGet l.db.blocksTable W.blockid = some W → W.height = ((k + 1 : Nat) : Int) →
          (∀ Z ∈ zs, kvGet l.db.blocksTable Z.blockid = some Z ∧ Z.height ≤ (k : Int)) →
          W.blockid ∉ zs.map (fun Z => Z.blockid) := by
        intro W zs hW hWh hall hm
        obtain ⟨Z, hZ, hZe⟩ := List.mem_map.1 hm
        obtain ⟨hZs, hZh⟩ := hall Z hZ
        have hZe2 : Z.blockid = W.blockid := hZe
        rw [hZe2, hW] at hZs
        have : W = Z := Option.some.inj hZs
        rw [← this, hWh] at hZh
        push_cast at hZh
        omega
      have hbound : ∀ zs : List InternalBlock,
          (∀ Z ∈ zs, kvGet l.db.blocksTable Z.blockid = some Z ∧ Z.height ≤ (k : Int)) →
          ∀ Z ∈ zs, kvGet l.db.blocksTable Z.blockid = some Z ∧
            Z.height ≤ ((k + 1 : Nat) : Int) := by
        intro zs hall Z hZ
        obtain ⟨a, b⟩ := hall Z hZ
        refine ⟨a, ?_⟩
        push_cast
        omega
      have hheadeq : ∀ (W : InternalBlock) (zs : List InternalBlock) (S : InternalBlock),
          kvGet l.db.blocksTable W.blockid = some W → LinkedFrom W.blockid zs S →
          kvGet l.db.blocksTable (zs.head?.getD S).blockid = some (zs.head?.getD S) →
          zs.head?.getD S = W := by
        intro W zs S hW hl hst
        rw [linkedFrom_head _ _ _ hl, hW] at hst
        exact (Option.some.inj hst).symm
      have hheadmem : ∀ (zs ws : List InternalBlock) (S : InternalBlock),
          zs.head?.getD S ∈ zs ++ ws ++ [S] := by
        intro zs ws S
        cases zs with
        | nil => simp
        | cons a r => simp
      rcases lt_trichotomy X.height Y.height with hlt | heq | hgt
      · -- `Y` is the higher block: it steps
        have hYh : Y.height = ((k + 1 : Nat) : Int) := by
          rw [← hmax]; exact (max_eq_right (le_of_lt hlt)).symm
        have hYr := hnonroot Y hY hYh
        obtain ⟨PY, hPY, hPYid, hPYh⟩ := storeWellFormed_pred l hs Y hY hYr
        have hm : max X.height PY.height = (k : Int) := by
          have : PY.height = (k : Int) := by
            rw [hYh] at hPYh; push_cast at hPYh; omega
          rw [this]
          apply max_eq_right
          rw [hYh] at hlt; push_cast at hlt; omega
        obtain ⟨ps, qs, S, hlp, hlq, hhp, hhq, hnp, hnq, hall, hnr, hnd⟩ := ih X PY hX hPY hm
        have hhead : qs.head?.getD S = PY := by
          apply hheadeq PY qs S hPY hlq
          exact (hall _ (by
            have := hheadmem qs [] S
            simp only [List.append_nil] at this
            simp only [List.mem_append] at this ⊢
            tauto)).1
        refine ⟨ps, Y :: qs, S, hlp, ⟨rfl, by rw [← hPYid]; exact hlq⟩, hhp,
          ⟨by rw [hhead]; exact hPYh.symm, hhq⟩, hnp, ?_, ?_, ?_, ?_⟩
        · simp only [List.length_cons]; push_cast; omega
        · intro Z hZ
          have hperm : List.Perm (ps ++ (Y :: qs) ++ [S]) (Y :: (ps ++ qs ++ [S])) := by
            simp only [List.append_assoc, List.cons_append]
            exact List.perm_middle
          rcases List.mem_cons.1 (hperm.mem_iff.1 hZ) with e | hZ2
          · subst e; exact ⟨hY, hYle⟩
          · exact hbound _ hall Z hZ2
        · intro Z hZ
          have hperm : List.Perm (ps ++ (Y :: qs)) (Y :: (ps ++ qs)) := List.perm_middle
          rcases List.mem_cons.1 (hperm.mem_iff.1 hZ) with e | hZ2
          · subst e; exact hYr
          · exact hnr Z hZ2
        · have hperm : List.Perm (ps ++ (Y :: qs) ++ [S]) (Y :: (ps ++ qs ++ [S])) := by
            simp only [List.append_assoc, List.cons_append]
            exact List.perm_middle
          apply (hperm.map (fun Z => Z.blockid)).nodup_iff.2
          rw [List.map_cons, List.nodup_cons]
          exact ⟨hfresh Y _ hY hYh hall, hnd⟩
      · -- equal heights, different blocks: both step
        have hXh : X.height = ((k + 1 : Nat) : Int) := by
          rw [← hmax, heq]; simp
        have hYh : Y.height = ((k + 1 : Nat) : Int) := by rw [← heq]; exact hXh
        have hXr := hnonroot X hX hXh
        have hYr := hnonroot Y hY hYh
        obtain ⟨PX, hPX, hPXid, hPXh⟩ := storeWellFormed_pred l hs X hX hXr
        obtain ⟨PY, hPY, hPYid, hPYh⟩ := storeWellFormed_pred l hs Y hY hYr
        have hm : max PX.height PY.height = (k : Int) := by
          have e1 : PX.height = (k : Int) := by
            rw [hXh] at hPXh; push_cast at hPXh; omega
          have e2 : PY.height = (k : Int) := by
            rw [hYh] at hPYh; push_cast at hPYh; omega
          rw [e1, e2]; simp
        obtain ⟨ps, qs, S, hlp, hlq, hhp, hhq, hnp, hnq, hall, hnr, hnd⟩ := ih PX PY hPX hPY hm
        have hheadP : ps.head?.getD S = PX := by
          apply hheadeq PX ps S hPX hlp
          exact (hall _ (by
            have := hheadmem ps [] S
            simp only [List.append_nil] at this
            simp only [List.mem_append] at this ⊢
            tauto)).1
        have hheadQ : qs.head?.getD S = PY := by
          apply hheadeq PY qs S hPY hlq
          exact (hall _ (by
            have := hheadmem qs [] S
            simp only [List.append_nil] at this
            simp only [List.mem_append] at this ⊢
            tauto)).1
        have hperm : List.Perm ((X :: ps) ++ (Y :: qs) ++ [S]) (X :: Y :: (ps ++ qs ++ [S])) := by
          simp only [List.cons_append, List.append_assoc]
          exact List.Perm.cons _ List.perm_middle
        refine ⟨X :: ps, Y :: qs, S, ⟨rfl, by rw [← hPXid]; exact hlp⟩,
          ⟨rfl, by rw [← hPYid]; exact hlq⟩, ⟨by rw [hheadP]; exact hPXh.symm, hhp⟩,
          ⟨by rw [hheadQ]; exact hPYh.symm, hhq⟩, ?_, ?_, ?_, ?_, ?_⟩
        · simp only [List.length_cons]; push_cast; omega
        · simp only [List.length_cons]; push_cast; omega
        · intro Z hZ
          rcases List.mem_cons.1 (hperm.mem_iff.1 hZ) with e | hZ2
          · subst e; exact ⟨hX, hXle⟩
          · rcases List.mem_cons.1 hZ2 with e | hZ3
            · subst e; exact ⟨hY, hYle⟩
            · exact hbound _ hall Z hZ3
        · intro Z hZ
          have hperm2 : List.Perm ((X :: ps) ++ (Y :: qs)) (X :: Y :: (ps ++ qs)) := by
            simp only [List.cons_append]
            exact List.Perm.cons _ List.perm_middle
          rcases List.mem_cons.1 (hperm2.mem_iff.1 hZ) with e | hZ2
          · subst e; exact hXr
          · rcases List.mem_cons.1 hZ2 with e | hZ3
            · subst e; exact hYr
            · exact hnr Z hZ3
        · apply (hperm.map (fun Z => Z.blockid)).nodup_iff.2
          rw [List.map_cons, List.map_cons, List.nodup_cons, List.nodup_cons]
          refine ⟨?_, hfresh Y _ hY hYh hall, hnd⟩
          intro hm2
          rcases List.mem_cons.1 hm2 with e | hm3
          · exact hxy e
          · exact hfresh X _ hX hXh hall hm3
      · -- `X` is the higher block: it steps
        have hXh : X.height = ((k + 1 : Nat) : Int) := by
          rw [← hmax]; exact (max_eq_left (le_of_lt hgt)).symm
        have hXr := hnonroot X hX hXh
        obtain ⟨PX, hPX, hPXid, hPXh⟩ := storeWellFormed_pred l hs X hX hXr
        have hm : max PX.height Y.height = (k : Int) := by
          have : PX.height = (k : Int) := by
            rw [hXh] at hPXh; push_cast at hPXh; omega
          rw [this]
          apply max_eq_left
          rw [hXh] at hgt; push_cast at hgt; omega
        obtain ⟨ps, qs, S, hlp, hlq, hhp, hhq, hnp, hnq, hall, hnr, hnd⟩ := ih PX Y hPX hY hm
        have hhead : ps.head?.getD S = PX := by
          apply hheadeq PX ps S hPX hlp
          exact (hall _ (by
            have := hheadmem ps [] S
            simp only [List.append_nil] at this
            simp only [List.mem_append] at this ⊢
            tauto)).1
        refine ⟨X :: ps, qs, S, ⟨rfl, by rw [← hPXid]; exact hlp⟩, hlq,
          ⟨by rw [hhead]; exact hPXh.symm, hhp⟩, hhq, ?_, hnq, ?_, ?_, ?_⟩
        · simp only [List.length_cons]; push_cast; omega
        · intro Z hZ
          rcases List.mem_cons.1 hZ with e | hZ2
          · subst e; exact ⟨hX, hXle⟩
          · exact hbound _ hall Z hZ2
        · intro Z hZ
          rcases List.mem_cons.1 hZ with e | hZ2
          · subst e; exact hXr
          · exact hnr Z hZ2
        · show ((X :: (ps ++ qs ++ [S])).map (fun Z => Z.blockid)).Nodup
          rw [List.map_cons, List.nodup_cons]
          exact ⟨hfresh X _ hX hXh hall, hnd⟩

/-- A loaded block has the id, predecessor and height of the stored record. -/
theorem queryBlock_ok_link (l : Ledger) (id : Bytes) (b Z : InternalBlock)
    (hq : queryBlock l id true = .ok b) (hZ : kvGet l.db.blocksTable id = some Z) :
    b.link = Z.link := by
  unfold queryBlock at hq
  rw [hZ] at hq
  dsimp only at hq
  rw [if_pos rfl] at hq
  split_ifs at hq with h1
  cases hb : loadBody l.db.confirmedTable (Z.merkleTree.take Z.txCount.toNat) with
  | error e => rw [hb] at hq; cases hq
  | ok txs =>
    rw [hb] at hq
    cases hq
    rfl

/-- In a well-formed store the body of a stored block is loaded, and the loaded block has the
id, predecessor and height of the record. -/
theorem loaded_spec (l : Ledger) (hs : l.StoreWellFormed) (Z : InternalBlock)
    (hZ : kvGet l.db.blocksTable Z.blockid = some Z) :
    queryBlock l Z.blockid true = .ok (loaded l Z) ∧ (loaded l Z).link = Z.link := by
  have h := (storeWellFormed_get l hs _ _ hZ).2.2.2.2
  cases hq : queryBlock l Z.blockid true with
  | error e => rw [hq] at h; cases h
  | ok b =>
    have hl : loaded l Z = b := by
      unfold loaded; rw [hq]
    rw [hl]
    exact ⟨rfl, queryBlock_ok_link l _ b Z hq hZ⟩

/-- A path walked back along `pre_hash` with heights counting down is a chain of steps. -/
theorem chain_of_linkedFrom (ps : List InternalBlock) :
    ∀ (start : Bytes) (S : InternalBlock), LinkedFrom start ps S → HeightsTo ps S →
      List.Chain' InternalBlock.StepsTo (ps ++ [S]) := by
  induction ps with
  | nil => intro _ _ _ _; simp
  | cons X rest ih =>
    intro start S hl hh
    rw [List.cons_append, List.chain'_cons']
    refine ⟨?_, ih X.preHash S hl.2 hh.2⟩
    intro y hy
    have hy2 : y = rest.head?.getD S := by
      cases rest with
      | nil => simpa using hy.symm
      | cons a r => simpa using hy.symm
    rw [hy2]
    exact ⟨(linkedFrom_head _ _ _ hl.2).symm, hh.1⟩

/-- The two paths of `storeWellFormed_fork`, with `S` at their ends, as the walker needs
them. -/
theorem forkPaths_of_wellFormed (l : Ledger) (hs : l.StoreWellFormed)
    (hid : kvGet l.db.blocksTable [] = none) (a b : Bytes) (ps qs : List InternalBlock)
    (S : InternalBlock) (hlp : LinkedFrom a ps S) (hlq : LinkedFrom b qs S)
    (hhp : HeightsTo ps S) (hhq : HeightsTo qs S)
    (hall : ∀ Z ∈ ps ++ qs ++ [S], kvGet l.db.blocksTable Z.blockid = some Z)
    (hnr : ∀ Z ∈ ps ++ qs, Z.blockid ≠ l.meta.rootBlockid)
    (hnd : ((ps ++ qs ++ [S]).map (fun Z => Z.blockid)).Nodup) :
    ForkPaths l (ps ++ [S]) (qs ++ [S]) S := by
  have hmemP : ∀ Z, Z ∈ ps ++ [S] → Z ∈ ps ++ qs ++ [S] := by
    intro Z hZ
    simp only [List.mem_append, List.mem_singleton] at hZ ⊢
    tauto
  have hmemQ : ∀ Z, Z ∈ qs ++ [S] → Z ∈ ps ++ qs ++ [S] := by
    intro Z hZ
    simp only [List.mem_append, List.mem_singleton] at hZ ⊢
    tauto
  have hnd2 := hnd
  rw [List.append_assoc, List.map_append, List.nodup_append] at hnd2
  obtain ⟨_, hndQ, hdisj⟩ := hnd2
  have hsubP : List.Sublist (ps ++ [S]) (ps ++ qs ++ [S]) := by
    rw [List.append_assoc]
    exact List.Sublist.append (List.Sublist.refl _) (List.sublist_append_right _ _)
  refine
    { lastP := List.getLast?_concat _
      lastQ := List.getLast?_concat _
      chainP := chain_of_linkedFrom ps a S hlp hhp
      chainQ := chain_of_linkedFrom qs b S hlq hhq
      nodupP := (hsubP.map _).nodup hnd
      nodupQ := hndQ
      meet := ?_
      load := ?_
      pre := ?_ }
  · intro x hx y hy e
    rcases List.mem_append.1 hx with hx1 | hx1
    · exfalso
      exact hdisj (List.mem_map.2 ⟨x, hx1, rfl⟩) (by rw [e]; exact List.mem_map.2 ⟨y, hy, rfl⟩)
    · rw [List.mem_singleton.1 hx1]
  · intro Z hZ
    apply loaded_spec l hs Z
    rcases hZ with h | h
    · exact hall Z (hmemP Z h)
    · exact hall Z (hmemQ Z h)
  · intro Z hZ hne
    have hZin : Z ∈ ps ++ qs := by
      rcases hZ with h | h
      · rcases List.mem_append.1 h with h1 | h1
        · exact List.mem_append_left _ h1
        · exact absurd (by rw [List.mem_singleton.1 h1]) hne
      · rcases List.mem_append.1 h with h1 | h1
        · exact List.mem_append_right _ h1
        · exact absurd (by rw [List.mem_singleton.1 h1]) hne
    have hst : kvGet l.db.blocksTable Z.blockid = some Z :=
      hall Z (List.mem_append_left _ hZin)
    have h := (storeWellFormed_get l hs _ _ hst).2.2.2.1 (hnr Z hZin)
    intro e
    rw [e, hid] at h
    cases h

/-- The walker on a well-formed store, for two stored blocks `X` and `Y`: there are a block `S`
and the two `pre_hash` paths `ps` from `X` and `qs` from `Y` down to, but excluding, `S`, all
stored and pairwise different, and with one unit of fuel per level of the two blocks the walker
returns the loaded blocks of `ps` and of `qs`, each listed from its tip. -/
theorem findUndoAndTodoBlocks_spec (l : Ledger) (X Y : InternalBlock) (fuel : Nat)
    (hs : l.StoreWellFormed) (hid : kvGet l.db.blocksTable [] = none)
    (hX : kvGet l.db.blocksTable X.blockid = some X)
    (hY : kvGet l.db.blocksTable Y.blockid = some Y)
    (hfuel : X.height.toNat + Y.height.toNat ≤ fuel) :
    ∃ ps qs S, LinkedFrom X.blockid ps S ∧ LinkedFrom Y.blockid qs S ∧
      (∀ Z ∈ ps ++ qs ++ [S], kvGet l.db.blocksTable Z.blockid = some Z) ∧
      ((ps ++ qs ++ [S]).map (fun Z => Z.blockid)).Nodup ∧
      FindUndoAndTodoBlocks fuel l X.blockid Y.blockid =
        some (.ok (ps.map (loaded l), qs.map (loaded l))) ∧
      (X.blockid = Y.blockid → ps = [] ∧ qs = []) := by
  have hX0 := (storeWellFormed_get l hs _ _ hX).2.1
  have hY0 := (storeWellFormed_get l hs _ _ hY).2.1
  have hmax : max X.height Y.height = ((max X.height Y.height).toNat : Int) :=
    (Int.toNat_of_nonneg (le_trans hX0 (le_max_left _ _))).symm
  obtain ⟨ps, qs, S, hlp, hlq, hhp, hhq, hnp, hnq, hall, hnr, hnd⟩ :=
    storeWellFormed_fork l hs _ X Y hX hY hmax
  have hst : ∀ Z ∈ ps ++ qs ++ [S], kvGet l.db.blocksTable Z.blockid = some Z :=
    fun Z hZ => (hall Z hZ).1
  have hS0 := (storeWellFormed_get l hs _ _ (hst S (by simp))).2.1
  have heq : X.blockid = Y.blockid → ps = [] ∧ qs = [] := by
    intro e
    have hXY : X = Y := by
      rw [e, hY] at hX
      exact (Option.some.inj hX).symm
    have hlen : ps.length = qs.length := by
      rw [hXY] at hnp
      have : (ps.length : Int) = qs.length := by rw [hnp, hnq]
      exact_mod_cast this
    cases ps with
    | nil =>
      refine ⟨rfl, ?_⟩
      exact List.length_eq_zero.1 hlen.symm
    | cons p ps2 =>
      cases qs with
      | nil => simp at hlen
      | cons q qs2 =>
        exfalso
        have h1 : p.blockid = X.blockid := hlp.1
        have h2 : q.blockid = Y.blockid := hlq.1
        rw [List.append_assoc, List.map_append, List.nodup_append] at hnd
        exact hnd.2.2 (List.mem_map.2 ⟨p, by simp, rfl⟩)
          (by
            rw [show p.blockid = q.blockid from h1.trans (e.trans h2.symm)]
            exact List.mem_map.2 ⟨q, by simp, rfl⟩)
  refine ⟨ps, qs, S, hlp, hlq, hst, hnd, ?_, heq⟩
  by_cases hxy : X.blockid = Y.blockid
  · obtain ⟨e1, e2⟩ := heq hxy
    subst e1
    subst e2
    unfold FindUndoAndTodoBlocks
    rw [if_pos hxy.symm]
    rfl
  · have hF := forkPaths_of_wellFormed l hs hid _ _ ps qs S hlp hlq hhp hhq hst hnr hnd
    -- the two paths start at `X` and at `Y`
    have hheadP : ∃ pr, ps ++ [S] = X :: pr ∧ pr.length = ps.length := by
      cases ps with
      | nil =>
        have : S.blockid = X.blockid := hlp.symm
        have hSX : S = X := by
          have h1 := hst S (by simp)
          rw [this, hX] at h1
          exact (Option.some.inj h1).symm
        exact ⟨[], by rw [hSX]; rfl, rfl⟩
      | cons p ps2 =>
        have : p.blockid = X.blockid := hlp.1
        have hpX : p = X := by
          have h1 := hst p (by simp)
          rw [this, hX] at h1
          exact (Option.some.inj h1).symm
        exact ⟨ps2 ++ [S], by rw [hpX]; rfl, by simp⟩
    have hheadQ : ∃ qr, qs ++ [S] = Y :: qr ∧ qr.length = qs.length := by
      cases qs with
      | nil =>
        have : S.blockid = Y.blockid := hlq.symm
        have hSY : S = Y := by
          have h1 := hst S (by simp)
          rw [this, hY] at h1
          exact (Option.some.inj h1).symm
        exact ⟨[], by rw [hSY]; rfl, rfl⟩
      | cons q qs2 =>
        have : q.blockid = Y.blockid := hlq.1
        have hqY : q = Y := by
          have h1 := hst q (by simp)
          rw [this, hY] at h1
          exact (Option.some.inj h1).symm
        exact ⟨qs2 ++ [S], by rw [hqY]; rfl, by simp⟩
    obtain ⟨pr, hP, hprl⟩ := hheadP
    obtain ⟨qr, hQ, hqrl⟩ := hheadQ
    obtain ⟨hqX, hlX⟩ := loaded_spec l hs X hX
    obtain ⟨hqY, hlY⟩ := loaded_spec l hs Y hY
    have hW : WalkAt l (ps ++ [S]) (qs ++ [S])
        ⟨loaded l X, loaded l Y, [(loaded l X).blockid, (loaded l Y).blockid], [loaded l X],
          [loaded l Y]⟩ [] X pr [] Y qr :=
      { splitP := hP
        splitQ := hQ
        oldTip := rfl
        newTip := rfl
        undo := rfl
        todo := rfl
        visited := by
          intro id
          rw [link_blockid _ _ hlX, link_blockid _ _ hlY]
          simp }
    have hne : pr ≠ [] ∨ qr ≠ [] := by
      by_contra hcon
      push_neg at hcon
      obtain ⟨e1, e2⟩ := hcon
      rw [e1] at hP
      rw [e2] at hQ
      have h1 : (ps ++ [S]).getLast? = some X := by rw [hP]; rfl
      have h2 : (qs ++ [S]).getLast? = some Y := by rw [hQ]; rfl
      rw [List.getLast?_concat] at h1 h2
      have : X = Y := (Option.some.inj h1).symm.trans (Option.some.inj h2)
      exact hxy (by rw [this])
    have hm : pr.length + qr.length ≤ fuel := by
      rw [hprl, hqrl]
      have a1 : (ps.length : Int) ≤ X.height := by rw [hnp]; omega
      have a2 : (qs.length : Int) ≤ Y.height := by rw [hnq]; omega
      omega
    obtain ⟨s2, hres, hu, ht⟩ := walkLoop_spec l _ _ S hF fuel _ [] X pr [] Y qr hW hne hm
    unfold FindUndoAndTodoBlocks
    rw [if_neg (fun e => hxy e.symm), hqX]
    dsimp only
    rw [hqY]
    dsimp only
    rw [hres]
    dsimp only
    rw [hu, ht, List.dropLast_concat, List.dropLast_concat]

/-- C19 (reorg walker).  On a well-formed block store that holds no block under the empty id,
let `X` (cur) and `Y` (dest) be stored blocks.  Then there are a block `S` and two `pre_hash`
paths `ps` from `X` and `qs` from `Y` down to, but excluding, `S`, all of these blocks stored
and pairwise different, so that `S` is the lowest common ancestor of `X` and `Y`; and with one
unit of fuel per level of the two blocks `FindUndoAndTodoBlocks(X.id, Y.id)` returns without
error two lists `undo` and `todo`: `undo` is the path `ps` as loaded blocks, listed from `X`,
`todo` is the path `qs` as loaded blocks (listed from `Y`), `S` is in neither list, and both
lists are empty when `X.id = Y.id`. -/
theorem findUndoAndTodoBlocks_paths (l : Ledger) (X Y : InternalBlock) (fuel : Nat)
    (hs : l.StoreWellFormed) (hid : kvGet l.db.blocksTable [] = none)
    (hX : kvGet l.db.blocksTable X.blockid = some X)
    (hY : kvGet l.db.blocksTable Y.blockid = some Y)
    (hfuel : X.height.toNat + Y.height.toNat ≤ fuel) :
    ∃ ps qs S undo todo, LinkedFrom X.blockid ps S ∧ LinkedFrom Y.blockid qs S ∧
      (∀ Z ∈ ps ++ qs ++ [S], kvGet l.db.blocksTable Z.blockid = some Z) ∧
      ((ps ++ qs ++ [S]).map (fun Z => Z.blockid)).Nodup ∧
      FindUndoAndTodoBlocks fuel l X.blockid Y.blockid = some (.ok (undo, todo)) ∧
      List.Forall₂ (fun u Z => queryBlock l Z.blockid true = .ok u ∧ u.link = Z.link) undo ps ∧
      List.Forall₂ (fun u Z => queryBlock l Z.blockid true = .ok u ∧ u.link = Z.link) todo qs ∧
      (∀ u ∈ undo ++ todo, u.blockid ≠ S.blockid) ∧
      (X.blockid = Y.blockid → undo = [] ∧ todo = []) := by
  obtain ⟨ps, qs, S, hlp, hlq, hst, hnd, hres, heq⟩ :=
    findUndoAndTodoBlocks_spec l X Y fuel hs hid hX hY hfuel
  have hload : ∀ zs : List InternalBlock, (∀ Z ∈ zs, Z ∈ ps ++ qs ++ [S]) →
      List.Forall₂ (fun u Z => queryBlock l Z.blockid true = .ok u ∧ u.link = Z.link)
        (zs.map (loaded l)) zs := by
    intro zs
    induction zs with
    | nil => intro _; exact List.Forall₂.nil
    | cons Z rest ih =>
      intro h
      exact List.Forall₂.cons (loaded_spec l hs Z (hst Z (h Z (List.mem_cons_self _ _))))
        (ih (fun W hW => h W (List.mem_cons_of_mem _ hW)))
  refine ⟨ps, qs, S, ps.map (loaded l), qs.map (loaded l), hlp, hlq, hst, hnd, hres,
    hload ps (fun Z hZ => by simp [hZ]), hload qs (fun Z hZ => by simp [hZ]), ?_, ?_⟩
  · intro u hu e
    rw [← List.map_append] at hu
    obtain ⟨Z, hZ, hZu⟩ := List.mem_map.1 hu
    have hZ2 : Z ∈ ps ++ qs ++ [S] := List.mem_append_left _ hZ
    have hid2 : u.blockid = Z.blockid := by
      rw [← hZu]
      exact link_blockid _ _ (loaded_spec l hs Z (hst Z hZ2)).2
    rw [List.map_append, List.nodup_append] at hnd
    exact hnd.2.2 (List.mem_map.2 ⟨Z, hZ, rfl⟩) (by
      rw [← hid2, e]
      simp)
  · intro e
    obtain ⟨e1, e2⟩ := heq e
    rw [e1, e2]
    exact ⟨rfl, rfl⟩

theorem findUndoAndTodoBlocks_paths_witness :
    ∃ ps qs S undo todo, LinkedFrom [4] ps S ∧ LinkedFrom [2] qs S ∧
      (∀ Z ∈ ps ++ qs ++ [S], kvGet Example.s4.db.blocksTable Z.blockid = some Z) ∧
      ((ps ++ qs ++ [S]).map (fun Z => Z.blockid)).Nodup ∧
      FindUndoAndTodoBlocks 3 Example.s4 [4] [2] = some (.ok (undo, todo)) ∧
      List.Forall₂ (fun u Z => queryBlock Example.s4 Z.blockid true = .ok u ∧ u.link = Z.link)
        undo ps ∧
      List.Forall₂ (fun u Z => queryBlock Example.s4 Z.blockid true = .ok u ∧ u.link = Z.link)
        todo qs ∧
      (∀ u ∈ undo ++ todo, u.blockid ≠ S.blockid) ∧
      (([4] : Bytes) = [2] → undo = [] ∧ todo = []) :=
  findUndoAndTodoBlocks_paths Example.s4 (Example.stored Example.s4 [4])
    (Example.stored Example.s4 [2]) 3
    (by unfold Ledger.StoreWellFormed; decide) (by decide) (by decide) (by decide) (by decide)

/-! ## C20: the order in which the walker's lists are applied -/

theorem runBlocks_append (step : Bytes → InternalBlock → Option Bytes) (xs ys : List InternalBlock) :
    ∀ ptr, runBlocks step ptr (xs ++ ys) =
      match runBlocks step ptr xs with
      | none => none
      | some p => runBlocks step p ys := by
  induction xs with
  | nil => intro ptr; rfl
  | cons b rest ih =>
    intro ptr
    rw [List.cons_append, runBlocks, runBlocks]
    cases hstep : step ptr b with
    | none => rfl
    | some p => exact ih p

/-- Undoing a path in list order moves the pointer from its tip to the block it ends in. -/
theorem runBlocks_undo_path (f : InternalBlock → InternalBlock) (S : InternalBlock)
    (ps : List InternalBlock) :
    ∀ start, LinkedFrom start ps S → (∀ Z ∈ ps, (f Z).link = Z.link) →
      runBlocks undoBlock start (ps.map f) = some S.blockid := by
  induction ps with
  | nil =>
    intro start h _
    have h1 : start = S.blockid := h
    rw [h1]; rfl
  | cons Z rest ih =>
    intro start h hf
    have hl := hf Z (List.mem_cons_self _ _)
    rw [List.map_cons, runBlocks]
    have : undoBlock start (f Z) = some Z.preHash := by
      unfold undoBlock
      rw [link_blockid _ _ hl, if_pos h.1.symm, link_preHash _ _ hl]
    rw [this]
    exact ih Z.preHash h.2 (fun W hW => hf W (List.mem_cons_of_mem _ hW))

/-- Applying a path last block first moves the pointer from the block it ends in to its
tip. -/
theorem runBlocks_apply_path (f : InternalBlock → InternalBlock) (S : InternalBlock)
    (qs : List InternalBlock) :
    ∀ start, LinkedFrom start qs S → (∀ Z ∈ qs, (f Z).link = Z.link) →
      runBlocks applyBlock S.blockid (qs.map f).reverse = some start := by
  induction qs with
  | nil =>
    intro start h _
    have h1 : start = S.blockid := h
    rw [h1]; rfl
  | cons Z rest ih =>
    intro start h hf
    have hl := hf Z (List.mem_cons_self _ _)
    rw [List.map_cons, List.reverse_cons, runBlocks_append,
      ih Z.preHash h.2 (fun W hW => hf W (List.mem_cons_of_mem _ hW))]
    dsimp only
    rw [runBlocks]
    have : applyBlock Z.preHash (f Z) = some start := by
      unfold applyBlock
      rw [link_preHash _ _ hl, if_pos rfl, link_blockid _ _ hl, h.1]
    rw [this]
    rfl

/-- C20 at its counterexample.  On the example chain after its reorg (trunk `G <- F1 <- F2`)
the walker from `G` to `F2` returns an empty undo list and the todo list `[F2, F1]`: applied
in list order, the first step would apply `F2` with the pointer at `G`, which is not the
predecessor of `F2`. -/
theorem findUndoAndTodoBlocks_todo_newest_first :
    (FindUndoAndTodoBlocks 2 Example.s4 [1] [4]).map
        (fun r => r.map (fun p => (p.1.map (fun b => b.blockid), p.2.map (fun b => b.blockid),
          undoThenApply [1] p.1 p.2))) =
      some (.ok ([], [[4], [3]], none)) := by
  decide

/-- C20 (application order of the walker's result), amended.  On a well-formed block store
that holds no block under the empty id, for stored blocks `X` (cur) and `Y` (dest) and one unit
of fuel per level of the two blocks, `FindUndoAndTodoBlocks(X.id, Y.id)` returns two lists such
that, starting with the state pointer at `X.id`, undoing the blocks of the undo list in list
order and then applying the blocks of the todo list in reverse list order is valid at every
step and ends with the pointer at `Y.id`. -/
theorem findUndoAndTodoBlocks_apply_order (l : Ledger) (X Y : InternalBlock) (fuel : Nat)
    (hs : l.StoreWellFormed) (hid : kvGet l.db.blocksTable [] = none)
    (hX : kvGet l.db.blocksTable X.blockid = some X)
    (hY : kvGet l.db.blocksTable Y.blockid = some Y)
    (hfuel : X.height.toNat + Y.height.toNat ≤ fuel) :
    ∃ undo todo, FindUndoAndTodoBlocks fuel l X.blockid Y.blockid = some (.ok (undo, todo)) ∧
      undoThenApply X.blockid undo todo.reverse = some Y.blockid := by
  obtain ⟨ps, qs, S, hlp, hlq, hst, _, hres, _⟩ :=
    findUndoAndTodoBlocks_spec l X Y fuel hs hid hX hY hfuel
  refine ⟨ps.map (loaded l), qs.map (loaded l), hres, ?_⟩
  unfold undoThenApply
  rw [runBlocks_undo_path (loaded l) S ps X.blockid hlp
    (fun Z hZ => (loaded_spec l hs Z (hst Z (by simp [hZ]))).2)]
  exact runBlocks_apply_path (loaded l) S qs Y.blockid hlq
    (fun Z hZ => (loaded_spec l hs Z (hst Z (by simp [hZ]))).2)

theorem findUndoAndTodoBlocks_apply_order_witness :
    ∃ undo todo, FindUndoAndTodoBlocks 2 Example.s4 [1] [4] = some (.ok (undo, todo)) ∧
      undoThenApply [1] undo todo.reverse = some [4] :=
  findUndoAndTodoBlocks_apply_order Example.s4 (Example.stored Example.s4 [1])
    (Example.stored Example.s4 [4]) 2
    (by unfold Ledger.StoreWellFormed; decide) (by decide) (by decide) (by decide) (by decide)

/-! ## C13: the Height Index along a run of ConfirmBlock calls -/

theorem depth_ge (pre : Bytes → Bytes) (k : Bytes) (m : Int) (h : Depth pre k m) : -1 ≤ m := by
  induction h with
  | nil => exact le_refl _
  | step k m _ _ ih => omega

theorem depth_nil (pre : Bytes → Bytes) (m : Int) (h : Depth pre [] m) : m = -1 := by
  cases h with
  | nil => rfl
  | step k m hk _ => exact absurd rfl hk

theorem depth_nonneg (pre : Bytes → Bytes) (k : Bytes) (m : Int) (h : Depth pre k m)
    (hk : k ≠ []) : 0 ≤ m := by
  cases h with
  | nil => exact absurd rfl hk
  | step k m _ h2 =>
    have := depth_ge pre _ _ h2
    omega

/-- The depth of the predecessor of a non-empty id. -/
theorem depth_pre (pre : Bytes → Bytes) (k : Bytes) (m : Int) (h : Depth pre k m)
    (hk : k ≠ []) : Depth pre (pre k) (m - 1) := by
  cases h with
  | nil => exact absurd rfl hk
  | step k m _ h2 =>
    have : m + 1 - 1 = m := by omega
    rw [this]
    exact h2

/-- An id has one depth. -/
theorem depth_fun (pre : Bytes → Bytes) (k : Bytes) (m1 m2 : Int) (h1 : Depth pre k m1)
    (h2 : Depth pre k m2) : m1 = m2 := by
  induction h1 generalizing m2 with
  | nil => exact (depth_nil pre m2 h2).symm
  | step k m hk _ ih =>
    have h3 := depth_pre pre k m2 h2 hk
    have := ih (m2 - 1) h3
    omega

/-- The depth along the chain of predecessors. -/
theorem depth_iterate (pre : Bytes → Bytes) (i : Nat) :
    ∀ (k : Bytes) (m : Int), Depth pre k m → (i : Int) ≤ m + 1 → Depth pre (pre^[i] k) (m - i) := by
  induction i with
  | zero =>
    intro k m h _
    simpa using h
  | succ j ih =>
    intro k m h hle
    have hk : k ≠ [] := by
      intro e
      rw [e] at h
      have := depth_nil pre m h
      push_cast at hle
      omega
    rw [Function.iterate_succ_apply]
    have := ih (pre k) (m - 1) (depth_pre pre k m h hk) (by push_cast at hle ⊢; omega)
    have e : m - 1 - (j : Int) = m - ((j + 1 : Nat) : Int) := by push_cast; omega
    rw [e] at this
    exact this

/-- An id of non-negative depth is not empty. -/
theorem depth_ne_nil (pre : Bytes → Bytes) (k : Bytes) (m : Int) (h : Depth pre k m)
    (hm : 0 ≤ m) : k ≠ [] := by
  intro e
  rw [e] at h
  have := depth_nil pre m h
  omega

/-! ### Tables after a batch -/

/-- A record of the Blocks table after a batch was there before or is put by the batch. -/
theorem applyBatch_blocks_mem (bw : Batch) (db : DB) (p : Bytes × InternalBlock)
    (h : p ∈ (applyBatch db bw).blocksTable) :
    p ∈ db.blocksTable ∨ BatchOp.putBlock p.1 p.2 ∈ bw := by
  induction bw generalizing db with
  | nil => exact Or.inl h
  | cons op rest ih =>
    rw [applyBatch_cons] at h
    rcases ih _ h with h1 | h1
    · cases op with
      | putBlock id blk =>
        simp only [applyOp, kvPut, List.mem_cons] at h1
        rcases h1 with h2 | h2
        · right
          rw [h2]
          exact List.mem_cons_self _ _
        · exact Or.inl (kvDel_subset _ _ _ h2)
      | delBlock id => exact Or.inl (kvDel_subset _ _ _ h1)
      | putMeta m => exact Or.inl h1
      | putTx t x => exact Or.inl h1
      | putHeight a b => exact Or.inl h1
      | delHeight a => exact Or.inl h1
      | delPending id => exact Or.inl h1
      | putBranch id r => exact Or.inl h1
      | delBranch id => exact Or.inl h1
    · exact Or.inr (List.mem_cons_of_mem _ h1)

/-- A stored id stays stored through a batch without block deletes, and an id the batch puts
is stored after it. -/
theorem applyBatch_blocks_isSome (bw : Batch) (k : Bytes) (db : DB)
    (hdel : ∀ op ∈ bw, ∀ k2, op ≠ BatchOp.delBlock k2)
    (h : (kvGet db.blocksTable k).isSome = true ∨ ∃ b, BatchOp.putBlock k b ∈ bw) :
    (kvGet (applyBatch db bw).blocksTable k).isSome = true := by
  induction bw generalizing db with
  | nil =>
    rcases h with h | ⟨b, h⟩
    · exact h
    · cases h
  | cons op rest ih =>
    rw [applyBatch_cons]
    apply ih _ (fun o ho => hdel o (List.mem_cons_of_mem _ ho))
    by_cases hop : ∃ b, op = BatchOp.putBlock k b
    · obtain ⟨b, rfl⟩ := hop
      left
      simp [applyOp, kvGet_kvPut_self]
    · rcases h with h | ⟨b, h⟩
      · left
        cases op with
        | putBlock id blk =>
          have hk : k ≠ id := by
            intro e
            exact hop ⟨blk, by rw [e]⟩
          simp only [applyOp]
          rw [kvGet_kvPut_ne _ _ _ _ hk]
          exact h
        | delBlock id => exact absurd rfl (hdel _ (List.mem_cons_self _ _) id)
        | putMeta m => exact h
        | putTx t x => exact h
        | putHeight a b => exact h
        | delHeight a => exact h
        | delPending id => exact h
        | putBranch id r => exact h
        | delBranch id => exact h
      · rcases List.mem_cons.1 h with h1 | h1
        · exact absurd ⟨b, h1.symm⟩ hop
        · exact Or.inr ⟨b, h1⟩

/-- A batch without operations on a Height Index key leaves the key alone. -/
theorem applyBatch_height_frame (bw : Batch) (k : Bytes) (db : DB)
    (hput : ∀ op ∈ bw, ∀ v, op ≠ BatchOp.putHeight k v)
    (hdel : ∀ op ∈ bw, op ≠ BatchOp.delHeight k) :
    kvGet (applyBatch db bw).heightTable k = kvGet db.heightTable k := by
  induction bw generalizing db with
  | nil => rfl
  | cons op rest ih =>
    rw [applyBatch_cons, ih _ (fun o ho => hput o (List.mem_cons_of_mem _ ho))
      (fun o ho => hdel o (List.mem_cons_of_mem _ ho))]
    cases op with
    | putHeight key id =>
      have hk : k ≠ key := by
        intro e
        exact hput _ (List.mem_cons_self _ _) id (by rw [e])
      simp only [applyOp]
      exact kvGet_kvPut_ne _ _ _ _ hk
    | delHeight key =>
      have hk : k ≠ key := by
        intro e
        exact hdel _ (List.mem_cons_self _ _) (by rw [e])
      simp only [applyOp]
      exact kvGet_kvDel_ne _ _ _ hk
    | putMeta m => rfl
    | putTx t x => rfl
    | putBlock a b => rfl
    | delBlock a => rfl
    | delPending id => rfl
    | putBranch id r => rfl
    | delBranch id => rfl

theorem kvDel_keys_nodup {V : Type} (t : Table V) (k : Bytes)
    (h : (t.map (fun e => e.1)).Nodup) : ((kvDel t k).map (fun e => e.1)).Nodup := by
  unfold kvDel
  exact (List.Sublist.map _ (List.filter_sublist t)).nodup h

theorem kvDel_not_mem_keys {V : Type} (t : Table V) (k : Bytes) :
    k ∉ (kvDel t k).map (fun e => e.1) := by
  intro hm
  obtain ⟨e, he, hk⟩ := List.mem_map.1 hm
  unfold kvDel at he
  have := (List.mem_filter.1 he).2
  simp at this
  exact this hk

theorem kvPut_keys_nodup {V : Type} (t : Table V) (k : Bytes) (v : V)
    (h : (t.map (fun e => e.1)).Nodup) : ((kvPut t k v).map (fun e => e.1)).Nodup := by
  unfold kvPut
  rw [List.map_cons, List.nodup_cons]
  exact ⟨kvDel_not_mem_keys t k, kvDel_keys_nodup t k h⟩

/-- The Height Index keeps one entry per key through a batch. -/
theorem applyBatch_height_keys (bw : Batch) (db : DB)
    (h : (db.heightTable.map (fun e => e.1)).Nodup) :
    ((applyBatch db bw).heightTable.map (fun e => e.1)).Nodup := by
  induction bw generalizing db with
  | nil => exact h
  | cons op rest ih =>
    rw [applyBatch_cons]
    apply ih
    cases op with
    | putHeight key id => exact kvPut_keys_nodup _ _ _ h
    | delHeight key => exact kvDel_keys_nodup _ _ h
    | putMeta m => exact h
    | putTx t x => exact h
    | putBlock a b => exact h
    | delBlock a => exact h
    | delPending id => exact h
    | putBranch id r => exact h
    | delBranch id => exact h

/-- In a table with one entry per key, a key that is found has exactly one entry. -/
theorem kvGet_filter_length {V : Type} (t : Table V) (k : Bytes) (v : V)
    (hn : (t.map (fun e => e.1)).Nodup) (hg : kvGet t k = some v) :
    (t.filter (fun e => decide (e.1 = k))).length = 1 := by
  induction t with
  | nil => cases hg
  | cons e rest ih =>
    obtain ⟨k1, v1⟩ := e
    rw [List.map_cons, List.nodup_cons] at hn
    rw [kvGet_cons] at hg
    by_cases hk : k1 = k
    · subst hk
      rw [List.filter_cons_of_pos (by simp)]
      have : rest.filter (fun e => decide (e.1 = k1)) = [] := by
        rw [List.filter_eq_nil_iff]
        intro e he hd
        simp only [decide_eq_true_eq] at hd
        exact hn.1 (List.mem_map.2 ⟨e, he, hd⟩)
      rw [this]
      rfl
    · rw [if_neg hk] at hg
      rw [List.filter_cons_of_neg (by simpa using hk)]
      exact ih hn.2 hg

/-! ### The header cache stays honest -/

theorem honestBlock_of_link (pre : Bytes → Bytes) (b c : InternalBlock) (h : b.link = c.link)
    (hc : HonestBlock pre c) : HonestBlock pre b := by
  unfold HonestBlock
  rw [link_blockid _ _ h, link_preHash _ _ h, link_height _ _ h]
  exact hc

theorem cacheHonest_alloc (pre : Bytes → Bytes) (l : Ledger) (b : InternalBlock)
    (h : l.CacheHonest pre) : (l.alloc b).CacheHonest pre := by
  refine ⟨ptrsValid_alloc l b h.1, ?_⟩
  intro e he
  rw [deref_alloc_lt _ _ _ (h.1.1 e he)]
  exact h.2 e he

/-- Assigning a field other than id, predecessor and height. -/
theorem cacheHonest_modify (pre : Bytes → Bytes) (l : Ledger) (a : Addr)
    (f : InternalBlock → InternalBlock) (hf : ∀ b, (f b).link = b.link)
    (h : l.CacheHonest pre) : (l.modify a f).CacheHonest pre := by
  refine ⟨ptrsValid_modify l a f h.1, ?_⟩
  intro e he
  have hl := modify_link l a e.2 f hf
  exact ⟨(link_blockid _ _ hl).trans (h.2 e he).1, honestBlock_of_link pre _ _ hl (h.2 e he).2⟩

/-- Assigning a field of an object no header-cache entry points at. -/
theorem cacheHonest_modify_unaliased (pre : Bytes → Bytes) (l : Ledger) (a : Addr)
    (f : InternalBlock → InternalBlock) (hu : l.Unaliased a) (h : l.CacheHonest pre) :
    (l.modify a f).CacheHonest pre := by
  refine ⟨ptrsValid_modify l a f h.1, ?_⟩
  intro e he
  rw [deref_modify_ne _ _ _ _ (fun e2 => hu.2 e he e2.symm)]
  exact h.2 e he

theorem cacheHonest_saveBlock (pre : Bytes → Bytes) (l : Ledger) (a : Addr) (bw : Batch)
    (h : l.CacheHonest pre) (ha : a < l.heap.length) (hb : HonestBlock pre (l.deref a)) :
    (saveBlock l a bw).1.CacheHonest pre := by
  refine ⟨ptrsValid_saveBlock l a bw h.1 ha, ?_⟩
  intro e he
  rw [saveBlock_eq] at he ⊢
  simp only [setHeaderCache_deref]
  rcases lru_add_entries_mem _ _ _ _ he with h1 | h1
  · rw [h1]
    exact ⟨rfl, hb⟩
  · exact h.2 e h1

theorem cacheHonest_setBlockCache (pre : Bytes → Bytes) (l : Ledger) (c : LRUCache)
    (h : l.CacheHonest pre) (hc : ∀ p ∈ c.entries, p.2 < l.heap.length) :
    (l.setBlockCache c).CacheHonest pre :=
  ⟨⟨h.1.1, hc⟩, h.2⟩

/-- What `fetchBlock` gives on an honest ledger: the cache stays honest, and a fetched header
is allocated, has the id asked for and is honest. -/
theorem fetchBlock_honest (pre : Bytes → Bytes) (l l1 : Ledger) (id : Bytes)
    (r : Except LedgerError Addr) (hc : l.CacheHonest pre) (hs : l.db.StoreHonest pre)
    (hf : fetchBlock l id = (r, l1)) :
    l1.CacheHonest pre ∧
    (∀ pa, r = .ok pa → pa < l1.heap.length ∧ (l1.deref pa).blockid = id ∧
      HonestBlock pre (l1.deref pa)) := by
  unfold fetchBlock at hf
  cases hg : l.blkHeaderCache.Get id with
  | mk o c =>
    rw [hg] at hf
    have hfst := lru_get_fst l.blkHeaderCache id
    rw [hg] at hfst
    cases o with
    | some a =>
      simp only [Prod.mk.injEq] at hf
      obtain ⟨rfl, rfl⟩ := hf
      have hmem : (id, a) ∈ l.blkHeaderCache.entries := kvGet_mem _ _ _ hfst.symm
      have hsub : ∀ p, p ∈ c.entries → p ∈ l.blkHeaderCache.entries := by
        intro p hp
        apply lru_get_entries_mem l.blkHeaderCache id p
        rw [hg]
        exact hp
      refine ⟨⟨⟨fun p hp => hc.1.1 p (hsub p hp), hc.1.2⟩, fun e he => hc.2 e (hsub e he)⟩, ?_⟩
      intro pa hpa
      cases hpa
      exact ⟨hc.1.1 _ hmem, (hc.2 _ hmem).1, (hc.2 _ hmem).2⟩
    | none =>
      dsimp only at hf
      cases hb : kvGet l.db.blocksTable id with
      | none =>
        rw [hb] at hf
        simp only [Prod.mk.injEq] at hf
        obtain ⟨rfl, rfl⟩ := hf
        exact ⟨hc, fun pa hpa => by cases hpa⟩
      | some b =>
        rw [hb] at hf
        simp only [Prod.mk.injEq] at hf
        obtain ⟨rfl, rfl⟩ := hf
        refine ⟨cacheHonest_alloc pre l b hc, ?_⟩
        intro pa hpa
        cases hpa
        have := hs _ (kvGet_mem _ _ _ hb)
        rw [deref_alloc_new]
        exact ⟨by rw [alloc_heap_length]; exact Nat.lt_succ_self _, this.1, this.2⟩

/-- Nothing is fetched under the empty id on an honest ledger. -/
theorem fetchBlock_nil_honest (pre : Bytes → Bytes) (l l1 : Ledger)
    (r : Except LedgerError Addr) (hc : l.CacheHonest pre) (hs : l.db.StoreHonest pre)
    (hf : fetchBlock l [] = (r, l1)) : ∀ pa, r ≠ .ok pa := by
  intro pa e
  obtain ⟨_, h2⟩ := fetchBlock_honest pre l l1 [] r hc hs hf
  obtain ⟨_, hid, hh⟩ := h2 pa e
  exact hh.1 hid

theorem correctTxsBlockid_shape (l : Ledger) (id : Bytes) (bw bw1 : Batch)
    (h : correctTxsBlockid l id bw = .ok bw1) :
    ∃ cext, bw1 = bw ++ cext ∧ ∀ op ∈ cext, op.isTxPut = true := by
  unfold correctTxsBlockid at h
  cases hq : queryBlock l id true with
  | error e => rw [hq] at h; cases h
  | ok blk =>
    rw [hq] at h
    obtain ⟨c, hc, hp⟩ := correctTx_foldl id blk.transactions bw
    dsimp only at h
    rw [hc] at h
    cases h
    exact ⟨c, rfl, hp⟩

/-! ### What handleFork does on an honest ledger -/

theorem saveOps_trunk (b : InternalBlock) (h : b.inTrunk = true) :
    saveOps b = [BatchOp.putBlock b.blockid b, BatchOp.putHeight (heightKey b.height) b.blockid] := by
  unfold saveOps
  rw [if_pos h]

theorem saveOps_branch (b : InternalBlock) (h : b.inTrunk = false) :
    saveOps b = [BatchOp.putBlock b.blockid b] := by
  unfold saveOps
  rw [if_neg (by rw [h]; exact Bool.false_ne_true)]

/-- The two chains meet at once: the split block is saved on the trunk. -/
theorem forkDone_base (pre : Bytes → Bytes) (q : Bytes) (S : InternalBlock)
    (hid : S.blockid = q) (hh : HonestBlock pre S) (ht : S.inTrunk = true) :
    ForkDone pre q q (saveOps S) S 0 := by
  rw [saveOps_trunk S ht]
  refine
    { meet := rfl
      split_id := hid
      split_honest := hh
      old_ne := ?_
      no_del := ?_
      puts := ?_
      heights := ?_
      new_path := ?_ }
  · intro i hi
    have : i = 0 := Nat.le_zero.1 hi
    subst this
    rw [Function.iterate_zero, id_eq, ← hid]
    exact hh.1
  · intro op hop
    simp only [List.mem_cons, List.mem_singleton, List.not_mem_nil, or_false] at hop
    rcases hop with rfl | rfl
    · exact ⟨fun k2 e => (by cases e), fun k2 e => (by cases e)⟩
    · exact ⟨fun k2 e => (by cases e), fun k2 e => (by cases e)⟩
  · intro op hop id b e
    subst e
    simp only [List.mem_cons, List.mem_singleton, List.not_mem_nil, or_false,
      BatchOp.putBlock.injEq] at hop
    rcases hop with ⟨rfl, rfl⟩ | hop
    · exact ⟨rfl, hh, Or.inr ⟨0, le_refl _, hid⟩⟩
    · cases hop
  · intro op hop key v e
    subst e
    simp only [List.mem_cons, List.mem_singleton, List.not_mem_nil, or_false,
      BatchOp.putHeight.injEq] at hop
    rcases hop with hop | ⟨rfl, rfl⟩
    · cases hop
    · exact ⟨0, S.height, le_refl _, hid, hh.2.2, rfl⟩
  · intro i hi
    have : i = 0 := Nat.le_zero.1 hi
    subst this
    rw [Function.iterate_zero, id_eq, ← hid]
    exact ⟨S, by simp, by simp, hh, rfl⟩

/-- One round before a finished walk. -/
theorem forkDone_step (pre : Bytes → Bytes) (p q : Bytes) (cext ext : Batch)
    (bP bQ S : InternalBlock) (k : Nat)
    (hcp : ∀ op ∈ cext, op.isTxPut = true)
    (hP : bP.blockid = p) (hPh : HonestBlock pre bP) (hPt : bP.inTrunk = false)
    (hQ : bQ.blockid = q) (hQh : HonestBlock pre bQ) (hQt : bQ.inTrunk = true)
    (hd : ForkDone pre (pre p) (pre q) ext S k) :
    ForkDone pre p q (cext ++ saveOps bP ++ saveOps bQ ++ ext) S (k + 1) := by
  rw [saveOps_branch bP hPt, saveOps_trunk bQ hQt]
  have hmem : ∀ op, op ∈ cext ++ [BatchOp.putBlock bP.blockid bP] ++
      [BatchOp.putBlock bQ.blockid bQ, BatchOp.putHeight (heightKey bQ.height) bQ.blockid] ++ ext →
      op ∈ cext ∨ op = BatchOp.putBlock bP.blockid bP ∨ op = BatchOp.putBlock bQ.blockid bQ ∨
        op = BatchOp.putHeight (heightKey bQ.height) bQ.blockid ∨ op ∈ ext := by
    intro op hop
    simp only [List.mem_append, List.mem_cons, List.mem_singleton, List.not_mem_nil,
      or_false] at hop
    tauto
  refine
    { meet := by rw [Function.iterate_succ_apply, Function.iterate_succ_apply]; exact hd.meet
      split_id := by rw [Function.iterate_succ_apply]; exact hd.split_id
      split_honest := hd.split_honest
      old_ne := ?_
      no_del := ?_
      puts := ?_
      heights := ?_
      new_path := ?_ }
  · intro i hi
    cases i with
    | zero =>
      rw [Function.iterate_zero, id_eq, ← hP]
      exact hPh.1
    | succ j =>
      rw [Function.iterate_succ_apply]
      exact hd.old_ne j (by omega)
  · intro op hop
    rcases hmem op hop with h | rfl | rfl | rfl | h
    · have := hcp op h
      refine ⟨fun k2 e => ?_, fun k2 e => ?_⟩
      · subst e; cases this
      · subst e; cases this
    · exact ⟨fun k2 e => (by cases e), fun k2 e => (by cases e)⟩
    · exact ⟨fun k2 e => (by cases e), fun k2 e => (by cases e)⟩
    · exact ⟨fun k2 e => (by cases e), fun k2 e => (by cases e)⟩
    · exact hd.no_del op h
  · intro op hop id b e
    subst e
    rcases hmem _ hop with h | h | h | h | h
    · have := hcp _ h
      cases this
    · simp only [BatchOp.putBlock.injEq] at h
      obtain ⟨rfl, rfl⟩ := h
      exact ⟨rfl, hPh, Or.inl ⟨0, Nat.succ_pos _, hP⟩⟩
    · simp only [BatchOp.putBlock.injEq] at h
      obtain ⟨rfl, rfl⟩ := h
      exact ⟨rfl, hQh, Or.inr ⟨0, Nat.zero_le _, hQ⟩⟩
    · cases h
    · obtain ⟨h1, h2, h3⟩ := hd.puts _ h id b rfl
      refine ⟨h1, h2, ?_⟩
      rcases h3 with ⟨i, hi, e⟩ | ⟨i, hi, e⟩
      · exact Or.inl ⟨i + 1, by omega, by rw [Function.iterate_succ_apply]; exact e⟩
      · exact Or.inr ⟨i + 1, by omega, by rw [Function.iterate_succ_apply]; exact e⟩
  · intro op hop key v e
    subst e
    rcases hmem _ hop with h | h | h | h | h
    · have := hcp _ h
      cases this
    · cases h
    · cases h
    · simp only [BatchOp.putHeight.injEq] at h
      obtain ⟨rfl, rfl⟩ := h
      exact ⟨0, bQ.height, Nat.zero_le _, hQ, hQh.2.2, rfl⟩
    · obtain ⟨i, m, hi, e1, e2, e3⟩ := hd.heights _ h key v rfl
      exact ⟨i + 1, m, by omega, by rw [Function.iterate_succ_apply]; exact e1, e2, e3⟩
  · intro i hi
    cases i with
    | zero =>
      rw [Function.iterate_zero, id_eq, ← hQ]
      exact ⟨bQ, by simp, by simp, hQh, rfl⟩
    | succ j =>
      obtain ⟨b, h1, h2, h3, h4⟩ := hd.new_path j (by omega)
      rw [Function.iterate_succ_apply]
      exact ⟨b, List.mem_append_right _ h1, List.mem_append_right _ h2, h3, h4⟩

/-- `handleFork` on an honest ledger: whatever it returns, the header cache stays honest; and
when it returns a block, the pointer is allocated and the walk is described by `ForkDone`. -/
theorem handleFork_honest (pre : Bytes → Bytes) (fuel : Nat) :
    ∀ (L : Ledger) (p q n : Bytes) (bw : Batch) (r : Except LedgerError Addr) (L2 : Ledger)
      (bw2 : Batch),
      L.CacheHonest pre → L.db.StoreHonest pre →
      handleFork fuel L p q n bw = some (r, L2, bw2) →
      L2.CacheHonest pre ∧
      ∀ sa, r = .ok sa → sa < L2.heap.length ∧
        ∃ k ext, bw2 = bw ++ ext ∧ ForkDone pre p q ext (L2.deref sa) k := by
  induction fuel with
  | zero =>
    intro L p q n bw r L2 bw2 _ _ h
    simp [handleFork] at h
  | succ fuel ih =>
    intro L p q n bw r L2 bw2 hc hs h
    rw [handleFork] at h
    by_cases hpq : p = q
    · subst hpq
      simp only [if_true] at h
      cases hf : fetchBlock L p with
      | mk r1 l1 =>
        obtain ⟨hc1, hfetch⟩ := fetchBlock_honest pre L l1 p r1 hc hs hf
        rw [hf] at h
        cases r1 with
        | error e =>
          simp only [Option.some.injEq, Prod.mk.injEq] at h
          obtain ⟨rfl, rfl, _⟩ := h
          exact ⟨hc1, fun sa hsa => by cases hsa⟩
        | ok sa =>
          obtain ⟨hlt, hid, hh⟩ := hfetch sa rfl
          obtain ⟨l2, hl2⟩ : ∃ l2, l2 = (l1.modify sa (InternalBlock.setInTrunk true)).modify sa
              (InternalBlock.setNextHash n) := ⟨_, rfl⟩
          have hd2 : l2.deref sa = ((l1.deref sa).setInTrunk true).setNextHash n := by
            rw [hl2, deref_modify_same _ _ _ (by rw [modify_heap_length]; exact hlt),
              deref_modify_same _ _ _ hlt]
          have hc2 : l2.CacheHonest pre := by
            rw [hl2]
            exact cacheHonest_modify pre _ _ _ (link_setNextHash n)
              (cacheHonest_modify pre _ _ _ (link_setInTrunk true) hc1)
          have hlt2 : sa < l2.heap.length := by
            rw [hl2, modify_heap_length, modify_heap_length]; exact hlt
          have hh2 : HonestBlock pre (l2.deref sa) := by
            rw [hd2]; exact hh
          simp only [Option.some.injEq, Prod.mk.injEq] at h
          rw [← hl2] at h
          obtain ⟨rfl, rfl, rfl⟩ := h
          refine ⟨cacheHonest_saveBlock pre l2 sa bw hc2 hlt2 hh2, ?_⟩
          intro sa2 hsa2
          cases hsa2
          refine ⟨hlt2, 0, saveOps (l2.deref sa), rfl, ?_⟩
          rw [saveBlock_eq, setHeaderCache_deref]
          exact forkDone_base pre p (l2.deref sa) (by rw [hd2]; exact hid) hh2 (by rw [hd2]; rfl)
    · simp only [hpq, if_false] at h
      cases hf : fetchBlock L p with
      | mk r1 l1 =>
        obtain ⟨hc1, hfetch⟩ := fetchBlock_honest pre L l1 p r1 hc hs hf
        obtain ⟨hdb1, _⟩ := fetchBlock_frame L l1 p r1 hf
        rw [hf] at h
        cases r1 with
        | error e =>
          simp only [Option.some.injEq, Prod.mk.injEq] at h
          obtain ⟨rfl, rfl, _⟩ := h
          exact ⟨hc1, fun sa hsa => by cases hsa⟩
        | ok pa =>
          obtain ⟨hplt, hpid, hph⟩ := hfetch pa rfl
          obtain ⟨l2, hl2⟩ : ∃ l2, l2 = (l1.modify pa (InternalBlock.setInTrunk false)).modify pa
              (InternalBlock.setNextHash []) := ⟨_, rfl⟩
          have hd2 : l2.deref pa = ((l1.deref pa).setInTrunk false).setNextHash [] := by
            rw [hl2, deref_modify_same _ _ _ (by rw [modify_heap_length]; exact hplt),
              deref_modify_same _ _ _ hplt]
          have hc2 : l2.CacheHonest pre := by
            rw [hl2]
            exact cacheHonest_modify pre _ _ _ (link_setNextHash [])
              (cacheHonest_modify pre _ _ _ (link_setInTrunk false) hc1)
          have hlen2 : l2.heap.length = l1.heap.length := by
            rw [hl2, modify_heap_length, modify_heap_length]
          have hs2 : l2.db.StoreHonest pre := by
            rw [hl2, modify_db, modify_db, hdb1]; exact hs
          simp only at h
          rw [← hl2] at h
          cases hf2 : fetchBlock l2 q with
          | mk r2 l3 =>
            obtain ⟨hc3, hfetch2⟩ := fetchBlock_honest pre l2 l3 q r2 hc2 hs2 hf2
            obtain ⟨hdb3, _, _, _, hle3, hold3, _, _⟩ := fetchBlock_frame l2 l3 q r2 hf2
            rw [hf2] at h
            cases r2 with
            | error e =>
              simp only [Option.some.injEq, Prod.mk.injEq] at h
              obtain ⟨rfl, rfl, _⟩ := h
              exact ⟨hc3, fun sa hsa => by cases hsa⟩
            | ok qa =>
              obtain ⟨hqlt, hqid, hqh⟩ := hfetch2 qa rfl
              have hp3 : l3.deref pa = l2.deref pa := hold3 pa (by rw [hlen2]; exact hplt)
              have hne : qa ≠ pa := by
                intro e
                rw [e, hp3, hd2] at hqid
                exact hpq (hpid.symm.trans hqid)
              obtain ⟨l4, hl4⟩ : ∃ l4, l4 = l3.modify qa (InternalBlock.setInTrunk true) :=
                ⟨_, rfl⟩
              have hc4 : l4.CacheHonest pre := by
                rw [hl4]; exact cacheHonest_modify pre _ _ _ (link_setInTrunk true) hc3
              have hd4 : l4.deref qa = (l3.deref qa).setInTrunk true := by
                rw [hl4, deref_modify_same _ _ _ hqlt]
              simp only at h
              rw [← hl4] at h
              cases hcx : correctTxsBlockid l4 (l4.deref qa).blockid bw with
              | error e =>
                rw [hcx] at h
                simp only [Option.some.injEq, Prod.mk.injEq] at h
                obtain ⟨rfl, rfl, _⟩ := h
                exact ⟨hc4, fun sa hsa => by cases hsa⟩
              | ok bw1 =>
                rw [hcx] at h
                obtain ⟨cext, hcext, hcp⟩ := correctTxsBlockid_shape _ _ _ _ hcx
                obtain ⟨l5, hl5⟩ : ∃ l5, l5 = l4.modify qa (InternalBlock.setNextHash n) :=
                  ⟨_, rfl⟩
                have hc5 : l5.CacheHonest pre := by
                  rw [hl5]; exact cacheHonest_modify pre _ _ _ (link_setNextHash n) hc4
                have hlen5 : l5.heap.length = l3.heap.length := by
                  rw [hl5, modify_heap_length, hl4, modify_heap_length]
                have hd5q : l5.deref qa = ((l3.deref qa).setInTrunk true).setNextHash n := by
                  rw [hl5, deref_modify_same _ _ _ (by rw [hl4, modify_heap_length]; exact hqlt),
                    hd4]
                have hd5p : l5.deref pa = ((l1.deref pa).setInTrunk false).setNextHash [] := by
                  rw [hl5, deref_modify_ne _ _ _ _ hne, hl4, deref_modify_ne _ _ _ _ hne, hp3,
                    hd2]
                have hplt5 : pa < l5.heap.length := by
                  rw [hlen5]
                  exact lt_of_lt_of_le (by rw [hlen2]; exact hplt) hle3
                have hph5 : HonestBlock pre (l5.deref pa) := by rw [hd5p]; exact hph
                have hqh5 : HonestBlock pre (l5.deref qa) := by rw [hd5q]; exact hqh
                simp only at h
                rw [← hl5] at h
                obtain ⟨l6, hl6⟩ : ∃ l6, l6 = (saveBlock l5 pa bw1).1 := ⟨_, rfl⟩
                have hc6 : l6.CacheHonest pre := by
                  rw [hl6]; exact cacheHonest_saveBlock pre l5 pa bw1 hc5 hplt5 hph5
                have hd6 : ∀ x, l6.deref x = l5.deref x := by
                  intro x; rw [hl6, saveBlock_eq]; rfl
                have hlen6 : l6.heap.length = l5.heap.length := by
                  rw [hl6, saveBlock_eq]; rfl
                have hdb6 : l6.db = L.db := by
                  rw [hl6, saveBlock_eq, setHeaderCache_db, hl5, modify_db, hl4, modify_db, hdb3,
                    hl2, modify_db, modify_db, hdb1]
                rw [← hl6] at h
                have hc7 : (saveBlock l6 qa (saveBlock l5 pa bw1).2).1.CacheHonest pre :=
                  cacheHonest_saveBlock pre l6 qa _ hc6 (by rw [hlen6, hlen5]; exact hqlt)
                    (by rw [hd6]; exact hqh5)
                have hs7 : (saveBlock l6 qa (saveBlock l5 pa bw1).2).1.db.StoreHonest pre := by
                  rw [saveBlock_eq, setHeaderCache_db, hdb6]; exact hs
                obtain ⟨hcL2, hres⟩ := ih _ _ _ _ _ _ _ _ hc7 hs7 h
                refine ⟨hcL2, ?_⟩
                intro sa hsa
                obtain ⟨hsalt, k, ext, hbw, hdone⟩ := hres sa hsa
                refine ⟨hsalt, k + 1,
                  cext ++ saveOps (l5.deref pa) ++ saveOps (l5.deref qa) ++ ext, ?_, ?_⟩
                · rw [hbw, saveBlock_eq, saveBlock_eq, hcext, hd6]
                  simp only [List.append_assoc]
                · have hpp : (l5.deref pa).preHash = pre p := by
                    rw [hph5.2.1, hd5p]
                    show pre (l1.deref pa).blockid = pre p
                    rw [hpid]
                  have hqp : (l5.deref qa).preHash = pre q := by
                    rw [hqh5.2.1, hd5q]
                    show pre (l3.deref qa).blockid = pre q
                    rw [hqid]
                  rw [hpp, hqp] at hdone
                  exact forkDone_step pre p q cext ext (l5.deref pa) (l5.deref qa) _ k hcp
                    (by rw [hd5p]; exact hpid) hph5 (by rw [hd5p]; rfl)
                    (by rw [hd5q]; exact hqid) hqh5 (by rw [hd5q]; rfl) hdone

/-- `handleFork` returns on an honest ledger: the old side walks a chain of predecessors that
reaches the empty id, under which nothing is fetched.  Two units of fuel more than the number
of ids on that chain are enough. -/
theorem handleFork_terminates (pre : Bytes → Bytes) (fuel : Nat) :
    ∀ (L : Ledger) (p q n : Bytes) (bw : Batch) (m : Int),
      L.CacheHonest pre → L.db.StoreHonest pre → Depth pre p m → m + 3 ≤ (fuel : Int) →
      ∃ res, handleFork fuel L p q n bw = some res := by
  induction fuel with
  | zero =>
    intro L p q n bw m _ _ hd hm
    have := depth_ge pre p m hd
    simp only [Nat.cast_zero] at hm
    omega
  | succ fuel ih =>
    intro L p q n bw m hc hs hd hm
    rw [handleFork]
    by_cases hpq : p = q
    · subst hpq
      simp only [if_true]
      cases hf : fetchBlock L p with
      | mk r1 l1 =>
        cases r1 with
        | error e => exact ⟨_, rfl⟩
        | ok sa => exact ⟨_, rfl⟩
    · simp only [hpq, if_false]
      cases hf : fetchBlock L p with
      | mk r1 l1 =>
        obtain ⟨hc1, hfetch⟩ := fetchBlock_honest pre L l1 p r1 hc hs hf
        obtain ⟨hdb1, _⟩ := fetchBlock_frame L l1 p r1 hf
        cases r1 with
        | error e => exact ⟨_, rfl⟩
        | ok pa =>
          obtain ⟨hplt, hpid, hph⟩ := hfetch pa rfl
          obtain ⟨l2, hl2⟩ : ∃ l2, l2 = (l1.modify pa (InternalBlock.setInTrunk false)).modify pa
              (InternalBlock.setNextHash []) := ⟨_, rfl⟩
          have hd2 : l2.deref pa = ((l1.deref pa).setInTrunk false).setNextHash [] := by
            rw [hl2, deref_modify_same _ _ _ (by rw [modify_heap_length]; exact hplt),
              deref_modify_same _ _ _ hplt]
          have hc2 : l2.CacheHonest pre := by
            rw [hl2]
            exact cacheHonest_modify pre _ _ _ (link_setNextHash [])
              (cacheHonest_modify pre _ _ _ (link_setInTrunk false) hc1)
          have hlen2 : l2.heap.length = l1.heap.length := by
            rw [hl2, modify_heap_length, modify_heap_length]
          have hs2 : l2.db.StoreHonest pre := by
            rw [hl2, modify_db, modify_db, hdb1]; exact hs
          simp only
          rw [← hl2]
          cases hf2 : fetchBlock l2 q with
          | mk r2 l3 =>
            obtain ⟨hc3, hfetch2⟩ := fetchBlock_honest pre l2 l3 q r2 hc2 hs2 hf2
            obtain ⟨hdb3, _, _, _, hle3, hold3, _, _⟩ := fetchBlock_frame l2 l3 q r2 hf2
            cases r2 with
            | error e => exact ⟨_, rfl⟩
            | ok qa =>
              obtain ⟨hqlt, hqid, hqh⟩ := hfetch2 qa rfl
              have hp3 : l3.deref pa = l2.deref pa := hold3 pa (by rw [hlen2]; exact hplt)
              have hne : qa ≠ pa := by
                intro e
                rw [e, hp3, hd2] at hqid
                exact hpq (hpid.symm.trans hqid)
              obtain ⟨l4, hl4⟩ : ∃ l4, l4 = l3.modify qa (InternalBlock.setInTrunk true) :=
                ⟨_, rfl⟩
              have hc4 : l4.CacheHonest pre := by
                rw [hl4]; exact cacheHonest_modify pre _ _ _ (link_setInTrunk true) hc3
              have hd4 : l4.deref qa = (l3.deref qa).setInTrunk true := by
                rw [hl4, deref_modify_same _ _ _ hqlt]
              simp only
              rw [← hl4]
              cases hcx : correctTxsBlockid l4 (l4.deref qa).blockid bw with
              | error e => exact ⟨_, rfl⟩
              | ok bw1 =>
                obtain ⟨l5, hl5⟩ : ∃ l5, l5 = l4.modify qa (InternalBlock.setNextHash n) :=
                  ⟨_, rfl⟩
                have hc5 : l5.CacheHonest pre := by
                  rw [hl5]; exact cacheHonest_modify pre _ _ _ (link_setNextHash n) hc4
                have hlen5 : l5.heap.length = l3.heap.length := by
                  rw [hl5, modify_heap_length, hl4, modify_heap_length]
                have hd5q : l5.deref qa = ((l3.deref qa).setInTrunk true).setNextHash n := by
                  rw [hl5, deref_modify_same _ _ _ (by rw [hl4, modify_heap_length]; exact hqlt),
                    hd4]
                have hd5p : l5.deref pa = ((l1.deref pa).setInTrunk false).setNextHash [] := by
                  rw [hl5, deref_modify_ne _ _ _ _ hne, hl4, deref_modify_ne _ _ _ _ hne, hp3,
                    hd2]
                have hplt5 : pa < l5.heap.length := by
                  rw [hlen5]
                  exact lt_of_lt_of_le (by rw [hlen2]; exact hplt) hle3
                have hph5 : HonestBlock pre (l5.deref pa) := by rw [hd5p]; exact hph
                have hqh5 : HonestBlock pre (l5.deref qa) := by rw [hd5q]; exact hqh
                simp only
                rw [← hl5]
                obtain ⟨l6, hl6⟩ : ∃ l6, l6 = (saveBlock l5 pa bw1).1 := ⟨_, rfl⟩
                have hc6 : l6.CacheHonest pre := by
                  rw [hl6]; exact cacheHonest_saveBlock pre l5 pa bw1 hc5 hplt5 hph5
                have hd6 : ∀ x, l6.deref x = l5.deref x := by
                  intro x; rw [hl6, saveBlock_eq]; rfl
                have hlen6 : l6.heap.length = l5.heap.length := by
                  rw [hl6, saveBlock_eq]; rfl
                have hdb6 : l6.db = L.db := by
                  rw [hl6, saveBlock_eq, setHeaderCache_db, hl5, modify_db, hl4, modify_db, hdb3,
                    hl2, modify_db, modify_db, hdb1]
                rw [← hl6]
                have hc7 : (saveBlock l6 qa (saveBlock l5 pa bw1).2).1.CacheHonest pre :=
                  cacheHonest_saveBlock pre l6 qa _ hc6 (by rw [hlen6, hlen5]; exact hqlt)
                    (by rw [hd6]; exact hqh5)
                have hs7 : (saveBlock l6 qa (saveBlock l5 pa bw1).2).1.db.StoreHonest pre := by
                  rw [saveBlock_eq, setHeaderCache_db, hdb6]; exact hs
                have hpne : p ≠ [] := by
                  rw [← hpid]; exact hph.1
                have hpp : (l5.deref pa).preHash = pre p := by
                  rw [hph5.2.1, hd5p]
                  show pre (l1.deref pa).blockid = pre p
                  rw [hpid]
                rw [hpp]
                exact ih _ _ _ _ _ (m - 1) hc7 hs7 (depth_pre pre p m hd hpne)
                  (by push_cast at hm; omega)

/-! ### The commit tail on an honest ledger -/

theorem cacheHonest_written (pre : Bytes → Bytes) (l : Ledger) (bw : Batch) (m : LedgerMeta)
    (h : l.CacheHonest pre) : (l.written bw m).CacheHonest pre := h

theorem cacheHonest_setGenesisBlock (pre : Bytes → Bytes) (l : Ledger) (gb : GenesisBlock)
    (h : l.CacheHonest pre) : (l.setGenesisBlock gb).CacheHonest pre := h

/-- The end of the commit tail keeps the header cache honest. -/
theorem cacheHonest_finish (pre : Bytes → Bytes) (l : Ledger) (a : Addr)
    (txs : List Transaction) (h : l.CacheHonest pre) (ha : a < l.heap.length) :
    ((l.modify a (InternalBlock.setTransactions txs)).setBlockCache
      ((l.modify a (InternalBlock.setTransactions txs)).blockCache.Add
        ((l.modify a (InternalBlock.setTransactions txs)).deref a).blockid a)).CacheHonest pre := by
  apply cacheHonest_setBlockCache
  · exact cacheHonest_modify pre l a _ (fun _ => rfl) h
  · intro p hp
    rw [modify_heap_length]
    rcases lru_add_entries_mem _ _ _ _ hp with h1 | h1
    · rw [h1]; exact ha
    · exact h.1.2 p h1

/-- The commit tail on an honest ledger, for a block object that is honest: the header cache
stays honest; and either nothing is written, or the store is the old one after the batch so
far, the puts of the block and operations on other tables, and the meta is the new meta. -/
theorem confirmCommit_honest (pre : Bytes → Bytes) (env : Env) (kvErr : Option LedgerError)
    (L : Ledger) (a : Addr) (txs : List Transaction) (newMeta : LedgerMeta) (sh : Int)
    (st : ConfirmStatus) (isRoot : Bool) (bw : Batch)
    (hc : L.CacheHonest pre) (ha : a < L.heap.length) (hb : HonestBlock pre (L.deref a)) :
    (confirmCommit env kvErr L a txs newMeta sh st isRoot bw).2.CacheHonest pre ∧
    (((confirmCommit env kvErr L a txs newMeta sh st isRoot bw).2.db = L.db ∧
      (confirmCommit env kvErr L a txs newMeta sh st isRoot bw).2.meta = L.meta) ∨
     (∃ ext, (confirmCommit env kvErr L a txs newMeta sh st isRoot bw).2.db =
        applyBatch L.db (bw ++ saveOps (L.deref a) ++ ext) ∧
      (confirmCommit env kvErr L a txs newMeta sh st isRoot bw).2.meta = newMeta ∧
      ∀ op ∈ ext, op.isChainOp = false)) := by
  have hc1 : (saveBlock L a bw).1.CacheHonest pre := cacheHonest_saveBlock pre L a bw hc ha hb
  have ha1 : a < (saveBlock L a bw).1.heap.length := ha
  rw [confirmCommit_eq]
  cases hrun : confirmTxs L.db (L.deref a).inTrunk sh
      (parallelCheckTx env L txs (L.deref a)).1 (parallelCheckTx env L txs (L.deref a)).2.1
      (txs.map (Transaction.setBlockid (L.deref a).blockid)) 0 []
      (bw ++ saveOps (L.deref a) ++
        branchOps (L.deref a).blockid (L.deref a).preHash (L.deref a).height) with
  | error e =>
    exact ⟨hc1, Or.inl ⟨rfl, rfl⟩⟩
  | ok bw3 =>
    obtain ⟨ext1, hbw3, hops, _, _⟩ := confirmTxs_ok _ _ _ _ _ _ _ _ _ _ (Nat.zero_le 1) hrun
    dsimp only
    obtain ⟨txs1, htxs1⟩ : ∃ t, t = txs.map (Transaction.setBlockid (L.deref a).blockid) :=
      ⟨_, rfl⟩
    rw [← htxs1]
    obtain ⟨bw4, hbw4⟩ : ∃ b, b = bw3 ++
        [BatchOp.delPending (L.deref a).blockid, BatchOp.putMeta newMeta] := ⟨_, rfl⟩
    rw [← hbw4]
    have hext : ∃ ext, bw4 = bw ++ saveOps (L.deref a) ++ ext ∧ ∀ op ∈ ext, op.isChainOp = false := by
      refine ⟨branchOps (L.deref a).blockid (L.deref a).preHash (L.deref a).height ++ ext1 ++
        [BatchOp.delPending (L.deref a).blockid, BatchOp.putMeta newMeta], ?_, ?_⟩
      · rw [hbw4, hbw3]
        simp only [List.append_assoc]
      · intro op hop
        simp only [List.mem_append, branchOps, List.mem_cons, List.mem_singleton,
          List.not_mem_nil, or_false] at hop
        rcases hop with ((h | h) | h) | (h | h)
        · rw [h]; rfl
        · rw [h]; rfl
        · obtain ⟨tx, _, d, _, e⟩ := hops op h
          rw [e]; rfl
        · rw [h]; rfl
        · rw [h]; rfl
    unfold confirmFinish
    cases kvErr with
    | some e =>
      dsimp only
      have hfin := cacheHonest_finish pre (saveBlock L a bw).1 a txs1 hc1 ha1
      cases isRoot with
      | false => exact ⟨hfin, Or.inl ⟨rfl, rfl⟩⟩
      | true =>
        simp only [if_true]
        cases loadGenesisBlock env ((saveBlock L a bw).1.modify a
            (InternalBlock.setTransactions txs1)) with
        | error lErr => exact ⟨hfin, Or.inl ⟨rfl, rfl⟩⟩
        | ok gb => exact ⟨hfin, Or.inl ⟨rfl, rfl⟩⟩
    | none =>
      dsimp only
      have hfin := cacheHonest_finish pre ((saveBlock L a bw).1.written bw4 newMeta) a txs1
        (cacheHonest_written pre _ _ _ hc1) ha1
      obtain ⟨ext, hext1, hext2⟩ := hext
      have hdb : ((saveBlock L a bw).1.written bw4 newMeta).db =
          applyBatch L.db (bw ++ saveOps (L.deref a) ++ ext) := by
        rw [written_db, saveBlock_eq, setHeaderCache_db, hext1]
      cases isRoot with
      | false => exact ⟨hfin, Or.inr ⟨ext, hdb, rfl, hext2⟩⟩
      | true =>
        simp only [if_true]
        cases loadGenesisBlock env (((saveBlock L a bw).1.written bw4 newMeta).modify a
            (InternalBlock.setTransactions txs1)) with
        | error lErr => exact ⟨hfin, Or.inr ⟨ext, hdb, rfl, hext2⟩⟩
        | ok gb => exact ⟨hfin, Or.inr ⟨ext, hdb, rfl, hext2⟩⟩

/-! ### The invariant after a call -/

theorem trunkOK_congr (pre : Bytes → Bytes) (l L2 : Ledger) (hdb : L2.db = l.db)
    (hm : L2.meta = l.meta) (h : TrunkOK pre l) : TrunkOK pre L2 :=
  { height_nonneg := by rw [hm]; exact h.height_nonneg
    tip_depth := by rw [hm]; exact h.tip_depth
    stored := by rw [hm, hdb]; exact h.stored
    root := by rw [hm]; exact h.root
    index := by rw [hm, hdb]; exact h.index
    index_only := by rw [hm, hdb]; exact h.index_only }

/-- A call that writes nothing keeps the invariant. -/
theorem honest_frame (pre : Bytes → Bytes) (l L2 : Ledger) (hl : l.Honest pre)
    (hdb : L2.db = l.db) (hm : L2.meta = l.meta) (hc : L2.CacheHonest pre) : L2.Honest pre :=
  { cache := hc
    store := by rw [hdb]; exact hl.store
    below := by rw [hdb, hm]; exact hl.below
    keys := by rw [hdb]; exact hl.keys
    empty := by rw [hdb, hm]; exact hl.empty
    trunk := fun h => trunkOK_congr pre l L2 hdb hm (hl.trunk (by rw [← hm]; exact h)) }

/-- The invariant after a batch that deletes nothing and puts honest headers not higher than
the new trunk, once the new trunk is in order. -/
theorem honest_after_batch (pre : Bytes → Bytes) (l L2 : Ledger) (batch : Batch)
    (hl : l.Honest pre) (hc : L2.CacheHonest pre) (hdb : L2.db = applyBatch l.db batch)
    (hputs : ∀ op ∈ batch, ∀ id b, op = BatchOp.putBlock id b →
      b.blockid = id ∧ HonestBlock pre b ∧ b.height ≤ L2.meta.trunkHeight)
    (hmono : l.meta.trunkHeight ≤ L2.meta.trunkHeight)
    (hroot : L2.meta.rootBlockid ≠ []) (ht : TrunkOK pre L2) : L2.Honest pre :=
  { cache := hc
    store := by
      intro p hp
      rw [hdb] at hp
      rcases applyBatch_blocks_mem batch l.db p hp with h | h
      · exact hl.store p h
      · obtain ⟨h1, h2, _⟩ := hputs _ h p.1 p.2 rfl
        exact ⟨h1, h2⟩
    below := by
      intro p hp
      rw [hdb] at hp
      rcases applyBatch_blocks_mem batch l.db p hp with h | h
      · exact le_trans (hl.below p h) hmono
      · exact (hputs _ h p.1 p.2 rfl).2.2
    keys := by rw [hdb]; exact applyBatch_height_keys batch l.db hl.keys
    empty := fun h => absurd h hroot
    trunk := fun _ => ht }

/-- The trunk after a batch, from what the batch puts and what the store had. -/
theorem trunkOK_after_batch (pre : Bytes → Bytes) (l L2 : Ledger) (batch : Batch)
    (hdb : L2.db = applyBatch l.db batch)
    (hn : 0 ≤ L2.meta.trunkHeight)
    (hdepth : Depth pre L2.meta.tipBlockid L2.meta.trunkHeight)
    (hroot : pre^[L2.meta.trunkHeight.toNat] L2.meta.tipBlockid = L2.meta.rootBlockid)
    (hnodel : ∀ op ∈ batch, (∀ k2, op ≠ BatchOp.delBlock k2) ∧ (∀ k2, op ≠ BatchOp.delHeight k2))
    (hstored : ∀ i : Nat, i ≤ L2.meta.trunkHeight.toNat →
      (kvGet l.db.blocksTable (pre^[i] L2.meta.tipBlockid)).isSome = true ∨
        ∃ b, BatchOp.putBlock (pre^[i] L2.meta.tipBlockid) b ∈ batch)
    (hput : ∀ op ∈ batch, ∀ key v, op = BatchOp.putHeight key v →
      ∃ i : Nat, i ≤ L2.meta.trunkHeight.toNat ∧ key = heightKey (L2.meta.trunkHeight - i) ∧
        v = pre^[i] L2.meta.tipBlockid)
    (hold : ∀ i : Nat, i ≤ L2.meta.trunkHeight.toNat →
      kvGet l.db.heightTable (heightKey (L2.meta.trunkHeight - i)) =
          some (pre^[i] L2.meta.tipBlockid) ∨
        BatchOp.putHeight (heightKey (L2.meta.trunkHeight - i)) (pre^[i] L2.meta.tipBlockid)
          ∈ batch)
    (honly : ∀ key, (∀ i : Nat, i ≤ L2.meta.trunkHeight.toNat →
      key ≠ heightKey (L2.meta.trunkHeight - i)) → kvGet l.db.heightTable key = none) :
    TrunkOK pre L2 :=
  { height_nonneg := hn
    tip_depth := hdepth
    stored := by
      intro i hi
      rw [hdb]
      exact applyBatch_blocks_isSome batch _ l.db (fun op hop k2 => (hnodel op hop).1 k2)
        (hstored i hi)
    root := hroot
    index := by
      intro i hi
      rw [hdb]
      apply applyBatch_height batch _ _ l.db (fun op hop k2 => (hnodel op hop).2 k2)
      · intro op hop v2 e
        obtain ⟨j, hj, e1, e2⟩ := hput op hop _ v2 e
        have := heightKey_inj _ _ e1
        have hij : j = i := by omega
        rw [e2, hij]
      · exact (hold i hi).symm
    index_only := by
      intro key hkey
      rw [hdb, applyBatch_height_frame batch key l.db ?_ (fun op hop => (hnodel op hop).2 key)]
      · exact honly key hkey
      · intro op hop v e
        obtain ⟨j, hj, e1, _⟩ := hput op hop key v e
        exact hkey j hj e1 }

/-- A chain operation of the batch of a commit is queued before the transaction loop: by the
caller or by the `saveBlock` of the block. -/
theorem mem_commit_batch (bw ext : Batch) (B : InternalBlock) (op : BatchOp)
    (hext : ∀ o ∈ ext, o.isChainOp = false) (hop : op ∈ bw ++ saveOps B ++ ext)
    (hc : op.isChainOp = true) : op ∈ bw ∨ op ∈ saveOps B := by
  rcases List.mem_append.1 hop with h | h
  · exact List.mem_append.1 h
  · have := hext op h
    rw [hc] at this
    cases this

/-- The id at depth `-1` is the empty id. -/
theorem depth_neg_one (pre : Bytes → Bytes) (k : Bytes) (h : Depth pre k (-1)) : k = [] := by
  by_contra hk
  have := depth_nonneg pre k _ h hk
  omega

/-- Two chains of predecessors that meet after `k` steps agree from there on. -/
theorem iterate_meet (pre : Bytes → Bytes) (p q : Bytes) (k i : Nat) (h : pre^[k] q = pre^[k] p)
    (hi : k ≤ i) : pre^[i] q = pre^[i] p := by
  obtain ⟨j, rfl⟩ : ∃ j, i = j + k := ⟨i - k, by omega⟩
  rw [Function.iterate_add_apply, Function.iterate_add_apply, h]

/-- The trunk after a commit that puts a new tip `Bid` one above the old trunk height, on top
of a chain from `q` that joins the old trunk after `k` steps: it is in order when the batch
puts `Bid` and the `k` blocks of the chain above the joint with their Height Index entries,
and has no other Height Index put than these and those of the chain up to the joint. -/
theorem trunkOK_new_tip (pre : Bytes → Bytes) (l L2 : Ledger) (batch : Batch) (Bid q : Bytes)
    (k : Nat) (ht : TrunkOK pre l)
    (hdb : L2.db = applyBatch l.db batch)
    (htip : L2.meta.tipBlockid = Bid)
    (hheight : L2.meta.trunkHeight = l.meta.trunkHeight + 1)
    (hrt : L2.meta.rootBlockid = l.meta.rootBlockid)
    (hB : Bid ≠ []) (hpre : pre Bid = q) (hdq : Depth pre q l.meta.trunkHeight)
    (hk : k ≤ l.meta.trunkHeight.toNat) (hmeet : pre^[k] q = pre^[k] l.meta.tipBlockid)
    (hnodel : ∀ op ∈ batch, (∀ k2, op ≠ BatchOp.delBlock k2) ∧ (∀ k2, op ≠ BatchOp.delHeight k2))
    (hBput : (∃ b, BatchOp.putBlock Bid b ∈ batch) ∧
      BatchOp.putHeight (heightKey (l.meta.trunkHeight + 1)) Bid ∈ batch)
    (hnew : ∀ i : Nat, i < k → (∃ b, BatchOp.putBlock (pre^[i] q) b ∈ batch) ∧
      BatchOp.putHeight (heightKey (l.meta.trunkHeight - i)) (pre^[i] q) ∈ batch)
    (hputs : ∀ op ∈ batch, ∀ key v, op = BatchOp.putHeight key v →
      (key = heightKey (l.meta.trunkHeight + 1) ∧ v = Bid) ∨
      ∃ i : Nat, i ≤ k ∧ v = pre^[i] q ∧ key = heightKey (l.meta.trunkHeight - i)) :
    TrunkOK pre L2 := by
  have hn := ht.height_nonneg
  have hcast : ((l.meta.trunkHeight.toNat : Nat) : Int) = l.meta.trunkHeight :=
    Int.toNat_of_nonneg hn
  have htoNat : L2.meta.trunkHeight.toNat = l.meta.trunkHeight.toNat + 1 := by
    rw [hheight]; omega
  have hsucc : ∀ i : Nat, pre^[i + 1] Bid = pre^[i] q := by
    intro i
    rw [Function.iterate_succ_apply, hpre]
  apply trunkOK_after_batch pre l L2 batch hdb
  · rw [hheight]; omega
  · rw [htip, hheight]
    exact Depth.step Bid _ hB (by rw [hpre]; exact hdq)
  · rw [htoNat, htip, hsucc, hrt, iterate_meet pre _ q k _ hmeet hk]
    exact ht.root
  · exact hnodel
  · intro i hi
    rw [htip]
    cases i with
    | zero => exact Or.inr hBput.1
    | succ j =>
      rw [hsucc]
      by_cases hjk : j < k
      · exact Or.inr (hnew j hjk).1
      · left
        rw [iterate_meet pre _ q k j hmeet (by omega)]
        exact ht.stored j (by omega)
  · intro op hop key v e
    rw [htip, hheight]
    rcases hputs op hop key v e with ⟨e1, e2⟩ | ⟨i, hi, e1, e2⟩
    · exact ⟨0, Nat.zero_le _, by rw [e1]; simp, by rw [e2]; rfl⟩
    · refine ⟨i + 1, by omega, ?_, ?_⟩
      · rw [e2]
        congr 1
        push_cast
        omega
      · rw [hsucc]; exact e1
  · intro i hi
    rw [htip, hheight]
    cases i with
    | zero =>
      right
      have : l.meta.trunkHeight + 1 - ((0 : Nat) : Int) = l.meta.trunkHeight + 1 := by simp
      rw [this]
      exact hBput.2
    | succ j =>
      have e : l.meta.trunkHeight + 1 - ((j + 1 : Nat) : Int) = l.meta.trunkHeight - j := by
        push_cast; omega
      rw [e, hsucc]
      by_cases hjk : j < k
      · exact Or.inr (hnew j hjk).2
      · left
        rw [iterate_meet pre _ q k j hmeet (by omega)]
        exact ht.index j (by omega)
  · intro key hkey
    apply ht.index_only key
    intro i hi e
    apply hkey (i + 1) (by omega)
    rw [e, hheight]
    congr 1
    push_cast
    omega

/-! ### The four placements of a confirmed block -/

theorem saveOps_putBlock (b : InternalBlock) (op : BatchOp) (id : Bytes) (x : InternalBlock)
    (hop : op ∈ saveOps b) (e : op = BatchOp.putBlock id x) : id = b.blockid ∧ x = b := by
  subst e
  unfold saveOps at hop
  split_ifs at hop
  · simp only [List.mem_cons, BatchOp.putBlock.injEq, List.mem_singleton, List.not_mem_nil,
      or_false] at hop
    rcases hop with h | h
    · exact h
    · cases h
  · simp only [List.mem_singleton, BatchOp.putBlock.injEq] at hop
    exact hop

theorem saveOps_putHeight (b : InternalBlock) (op : BatchOp) (key v : Bytes)
    (hop : op ∈ saveOps b) (e : op = BatchOp.putHeight key v) :
    key = heightKey b.height ∧ v = b.blockid ∧ b.inTrunk = true := by
  subst e
  unfold saveOps at hop
  split_ifs at hop with h
  · simp only [List.mem_cons, List.mem_singleton, BatchOp.putHeight.injEq, List.not_mem_nil,
      or_false] at hop
    rcases hop with hop | hop
    · cases hop
    · exact ⟨hop.1, hop.2, h⟩
  · simp only [List.mem_singleton] at hop
    cases hop

theorem saveOps_nodel (b : InternalBlock) (op : BatchOp) (hop : op ∈ saveOps b) :
    (∀ k2, op ≠ BatchOp.delBlock k2) ∧ (∀ k2, op ≠ BatchOp.delHeight k2) := by
  unfold saveOps at hop
  split_ifs at hop
  · simp only [List.mem_cons, List.mem_singleton, List.not_mem_nil, or_false] at hop
    rcases hop with rfl | rfl
    · exact ⟨fun k2 e => (by cases e), fun k2 e => (by cases e)⟩
    · exact ⟨fun k2 e => (by cases e), fun k2 e => (by cases e)⟩
  · simp only [List.mem_singleton] at hop
    subst hop
    exact ⟨fun k2 e => (by cases e), fun k2 e => (by cases e)⟩

theorem saveOps_mem_putBlock (b : InternalBlock) : BatchOp.putBlock b.blockid b ∈ saveOps b := by
  unfold saveOps
  split_ifs <;> simp

theorem saveOps_mem_putHeight (b : InternalBlock) (h : b.inTrunk = true) :
    BatchOp.putHeight (heightKey b.height) b.blockid ∈ saveOps b := by
  rw [saveOps_trunk b h]
  simp

/-- The operations of a batch that is the caller's part, the puts of the block and operations
on other tables: nothing is deleted when the caller's part deletes nothing. -/
theorem commit_batch_nodel (bw ext : Batch) (B : InternalBlock)
    (hext : ∀ o ∈ ext, o.isChainOp = false)
    (hbw : ∀ op ∈ bw, (∀ k2, op ≠ BatchOp.delBlock k2) ∧ (∀ k2, op ≠ BatchOp.delHeight k2)) :
    ∀ op ∈ bw ++ saveOps B ++ ext,
      (∀ k2, op ≠ BatchOp.delBlock k2) ∧ (∀ k2, op ≠ BatchOp.delHeight k2) := by
  intro op hop
  rcases List.mem_append.1 hop with h | h
  · rcases List.mem_append.1 h with h1 | h1
    · exact hbw op h1
    · exact saveOps_nodel B op h1
  · have := hext op h
    refine ⟨fun k2 e => ?_, fun k2 e => ?_⟩
    · rw [e] at this; cases this
    · rw [e] at this; cases this

/-- A root block on a ledger without root. -/
theorem honest_root (pre : Bytes → Bytes) (l L2 : Ledger) (ext : Batch) (B : InternalBlock)
    (hl : l.Honest pre) (hroot : l.meta.rootBlockid = [])
    (hB : HonestBlock pre B) (hBh : B.height = 0) (hBt : B.inTrunk = true)
    (hext : ∀ op ∈ ext, op.isChainOp = false)
    (hc : L2.CacheHonest pre) (hdb : L2.db = applyBatch l.db ([] ++ saveOps B ++ ext))
    (hm : L2.meta = { rootBlockid := B.blockid, tipBlockid := B.blockid, trunkHeight := 0 }) :
    L2.Honest pre := by
  obtain ⟨_, hht, _, hn⟩ := hl.empty hroot
  have hmt : L2.meta.trunkHeight = 0 := by rw [hm]
  have hmtip : L2.meta.tipBlockid = B.blockid := by rw [hm]
  have hmroot : L2.meta.rootBlockid = B.blockid := by rw [hm]
  have hchain : ∀ op ∈ [] ++ saveOps B ++ ext, op.isChainOp = true → op ∈ saveOps B := by
    intro op hop hco
    rcases mem_commit_batch [] ext B op hext hop hco with h | h
    · cases h
    · exact h
  have hi0 : ∀ i : Nat, i ≤ L2.meta.trunkHeight.toNat → i = 0 := by
    intro i hi
    rw [hmt] at hi
    simpa using hi
  apply honest_after_batch pre l L2 _ hl hc hdb
  · intro op hop id b e
    have h1 := hchain op hop (by rw [e]; rfl)
    obtain ⟨e1, e2⟩ := saveOps_putBlock B op id b h1 e
    rw [e1, e2, hmt, hBh]
    exact ⟨rfl, hB, le_refl _⟩
  · rw [hmt, hn]
  · rw [hmroot]; exact hB.1
  · apply trunkOK_after_batch pre l L2 _ hdb
    · rw [hmt]
    · rw [hmt, hmtip, ← hBh]; exact hB.2.2
    · rw [hmt, hmtip, hmroot]; rfl
    · exact commit_batch_nodel [] ext B hext (fun op hop => by cases hop)
    · intro i hi
      rw [hi0 i hi, hmtip]
      right
      exact ⟨B, List.mem_append_left _ (List.mem_append_right _ (saveOps_mem_putBlock B))⟩
    · intro op hop key v e
      have h1 := hchain op hop (by rw [e]; rfl)
      obtain ⟨e1, e2, _⟩ := saveOps_putHeight B op key v h1 e
      refine ⟨0, Nat.zero_le _, ?_, ?_⟩
      · rw [e1, hmt, hBh]; rfl
      · rw [e2, hmtip]; rfl
    · intro i hi
      rw [hi0 i hi, hmtip, hmt]
      right
      apply List.mem_append_left
      apply List.mem_append_right
      have := saveOps_mem_putHeight B hBt
      rw [hBh] at this
      exact this
    · intro key _
      rw [hht]
      rfl

/-- A block on a branch, not higher than the trunk. -/
theorem honest_branch (pre : Bytes → Bytes) (l L2 : Ledger) (ext : Batch) (B : InternalBlock)
    (hl : l.Honest pre) (hB : HonestBlock pre B) (hB1 : 1 ≤ B.height)
    (hBh : B.height ≤ l.meta.trunkHeight) (hBt : B.inTrunk = false)
    (hext : ∀ op ∈ ext, op.isChainOp = false)
    (hc : L2.CacheHonest pre) (hdb : L2.db = applyBatch l.db ([] ++ saveOps B ++ ext))
    (hm : L2.meta = l.meta) : L2.Honest pre := by
  have hroot : l.meta.rootBlockid ≠ [] := by
    intro e
    obtain ⟨_, _, _, hn⟩ := hl.empty e
    omega
  have ht := hl.trunk hroot
  have hchain : ∀ op ∈ [] ++ saveOps B ++ ext, op.isChainOp = true →
      op = BatchOp.putBlock B.blockid B := by
    intro op hop hco
    rcases mem_commit_batch [] ext B op hext hop hco with h | h
    · cases h
    · rw [saveOps_branch B hBt] at h
      exact List.mem_singleton.1 h
  apply honest_after_batch pre l L2 _ hl hc hdb
  · intro op hop id b e
    have h1 := hchain op hop (by rw [e]; rfl)
    rw [e] at h1
    simp only [BatchOp.putBlock.injEq] at h1
    obtain ⟨rfl, rfl⟩ := h1
    rw [hm]
    exact ⟨rfl, hB, hBh⟩
  · rw [hm]
  · rw [hm]; exact hroot
  · apply trunkOK_after_batch pre l L2 _ hdb
    · rw [hm]; exact ht.height_nonneg
    · rw [hm]; exact ht.tip_depth
    · rw [hm]; exact ht.root
    · exact commit_batch_nodel [] ext B hext (fun op hop => by cases hop)
    · intro i hi
      rw [hm] at hi ⊢
      exact Or.inl (ht.stored i hi)
    · intro op hop key v e
      have h1 := hchain op hop (by rw [e]; rfl)
      rw [e] at h1
      cases h1
    · intro i hi
      rw [hm] at hi ⊢
      exact Or.inl (ht.index i hi)
    · intro key hkey
      rw [hm] at hkey
      exact ht.index_only key hkey

/-- A block on top of the tip; `bw` is what the caller queued before the commit tail: nothing,
or the puts of the old tip. -/
theorem honest_trunk_extend (pre : Bytes → Bytes) (l L2 : Ledger) (bw ext : Batch)
    (P B : InternalBlock) (hl : l.Honest pre)
    (hP : HonestBlock pre P) (hPid : P.blockid = l.meta.tipBlockid)
    (hbw : bw = [] ∨ bw = saveOps P)
    (hB : HonestBlock pre B) (hBpre : B.preHash = l.meta.tipBlockid)
    (hBh : B.height = P.height + 1) (hBt : B.inTrunk = true)
    (hext : ∀ op ∈ ext, op.isChainOp = false)
    (hc : L2.CacheHonest pre) (hdb : L2.db = applyBatch l.db (bw ++ saveOps B ++ ext))
    (hm : L2.meta = { l.meta with tipBlockid := B.blockid,
                                  trunkHeight := l.meta.trunkHeight + 1 }) :
    L2.Honest pre := by
  have hroot : l.meta.rootBlockid ≠ [] := by
    intro e
    obtain ⟨_, _, htip, _⟩ := hl.empty e
    rw [htip] at hPid
    exact hP.1 hPid
  have ht := hl.trunk hroot
  have hPh : P.height = l.meta.trunkHeight := by
    have := hP.2.2
    rw [hPid] at this
    exact depth_fun pre _ _ _ this ht.tip_depth
  have hBheight : B.height = l.meta.trunkHeight + 1 := by rw [hBh, hPh]
  have hmt : L2.meta.trunkHeight = l.meta.trunkHeight + 1 := by rw [hm]
  have hmtip : L2.meta.tipBlockid = B.blockid := by rw [hm]
  have hmroot : L2.meta.rootBlockid = l.meta.rootBlockid := by rw [hm]
  have hbwsub : ∀ op ∈ bw, op ∈ saveOps P := by
    intro op hop
    rcases hbw with e | e
    · rw [e] at hop; cases hop
    · rw [e] at hop; exact hop
  have hchain : ∀ op ∈ bw ++ saveOps B ++ ext, op.isChainOp = true →
      op ∈ saveOps P ∨ op ∈ saveOps B := by
    intro op hop hco
    rcases mem_commit_batch bw ext B op hext hop hco with h | h
    · exact Or.inl (hbwsub op h)
    · exact Or.inr h
  have hpreB : pre B.blockid = l.meta.tipBlockid := by rw [← hB.2.1]; exact hBpre
  apply honest_after_batch pre l L2 _ hl hc hdb
  · intro op hop id b e
    rcases hchain op hop (by rw [e]; rfl) with h1 | h1
    · obtain ⟨e1, e2⟩ := saveOps_putBlock P op id b h1 e
      rw [e1, e2, hmt, hPh]
      exact ⟨rfl, hP, by omega⟩
    · obtain ⟨e1, e2⟩ := saveOps_putBlock B op id b h1 e
      rw [e1, e2, hmt, hBheight]
      exact ⟨rfl, hB, le_refl _⟩
  · rw [hmt]; omega
  · rw [hmroot]; exact hroot
  · apply trunkOK_new_tip pre l L2 _ B.blockid l.meta.tipBlockid 0 ht hdb hmtip hmt hmroot hB.1
      hpreB ht.tip_depth (Nat.zero_le _) rfl
    · exact commit_batch_nodel bw ext B hext (fun op hop => saveOps_nodel P op (hbwsub op hop))
    · refine ⟨⟨B, ?_⟩, ?_⟩
      · exact List.mem_append_left _ (List.mem_append_right _ (saveOps_mem_putBlock B))
      · apply List.mem_append_left
        apply List.mem_append_right
        have := saveOps_mem_putHeight B hBt
        rw [hBheight] at this
        exact this
    · intro i hi
      omega
    · intro op hop key v e
      rcases hchain op hop (by rw [e]; rfl) with h1 | h1
      · obtain ⟨e1, e2, _⟩ := saveOps_putHeight P op key v h1 e
        right
        refine ⟨0, le_refl _, ?_, ?_⟩
        · rw [e2, hPid]; rfl
        · rw [e1, hPh]; simp
      · obtain ⟨e1, e2, _⟩ := saveOps_putHeight B op key v h1 e
        left
        exact ⟨by rw [e1, hBheight], e2⟩

/-- A block that makes its branch the trunk, after a successful `handleFork` whose batch is
`fext`. -/
theorem honest_reorg (pre : Bytes → Bytes) (l L2 : Ledger) (fext ext : Batch)
    (P B S : InternalBlock) (k : Nat) (hl : l.Honest pre)
    (hP : HonestBlock pre P) (hgt : P.height + 1 > l.meta.trunkHeight)
    (hB : HonestBlock pre B) (hBpre : B.preHash = P.blockid)
    (hBh : B.height = P.height + 1) (hBt : B.inTrunk = true)
    (hd : ForkDone pre l.meta.tipBlockid P.blockid fext S k)
    (hext : ∀ op ∈ ext, op.isChainOp = false)
    (hc : L2.CacheHonest pre) (hdb : L2.db = applyBatch l.db (fext ++ saveOps B ++ ext))
    (hm : L2.meta = { l.meta with trunkHeight := P.height + 1, tipBlockid := B.blockid }) :
    L2.Honest pre := by
  have hroot : l.meta.rootBlockid ≠ [] := by
    intro e
    obtain ⟨_, _, htip, _⟩ := hl.empty e
    have := hd.old_ne 0 (Nat.zero_le _)
    rw [htip] at this
    exact this rfl
  have ht := hl.trunk hroot
  have hn := ht.height_nonneg
  have hcast : ((l.meta.trunkHeight.toNat : Nat) : Int) = l.meta.trunkHeight :=
    Int.toNat_of_nonneg hn
  -- the walk ends on the trunk
  have hk : k ≤ l.meta.trunkHeight.toNat := by
    by_contra hcon
    have h1 := hd.old_ne (l.meta.trunkHeight.toNat + 1) (by omega)
    have h2 := depth_iterate pre (l.meta.trunkHeight.toNat + 1) _ _ ht.tip_depth
      (by push_cast; omega)
    have e : l.meta.trunkHeight - ((l.meta.trunkHeight.toNat + 1 : Nat) : Int) = -1 := by
      push_cast; omega
    rw [e] at h2
    exact h1 (depth_neg_one pre _ h2)
  -- so the predecessor of the new tip is as high as the old trunk
  have hPh : P.height = l.meta.trunkHeight := by
    have h1 := depth_iterate pre k _ _ ht.tip_depth (by omega)
    have h2 := depth_iterate pre k _ _ hP.2.2 (by omega)
    rw [hd.meet] at h1
    have := depth_fun pre _ _ _ h1 h2
    omega
  have hdq : Depth pre P.blockid l.meta.trunkHeight := by rw [← hPh]; exact hP.2.2
  have hBheight : B.height = l.meta.trunkHeight + 1 := by rw [hBh, hPh]
  have hmt : L2.meta.trunkHeight = l.meta.trunkHeight + 1 := by rw [hm, ← hPh]
  have hmtip : L2.meta.tipBlockid = B.blockid := by rw [hm]
  have hmroot : L2.meta.rootBlockid = l.meta.rootBlockid := by rw [hm]
  have hpreB : pre B.blockid = P.blockid := by rw [← hB.2.1]; exact hBpre
  have hchain : ∀ op ∈ fext ++ saveOps B ++ ext, op.isChainOp = true →
      op ∈ fext ∨ op ∈ saveOps B := fun op hop hco => mem_commit_batch fext ext B op hext hop hco
  have hqdepth : ∀ i : Nat, i ≤ k → Depth pre (pre^[i] P.blockid) (l.meta.trunkHeight - i) :=
    fun i hi => depth_iterate pre i _ _ hdq (by omega)
  have hpdepth : ∀ i : Nat, i ≤ k →
      Depth pre (pre^[i] l.meta.tipBlockid) (l.meta.trunkHeight - i) :=
    fun i hi => depth_iterate pre i _ _ ht.tip_depth (by omega)
  apply honest_after_batch pre l L2 _ hl hc hdb
  · intro op hop id b e
    rcases hchain op hop (by rw [e]; rfl) with h1 | h1
    · obtain ⟨e1, e2, e3⟩ := hd.puts op h1 id b e
      refine ⟨e1, e2, ?_⟩
      have hdb2 := e2.2.2
      rw [e1] at hdb2
      rw [hmt]
      rcases e3 with ⟨i, hi, e4⟩ | ⟨i, hi, e4⟩
      · rw [e4] at hdb2
        have := depth_fun pre _ _ _ hdb2 (hpdepth i (by omega))
        omega
      · rw [e4] at hdb2
        have := depth_fun pre _ _ _ hdb2 (hqdepth i hi)
        omega
    · obtain ⟨e1, e2⟩ := saveOps_putBlock B op id b h1 e
      rw [e1, e2, hmt, hBheight]
      exact ⟨rfl, hB, le_refl _⟩
  · rw [hmt]; omega
  · rw [hmroot]; exact hroot
  · apply trunkOK_new_tip pre l L2 _ B.blockid P.blockid k ht hdb hmtip hmt hmroot hB.1
      hpreB hdq hk hd.meet.symm
    · exact commit_batch_nodel fext ext B hext hd.no_del
    · refine ⟨⟨B, ?_⟩, ?_⟩
      · exact List.mem_append_left _ (List.mem_append_right _ (saveOps_mem_putBlock B))
      · apply List.mem_append_left
        apply List.mem_append_right
        have := saveOps_mem_putHeight B hBt
        rw [hBheight] at this
        exact this
    · intro i hi
      obtain ⟨b, h1, h2, h3, h4⟩ := hd.new_path i (by omega)
      have hbh : b.height = l.meta.trunkHeight - i := by
        have := h3.2.2
        rw [h4] at this
        exact depth_fun pre _ _ _ this (hqdepth i (by omega))
      refine ⟨⟨b, ?_⟩, ?_⟩
      · exact List.mem_append_left _ (List.mem_append_left _ h1)
      · rw [← hbh]
        exact List.mem_append_left _ (List.mem_append_left _ h2)
    · intro op hop key v e
      rcases hchain op hop (by rw [e]; rfl) with h1 | h1
      · obtain ⟨i, m, hi, e1, e2, e3⟩ := hd.heights op h1 key v e
        right
        refine ⟨i, hi, e1, ?_⟩
        rw [e1] at e2
        rw [e3, depth_fun pre _ _ _ e2 (hqdepth i hi)]
      · obtain ⟨e1, e2, _⟩ := saveOps_putHeight B op key v h1 e
        left
        exact ⟨by rw [e1, hBheight], e2⟩

/-! ### One call keeps the invariant -/

/-- The commit tail keeps the invariant when the write it may do keeps it. -/
theorem confirmCommit_keeps (pre : Bytes → Bytes) (env : Env) (kvErr : Option LedgerError)
    (l L : Ledger) (a : Addr) (txs : List Transaction) (newMeta : LedgerMeta) (sh : Int)
    (st : ConfirmStatus) (isRoot : Bool) (bw : Batch)
    (hl : l.Honest pre) (hLdb : L.db = l.db) (hLm : L.meta = l.meta)
    (hc : L.CacheHonest pre) (ha : a < L.heap.length) (hb : HonestBlock pre (L.deref a))
    (hpost : ∀ (L2 : Ledger) (ext : Batch), (∀ op ∈ ext, BatchOp.isChainOp op = false) → L2.CacheHonest pre →
      L2.db = applyBatch l.db (bw ++ saveOps (L.deref a) ++ ext) → L2.meta = newMeta →
      L2.Honest pre)
    (hnm : newMeta.trunkHeight ≤ l.meta.trunkHeight + 1) :
    (confirmCommit env kvErr L a txs newMeta sh st isRoot bw).2.Honest pre ∧
    (confirmCommit env kvErr L a txs newMeta sh st isRoot bw).2.meta.trunkHeight ≤
      l.meta.trunkHeight + 1 := by
  obtain ⟨hc2, hcase⟩ := confirmCommit_honest pre env kvErr L a txs newMeta sh st isRoot bw hc ha hb
  rcases hcase with ⟨hdb, hm⟩ | ⟨ext, hdb, hm, hext⟩
  · refine ⟨honest_frame pre l _ hl (hdb.trans hLdb) (hm.trans hLm) hc2, ?_⟩
    rw [hm, hLm]
    omega
  · refine ⟨hpost _ ext hext hc2 (by rw [hdb, hLdb]) hm, ?_⟩
    rw [hm]
    exact hnm

theorem unaliased_modify (l : Ledger) (a x : Addr) (f : InternalBlock → InternalBlock)
    (hu : l.Unaliased a) : (l.modify x f).Unaliased a :=
  ⟨by rw [modify_heap_length]; exact hu.1, hu.2⟩

theorem length_zero_of_not_pos (bs : Bytes) (h : ¬ bs.length > 0) : bs = [] := by
  cases bs with
  | nil => rfl
  | cons x xs => simp at h

/-- `ConfirmBlock(B, true)` keeps the invariant. -/
theorem confirmBlock_root_honest (pre : Bytes → Bytes) (env : Env) (kvErr : Option LedgerError)
    (fuel : Nat) (l : Ledger) (B : InternalBlock) (hl : l.Honest pre)
    (hBid : B.blockid ≠ []) (hBpre : B.preHash = pre B.blockid) :
    ∀ r, ConfirmBlock env kvErr fuel l B true = some r →
      r.2.Honest pre ∧ r.2.meta.trunkHeight ≤ l.meta.trunkHeight + 1 := by
  intro r hr
  have hc0 : (l.alloc (B.setTransactions [])).CacheHonest pre :=
    cacheHonest_alloc pre l _ hl.cache
  have hu0 : (l.alloc (B.setTransactions [])).Unaliased l.heap.length :=
    unaliased_alloc l _ hl.cache.1
  by_cases h1 : B.preHash.length > 0
  · unfold ConfirmBlock at hr
    simp only [if_true, h1] at hr
    cases hr
    exact ⟨honest_frame pre l _ hl rfl rfl hc0, by show l.meta.trunkHeight ≤ _; omega⟩
  · by_cases h2 : l.meta.rootBlockid.length > 0
    · unfold ConfirmBlock at hr
      simp only [if_true, h1, if_false, alloc_meta, h2] at hr
      cases hr
      exact ⟨honest_frame pre l _ hl rfl rfl hc0, by show l.meta.trunkHeight ≤ _; omega⟩
    · unfold ConfirmBlock at hr
      simp only [if_true, h1, if_false, alloc_meta, h2] at hr
      cases hr
      have hpre0 : B.preHash = [] := length_zero_of_not_pos _ h1
      have hroot0 : l.meta.rootBlockid = [] := length_zero_of_not_pos _ h2
      obtain ⟨L, hL⟩ : ∃ L, L = ((l.alloc (B.setTransactions [])).modify l.heap.length
          (InternalBlock.setInTrunk true)).modify l.heap.length (InternalBlock.setHeight 0) :=
        ⟨_, rfl⟩
      have hu1 := unaliased_modify _ l.heap.length l.heap.length (InternalBlock.setInTrunk true) hu0
      have hcL : L.CacheHonest pre := by
        rw [hL]
        exact cacheHonest_modify_unaliased pre _ _ _ hu1
          (cacheHonest_modify_unaliased pre _ _ _ hu0 hc0)
      have haL : l.heap.length < L.heap.length := by
        rw [hL, modify_heap_length, modify_heap_length]; exact hu0.1
      have hdL : L.deref l.heap.length =
          ((B.setTransactions []).setInTrunk true).setHeight 0 := by
        rw [hL, deref_modify_same _ _ _ (by rw [modify_heap_length]; exact hu0.1),
          deref_modify_same _ _ _ hu0.1, deref_alloc_new]
      have hbL : HonestBlock pre (L.deref l.heap.length) := by
        rw [hdL]
        refine ⟨hBid, hBpre, ?_⟩
        show Depth pre B.blockid 0
        have h0 : Depth pre (pre B.blockid) (-1) := by
          rw [← hBpre, hpre0]; exact Depth.nil
        have := Depth.step B.blockid (-1) hBid h0
        simpa using this
      obtain ⟨_, _, _, hn0⟩ := hl.empty hroot0
      rw [← hL]
      apply confirmCommit_keeps pre env kvErr l L _ _ _ _ _ _ _ hl (by rw [hL]; rfl)
        (by rw [hL]; rfl) hcL haL hbL
      · intro L2 ext hext hc2 hdb hm
        exact honest_root pre l L2 ext (L.deref l.heap.length) hl hroot0 hbL
          (by rw [hdL]; rfl) (by rw [hdL]; rfl) hext hc2 hdb
          (by rw [hm, hdL]; rfl)
      · show (0 : Int) ≤ _
        rw [hn0]
        omega

/-- `ConfirmBlock(B, false)` keeps the invariant. -/
theorem confirmBlock_nonroot_honest (pre : Bytes → Bytes) (env : Env)
    (kvErr : Option LedgerError) (fuel : Nat) (l : Ledger) (B : InternalBlock)
    (hl : l.Honest pre) (hBid : B.blockid ≠ []) (hBpre : B.preHash = pre B.blockid) :
    ∀ r, ConfirmBlock env kvErr fuel l B false = some r →
      r.2.Honest pre ∧ r.2.meta.trunkHeight ≤ l.meta.trunkHeight + 1 := by
  intro r hr
  have hc0 : (l.alloc (B.setTransactions [])).CacheHonest pre :=
    cacheHonest_alloc pre l _ hl.cache
  have hu0 : (l.alloc (B.setTransactions [])).Unaliased l.heap.length :=
    unaliased_alloc l _ hl.cache.1
  have hlt0 : l.heap.length < (l.alloc (B.setTransactions [])).heap.length := hu0.1
  cases hf : fetchBlock (l.alloc (B.setTransactions [])) B.preHash with
  | mk r1 l1 =>
    obtain ⟨hdb, hm, _, _, hle, hold, _, _⟩ := fetchBlock_frame _ l1 _ r1 hf
    obtain ⟨hc1, hfetch⟩ := fetchBlock_honest pre _ l1 _ r1 hc0
      (by rw [alloc_db]; exact hl.store) hf
    obtain ⟨hu1, hda1, hpane⟩ := fetchBlock_unaliased _ l1 _ r1 _ hu0 hf
    have hdb1 : l1.db = l.db := by rw [hdb, alloc_db]
    have hm1 : l1.meta = l.meta := by rw [hm, alloc_meta]
    cases r1 with
    | error e =>
      unfold ConfirmBlock at hr
      simp only [Bool.false_eq_true, if_false, hf] at hr
      cases hr
      exact ⟨honest_frame pre l _ hl hdb1 hm1 hc1, by show l1.meta.trunkHeight ≤ _; rw [hm1]; omega⟩
    | ok pa =>
      obtain ⟨hplt, hpid, hph⟩ := hfetch pa rfl
      have hne : pa ≠ l.heap.length := hpane pa rfl
      have hderef : l1.deref l.heap.length = B.setTransactions [] := by
        rw [hold _ hlt0, deref_alloc_new]
      have hPnn : 0 ≤ (l1.deref pa).height := depth_nonneg pre _ _ hph.2.2 hph.1
      -- the block object after `block.Height = preBlock.Height + 1`
      obtain ⟨l2, hl2⟩ : ∃ l2, l2 = l1.modify l.heap.length
          (InternalBlock.setHeight ((l1.deref pa).height + 1)) := ⟨_, rfl⟩
      have hc2 : l2.CacheHonest pre := by
        rw [hl2]; exact cacheHonest_modify_unaliased pre _ _ _ hu1 hc1
      have hu2 : l2.Unaliased l.heap.length := by
        rw [hl2]; exact unaliased_modify _ _ _ _ hu1
      have hd2p : l2.deref pa = l1.deref pa := by
        rw [hl2, deref_modify_ne _ _ _ _ (fun e => hne e.symm)]
      have hd2a : l2.deref l.heap.length =
          (B.setTransactions []).setHeight ((l1.deref pa).height + 1) := by
        rw [hl2, deref_modify_same _ _ _ hu1.1, hderef]
      have hdb2 : l2.db = l.db := by rw [hl2, modify_db, hdb1]
      have hm2 : l2.meta = l.meta := by rw [hl2, modify_meta, hm1]
      have hbid : ((l1.modify l.heap.length
          (InternalBlock.setHeight ((l1.deref pa).height + 1))).deref pa).blockid =
          (l1.deref pa).blockid := modify_blockid _ _ _ _ (fun _ => rfl)
      have hhonB : ∀ v : Bool, HonestBlock pre
          (((B.setTransactions []).setHeight ((l1.deref pa).height + 1)).setInTrunk v) := by
        intro v
        refine ⟨hBid, hBpre, ?_⟩
        show Depth pre B.blockid ((l1.deref pa).height + 1)
        apply Depth.step B.blockid _ hBid
        rw [← hBpre, ← hpid]
        exact hph.2.2
      by_cases ht : (l1.deref pa).blockid = l.meta.tipBlockid
      · -- on top of the tip
        obtain ⟨l3, hl3⟩ : ∃ l3, l3 = l2.modify l.heap.length (InternalBlock.setInTrunk true) :=
          ⟨_, rfl⟩
        have hc3 : l3.CacheHonest pre := by
          rw [hl3]; exact cacheHonest_modify_unaliased pre _ _ _ hu2 hc2
        have hd3a : l3.deref l.heap.length =
            ((B.setTransactions []).setHeight ((l1.deref pa).height + 1)).setInTrunk true := by
          rw [hl3, deref_modify_same _ _ _ hu2.1, hd2a]
        have hd3p : l3.deref pa = l1.deref pa := by
          rw [hl3, deref_modify_ne _ _ _ _ (fun e => hne e.symm), hd2p]
        obtain ⟨l4, hl4⟩ : ∃ l4, l4 = l3.modify pa
            (InternalBlock.setNextHash (l3.deref l.heap.length).blockid) := ⟨_, rfl⟩
        have hc4 : l4.CacheHonest pre := by
          rw [hl4]; exact cacheHonest_modify pre _ _ _ (link_setNextHash _) hc3
        have hlen4 : l4.heap.length = l1.heap.length := by
          rw [hl4, modify_heap_length, hl3, modify_heap_length, hl2, modify_heap_length]
        have hd4a : l4.deref l.heap.length =
            ((B.setTransactions []).setHeight ((l1.deref pa).height + 1)).setInTrunk true := by
          rw [hl4, deref_modify_ne _ _ _ _ hne, hd3a]
        have hd4p : l4.deref pa = (l1.deref pa).setNextHash B.blockid := by
          rw [hl4, deref_modify_same _ _ _ (by
            rw [hl3, modify_heap_length, hl2, modify_heap_length]; exact hplt), hd3p, hd3a]
          rfl
        have hdb4 : l4.db = l.db := by rw [hl4, modify_db, hl3, modify_db, hdb2]
        have hm4 : l4.meta = l.meta := by rw [hl4, modify_meta, hl3, modify_meta, hm2]
        have hP4 : HonestBlock pre (l4.deref pa) := by rw [hd4p]; exact hph
        have hpost : ∀ (bw : Batch), (bw = [] ∨ bw = saveOps (l4.deref pa)) →
            ∀ (L2 : Ledger) (ext : Batch), (∀ op ∈ ext, BatchOp.isChainOp op = false) →
            L2.CacheHonest pre →
            L2.db = applyBatch l.db (bw ++ saveOps
              (((B.setTransactions []).setHeight ((l1.deref pa).height + 1)).setInTrunk true)
              ++ ext) →
            L2.meta = { l.meta with tipBlockid := B.blockid,
                                    trunkHeight := l.meta.trunkHeight + 1 } →
            L2.Honest pre := by
          intro bw hbw L2 ext hext hcL2 hdbL2 hmL2
          exact honest_trunk_extend pre l L2 bw ext (l4.deref pa) _ hl hP4
            (by rw [hd4p]; exact ht) hbw (hhonB true)
            (by show B.preHash = _; rw [← ht, hpid])
            (by rw [hd4p]; rfl) rfl hext hcL2 hdbL2 hmL2
        by_cases hd : env.DisableTxDedup = true
        · unfold ConfirmBlock at hr
          simp only [Bool.false_eq_true, if_false, hf, alloc_meta, hbid, ht, if_true, hd,
            Bool.not_true] at hr
          rw [← hl2, ← hl3, ← hl4] at hr
          cases hr
          apply confirmCommit_keeps pre env kvErr l l4 _ _ _ _ _ _ _ hl hdb4 hm4 hc4
            (by rw [hlen4]; exact hu1.1) (by rw [hd4a]; exact hhonB true)
          · intro L2 ext hext hcL2 hdbL2 hmL2
            rw [hd4a] at hdbL2
            exact hpost [] (Or.inl rfl) L2 ext hext hcL2 hdbL2 (by rw [hmL2, hd4a]; rfl)
          · show l.meta.trunkHeight + 1 ≤ _
            omega
        · have hd2 : env.DisableTxDedup = false := by
            cases h : env.DisableTxDedup
            · rfl
            · exact absurd h hd
          unfold ConfirmBlock at hr
          simp only [Bool.false_eq_true, if_false, hf, alloc_meta, hbid, ht, if_true, hd2,
            Bool.not_false] at hr
          rw [← hl2, ← hl3, ← hl4] at hr
          cases hr
          obtain ⟨l6, hl6⟩ : ∃ l6, l6 = (saveBlock l4 pa []).1.setBlockCache
              ((saveBlock l4 pa []).1.blockCache.Del ((saveBlock l4 pa []).1.deref pa).blockid) :=
            ⟨_, rfl⟩
          have hc5 : (saveBlock l4 pa []).1.CacheHonest pre :=
            cacheHonest_saveBlock pre l4 pa [] hc4 (by rw [hlen4]; exact hplt) hP4
          have hc6 : l6.CacheHonest pre := by
            rw [hl6]
            apply cacheHonest_setBlockCache pre _ _ hc5
            intro p hp
            exact hc5.1.2 p (lru_del_entries_mem _ _ _ hp)
          have hd6 : ∀ x, l6.deref x = l4.deref x := by
            intro x; rw [hl6]; rfl
          rw [← hl6]
          apply confirmCommit_keeps pre env kvErr l l6 _ _ _ _ _ _ _ hl
            (by rw [hl6]; exact hdb4) (by rw [hl6]; exact hm4) hc6
            (by rw [hl6]; show l.heap.length < l4.heap.length; rw [hlen4]; exact hu1.1)
            (by rw [hd6, hd4a]; exact hhonB true)
          · intro L2 ext hext hcL2 hdbL2 hmL2
            rw [hd6, hd4a] at hdbL2
            exact hpost (saveOps (l4.deref pa)) (Or.inr rfl) L2 ext hext hcL2
              (by rw [hdbL2, saveBlock_eq]; rfl) (by rw [hmL2, hd4a]; rfl)
          · show l.meta.trunkHeight + 1 ≤ _
            omega
      · have hPid2 : (l2.deref pa).blockid = (l1.deref pa).blockid := by rw [hd2p]
        have hPh2 : (l2.deref pa).height = (l1.deref pa).height := by rw [hd2p]
        have hh : (l1.deref pa).height + 1 > l.meta.trunkHeight ∨
            ¬ (l1.deref pa).height + 1 > l.meta.trunkHeight := Classical.em _
        rcases hh with hh | hh
        · -- the branch of the block becomes the trunk
          obtain ⟨l3, hl3⟩ : ∃ l3, l3 = l2.modify l.heap.length (InternalBlock.setInTrunk true) :=
            ⟨_, rfl⟩
          have hc3 : l3.CacheHonest pre := by
            rw [hl3]; exact cacheHonest_modify_unaliased pre _ _ _ hu2 hc2
          have hu3 : l3.Unaliased l.heap.length := by
            rw [hl3]; exact unaliased_modify _ _ _ _ hu2
          have hd3a : l3.deref l.heap.length =
              ((B.setTransactions []).setHeight ((l1.deref pa).height + 1)).setInTrunk true := by
            rw [hl3, deref_modify_same _ _ _ hu2.1, hd2a]
          have hd3p : l3.deref pa = l1.deref pa := by
            rw [hl3, deref_modify_ne _ _ _ _ (fun e => hne e.symm), hd2p]
          have hdb3 : l3.db = l.db := by rw [hl3, modify_db, hdb2]
          have hm3 : l3.meta = l.meta := by rw [hl3, modify_meta, hm2]
          cases hk : handleFork fuel l3 l.meta.tipBlockid (l1.deref pa).blockid B.blockid [] with
          | none =>
            unfold ConfirmBlock at hr
            simp only [Bool.false_eq_true, if_false, hf, alloc_meta] at hr
            rw [← hl2] at hr
            simp only [hPid2, hPh2, ht, hh, if_true, if_false] at hr
            rw [← hl3] at hr
            simp only [hd3p, hd3a] at hr
            rw [show (((B.setTransactions []).setHeight ((l1.deref pa).height + 1)).setInTrunk
              true).blockid = B.blockid from rfl, hk] at hr
            cases hr
          | some res =>
            obtain ⟨r2, L4, bw1⟩ := res
            obtain ⟨k1, k2⟩ := handleFork_db _ _ _ _ _ _ _ _ _ hk
            obtain ⟨hc4, hres⟩ := handleFork_honest pre fuel l3 _ _ _ _ _ _ _ hc3
              (by rw [hdb3]; exact hl.store) hk
            obtain ⟨_, _, _, _, hu4, hd4a, _⟩ := handleFork_frame _ _ _ _ _ _ _ _ _ _ hu3 hk
            unfold ConfirmBlock at hr
            simp only [Bool.false_eq_true, if_false, hf, alloc_meta] at hr
            rw [← hl2] at hr
            simp only [hPid2, hPh2, ht, hh, if_true, if_false] at hr
            rw [← hl3] at hr
            simp only [hd3p, hd3a] at hr
            rw [show (((B.setTransactions []).setHeight ((l1.deref pa).height + 1)).setInTrunk
              true).blockid = B.blockid from rfl, hk] at hr
            cases r2 with
            | error e =>
              simp only at hr
              cases hr
              exact ⟨honest_frame pre l _ hl (k1.trans hdb3) (k2.trans hm3) hc4,
                by show L4.meta.trunkHeight ≤ _; rw [k2, hm3]; omega⟩
            | ok sa =>
              simp only at hr
              cases hr
              obtain ⟨_, k, fext, hbw1, hdone⟩ := hres sa rfl
              rw [List.nil_append] at hbw1
              subst hbw1
              have hBL4 : L4.deref l.heap.length =
                  ((B.setTransactions []).setHeight ((l1.deref pa).height + 1)).setInTrunk
                    true := by rw [hd4a, hd3a]
              apply confirmCommit_keeps pre env kvErr l L4 _ _ _ _ _ _ _ hl (k1.trans hdb3)
                (k2.trans hm3) hc4 hu4.1 (by rw [hBL4]; exact hhonB true)
              · intro L2 ext hext hcL2 hdbL2 hmL2
                rw [hBL4] at hdbL2
                exact honest_reorg pre l L2 bw1 ext (l1.deref pa) _ (L4.deref sa) k hl hph hh
                  (hhonB true) (by show B.preHash = _; rw [hpid]) rfl rfl hdone hext hcL2
                  hdbL2 (by rw [hmL2, hd2a]; rfl)
              · show (l1.deref pa).height + 1 ≤ _
                -- the predecessor is as high as the trunk: shown inside `honest_reorg`; here
                -- the bound follows from the depth of the meeting point
                have hroot : l.meta.rootBlockid ≠ [] := by
                  intro e
                  obtain ⟨_, _, htip, _⟩ := hl.empty e
                  have := hdone.old_ne 0 (Nat.zero_le _)
                  rw [htip] at this
                  exact this rfl
                have htr := hl.trunk hroot
                have hn := htr.height_nonneg
                have hkle : k ≤ l.meta.trunkHeight.toNat := by
                  by_contra hcon
                  have h1 := hdone.old_ne (l.meta.trunkHeight.toNat + 1) (by omega)
                  have h2 := depth_iterate pre (l.meta.trunkHeight.toNat + 1) _ _ htr.tip_depth
                    (by push_cast; omega)
                  have e : l.meta.trunkHeight - ((l.meta.trunkHeight.toNat + 1 : Nat) : Int) =
                      -1 := by push_cast; omega
                  rw [e] at h2
                  exact h1 (depth_neg_one pre _ h2)
                have h1 := depth_iterate pre k _ _ htr.tip_depth (by omega)
                have h2 := depth_iterate pre k _ _ hph.2.2 (by omega)
                rw [hdone.meet] at h1
                have := depth_fun pre _ _ _ h1 h2
                omega
        · -- a block on a branch
          obtain ⟨l3, hl3⟩ : ∃ l3, l3 = l2.modify l.heap.length (InternalBlock.setInTrunk false) :=
            ⟨_, rfl⟩
          have hc3 : l3.CacheHonest pre := by
            rw [hl3]; exact cacheHonest_modify_unaliased pre _ _ _ hu2 hc2
          have hd3a : l3.deref l.heap.length =
              ((B.setTransactions []).setHeight ((l1.deref pa).height + 1)).setInTrunk false := by
            rw [hl3, deref_modify_same _ _ _ hu2.1, hd2a]
          have hdb3 : l3.db = l.db := by rw [hl3, modify_db, hdb2]
          have hm3 : l3.meta = l.meta := by rw [hl3, modify_meta, hm2]
          unfold ConfirmBlock at hr
          simp only [Bool.false_eq_true, if_false, hf, alloc_meta] at hr
          rw [← hl2] at hr
          simp only [hPid2, hPh2, ht, hh, if_true, if_false] at hr
          rw [← hl3] at hr
          cases hr
          apply confirmCommit_keeps pre env kvErr l l3 _ _ _ _ _ _ _ hl hdb3 hm3 hc3
            (by rw [hl3, modify_heap_length]; exact hu2.1) (by rw [hd3a]; exact hhonB false)
          · intro L2 ext hext hcL2 hdbL2 hmL2
            rw [hd3a] at hdbL2
            exact honest_branch pre l L2 ext _ hl (hhonB false)
              (by show 1 ≤ (l1.deref pa).height + 1; omega)
              (by show (l1.deref pa).height + 1 ≤ _; omega) rfl hext hcL2 hdbL2 hmL2
          · show l.meta.trunkHeight ≤ _
            omega

/-- `ConfirmBlock` keeps the invariant, for a block that agrees with the predecessor map. -/
theorem confirmBlock_honest (pre : Bytes → Bytes) (env : Env) (kvErr : Option LedgerError)
    (fuel : Nat) (l : Ledger) (B : InternalBlock) (isRoot : Bool) (hl : l.Honest pre)
    (hBid : B.blockid ≠ []) (hBpre : B.preHash = pre B.blockid) :
    ∀ r, ConfirmBlock env kvErr fuel l B isRoot = some r →
      r.2.Honest pre ∧ r.2.meta.trunkHeight ≤ l.meta.trunkHeight + 1 := by
  cases isRoot with
  | true => exact confirmBlock_root_honest pre env kvErr fuel l B hl hBid hBpre
  | false => exact confirmBlock_nonroot_honest pre env kvErr fuel l B hl hBid hBpre

/-- The tip of an honest ledger has a depth, which is at most the trunk height. -/
theorem honest_tip_depth (pre : Bytes → Bytes) (l : Ledger) (hl : l.Honest pre) :
    ∃ m, Depth pre l.meta.tipBlockid m ∧ m ≤ l.meta.trunkHeight ∧ 0 ≤ l.meta.trunkHeight := by
  by_cases hr : l.meta.rootBlockid = []
  · obtain ⟨_, _, htip, hn⟩ := hl.empty hr
    refine ⟨-1, by rw [htip]; exact Depth.nil, by rw [hn]; omega, by rw [hn]⟩
  · exact ⟨_, (hl.trunk hr).tip_depth, le_refl _, (hl.trunk hr).height_nonneg⟩

/-- `ConfirmBlock` returns on an honest ledger, with three units of fuel more than the trunk
height. -/
theorem confirmBlock_returns (pre : Bytes → Bytes) (env : Env) (kvErr : Option LedgerError)
    (fuel : Nat) (l : Ledger) (B : InternalBlock) (isRoot : Bool) (hl : l.Honest pre)
    (hfuel : l.meta.trunkHeight + 3 ≤ (fuel : Int)) :
    ∃ r, ConfirmBlock env kvErr fuel l B isRoot = some r := by
  rcases confirmBlock_shape env kvErr fuel l B isRoot with ⟨_, _, hfs⟩ | ⟨st, L, h, _⟩ |
      ⟨L, a, nm, sh, st, bw, h, _⟩
  · exfalso
    have hc0 : (l.alloc (B.setTransactions [])).CacheHonest pre :=
      cacheHonest_alloc pre l _ hl.cache
    have hu0 : (l.alloc (B.setTransactions [])).Unaliased l.heap.length :=
      unaliased_alloc l _ hl.cache.1
    unfold forkStep at hfs
    cases hf : fetchBlock (l.alloc (B.setTransactions [])) B.preHash with
    | mk r1 l1 =>
      obtain ⟨hdb, _⟩ := fetchBlock_frame _ l1 _ r1 hf
      obtain ⟨hc1, _⟩ := fetchBlock_honest pre _ l1 _ r1 hc0
        (by rw [alloc_db]; exact hl.store) hf
      obtain ⟨hu1, _, _⟩ := fetchBlock_unaliased _ l1 _ r1 _ hu0 hf
      rw [hf] at hfs
      cases r1 with
      | error e => cases hfs
      | ok pa =>
        dsimp only at hfs
        obtain ⟨m, hm, hmle, _⟩ := honest_tip_depth pre l hl
        have hu2 := unaliased_modify l1 l.heap.length l.heap.length
          (InternalBlock.setHeight ((l1.deref pa).height + 1)) hu1
        obtain ⟨res, hres⟩ := handleFork_terminates pre fuel
          ((l1.modify l.heap.length (InternalBlock.setHeight ((l1.deref pa).height + 1))).modify
            l.heap.length (InternalBlock.setInTrunk true))
          l.meta.tipBlockid (l1.deref pa).blockid B.blockid [] m
          (cacheHonest_modify_unaliased pre _ _ _ hu2
            (cacheHonest_modify_unaliased pre _ _ _ hu1 hc1))
          (by rw [modify_db, modify_db, hdb, alloc_db]; exact hl.store) hm (by omega)
        rw [hres] at hfs
        cases hfs
  · exact ⟨_, h⟩
  · exact ⟨_, h⟩

/-- The empty ledger has the invariant. -/
theorem honest_empty (pre : Bytes → Bytes) : ({} : Ledger).Honest pre :=
  { cache := ⟨⟨fun p hp => (by cases hp), fun p hp => (by cases hp)⟩,
      fun e he => (by cases he)⟩
    store := fun p hp => by cases hp
    below := fun p hp => by cases hp
    keys := List.nodup_nil
    empty := fun _ => ⟨rfl, rfl, rfl, rfl⟩
    trunk := fun h => absurd rfl h }

/-- A run of calls whose blocks agree with the predecessor map returns, with three units of
fuel more than the trunk height at its start plus the number of calls, and keeps the
invariant. -/
theorem runConfirms_honest (pre : Bytes → Bytes) (env : Env) (fuel : Nat)
    (calls : List ConfirmCall) :
    ∀ l : Ledger, l.Honest pre →
      (∀ c ∈ calls, c.block.blockid ≠ [] ∧ c.block.preHash = pre c.block.blockid) →
      l.meta.trunkHeight + calls.length + 3 ≤ (fuel : Int) →
      ∃ l2, runConfirms env fuel l calls = some l2 ∧ l2.Honest pre := by
  induction calls with
  | nil =>
    intro l hl _ _
    exact ⟨l, rfl, hl⟩
  | cons c rest ih =>
    intro l hl hcalls hfuel
    obtain ⟨hn, _⟩ : 0 ≤ l.meta.trunkHeight ∧ True := by
      obtain ⟨m, _, _, h0⟩ := honest_tip_depth pre l hl
      exact ⟨h0, trivial⟩
    simp only [List.length_cons] at hfuel
    push_cast at hfuel
    obtain ⟨r, hr⟩ := confirmBlock_returns pre env c.kvErr fuel l c.block c.isRoot hl (by omega)
    obtain ⟨h1, h2⟩ := confirmBlock_honest pre env c.kvErr fuel l c.block c.isRoot hl
      (hcalls c (List.mem_cons_self _ _)).1 (hcalls c (List.mem_cons_self _ _)).2 r hr
    obtain ⟨l2, hl2, hh2⟩ := ih r.2 h1 (fun c2 hc2 => hcalls c2 (List.mem_cons_of_mem _ hc2))
      (by omega)
    refine ⟨l2, ?_, hh2⟩
    rw [runConfirms, hr]
    exact hl2

/-- In an honest store, the stored path from an id follows the predecessor map for as long as
the ids on it are stored. -/
theorem storedPath_honest (pre : Bytes → Bytes) (db : DB) (hs : db.StoreHonest pre) (m : Nat) :
    ∀ id : Bytes, (∀ j : Nat, j < m → (kvGet db.blocksTable (pre^[j] id)).isSome = true) →
      (storedPath m db id).length = m ∧
        ∀ (j : Nat) (hj : j < (storedPath m db id).length),
          ((storedPath m db id).get ⟨j, hj⟩).blockid = pre^[j] id ∧
            HonestBlock pre ((storedPath m db id).get ⟨j, hj⟩) := by
  induction m with
  | zero =>
    intro id _
    exact ⟨rfl, fun j hj => absurd hj (by simp [storedPath])⟩
  | succ k ih =>
    intro id hst
    have h0 := hst 0 (Nat.succ_pos k)
    rw [Function.iterate_zero, id_eq] at h0
    cases hg : kvGet db.blocksTable id with
    | none => rw [hg] at h0; cases h0
    | some b =>
      obtain ⟨hbid, hbh⟩ := hs (id, b) (kvGet_mem _ _ _ hg)
      dsimp only at hbid hbh
      have hpre : b.preHash = pre id := by rw [hbh.2.1, hbid]
      have hsp : storedPath (k + 1) db id = b :: storedPath k db (pre id) := by
        rw [storedPath, hg]
        dsimp only
        rw [hpre]
      obtain ⟨hlen, hrest⟩ := ih (pre id) (fun j hj => by
        have := hst (j + 1) (by omega)
        rwa [Function.iterate_succ_apply] at this)
      refine ⟨by rw [hsp, List.length_cons, hlen], ?_⟩
      intro j hj
      cases j with
      | zero =>
        simp only [hsp, List.get_eq_getElem, List.getElem_cons_zero, Function.iterate_zero, id_eq]
        exact ⟨hbid, hbh⟩
      | succ i =>
        have hi : i < (storedPath k db (pre id)).length := by
          rw [hsp, List.length_cons] at hj
          omega
        have := hrest i hi
        simp only [hsp, List.get_eq_getElem, List.getElem_cons_succ, Function.iterate_succ_apply]
        simpa only [List.get_eq_getElem] using this

/-- An honest ledger with a root has invariant I2. -/
theorem honest_heightIndexOK (pre : Bytes → Bytes) (l : Ledger) (hl : l.Honest pre)
    (hroot : l.meta.rootBlockid ≠ []) : HeightIndexOK l := by
  have ht := hl.trunk hroot
  have hn := ht.height_nonneg
  obtain ⟨hlen, hpath⟩ := storedPath_honest pre l.db hl.store (l.meta.trunkHeight.toNat + 1)
    l.meta.tipBlockid (fun j hj => ht.stored j (by omega))
  have hheight : ∀ (i : Nat) (h : i < (trunkPath l).length),
      ((trunkPath l).get ⟨i, h⟩).height = l.meta.trunkHeight - i := by
    intro i h
    obtain ⟨hid, hh⟩ := hpath i h
    have hi : i < l.meta.trunkHeight.toNat + 1 := by
      have := h
      unfold trunkPath at this
      rwa [hlen] at this
    have h1 := depth_iterate pre i l.meta.tipBlockid l.meta.trunkHeight ht.tip_depth (by omega)
    have h2 := hh.2.2
    unfold trunkPath
    rw [hid] at h2
    exact depth_fun pre _ _ _ h2 h1
  refine ⟨hn, hlen, hheight, ?_, ?_, ?_⟩
  · have hne : trunkPath l ≠ [] := by
      intro h
      have := hlen
      unfold trunkPath at h
      rw [h] at this
      cases this
    have hlast : (trunkPath l).length - 1 < (trunkPath l).length := by
      unfold trunkPath
      rw [hlen]
      omega
    rw [List.getLast?_eq_getLast _ hne, Option.map_some', List.getLast_eq_getElem]
    have := (hpath ((trunkPath l).length - 1) hlast).1
    simp only [List.get_eq_getElem] at this
    have hl1 : (trunkPath l).length - 1 = l.meta.trunkHeight.toNat := by
      unfold trunkPath
      rw [hlen]
      omega
    unfold trunkPath at this hl1 ⊢
    rw [this, hl1, ht.root]
  · intro b hb
    obtain ⟨⟨i, hi⟩, hbi⟩ := List.mem_iff_get.1 hb
    have hh := hheight i hi
    have hid := (hpath i hi).1
    have hi2 : i ≤ l.meta.trunkHeight.toNat := by
      have := hi
      unfold trunkPath at this
      rw [hlen] at this
      omega
    have hidx := ht.index i hi2
    unfold trunkPath at hbi hh
    rw [hbi] at hh hid
    rw [hh, hid]
    exact ⟨hidx, kvGet_filter_length _ _ _ hl.keys hidx⟩
  · intro h hlt
    apply ht.index_only
    intro i _ heq
    have := heightKey_inj _ _ heq
    omega

/-- C13 (as stated, refuted): invariant I2 does not hold in every state reachable from the
empty ledger by `ConfirmBlock` calls. The empty ledger has `trunk_height` 0 and an empty Height
Index. After the root `[1]`, its child `[2]` and a block that has the id `[1]` again with
`pre_hash` `[2]`, the trunk height is 2 and the path from the tip is `[1]`, `[2]`, `[1]`, with
heights 2, 1, 2, while the Height Index maps height 0 to `[1]`. After a root with an empty id
(it is committed, and `root_block_id` is as empty as before), a second root `[1]` and a block
`[5]` with an empty `pre_hash`, the path from the tip `[5]` is `[5]`, then the block with the
empty id, and does not reach the root `[1]`. -/
theorem height_index_fails_for_arbitrary_ids :
    (∃ l, runConfirms Example.env 10 {} [] = some l ∧ l.meta.trunkHeight = 0 ∧
      l.db.heightTable = [] ∧ ¬ HeightIndexOK l) ∧
    (∃ l, runConfirms Example.env 10 {}
        [⟨Example.G, true, none⟩, ⟨Example.A1, false, none⟩, ⟨Example.collide, false, none⟩] =
          some l ∧
      l.meta = { rootBlockid := [1], tipBlockid := [1], trunkHeight := 2 } ∧
      (trunkPath l).map (fun b => (b.blockid, b.height)) = [([1], 2), ([2], 1), ([1], 2)] ∧
      kvGet l.db.heightTable (heightKey 0) = some [1] ∧ ¬ HeightIndexOK l) ∧
    (∃ l, runConfirms Example.env 10 {}
        [⟨Example.rootNoId, true, none⟩, ⟨Example.root2, true, none⟩,
          ⟨Example.childNoId, false, none⟩] = some l ∧
      l.meta = { rootBlockid := [1], tipBlockid := [5], trunkHeight := 1 } ∧
      (trunkPath l).map (fun b => (b.blockid, b.height)) = [([5], 1), ([], 0)] ∧
      kvGet l.db.heightTable (heightKey 0) = some [] ∧ ¬ HeightIndexOK l) := by
  refine ⟨⟨_, rfl, rfl, rfl, ?_⟩, ⟨_, rfl, by decide, by decide, by decide, ?_⟩,
    ⟨_, rfl, by decide, by decide, by decide, ?_⟩⟩
  · intro h
    exact absurd h.2.1 (by decide)
  · intro h
    exact absurd (h.2.2.1 2 (by decide)) (by decide)
  · intro h
    exact absurd h.2.2.2.1 (by decide)

/-- C13 (amended): invariant I2 for calls whose blocks have non-empty ids that determine their
`pre_hash` (`pre` maps the id of every block of the run to its `pre_hash`). A run of
`ConfirmBlock` calls from the empty ledger, whatever each call returns and whether or not its
batch write succeeds, returns (with three units of fuel more than the number of calls), and
when the ledger it leaves has a root: the `pre_hash` path from `tip_block_id` has
`trunk_height + 1` stored blocks, of heights `trunk_height` down to 0, the last being
`root_block_id`; the Height Index has exactly one entry for the height of each of them, naming
it; and no height above `trunk_height` is mapped. -/
theorem height_index_invariant (pre : Bytes → Bytes) (env : Env) (fuel : Nat)
    (calls : List ConfirmCall)
    (hcalls : ∀ c ∈ calls, c.block.blockid ≠ [] ∧ c.block.preHash = pre c.block.blockid)
    (hfuel : calls.length + 3 ≤ fuel) :
    ∃ l, runConfirms env fuel {} calls = some l ∧
      (l.meta.rootBlockid ≠ [] → HeightIndexOK l) := by
  obtain ⟨l, hrun, hl⟩ := runConfirms_honest pre env fuel calls {} (honest_empty pre) hcalls
    (by
      have : (({} : Ledger).meta.trunkHeight) = 0 := rfl
      rw [this]
      omega)
  exact ⟨l, hrun, honest_heightIndexOK pre l hl⟩

theorem height_index_invariant_witness :
    (∀ c ∈ Example.run4,
      c.block.blockid ≠ [] ∧ c.block.preHash = Example.parentOf c.block.blockid) ∧
    Example.run4.length + 3 ≤ 7 ∧
    (∃ l, runConfirms Example.env 7 {} Example.run4 = some l ∧
      (l.meta.rootBlockid ≠ [] → HeightIndexOK l)) ∧
    (runConfirms Example.env 7 {} Example.run4).map (fun l => l.meta) =
      some { rootBlockid := [1], tipBlockid := [4], trunkHeight := 2 } :=
  ⟨by decide, by decide,
    height_index_invariant Example.parentOf Example.env 7 Example.run4 (by decide) (by decide),
    by decide⟩

/-! ## C30: the Height Index keys keep the order of the heights -/

theorem decDigitsCore_le (fuel n : Nat) (acc : List Nat) (hacc : ∀ x ∈ acc, x ≤ 57) :
    ∀ x ∈ decDigitsCore fuel n acc, x ≤ 57 := by
  induction fuel generalizing n acc with
  | zero => exact hacc
  | succ fuel ih =>
    unfold decDigitsCore
    have h1 : ∀ x ∈ (48 + n % 10) :: acc, x ≤ 57 := by
      intro x hx
      rcases List.mem_cons.1 hx with h | h
      · omega
      · exact hacc x h
    by_cases h0 : n / 10 = 0
    · rw [if_pos h0]; exact h1
    · rw [if_neg h0]; exact ih _ _ h1

/-- A number below `10 ^ k` has at most `k` decimal digits. -/
theorem decDigitsCore_length (fuel : Nat) :
    ∀ (n k : Nat) (acc : List Nat), n < 10 ^ (k + 1) →
      (decDigitsCore fuel n acc).length ≤ acc.length + (k + 1) := by
  induction fuel with
  | zero =>
    intro n k acc _
    unfold decDigitsCore
    omega
  | succ fuel ih =>
    intro n k acc hn
    unfold decDigitsCore
    by_cases h0 : n / 10 = 0
    · rw [if_pos h0, List.length_cons]
      omega
    · rw [if_neg h0]
      cases k with
      | zero =>
        exfalso
        apply h0
        rw [Nat.div_eq_zero_iff (by norm_num)]
        simpa using hn
      | succ k =>
        have h1 : n / 10 < 10 ^ (k + 1) := by
          rw [Nat.div_lt_iff_lt_mul (by norm_num)]
          rw [pow_succ] at hn
          exact hn
        have := ih (n / 10) k ((48 + n % 10) :: acc) h1
        rw [List.length_cons] at this
        omega

theorem padZero_length (n : Nat) (h : n < 10 ^ 20) : (padZero 20 (decDigits n)).length = 20 := by
  have h1 : (decDigits n).length ≤ 20 := by
    have := decDigitsCore_length (n + 1) n 19 [] h
    simpa [decDigits] using this
  unfold padZero
  rw [List.length_append, List.length_replicate]
  omega

theorem padZero_le (w n : Nat) : ∀ x ∈ padZero w (decDigits n), x ≤ 57 := by
  intro x hx
  unfold padZero at hx
  rcases List.mem_append.1 hx with h | h
  · have := (List.mem_replicate.1 h).2
    omega
  · exact decDigitsCore_le _ _ _ (fun _ h0 => by cases h0) x h

theorem digitsVal_foldl (ds : List Nat) :
    ∀ acc : Nat, ds.foldl (fun a d => a * 10 + (d - 48)) acc =
      acc * 10 ^ ds.length + digitsVal ds := by
  induction ds with
  | nil => intro acc; simp [digitsVal]
  | cons d rest ih =>
    intro acc
    unfold digitsVal
    rw [List.foldl_cons, List.foldl_cons, ih, ih (0 * 10 + (d - 48)), List.length_cons, pow_succ]
    unfold digitsVal
    ring

theorem digitsVal_cons (d : Nat) (ds : List Nat) :
    digitsVal (d :: ds) = (d - 48) * 10 ^ ds.length + digitsVal ds := by
  unfold digitsVal
  rw [List.foldl_cons, digitsVal_foldl]
  unfold digitsVal
  ring

theorem digitsVal_lt (ds : List Nat) (h : ∀ x ∈ ds, x ≤ 57) : digitsVal ds < 10 ^ ds.length := by
  induction ds with
  | nil => simp [digitsVal]
  | cons d rest ih =>
    rw [digitsVal_cons, List.length_cons, pow_succ]
    have h1 := ih (fun x hx => h x (List.mem_cons_of_mem _ hx))
    have h2 : d - 48 ≤ 9 := by
      have := h d (List.mem_cons_self _ _)
      omega
    nlinarith

/-- Strings of decimal digits of the same length are ordered as the numbers they stand for. -/
theorem digits_lt_of_val_lt (as : List Nat) :
    ∀ bs : List Nat, as.length = bs.length → (∀ x ∈ as, 48 ≤ x ∧ x ≤ 57) →
      (∀ x ∈ bs, 48 ≤ x ∧ x ≤ 57) → digitsVal as < digitsVal bs →
      List.Lex (fun x y => x < y) as bs := by
  induction as with
  | nil =>
    intro bs hlen _ _ hv
    cases bs with
    | nil => simp [digitsVal] at hv
    | cons b bs => cases hlen
  | cons a as ih =>
    intro bs hlen ha hb hv
    cases bs with
    | nil => cases hlen
    | cons b bs =>
      have hl : as.length = bs.length := by simpa using hlen
      rw [digitsVal_cons, digitsVal_cons, hl] at hv
      have ha0 := ha a (List.mem_cons_self _ _)
      have hb0 := hb b (List.mem_cons_self _ _)
      have hat := digitsVal_lt as (fun x hx => (ha x (List.mem_cons_of_mem _ hx)).2)
      have hbt := digitsVal_lt bs (fun x hx => (hb x (List.mem_cons_of_mem _ hx)).2)
      rw [hl] at hat
      rcases Nat.lt_trichotomy a b with h | h | h
      · exact List.Lex.rel h
      · subst h
        have hv2 : digitsVal as < digitsVal bs := by omega
        exact List.Lex.cons
          (ih bs hl (fun x hx => ha x (List.mem_cons_of_mem _ hx))
            (fun x hx => hb x (List.mem_cons_of_mem _ hx)) hv2)
      · exfalso
        have h3 : b - 48 + 1 ≤ a - 48 := by omega
        have h4 : (b - 48 + 1) * 10 ^ bs.length ≤ (a - 48) * 10 ^ bs.length :=
          Nat.mul_le_mul_right _ h3
        nlinarith

/-- C30 (height key encoding).  For 64-bit heights `0 <= h1 < h2` the keys
`fmt.Sprintf("%020d", h)` that `saveBlock`, `QueryBlockByHeight` and `removeBlocks` use have
exactly 20 characters each, and the key of `h1` is smaller than the key of `h2` in the
lexicographic order of byte strings; in particular the two keys differ. -/
theorem heightKey_order (h1 h2 : Int) (h0 : 0 ≤ h1) (hlt : h1 < h2) (hmax : h2 < 2 ^ 63) :
    (heightKey h1).length = 20 ∧ (heightKey h2).length = 20 ∧
      List.Lex (fun x y => x < y) (heightKey h1) (heightKey h2) ∧
      heightKey h1 ≠ heightKey h2 := by
  have e1 : heightKey h1 = padZero 20 (decDigits h1.toNat) := by
    unfold heightKey
    rw [if_neg (by omega)]
  have e2 : heightKey h2 = padZero 20 (decDigits h2.toNat) := by
    unfold heightKey
    rw [if_neg (by omega)]
  have b1 : h1.toNat < 10 ^ 20 := by
    have : (2 : Int) ^ 63 < 10 ^ 20 := by norm_num
    omega
  have b2 : h2.toNat < 10 ^ 20 := by
    have : (2 : Int) ^ 63 < 10 ^ 20 := by norm_num
    omega
  have l1 := padZero_length _ b1
  have l2 := padZero_length _ b2
  refine ⟨by rw [e1, l1], by rw [e2, l2], ?_, ?_⟩
  · rw [e1, e2]
    apply digits_lt_of_val_lt _ _ (by rw [l1, l2])
      (fun x hx => ⟨padZero_ge _ _ x hx, padZero_le _ _ x hx⟩)
      (fun x hx => ⟨padZero_ge _ _ x hx, padZero_le _ _ x hx⟩)
    rw [digitsVal_padZero, digitsVal_padZero]
    omega
  · intro e
    have := heightKey_inj _ _ e
    omega

theorem heightKey_order_witness :
    (0 : Int) ≤ 9 ∧ (9 : Int) < 10 ∧ (10 : Int) < 2 ^ 63 ∧
    (heightKey 9).length = 20 ∧ (heightKey 10).length = 20 ∧
      List.Lex (fun x y => x < y) (heightKey 9) (heightKey 10) ∧
      heightKey 9 ≠ heightKey 10 :=
  ⟨by decide, by decide, by norm_num,
    heightKey_order 9 10 (by decide) (by decide) (by norm_num)⟩

/-! ## C22: VerifyBlock -/

/-- C22 (`VerifyBlock` never raises).  For every block and whatever the hashing, merkle and
crypto primitives return, the error `VerifyBlock` returns is nil; and it returns `true` exactly
when the recomputed block id is `block.blockid`, the merkle verification reports no error, a
public key is derived from `block.pubkey`, the proposer address matches that key, and the
signature `block.sign` over `block.blockid` verifies with that key without an error. -/
theorem verifyBlock_never_raises (venv : VerifyEnv) (block : InternalBlock) :
    (VerifyBlock venv block).2 = none ∧
    ((VerifyBlock venv block).1 = true ↔
      venv.MakeBlockID block = .ok block.blockid ∧ venv.VerifyMerkle block = none ∧
      ∃ k, venv.GetEcdsaPublicKeyFromJsonStr block.pubkey = .ok k ∧
        venv.VerifyAddressUsingPublicKey block.proposer k = true ∧
        venv.VerifyECDSA k block.sign block.blockid = (true, none)) := by
  unfold VerifyBlock
  cases h1 : venv.MakeBlockID block with
  | error e => simp
  | ok blkid =>
    by_cases h2 : blkid = block.blockid
    · subst h2
      cases h3 : venv.VerifyMerkle block with
      | some e => simp
      | none =>
        cases h4 : venv.GetEcdsaPublicKeyFromJsonStr block.pubkey with
        | error e => simp
        | ok k =>
          cases h5 : venv.VerifyAddressUsingPublicKey block.proposer k with
          | false => simp [h5]
          | true =>
            cases h6 : venv.VerifyECDSA k block.sign block.blockid with
            | mk valid err =>
              cases valid <;> cases err <;> simp [h5, h6]
    · have h2b : ¬ (Except.ok blkid : Except LedgerError Bytes) = Except.ok block.blockid := by
        intro e
        exact h2 (Except.ok.inj e)
      simp [h2, h2b]

/-! ## C23: the error of a query for a missing key -/

/-- C23 (typed not-found) at its failing input: on the empty ledger, whose caches are empty,
`QueryBlockHeader` of an id that is not in the Blocks table returns the not-found error of the
key-value store as `fetchBlock` got it, and not `ErrBlockNotExist`, which `QueryBlock` returns
for the same id. -/
theorem queryBlockHeader_missing_kv_error :
    ({} : Ledger).blockCache.entries = [] ∧ ({} : Ledger).blkHeaderCache.entries = [] ∧
    kvGet ({} : Ledger).db.blocksTable [1] = none ∧
    QueryBlockHeader {} [1] = (.error .ErrKVNotFound, {}) ∧
    (QueryBlockHeader {} [1]).1 ≠ .error .ErrBlockNotExist ∧
    QueryBlock {} [1] = (.error .ErrBlockNotExist, {}) := by
  decide

/-- What the queries return for a missing key, on every ledger with empty caches: `QueryBlock`,
`QueryBlockByHeight` and `GetPendingBlock` return the error `ErrBlockNotExist`,
`QueryBlockHeader` returns the not-found error of the key-value store, `QueryTransaction`
returns `ErrTxNotFound` and `QueryBlockByTxid` returns `ErrTxNotConfirmed`; each of them
returns an error and no value, and the ledger is as before. -/
theorem query_missing_key (l : Ledger) (id txid : Bytes) (h : Int)
    (hbc : l.blockCache.entries = []) (hhc : l.blkHeaderCache.entries = []) :
    (kvGet l.db.blocksTable id = none →
      QueryBlock l id = (.error .ErrBlockNotExist, l) ∧
      QueryBlockHeader l id = (.error .ErrKVNotFound, l)) ∧
    (kvGet l.db.heightTable (heightKey h) = none →
      QueryBlockByHeight l h = (.error .ErrBlockNotExist, l)) ∧
    (kvGet l.db.pendingTable id = none → GetPendingBlock l id = .error .ErrBlockNotExist) ∧
    (kvGet l.db.confirmedTable txid = none →
      QueryTransaction l txid = .error .ErrTxNotFound ∧
      QueryBlockByTxid l txid = .error .ErrTxNotConfirmed) := by
  refine ⟨?_, ?_, ?_, ?_⟩
  · intro hb
    constructor
    · unfold QueryBlock LRUCache.Get queryBlock
      rw [hbc, hb]
      rfl
    · unfold QueryBlockHeader fetchBlock LRUCache.Get
      rw [hhc, hb]
      rfl
  · intro hh
    unfold QueryBlockByHeight
    rw [hh]
  · intro hp
    unfold GetPendingBlock
    rw [hp]
  · intro ht
    constructor
    · unfold QueryTransaction
      rw [ht]
    · unfold QueryBlockByTxid HasTransaction kvHas
      rw [ht]
      rfl

/-- The queries for missing keys on the empty ledger. -/
theorem query_missing_key_witness :
    ({} : Ledger).blockCache.entries = [] ∧ ({} : Ledger).blkHeaderCache.entries = [] ∧
    kvGet ({} : Ledger).db.blocksTable [1] = none ∧
    kvGet ({} : Ledger).db.heightTable (heightKey 3) = none ∧
    kvGet ({} : Ledger).db.pendingTable [1] = none ∧
    kvGet ({} : Ledger).db.confirmedTable [7] = none ∧
    (QueryBlock {} [1] = (.error .ErrBlockNotExist, {}) ∧
      QueryBlockHeader {} [1] = (.error .ErrKVNotFound, {})) ∧
    QueryBlockByHeight {} 3 = (.error .ErrBlockNotExist, {}) ∧
    GetPendingBlock {} [1] = .error .ErrBlockNotExist ∧
    (QueryTransaction {} [7] = .error .ErrTxNotFound ∧
      QueryBlockByTxid {} [7] = .error .ErrTxNotConfirmed) :=
  ⟨rfl, rfl, rfl, rfl, rfl, rfl,
    (query_missing_key {} [1] [7] 3 rfl rfl).1 rfl,
    (query_missing_key {} [1] [7] 3 rfl rfl).2.1 rfl,
    (query_missing_key {} [1] [7] 3 rfl rfl).2.2.1 rfl,
    (query_missing_key {} [1] [7] 3 rfl rfl).2.2.2 rfl⟩

/-! ## C28: the fork handler on blocks of different heights -/

/-- Fuel beyond the third round makes no difference to the walk from `[5]` and `[3]`. -/
theorem handleFork_s5_fuel (n : Nat) :
    handleFork (n + 3) Example.s5 [5] [3] [6] [] = handleFork 3 Example.s5 [5] [3] [6] [] :=
  rfl

/-- C28 (lockstep fork handling with unequal heights).  The ledger with the trunk `[1]`, `[2]`,
`[5]` and the branch block `[3]` on `[1]` has a well-formed block store, and its header cache
holds the stored ids, predecessors and heights; `[5]` has height 2, `[3]` has height 1, and
`[1]` is their common ancestor.  `handleFork([5], [3], n)` does not return `[1]`: with fuel for
three rounds or more it returns the not-found error of the key-value store, after it has
queued `[1]` as a block of the new path (`in_trunk = true`, `next_hash = [3]`) in its second
round and marked the cached header of `[1]` as a block of the old path (`in_trunk = false`) in
its third; with less fuel the walk is not finished. -/
theorem handleFork_unequal_heights :
    Example.s5.StoreWellFormed ∧
    Example.s5.db.blocksTable.map (fun e => (e.1, e.2.link)) =
      [([3], [3], [1], 1), ([5], [5], [2], 2), ([2], [2], [1], 1), ([1], [1], [], 0)] ∧
    Example.s5.blkHeaderCache.entries.map (fun e => (e.1, (Example.s5.deref e.2).link)) =
      [([3], [3], [1], 1), ([1], [1], [], 0), ([5], [5], [2], 2), ([2], [2], [1], 1)] ∧
    LinkedFrom [5] [Example.stored Example.s5 [5], Example.stored Example.s5 [2]]
      (Example.stored Example.s5 [1]) ∧
    LinkedFrom [3] [Example.stored Example.s5 [3]] (Example.stored Example.s5 [1]) ∧
    (∀ n : Nat,
      (handleFork (n + 3) Example.s5 [5] [3] [6] []).map (fun r => r.1) =
        some (.error .ErrKVNotFound) ∧
      (handleFork (n + 3) Example.s5 [5] [3] [6] []).map (fun r =>
        (r.2.2.filterMap (fun op =>
            match op with
            | .putBlock id b => some (id, b.inTrunk, b.nextHash)
            | _ => none),
          (headerResult r.2.1 [1]).toOption.map (fun h => h.inTrunk))) =
        some ([([5], false, []), ([3], true, [6]), ([2], false, []), ([1], true, [3])],
          some false)) ∧
    (∀ n : Nat, n < 3 → handleFork n Example.s5 [5] [3] [6] [] = none) := by
  refine ⟨by unfold Ledger.StoreWellFormed; decide, by decide, by decide,
    by unfold LinkedFrom LinkedFrom LinkedFrom; decide, by unfold LinkedFrom LinkedFrom; decide,
    ?_, by decide⟩
  intro n
  rw [handleFork_s5_fuel]
  decide

/-! ## The commit of a successful ConfirmBlock -/

/-- The operations `handleFork` queues are puts of headers, of Height Index entries and of
Confirmed-Tx records. -/
theorem handleFork_ops (fuel : Nat) :
    ∀ (l : Ledger) (p q n : Bytes) (bw : Batch) (r : Except LedgerError Addr) (l2 : Ledger)
      (bw2 : Batch), handleFork fuel l p q n bw = some (r, l2, bw2) →
      ∃ ext, bw2 = bw ++ ext ∧ ∀ op ∈ ext, (∀ id, op ≠ BatchOp.delPending id) ∧
        (∀ m, op ≠ BatchOp.putMeta m) ∧ (∀ id, op ≠ BatchOp.delBlock id) := by
  have hsave : ∀ b : InternalBlock, ∀ op ∈ saveOps b, (∀ id, op ≠ BatchOp.delPending id) ∧
      (∀ m, op ≠ BatchOp.putMeta m) ∧ (∀ id, op ≠ BatchOp.delBlock id) := by
    intro b op hop
    unfold saveOps at hop
    split_ifs at hop
    · rcases List.mem_cons.1 hop with e | e
      · subst e
        simp
      · rcases List.mem_cons.1 e with e | e
        · subst e
          simp
        · cases e
    · rcases List.mem_cons.1 hop with e | e
      · subst e
        simp
      · cases e
  have htx : ∀ op : BatchOp, op.isTxPut = true → (∀ id, op ≠ BatchOp.delPending id) ∧
      (∀ m, op ≠ BatchOp.putMeta m) ∧ (∀ id, op ≠ BatchOp.delBlock id) := by
    intro op h
    cases op with
    | putTx _ _ => simp
    | _ => cases h
  induction fuel with
  | zero =>
    intro l p q n bw r l2 bw2 h
    cases h
  | succ fuel ih =>
    intro l p q n bw r l2 bw2 h
    unfold handleFork at h
    by_cases hpq : p = q
    · rw [if_pos hpq] at h
      cases hf : fetchBlock l q with
      | mk r1 l1 =>
        rw [hf] at h
        cases r1 with
        | error e =>
          cases h
          exact ⟨[], by simp, fun _ ho => by cases ho⟩
        | ok sa =>
          simp only [saveBlock_eq] at h
          cases h
          exact ⟨_, rfl, hsave _⟩
    · rw [if_neg hpq] at h
      cases hf : fetchBlock l p with
      | mk r1 l1 =>
        rw [hf] at h
        cases r1 with
        | error e =>
          cases h
          exact ⟨[], by simp, fun _ ho => by cases ho⟩
        | ok pa =>
          dsimp only at h
          cases hf2 : fetchBlock ((l1.modify pa (InternalBlock.setInTrunk false)).modify pa
              (InternalBlock.setNextHash [])) q with
          | mk r2 l3 =>
            rw [hf2] at h
            cases r2 with
            | error e =>
              cases h
              exact ⟨[], by simp, fun _ ho => by cases ho⟩
            | ok qa =>
              dsimp only at h
              cases hc : correctTxsBlockid (l3.modify qa (InternalBlock.setInTrunk true))
                  ((l3.modify qa (InternalBlock.setInTrunk true)).deref qa).blockid bw with
              | error e =>
                rw [hc] at h
                cases h
                exact ⟨[], by simp, fun _ ho => by cases ho⟩
              | ok bw1 =>
                rw [hc] at h
                dsimp only at h
                obtain ⟨cext, hce, hcp⟩ := correctTxsBlockid_shape _ _ _ _ hc
                simp only [saveBlock_eq] at h
                obtain ⟨ext, he, hp⟩ := ih _ _ _ _ _ _ _ _ h
                refine ⟨_, (by rw [he, hce, List.append_assoc, List.append_assoc,
                  List.append_assoc]), ?_⟩
                intro op hop
                rcases List.mem_append.1 hop with h1 | h1
                · exact htx op (hcp op h1)
                · rcases List.mem_append.1 h1 with h2 | h2
                  · exact hsave _ op h2
                  · rcases List.mem_append.1 h2 with h3 | h3
                    · exact hsave _ op h3
                    · exact hp op h3

/-- Operations other than `delPending` leave the Pending table alone. -/
theorem applyBatch_pending (bw : Batch) :
    ∀ db : DB, (∀ op ∈ bw, ∀ id, op ≠ BatchOp.delPending id) →
      (applyBatch db bw).pendingTable = db.pendingTable := by
  induction bw with
  | nil => intro db _; rfl
  | cons op rest ih =>
    intro db h
    rw [applyBatch_cons, ih _ (fun o ho => h o (List.mem_cons_of_mem _ ho))]
    have h0 := h op (List.mem_cons_self _ _)
    cases op <;> first | rfl | exact absurd rfl (h0 _)

/-- A commit tail that reports success: the batch write succeeded, the block has at most one
coinbase transaction, and the store is the old one after the whole batch, whose Confirmed-Tx
puts `ext` are `txData` records of transactions of the block, one at least for each
transaction whose existence probe was negative. -/
theorem confirmCommit_succ (env : Env) (kvErr : Option LedgerError) (L : Ledger) (a : Addr)
    (txs : List Transaction) (nm : LedgerMeta) (sh : Int) (st : ConfirmStatus) (isRoot : Bool)
    (bw : Batch)
    (hs : (confirmCommit env kvErr L a txs nm sh st isRoot bw).1.succ = true) :
    kvErr = none ∧ coinbaseCount txs ≤ 1 ∧
    ∃ ext,
      (∀ op ∈ ext, ∃ tx ∈ (parallelCheckTx env L txs (L.deref a)).2.2, ∃ d,
        kvGet (parallelCheckTx env L txs (L.deref a)).2.1 tx.txid = some d ∧
          op = BatchOp.putTx tx.txid d) ∧
      (∀ tx ∈ (parallelCheckTx env L txs (L.deref a)).2.2,
        (kvGet (parallelCheckTx env L txs (L.deref a)).1 tx.txid).getD false = false →
        ∃ d, kvGet (parallelCheckTx env L txs (L.deref a)).2.1 tx.txid = some d ∧
          BatchOp.putTx tx.txid d ∈ ext) ∧
      (confirmCommit env kvErr L a txs nm sh st isRoot bw).2.db =
        applyBatch L.db (bw ++ saveOps (L.deref a) ++
          branchOps (L.deref a).blockid (L.deref a).preHash (L.deref a).height ++ ext ++
          [BatchOp.delPending (L.deref a).blockid, BatchOp.putMeta nm]) ∧
      (confirmCommit env kvErr L a txs nm sh st isRoot bw).2.meta = nm := by
  rw [confirmCommit_eq] at hs ⊢
  cases hloop : confirmTxs L.db (L.deref a).inTrunk sh
      (parallelCheckTx env L txs (L.deref a)).1 (parallelCheckTx env L txs (L.deref a)).2.1
      (txs.map (Transaction.setBlockid (L.deref a).blockid)) 0 []
      (bw ++ saveOps (L.deref a) ++
        branchOps (L.deref a).blockid (L.deref a).preHash (L.deref a).height) with
  | error e =>
    rw [hloop] at hs
    cases hs
  | ok bw3 =>
    rw [hloop] at hs
    simp only [hloop]
    obtain ⟨ext, he, hops, hfr, hcb⟩ := confirmTxs_ok _ _ _ _ _ _ _ _ _ _ (Nat.zero_le 1) hloop
    rw [coinbaseCount_map_blockid] at hcb
    cases kvErr with
    | some e =>
      exfalso
      unfold confirmFinish at hs
      cases isRoot
      · simp at hs
      · simp only [if_true] at hs
        split at hs <;> simp at hs
    | none =>
      refine ⟨rfl, by omega, ext, hops, hfr, ?_, ?_⟩
      · unfold confirmFinish
        cases isRoot
        · simp only [Bool.false_eq_true, if_false, setBlockCache_db, modify_db, written_db,
            saveBlock_eq, setHeaderCache_db, he]
        · simp only [if_true]
          split <;>
            simp only [setBlockCache_db, setGenesisBlock_db, modify_db, written_db,
              saveBlock_eq, setHeaderCache_db, he]
      · unfold confirmFinish
        cases isRoot
        · simp only [Bool.false_eq_true, if_false, setBlockCache_meta, modify_meta, written_meta]
        · simp only [if_true]
          split <;>
            simp only [setBlockCache_meta, setGenesisBlock_meta, modify_meta, written_meta]

/-- A `ConfirmBlock` that reports success ended in the commit tail: with the store as before,
the caller's block as the object `l.heap.length`, holding the header of `B` with an assigned
height and `in_trunk` flag, and a batch that so far holds no Pending delete, no meta record
and no block delete. -/
theorem confirmBlock_commit (env : Env) (kvErr : Option LedgerError) (fuel : Nat)
    (l : Ledger) (B : InternalBlock) (isRoot : Bool) (hv : l.PtrsValid)
    (r : ConfirmStatus × Ledger)
    (h : ConfirmBlock env kvErr fuel l B isRoot = some r) (hs : r.1.succ = true) :
    ∃ L nm sh st0 bw ht it,
      r = confirmCommit env kvErr L l.heap.length B.transactions nm sh st0 isRoot bw ∧
      L.db = l.db ∧
      L.deref l.heap.length = ((B.setTransactions []).setHeight ht).setInTrunk it ∧
      (∀ op ∈ bw, (∀ id, op ≠ BatchOp.delPending id) ∧ (∀ m, op ≠ BatchOp.putMeta m) ∧
        (∀ id, op ≠ BatchOp.delBlock id)) := by
  have hu0 : (l.alloc (B.setTransactions [])).Unaliased l.heap.length :=
    unaliased_alloc l _ hv
  have hlt0 : l.heap.length < (l.alloc (B.setTransactions [])).heap.length := hu0.1
  have hnil : ∀ op ∈ ([] : Batch), (∀ id, op ≠ BatchOp.delPending id) ∧
      (∀ m, op ≠ BatchOp.putMeta m) ∧ (∀ id, op ≠ BatchOp.delBlock id) :=
    fun _ ho => by cases ho
  cases isRoot with
  | true =>
    unfold ConfirmBlock at h
    by_cases h1 : B.preHash.length > 0
    · simp only [if_true, h1] at h
      cases h
      cases hs
    · by_cases h2 : l.meta.rootBlockid.length > 0
      · simp only [if_true, h1, if_false, alloc_meta, h2] at h
        cases h
        cases hs
      · simp only [if_true, h1, if_false, alloc_meta, h2] at h
        cases h
        refine ⟨_, _, _, _, _, 0, true, rfl, ?_, ?_, hnil⟩
        · simp only [modify_db, alloc_db]
        · rw [deref_modify_same _ _ _ (by rw [modify_heap_length]; exact hlt0),
            deref_modify_same _ _ _ hlt0, deref_alloc_new]
          rfl
  | false =>
    cases hf : fetchBlock (l.alloc (B.setTransactions [])) B.preHash with
    | mk r1 l1 =>
      obtain ⟨hdb, hm, _, _, hle, hold, _, _⟩ := fetchBlock_frame _ l1 _ r1 hf
      obtain ⟨hu1, hda1, hpane⟩ := fetchBlock_unaliased _ l1 _ r1 _ hu0 hf
      have hdb1 : l1.db = l.db := by rw [hdb, alloc_db]
      cases r1 with
      | error e =>
        unfold ConfirmBlock at h
        simp only [Bool.false_eq_true, if_false, hf] at h
        cases h
        cases hs
      | ok pa =>
        have hne : pa ≠ l.heap.length := hpane pa rfl
        have hderef : l1.deref l.heap.length = B.setTransactions [] := by
          rw [hold _ hlt0, deref_alloc_new]
        obtain ⟨l2, hl2⟩ : ∃ l2, l2 = l1.modify l.heap.length
            (InternalBlock.setHeight ((l1.deref pa).height + 1)) := ⟨_, rfl⟩
        have hu2 : l2.Unaliased l.heap.length := by
          rw [hl2]; exact unaliased_modify _ _ _ _ hu1
        have hd2a : l2.deref l.heap.length =
            (B.setTransactions []).setHeight ((l1.deref pa).height + 1) := by
          rw [hl2, deref_modify_same _ _ _ hu1.1, hderef]
        have hdb2 : l2.db = l.db := by rw [hl2, modify_db, hdb1]
        have hbid : ((l1.modify l.heap.length
            (InternalBlock.setHeight ((l1.deref pa).height + 1))).deref pa).blockid =
            (l1.deref pa).blockid := modify_blockid _ _ _ _ (fun _ => rfl)
        by_cases ht : (l1.deref pa).blockid = l.meta.tipBlockid
        · obtain ⟨l3, hl3⟩ : ∃ l3, l3 = l2.modify l.heap.length (InternalBlock.setInTrunk true) :=
            ⟨_, rfl⟩
          have hd3a : l3.deref l.heap.length =
              ((B.setTransactions []).setHeight ((l1.deref pa).height + 1)).setInTrunk true := by
            rw [hl3, deref_modify_same _ _ _ hu2.1, hd2a]
          obtain ⟨l4, hl4⟩ : ∃ l4, l4 = l3.modify pa
              (InternalBlock.setNextHash (l3.deref l.heap.length).blockid) := ⟨_, rfl⟩
          have hd4a : l4.deref l.heap.length =
              ((B.setTransactions []).setHeight ((l1.deref pa).height + 1)).setInTrunk true := by
            rw [hl4, deref_modify_ne _ _ _ _ hne, hd3a]
          have hdb4 : l4.db = l.db := by rw [hl4, modify_db, hl3, modify_db, hdb2]
          by_cases hd : env.DisableTxDedup = true
          · unfold ConfirmBlock at h
            simp only [Bool.false_eq_true, if_false, hf, alloc_meta, hbid, ht, if_true, hd,
              Bool.not_true] at h
            rw [← hl2, ← hl3, ← hl4] at h
            cases h
            exact ⟨l4, _, _, _, _, _, _, rfl, hdb4, hd4a, hnil⟩
          · have hd2 : env.DisableTxDedup = false := by
              cases h : env.DisableTxDedup
              · rfl
              · exact absurd h hd
            unfold ConfirmBlock at h
            simp only [Bool.false_eq_true, if_false, hf, alloc_meta, hbid, ht, if_true, hd2,
              Bool.not_false] at h
            rw [← hl2, ← hl3, ← hl4] at h
            cases h
            refine ⟨_, _, _, _, _, (l1.deref pa).height + 1, true, rfl, ?_, ?_, ?_⟩
            · simp only [setBlockCache_db, saveBlock_eq, setHeaderCache_db, hdb4]
            · simp only [setBlockCache_deref, saveBlock_eq, setHeaderCache_deref]
              exact hd4a
            · intro op hop
              obtain ⟨ext, he, hp⟩ : ∃ ext, (saveBlock l4 pa []).2 = [] ++ ext ∧
                  ∀ op ∈ ext, (∀ id, op ≠ BatchOp.delPending id) ∧
                    (∀ m, op ≠ BatchOp.putMeta m) ∧ (∀ id, op ≠ BatchOp.delBlock id) := by
                refine ⟨saveOps (l4.deref pa), rfl, ?_⟩
                intro o ho
                unfold saveOps at ho
                split_ifs at ho
                · rcases List.mem_cons.1 ho with e | e
                  · subst e; simp
                  · rcases List.mem_cons.1 e with e | e
                    · subst e; simp
                    · cases e
                · rcases List.mem_cons.1 ho with e | e
                  · subst e; simp
                  · cases e
              rw [he, List.nil_append] at hop
              exact hp op hop
        · obtain ⟨hhd⟩ : Nonempty (Decidable ((l2.deref pa).height + 1 > l.meta.trunkHeight)) :=
            ⟨Classical.dec _⟩
          by_cases hh : (l2.deref pa).height + 1 > l.meta.trunkHeight
          · obtain ⟨l3, hl3⟩ : ∃ l3, l3 = l2.modify l.heap.length (InternalBlock.setInTrunk true) :=
              ⟨_, rfl⟩
            have hu3 : l3.Unaliased l.heap.length := by
              rw [hl3]; exact unaliased_modify _ _ _ _ hu2
            have hd3a : l3.deref l.heap.length =
                ((B.setTransactions []).setHeight ((l1.deref pa).height + 1)).setInTrunk true := by
              rw [hl3, deref_modify_same _ _ _ hu2.1, hd2a]
            have hdb3 : l3.db = l.db := by rw [hl3, modify_db, hdb2]
            unfold ConfirmBlock at h
            simp only [Bool.false_eq_true, if_false, hf, alloc_meta, hbid, ht] at h
            rw [← hl2] at h
            simp only [hh, if_true] at h
            rw [← hl3] at h
            cases hk : handleFork fuel l3 l.meta.tipBlockid (l3.deref pa).blockid
                (l3.deref l.heap.length).blockid [] with
            | none =>
              rw [hk] at h
              cases h
            | some res =>
              obtain ⟨r2, L4, bw1⟩ := res
              rw [hk] at h
              obtain ⟨k1, _, _, _, _, k6, _⟩ := handleFork_frame _ _ _ _ _ _ _ _ _ _ hu3 hk
              obtain ⟨ext, he, hp⟩ := handleFork_ops _ _ _ _ _ _ _ _ _ hk
              cases r2 with
              | error e =>
                cases h
                cases hs
              | ok sa =>
                dsimp only at h
                cases h
                refine ⟨L4, _, _, _, _, (l1.deref pa).height + 1, true, rfl, by rw [k1, hdb3],
                  by rw [k6, hd3a], ?_⟩
                intro op hop
                rw [he, List.nil_append] at hop
                exact hp op hop
          · obtain ⟨l3, hl3⟩ : ∃ l3, l3 = l2.modify l.heap.length (InternalBlock.setInTrunk false) :=
              ⟨_, rfl⟩
            have hd3a : l3.deref l.heap.length =
                ((B.setTransactions []).setHeight ((l1.deref pa).height + 1)).setInTrunk false := by
              rw [hl3, deref_modify_same _ _ _ hu2.1, hd2a]
            have hdb3 : l3.db = l.db := by rw [hl3, modify_db, hdb2]
            unfold ConfirmBlock at h
            simp only [Bool.false_eq_true, if_false, hf, alloc_meta, hbid, ht] at h
            rw [← hl2] at h
            simp only [hh, if_false] at h
            rw [← hl3] at h
            cases h
            exact ⟨l3, _, _, _, _, _, _, rfl, hdb3, hd3a, hnil⟩

/-- The store a `ConfirmBlock` that reports success leaves: the store before, after a batch
made of operations that are no Pending delete, meta record or block delete, the puts of the
header of `B` (with an assigned height and `in_trunk` flag), the Branch Registry update,
Confirmed-Tx puts for transactions of `B`, the Pending delete of `B.id` and the meta record. -/
theorem confirmBlock_succ_db (env : Env) (kvErr : Option LedgerError) (fuel : Nat)
    (l : Ledger) (B : InternalBlock) (isRoot : Bool) (hv : l.PtrsValid)
    (r : ConfirmStatus × Ledger)
    (h : ConfirmBlock env kvErr fuel l B isRoot = some r) (hs : r.1.succ = true) :
    kvErr = none ∧ coinbaseCount B.transactions ≤ 1 ∧
    ∃ L bw ext ht it,
      L.db = l.db ∧
      L.deref l.heap.length = ((B.setTransactions []).setHeight ht).setInTrunk it ∧
      (∀ op ∈ bw, (∀ id, op ≠ BatchOp.delPending id) ∧ (∀ m, op ≠ BatchOp.putMeta m) ∧
        (∀ id, op ≠ BatchOp.delBlock id)) ∧
      (∀ op ∈ ext, ∃ tx ∈ B.transactions.map (Transaction.setBlockid B.blockid), ∃ d,
        kvGet (mkTxData (B.transactions.map (Transaction.setBlockid B.blockid))) tx.txid =
          some d ∧ op = BatchOp.putTx tx.txid d) ∧
      (∀ tx ∈ B.transactions.map (Transaction.setBlockid B.blockid),
        (kvGet (parallelCheckTx env L B.transactions (L.deref l.heap.length)).1 tx.txid).getD
          false = false →
        ∃ d, kvGet (mkTxData (B.transactions.map (Transaction.setBlockid B.blockid))) tx.txid =
          some d ∧ BatchOp.putTx tx.txid d ∈ ext) ∧
      r.2.db = applyBatch l.db (bw ++
        saveOps (((B.setTransactions []).setHeight ht).setInTrunk it) ++
        branchOps B.blockid B.preHash ht ++ ext ++
        [BatchOp.delPending B.blockid, BatchOp.putMeta r.2.meta]) := by
  obtain ⟨L, nm, sh, st0, bw, ht, it, hr, hdb, hd, hbw⟩ :=
    confirmBlock_commit env kvErr fuel l B isRoot hv r h hs
  rw [hr] at hs
  obtain ⟨hk, hcb, ext, hops, hfr, hdb2, hm2⟩ := confirmCommit_succ _ _ _ _ _ _ _ _ _ _ hs
  refine ⟨hk, hcb, L, bw, ext, ht, it, hdb, hd, hbw, ?_, ?_, ?_⟩
  · intro op hop
    obtain ⟨tx, htx, d, hd1, hd2⟩ := hops op hop
    rw [hd] at htx hd1
    exact ⟨tx, htx, d, hd1, hd2⟩
  · intro tx htx hex
    have := hfr tx (by rw [hd]; exact htx) hex
    rw [hd] at this
    exact this
  · rw [hr, hdb2, hm2, hd, hdb]
    rfl

/-! ## C25: the Pending entry of a confirmed block -/

/-- C25 (pending cleanup).  On a ledger whose cache pointers are allocated, after a
`ConfirmBlock(B, is_root)` that reports success the Pending table is the old one without the
entry of `B.id`: `GetPendingBlock(B.id)` returns `ErrBlockNotExist`, whatever was saved under
`B.id` before, and `GetPendingBlock` of every other id returns what it returned before. -/
theorem confirmBlock_pending_cleanup (env : Env) (kvErr : Option LedgerError) (fuel : Nat)
    (l : Ledger) (B : InternalBlock) (isRoot : Bool) (hv : l.PtrsValid)
    (r : ConfirmStatus × Ledger)
    (h : ConfirmBlock env kvErr fuel l B isRoot = some r) (hs : r.1.succ = true) :
    r.2.db.pendingTable = kvDel l.db.pendingTable B.blockid ∧
    GetPendingBlock r.2 B.blockid = .error .ErrBlockNotExist ∧
    ∀ id, id ≠ B.blockid → GetPendingBlock r.2 id = GetPendingBlock l id := by
  obtain ⟨_, _, L, bw, ext, ht, it, _, _, hbw, hops, _, hdb⟩ :=
    confirmBlock_succ_db env kvErr fuel l B isRoot hv r h hs
  have hp : r.2.db.pendingTable = kvDel l.db.pendingTable B.blockid := by
    rw [hdb, applyBatch_append, (applyBatch_commitTail _ _ _).2.2.2.2.1]
    rw [applyBatch_pending]
    intro op hop id e
    rcases List.mem_append.1 hop with h1 | h1
    · rcases List.mem_append.1 h1 with h2 | h2
      · rcases List.mem_append.1 h2 with h3 | h3
        · exact (hbw op h3).1 id e
        · subst e
          unfold saveOps at h3
          split_ifs at h3 <;> simp at h3
      · subst e
        simp [branchOps] at h2
    · obtain ⟨tx, _, d, _, e2⟩ := hops op h1
      rw [e2] at e
      cases e
  refine ⟨hp, ?_, ?_⟩
  · unfold GetPendingBlock
    rw [hp, kvGet_kvDel_self]
  · intro id hid
    unfold GetPendingBlock
    rw [hp, kvGet_kvDel_ne _ _ _ hid]

theorem confirmBlock_pending_cleanup_witness :
    Example.sPending.PtrsValid ∧
    GetPendingBlock Example.sPending [2] = .ok Example.A1 ∧
    GetPendingBlock Example.sPending [3] = .ok Example.F1 ∧
    ((ConfirmBlock Example.env none 8 Example.sPending Example.A1 false).getD default).1.succ =
      true ∧
    ((ConfirmBlock Example.env none 8 Example.sPending Example.A1 false).getD
        default).2.db.pendingTable = kvDel Example.sPending.db.pendingTable [2] ∧
    GetPendingBlock
        ((ConfirmBlock Example.env none 8 Example.sPending Example.A1 false).getD default).2
        [2] = .error .ErrBlockNotExist ∧
    ∀ id, id ≠ [2] → GetPendingBlock
        ((ConfirmBlock Example.env none 8 Example.sPending Example.A1 false).getD default).2
        id = GetPendingBlock Example.sPending id :=
  ⟨by unfold Ledger.PtrsValid; decide, by decide, by decide, by decide,
    confirmBlock_pending_cleanup Example.env none 8 Example.sPending Example.A1 false
      (by unfold Ledger.PtrsValid; decide) _ (by decide) (by decide)⟩

/-! ## C24: a confirmed block read back -/

/-- C24 (confirm/query round trip).  On a ledger whose cache pointers are allocated, let `B` be
a block whose `tx_count` is within its merkle tree, whose first `tx_count` merkle leaves are
the ids of its transactions in block order, these ids being pairwise distinct and without a
Confirmed-Tx entry.  After a `ConfirmBlock(B, is_root)` that reports success, the Blocks table
holds under `B.id` the header of `B` with an empty transaction list and the height and
`in_trunk` flag the engine assigned, and `queryBlock(B.id, true)` returns that header with the
transactions of `B` in their order, each with `blockid = B.id`. -/
theorem confirmBlock_round_trip (env : Env) (kvErr : Option LedgerError) (fuel : Nat)
    (l : Ledger) (B : InternalBlock) (isRoot : Bool) (hv : l.PtrsValid)
    (hcount : 0 ≤ B.txCount ∧ B.txCount ≤ (B.merkleTree.length : Int))
    (hleaves : B.merkleTree.take B.txCount.toNat = B.transactions.map (fun tx => tx.txid))
    (hn : (B.transactions.map (fun tx => tx.txid)).Nodup)
    (hfresh : ∀ tx ∈ B.transactions, kvGet l.db.confirmedTable tx.txid = none)
    (r : ConfirmStatus × Ledger)
    (h : ConfirmBlock env kvErr fuel l B isRoot = some r) (hs : r.1.succ = true) :
    ∃ ht it,
      kvGet r.2.db.blocksTable B.blockid =
        some (((B.setTransactions []).setHeight ht).setInTrunk it) ∧
      queryBlock r.2 B.blockid true =
        .ok (((B.setTransactions
          (B.transactions.map (Transaction.setBlockid B.blockid))).setHeight ht).setInTrunk it) := by
  obtain ⟨_, _, L, bw, ext, ht, it, hLdb, hd, _, hops, hfr, hdb⟩ :=
    confirmBlock_succ_db env kvErr fuel l B isRoot hv r h hs
  have hext : ∀ op ∈ ext, BatchOp.isTxPut op = true := by
    intro op hop
    obtain ⟨_, _, _, _, e⟩ := hops op hop
    rw [e]
    rfl
  have hblk : kvGet r.2.db.blocksTable B.blockid =
      some (((B.setTransactions []).setHeight ht).setInTrunk it) := by
    rw [hdb, applyBatch_append, (applyBatch_commitTail _ _ _).1, applyBatch_append,
      (applyBatch_txPuts _ _ hext).2.1, applyBatch_append, (applyBatch_branchOps _ _ _ _).1,
      applyBatch_append, (applyBatch_saveOps _ _).1]
    exact kvGet_kvPut_self _ _ _
  have hpf := parallelCheckTx_fresh env L B.transactions (L.deref l.heap.length)
    (by rw [hLdb]; exact hfresh)
  have htx : ∀ tx ∈ B.transactions.map (Transaction.setBlockid B.blockid),
      kvGet r.2.db.confirmedTable tx.txid = some tx := by
    intro tx htx
    have hmem : tx ∈ (parallelCheckTx env L B.transactions (L.deref l.heap.length)).2.2 := by
      rw [parallelCheckTx_txs, hd]
      exact htx
    obtain ⟨d, hd1, hd2⟩ := hfr tx htx (hpf.1 tx hmem)
    have hd3 := mkTxData_nodup (B.transactions.map (Transaction.setBlockid B.blockid))
      (by rw [map_txid_setBlockid]; exact hn) tx htx
    rw [hdb, applyBatch_append, (applyBatch_commitTail _ _ _).2.2.2.1, applyBatch_append,
      ((applyBatch_txPuts_confirmed
        (mkTxData (B.transactions.map (Transaction.setBlockid B.blockid))) ext _ tx.txid
        (fun op hop => by
          obtain ⟨t, _, d2, e1, e2⟩ := hops op hop
          exact ⟨t.txid, d2, e1, e2⟩)).1 ⟨d, hd2⟩), hd3]
  refine ⟨ht, it, hblk, ?_⟩
  unfold queryBlock
  rw [hblk]
  simp only [if_true]
  have hc2 : 0 ≤ (((B.setTransactions []).setHeight ht).setInTrunk it).txCount ∧
      (((B.setTransactions []).setHeight ht).setInTrunk it).txCount ≤
        ((((B.setTransactions []).setHeight ht).setInTrunk it).merkleTree.length : Int) := hcount
  rw [if_pos hc2]
  have hl2 : (((B.setTransactions []).setHeight ht).setInTrunk it).merkleTree.take
      (((B.setTransactions []).setHeight ht).setInTrunk it).txCount.toNat =
      (B.transactions.map (Transaction.setBlockid B.blockid)).map (fun tx => tx.txid) := by
    rw [map_txid_setBlockid]
    exact hleaves
  rw [hl2, loadBody_ok _ _ htx]
  rfl

theorem confirmBlock_round_trip_witness :
    ∃ ht it,
      kvGet ((ConfirmBlock Example.env none 8 Example.s1 Example.A1 false).getD
          default).2.db.blocksTable [2] =
        some (((Example.A1.setTransactions []).setHeight ht).setInTrunk it) ∧
      queryBlock ((ConfirmBlock Example.env none 8 Example.s1 Example.A1 false).getD default).2
          [2] true =
        .ok (((Example.A1.setTransactions
          (Example.A1.transactions.map (Transaction.setBlockid [2]))).setHeight ht).setInTrunk
            it) :=
  confirmBlock_round_trip Example.env none 8 Example.s1 Example.A1 false
    (by unfold Ledger.PtrsValid; decide) (by decide) (by decide) (by decide) (by decide) _
    (by decide) (by decide)

/-! ## C29: DisableTxDedup -/

/-- Without a positive existence probe the transaction loop cannot fail with an error value:
it only fails on the coinbase counter or on missing bytes. -/
theorem confirmTxs_noprobe (db : DB) (inTrunk : Bool) (sh : Int) (txExist : Table Bool)
    (txData : Table Transaction) (txs : List Transaction) :
    ∀ (cbNum : Nat) (obc : Table InternalBlock) (bw : Batch) (e : Option LedgerError),
      (∀ tx ∈ txs, (kvGet txExist tx.txid).getD false = false) →
      confirmTxs db inTrunk sh txExist txData txs cbNum obc bw = .error e → e = none := by
  induction txs with
  | nil =>
    intro cbNum obc bw e _ h
    cases h
  | cons tx rest ih =>
    intro cbNum obc bw e hex h
    have hx := hex tx (List.mem_cons_self _ _)
    rcases confirmTxs_cons_err _ _ _ _ _ _ _ _ _ _ _ h with h1 | h1 | h1 | h1
    · exact h1.2
    · exact h1.2
    · exfalso
      unfold confirmTxs at h
      simp only at h
      by_cases c1 : (if tx.coinbase then cbNum + 1 else cbNum) > 1
      · rw [if_pos c1] at h
        rw [h1] at h
        cases h
      · rw [if_neg c1] at h
        cases hd : kvGet txData tx.txid with
        | none =>
          rw [hd] at h
          rw [h1] at h
          cases h
        | some d =>
          rw [hd] at h
          simp only [hx, Bool.not_false, if_true] at h
          have := ih _ _ _ _ (fun t ht => hex t (List.mem_cons_of_mem _ ht)) h
          rw [h1] at this
          cases this
    · obtain ⟨_, obc2, bw2, h2⟩ := h1
      exact ih _ _ _ _ (fun t ht => hex t (List.mem_cons_of_mem _ ht)) h2

/-- With `DisableTxDedup = true`, `ConfirmBlock` of a block on top of the tip goes straight to
the commit tail: nothing is queued for the old tip. -/
theorem confirmBlock_extend_nodedup (env : Env) (kvErr : Option LedgerError) (fuel : Nat)
    (l : Ledger) (B P : InternalBlock)
    (hdedup : env.DisableTxDedup = true) (hv : l.PtrsValid)
    (hpre : B.preHash = l.meta.tipBlockid)
    (htip : headerAt l l.meta.tipBlockid = some P)
    (hPid : P.blockid = l.meta.tipBlockid) :
    ∃ L, L.db = l.db ∧
      L.deref l.heap.length =
        ((B.setTransactions []).setHeight (P.height + 1)).setInTrunk true ∧
      ConfirmBlock env kvErr fuel l B false =
        some (confirmCommit env kvErr L l.heap.length B.transactions
          { rootBlockid := l.meta.rootBlockid, tipBlockid := B.blockid,
            trunkHeight := l.meta.trunkHeight + 1 }
          l.meta.trunkHeight {} false []) := by
  have hv0 : (l.alloc (B.setTransactions [])).PtrsValid := ptrsValid_alloc l _ hv
  have ht0 : headerAt (l.alloc (B.setTransactions [])) B.preHash = some P := by
    rw [headerAt_alloc _ _ _ hv, hpre, htip]
  obtain ⟨pa, l1, hfetch, hf⟩ := fetchBlock_ok _ _ _ hv0 ht0
  obtain ⟨hne, hlt, hderef⟩ := fetchOk_alloc_ne l _ _ _ _ _ hv hf
  have hdp := hf.deref_pa
  have hdb : l1.db = l.db := hf.db_eq
  have hne2 : l.heap.length ≠ pa := fun e => hne e.symm
  have hA : ∀ (f g : InternalBlock → InternalBlock) (h : InternalBlock → InternalBlock),
      (((l1.modify l.heap.length f).modify l.heap.length g).modify pa h).deref l.heap.length =
        g (f (B.setTransactions [])) := by
    intro f g h
    rw [deref_modify_ne _ _ _ _ hne, deref_modify_same _ _ _ (by simpa using hlt),
      deref_modify_same _ _ _ hlt, hderef]
  refine ⟨((l1.modify l.heap.length (InternalBlock.setHeight (P.height + 1))).modify
      l.heap.length (InternalBlock.setInTrunk true)).modify pa
      (InternalBlock.setNextHash B.blockid), ?_, ?_, ?_⟩
  · simp only [modify_db, hdb]
  · rw [hA]
  · unfold ConfirmBlock
    simp only [Bool.false_eq_true, if_false, hfetch, alloc_meta, deref_modify_ne _ _ _ _ hne2,
      hdp, hPid, if_true, hdedup, Bool.not_true, deref_modify_same _ _ _ hlt, hderef,
      deref_modify_same _ (l.heap.length) _
        (show l.heap.length < (l1.modify l.heap.length _).heap.length by simpa using hlt)]
    simp only [hA, setInTrunk_blockid, setHeight_blockid, setTransactions_blockid]

/-- A commit tail of a non-root block that does not report success leaves the store alone. -/
theorem confirmCommit_fail_db (env : Env) (kvErr : Option LedgerError) (L : Ledger) (a : Addr)
    (txs : List Transaction) (nm : LedgerMeta) (sh : Int) (st : ConfirmStatus) (bw : Batch)
    (hs : (confirmCommit env kvErr L a txs nm sh st false bw).1.succ = false) :
    (confirmCommit env kvErr L a txs nm sh st false bw).2.db = L.db := by
  rw [confirmCommit_eq] at hs ⊢
  cases hloop : confirmTxs L.db (L.deref a).inTrunk sh
      (parallelCheckTx env L txs (L.deref a)).1 (parallelCheckTx env L txs (L.deref a)).2.1
      (txs.map (Transaction.setBlockid (L.deref a).blockid)) 0 []
      (bw ++ saveOps (L.deref a) ++
        branchOps (L.deref a).blockid (L.deref a).preHash (L.deref a).height) with
  | error e => rfl
  | ok bw3 =>
    rw [hloop] at hs
    simp only [hloop]
    cases kvErr with
    | some e => rfl
    | none =>
      simp only [confirmFinish_nonroot_ok] at hs
      cases hs

/-- The error of a commit tail of a non-root block entered with a nil error: nil, the error
of the transaction loop, or the error of the batch write. -/
theorem confirmCommit_error (env : Env) (kvErr : Option LedgerError) (L : Ledger) (a : Addr)
    (txs : List Transaction) (nm : LedgerMeta) (sh : Int) (st : ConfirmStatus) (bw : Batch)
    (hst : st.error = none) :
    (confirmCommit env kvErr L a txs nm sh st false bw).1.error = none ∨
    (confirmCommit env kvErr L a txs nm sh st false bw).1.error = kvErr ∨
    confirmTxs L.db (L.deref a).inTrunk sh
      (parallelCheckTx env L txs (L.deref a)).1 (parallelCheckTx env L txs (L.deref a)).2.1
      (txs.map (Transaction.setBlockid (L.deref a).blockid)) 0 []
      (bw ++ saveOps (L.deref a) ++
        branchOps (L.deref a).blockid (L.deref a).preHash (L.deref a).height) =
      .error (confirmCommit env kvErr L a txs nm sh st false bw).1.error := by
  rw [confirmCommit_eq]
  cases hloop : confirmTxs L.db (L.deref a).inTrunk sh
      (parallelCheckTx env L txs (L.deref a)).1 (parallelCheckTx env L txs (L.deref a)).2.1
      (txs.map (Transaction.setBlockid (L.deref a).blockid)) 0 []
      (bw ++ saveOps (L.deref a) ++
        branchOps (L.deref a).blockid (L.deref a).preHash (L.deref a).height) with
  | error e => exact Or.inr (Or.inr rfl)
  | ok bw3 =>
    simp only []
    cases kvErr with
    | some e => exact Or.inr (Or.inl rfl)
    | none =>
      left
      rw [confirmFinish_nonroot_ok]
      exact hst

/-- C29 (amended): `DisableTxDedup`.  With `DisableTxDedup = true`, on a ledger whose cache
pointers are allocated, let `B` be a block whose `pre_hash` is the id of the tip (the tip
header `P` the engine fetches has that id, and `B` is not its own predecessor), and let the
batch write not fail with the value `ErrTxDuplicated`.  Then `ConfirmBlock(B, false)` returns,
never with the error `TxDuplicated`, whatever is confirmed already, and the Blocks table record
under the id of the old tip is as before.  When moreover `B` holds at most one coinbase
transaction and the batch write succeeds, the call reports success, and `QueryTransaction`
returns every transaction of `B` that is the only transaction of `B` with its txid, with
`blockid = B.id`. -/
theorem confirmBlock_dedup_disabled (env : Env) (kvErr : Option LedgerError) (fuel : Nat)
    (l : Ledger) (B P : InternalBlock)
    (hdedup : env.DisableTxDedup = true) (hv : l.PtrsValid)
    (hpre : B.preHash = l.meta.tipBlockid)
    (htip : headerAt l l.meta.tipBlockid = some P)
    (hPid : P.blockid = l.meta.tipBlockid)
    (hnew : B.blockid ≠ l.meta.tipBlockid)
    (hkv : kvErr ≠ some LedgerError.ErrTxDuplicated) :
    ∃ r, ConfirmBlock env kvErr fuel l B false = some r ∧
      r.1.error ≠ some LedgerError.ErrTxDuplicated ∧
      kvGet r.2.db.blocksTable l.meta.tipBlockid = kvGet l.db.blocksTable l.meta.tipBlockid ∧
      (coinbaseCount B.transactions ≤ 1 → kvErr = none →
        r.1.succ = true ∧
        ∀ tx ∈ B.transactions, (∀ t ∈ B.transactions, t.txid = tx.txid → t = tx) →
          QueryTransaction r.2 tx.txid = .ok (tx.setBlockid B.blockid)) := by
  obtain ⟨L, hLdb, hLd, hcb⟩ := confirmBlock_extend_nodedup env kvErr fuel l B P hdedup hv hpre
    htip hPid
  have hpc1 : (parallelCheckTx env L B.transactions (L.deref l.heap.length)).1 = [] := by
    unfold parallelCheckTx
    rw [hLd, hdedup]
    rfl
  have hex : ∀ tx ∈ (parallelCheckTx env L B.transactions (L.deref l.heap.length)).2.2,
      (kvGet (parallelCheckTx env L B.transactions (L.deref l.heap.length)).1 tx.txid).getD
        false = false := by
    intro tx _
    rw [hpc1]
    rfl
  have hdata : ∀ tx ∈ (parallelCheckTx env L B.transactions (L.deref l.heap.length)).2.2,
      ∃ d, kvGet (parallelCheckTx env L B.transactions (L.deref l.heap.length)).2.1 tx.txid =
        some d := mkTxData_map_has _ _
  -- what a success leaves in the store
  have hsucc : ∀ r : ConfirmStatus × Ledger,
      r = confirmCommit env kvErr L l.heap.length B.transactions
          { rootBlockid := l.meta.rootBlockid, tipBlockid := B.blockid,
            trunkHeight := l.meta.trunkHeight + 1 }
          l.meta.trunkHeight {} false [] → r.1.succ = true →
      kvGet r.2.db.blocksTable l.meta.tipBlockid = kvGet l.db.blocksTable l.meta.tipBlockid ∧
      ∀ tx ∈ B.transactions, (∀ t ∈ B.transactions, t.txid = tx.txid → t = tx) →
        QueryTransaction r.2 tx.txid = .ok (tx.setBlockid B.blockid) := by
    intro r hr hs
    rw [hr] at hs
    obtain ⟨_, _, ext, hops, hfr, hdb, _⟩ := confirmCommit_succ _ _ _ _ _ _ _ _ _ _ hs
    have hext : ∀ op ∈ ext, BatchOp.isTxPut op = true := by
      intro op hop
      obtain ⟨_, _, _, _, e⟩ := hops op hop
      rw [e]
      rfl
    constructor
    · rw [hr, hdb, applyBatch_append, (applyBatch_commitTail _ _ _).1, applyBatch_append,
        (applyBatch_txPuts _ _ hext).2.1, applyBatch_append, (applyBatch_branchOps _ _ _ _).1,
        applyBatch_append, (applyBatch_saveOps _ _).1, hLd, hLdb]
      exact kvGet_kvPut_ne _ _ _ _ (fun e => hnew e.symm)
    · intro tx htx huniq
      have hmem : tx.setBlockid B.blockid ∈
          (parallelCheckTx env L B.transactions (L.deref l.heap.length)).2.2 := by
        rw [parallelCheckTx_txs, hLd]
        exact List.mem_map_of_mem _ htx
      obtain ⟨d, hd1, hd2⟩ := hfr _ hmem (hex _ hmem)
      have hd3 : d = tx.setBlockid B.blockid := by
        have hmem2 : tx.setBlockid B.blockid ∈
            B.transactions.map (Transaction.setBlockid B.blockid) :=
          List.mem_map_of_mem _ htx
        obtain ⟨d2, hd2m, hid2, hg⟩ := mkTxData_get_mem _ _ hmem2
        have e1 : kvGet (parallelCheckTx env L B.transactions (L.deref l.heap.length)).2.1
            (tx.setBlockid B.blockid).txid = some d2 := by
          unfold parallelCheckTx
          rw [hLd]
          exact hg
        rw [e1] at hd1
        have e2 : d2 = d := Option.some.inj hd1
        obtain ⟨t, ht, e3⟩ := List.mem_map.1 hd2m
        have e4 : t = tx := huniq t ht (by
          have : (t.setBlockid B.blockid).txid = (tx.setBlockid B.blockid).txid := by
            rw [e3]; exact hid2
          exact this)
        rw [← e2, ← e3, e4]
      unfold QueryTransaction
      have hq : kvGet r.2.db.confirmedTable tx.txid = some (tx.setBlockid B.blockid) := by
        rw [hr, hdb, applyBatch_append, (applyBatch_commitTail _ _ _).2.2.2.1, applyBatch_append,
          ((applyBatch_txPuts_confirmed _ ext _ tx.txid
            (fun op hop => by
              obtain ⟨t, _, d2, e1, e2⟩ := hops op hop
              exact ⟨t.txid, d2, e1, e2⟩)).1 ⟨d, hd2⟩)]
        rw [← hd3]
        exact hd1
      rw [hq]
  refine ⟨_, hcb, ?_, ?_, ?_⟩
  · -- never TxDuplicated
    rcases confirmCommit_error env kvErr L l.heap.length B.transactions
      { rootBlockid := l.meta.rootBlockid, tipBlockid := B.blockid,
        trunkHeight := l.meta.trunkHeight + 1 } l.meta.trunkHeight {} [] rfl with h1 | h1 | h1
    · rw [h1]
      exact fun e => by cases e
    · rw [h1]
      exact hkv
    · have := confirmTxs_noprobe _ _ _ _ _ _ _ _ _ _ hex h1
      rw [this]
      exact fun e => by cases e
  · cases hs : (confirmCommit env kvErr L l.heap.length B.transactions
        { rootBlockid := l.meta.rootBlockid, tipBlockid := B.blockid,
          trunkHeight := l.meta.trunkHeight + 1 } l.meta.trunkHeight {} false []).1.succ
    · rw [confirmCommit_fail_db _ _ _ _ _ _ _ _ _ hs, hLdb]
    · exact (hsucc _ rfl hs).1
  · intro hcbn hk
    subst hk
    have hcb2 : 0 + coinbaseCount
        (parallelCheckTx env L B.transactions (L.deref l.heap.length)).2.2 ≤ 1 := by
      rw [parallelCheckTx_txs, coinbaseCount_map_blockid]
      omega
    have hloop := confirmTxs_fresh L.db (L.deref l.heap.length).inTrunk l.meta.trunkHeight _ _ _
      0 [] ([] ++ saveOps (L.deref l.heap.length) ++
        branchOps (L.deref l.heap.length).blockid (L.deref l.heap.length).preHash
          (L.deref l.heap.length).height) hex hdata hcb2
    have hs : (confirmCommit env none L l.heap.length B.transactions
        { rootBlockid := l.meta.rootBlockid, tipBlockid := B.blockid,
          trunkHeight := l.meta.trunkHeight + 1 } l.meta.trunkHeight {} false []).1.succ =
        true := by
      rw [confirmCommit_eq]
      rw [parallelCheckTx_txs] at hloop
      rw [hloop]
      rfl
    exact ⟨hs, (hsucc _ rfl hs).2⟩

/-- C29 (as stated, refuted): with `DisableTxDedup = true` not every block on top of the tip
has its transactions written.  On the trunk `G`, `A1`: a block with two coinbase transactions
is refused with a nil error and neither transaction is stored; the block `A2` whose batch write
fails leaves its transaction unstored; and of two different transactions of one block under
the same txid only the second is stored. -/
theorem dedup_disabled_not_every_tx_written :
    Example.envNoDedup.DisableTxDedup = true ∧ Example.s2.meta.tipBlockid = [2] ∧
    (ConfirmBlock Example.envNoDedup none 8 Example.s2 Example.twoCoinbase false).map
        (fun r => (r.1.succ, r.1.error, QueryTransaction r.2 [110],
          QueryTransaction r.2 [111])) =
      some (false, none, .error .ErrTxNotFound, .error .ErrTxNotFound) ∧
    (ConfirmBlock Example.envNoDedup (some .kvWriteFailed) 8 Example.s2 Example.A2 false).map
        (fun r => (r.1.succ, r.1.error, QueryTransaction r.2 [103])) =
      some (false, some .kvWriteFailed, .error .ErrTxNotFound) ∧
    (ConfirmBlock Example.envNoDedup none 8 Example.s2 Example.sameTxid false).map
        (fun r => (r.1.succ, QueryTransaction r.2 [7])) =
      some (true, .ok { txid := [7], blockid := [9], desc := [2] }) := by
  decide

theorem confirmBlock_dedup_disabled_witness :
    Example.envNoDedup.DisableTxDedup = true ∧
    QueryTransaction Example.s2 [101] = .ok (Example.T1.setBlockid [2]) ∧
    Example.T1 ∈ Example.dupBlock.transactions ∧
    ∃ r, ConfirmBlock Example.envNoDedup none 8 Example.s2 Example.dupBlock false = some r ∧
      r.1.error ≠ some LedgerError.ErrTxDuplicated ∧
      kvGet r.2.db.blocksTable Example.s2.meta.tipBlockid =
        kvGet Example.s2.db.blocksTable Example.s2.meta.tipBlockid ∧
      r.1.succ = true ∧
      QueryTransaction r.2 [101] = .ok (Example.T1.setBlockid [9]) := by
  obtain ⟨r, h1, h2, h3, h4⟩ :=
    confirmBlock_dedup_disabled Example.envNoDedup none 8 Example.s2 Example.dupBlock
      ((headerAt Example.s2 [2]).getD default) rfl (by unfold Ledger.PtrsValid; decide)
      (by decide) (by decide) (by decide) (by decide) (by decide)
  exact ⟨rfl, by decide, by decide, r, h1, h2, h3, (h4 (by decide) rfl).1,
    (h4 (by decide) rfl).2 Example.T1 (by decide) (by decide)⟩

/-! ## C26: amending a confirmed transaction -/

/-- `UpdateBlockChainData` when the `Put` succeeds.  For non-empty strings `txid` and `ptxid`,
`txid` decoding to the key of a Confirmed-Tx record `tx` stored under its own txid: the call
returns no error; afterwards `QueryTransaction` returns `tx` with
`modify_block = {marked, ptxid, height, publickey, sign}`, an empty `desc` and no
`output_ext`, its other fields as before; every other Confirmed-Tx entry, the other tables and
the rest of the ledger are as before.  And for an empty `txid` or `ptxid`, or a `txid` that
decodes to no Confirmed-Tx key, the call returns an error and the ledger is as before,
whatever the `Put` would return. -/
theorem updateBlockChainData_amends (l : Ledger) (txid ptxid publickey sign : Bytes)
    (height : Int) (putErr : Option LedgerError) :
    (∀ tx : Transaction, txid ≠ [] → ptxid ≠ [] →
      kvGet l.db.confirmedTable (hexDecode txid) = some tx → tx.txid = hexDecode txid →
      ∃ l2, UpdateBlockChainData none l txid ptxid publickey sign height = (.ok (), l2) ∧
        QueryTransaction l2 (hexDecode txid) = .ok
          { tx with
            modifyBlock := some
              { marked := true, effectiveTxid := ptxid, effectiveHeight := height,
                publicKey := publickey, sign := sign }
            desc := []
            txOutputsExt := [] } ∧
        (∀ k, k ≠ hexDecode txid → QueryTransaction l2 k = QueryTransaction l k) ∧
        l2.db.blocksTable = l.db.blocksTable ∧ l2.db.heightTable = l.db.heightTable ∧
        l2.db.metaTable = l.db.metaTable ∧ l2.db.pendingTable = l.db.pendingTable ∧
        l2.db.branchTable = l.db.branchTable ∧ l2.meta = l.meta ∧ l2.heap = l.heap ∧
        l2.blockCache = l.blockCache ∧ l2.blkHeaderCache = l.blkHeaderCache) ∧
    (txid = [] ∨ ptxid = [] ∨ kvGet l.db.confirmedTable (hexDecode txid) = none →
      ∃ e, UpdateBlockChainData putErr l txid ptxid publickey sign height = (.error e, l)) := by
  constructor
  · intro tx h1 h2 hg hid
    have hne : ¬ (txid = [] ∨ ptxid = []) := fun h => h.elim h1 h2
    have key : ∃ l2, UpdateBlockChainData none l txid ptxid publickey sign height =
          (.ok (), l2) ∧
        l2.db.confirmedTable = kvPut l.db.confirmedTable tx.txid
          { tx with
            modifyBlock := some
              { marked := true, effectiveTxid := ptxid, effectiveHeight := height,
                publicKey := publickey, sign := sign }
            desc := []
            txOutputsExt := [] } ∧
        l2.db.blocksTable = l.db.blocksTable ∧ l2.db.heightTable = l.db.heightTable ∧
        l2.db.metaTable = l.db.metaTable ∧ l2.db.pendingTable = l.db.pendingTable ∧
        l2.db.branchTable = l.db.branchTable ∧ l2.meta = l.meta ∧ l2.heap = l.heap ∧
        l2.blockCache = l.blockCache ∧ l2.blkHeaderCache = l.blkHeaderCache := by
      unfold UpdateBlockChainData QueryTransaction
      rw [if_neg hne, hg]
      exact ⟨_, rfl, rfl, rfl, rfl, rfl, rfl, rfl, rfl, rfl, rfl, rfl⟩
    obtain ⟨l2, hU, hc, k1, k2, k3, k4, k5, k6, k7, k8, k9⟩ := key
    refine ⟨l2, hU, ?_, ?_, k1, k2, k3, k4, k5, k6, k7, k8, k9⟩
    · unfold QueryTransaction
      rw [hc, hid, kvGet_kvPut_self]
    · intro k hk
      unfold QueryTransaction
      rw [hc, hid, kvGet_kvPut_ne _ _ _ _ hk]
  · intro h
    unfold UpdateBlockChainData
    by_cases hne : txid = [] ∨ ptxid = []
    · rw [if_pos hne]
      exact ⟨_, rfl⟩
    · rw [if_neg hne]
      have hg : kvGet l.db.confirmedTable (hexDecode txid) = none := by
        rcases h with h | h | h
        · exact absurd (Or.inl h) hne
        · exact absurd (Or.inr h) hne
        · exact h
      unfold QueryTransaction
      rw [hg]
      exact ⟨_, rfl⟩

/-- C26 (amendment) at its failing input.  On the trunk `G`, `A1`, where `A1` holds the
transaction `[101]`, the call `UpdateBlockChainData("65", "70", ..)` whose `Put` on the
Confirmed-Tx table fails returns no error, and `QueryTransaction([101])` returns the
transaction as it was, without `modify_block`. -/
theorem updateBlockChainData_ignores_put_error :
    hexDecode [54, 53] = [101] ∧
    QueryTransaction Example.s2 [101] = .ok (Example.T1.setBlockid [2]) ∧
    UpdateBlockChainData (some .kvWriteFailed) Example.s2 [54, 53] [55, 48] [1] [2] 5 =
      (.ok (), Example.s2) ∧
    (QueryTransaction
      (UpdateBlockChainData (some .kvWriteFailed) Example.s2 [54, 53] [55, 48] [1] [2] 5).2
      [101]).toOption.map (fun t => t.modifyBlock) = some none ∧
    (QueryTransaction
      (UpdateBlockChainData none Example.s2 [54, 53] [55, 48] [1] [2] 5).2
      [101]).toOption.map (fun t => t.modifyBlock) =
      some (some { marked := true, effectiveTxid := [55, 48], effectiveHeight := 5,
                   publicKey := [1], sign := [2] }) := by
  decide

/-! ## C27: the walk of removeBlocks -/

/-- `fetchBlock` on a ledger whose header cache shows the store: it fails exactly for an id
that is not stored, and otherwise hands out a header with the id, predecessor, height and
`in_trunk` flag of the stored record; the cache keeps showing the store and the objects
allocated before are as before. -/
theorem fetchBlock_shows (l l1 : Ledger) (id : Bytes) (r : Except LedgerError Addr)
    (hc : l.CacheShowsStore) (h : fetchBlock l id = (r, l1)) :
    l1.CacheShowsStore ∧ l1.db = l.db ∧ l1.meta = l.meta ∧ l.heap.length ≤ l1.heap.length ∧
    (∀ a, a < l.heap.length → l1.deref a = l.deref a) ∧
    (∀ pa, r = .ok pa → pa < l1.heap.length ∧ ∃ Z, kvGet l.db.blocksTable id = some Z ∧
      (l1.deref pa).link = Z.link ∧ (l1.deref pa).inTrunk = Z.inTrunk) ∧
    (∀ e, r = .error e → kvGet l.db.blocksTable id = none) := by
  unfold fetchBlock LRUCache.Get at h
  cases hg : kvGet l.blkHeaderCache.entries id with
  | some a =>
    rw [hg] at h
    simp only at h
    cases h
    have hmem := kvGet_mem _ _ _ hg
    have hsub : ∀ e ∈ (l.setHeaderCache
        { l.blkHeaderCache with entries := (id, a) :: kvDel l.blkHeaderCache.entries id }).blkHeaderCache.entries,
        e ∈ l.blkHeaderCache.entries := by
      intro e he
      rcases List.mem_cons.1 he with e1 | e1
      · rw [e1]; exact hmem
      · exact kvDel_subset _ _ _ e1
    refine ⟨⟨⟨fun p hp => hc.1.1 p (hsub p hp), hc.1.2⟩, fun e he => hc.2 e (hsub e he)⟩,
      rfl, rfl, le_refl _, fun _ _ => rfl, ?_, ?_⟩
    · intro pa hpa
      cases hpa
      have h2 := hc.2 (id, a) hmem
      cases hz : kvGet l.db.blocksTable id with
      | none => rw [hz] at h2; cases h2
      | some Z =>
        rw [hz] at h2
        simp only [Option.map_some', Option.some.injEq, Prod.mk.injEq] at h2
        exact ⟨hc.1.1 _ hmem, Z, rfl, h2.1.symm, h2.2.symm⟩
    · intro e he
      cases he
  | none =>
    rw [hg] at h
    simp only at h
    cases hz : kvGet l.db.blocksTable id with
    | none =>
      rw [hz] at h
      cases h
      exact ⟨hc, rfl, rfl, le_refl _, fun _ _ => rfl, fun _ e => (by cases e), fun _ _ => rfl⟩
    | some Z =>
      rw [hz] at h
      cases h
      refine ⟨⟨ptrsValid_alloc l Z hc.1, ?_⟩, rfl, rfl, ?_, ?_, ?_, ?_⟩
      · intro e he
        rw [deref_alloc_lt _ _ _ (hc.1.1 e he)]
        exact hc.2 e he
      · rw [alloc_heap_length]; omega
      · intro a ha
        exact deref_alloc_lt _ _ _ ha
      · intro pa hpa
        cases hpa
        refine ⟨(by rw [alloc_heap_length]; exact Nat.lt_succ_self _), Z, rfl, ?_, ?_⟩
        · rw [deref_alloc_new]
        · rw [deref_alloc_new]
      · intro e he
        cases he

theorem storedPath_none (db : DB) (id : Bytes) (h : kvGet db.blocksTable id = none) :
    ∀ n, storedPath n db id = [] := by
  intro n
  cases n with
  | zero => rfl
  | succ n =>
    rw [storedPath, h]

theorem storedPath_some (db : DB) (id : Bytes) (b : InternalBlock) (n : Nat)
    (h : kvGet db.blocksTable id = some b) :
    storedPath (n + 1) db id = b :: storedPath n db b.preHash := by
  rw [storedPath, h]

/-- The blocks of a stored path are stored records. -/
theorem storedPath_mem (db : DB) (hs : db.Linked) (n : Nat) :
    ∀ (id : Bytes) (W : InternalBlock), W ∈ storedPath n db id →
      kvGet db.blocksTable W.blockid = some W := by
  induction n with
  | zero =>
    intro id W h
    cases h
  | succ n ih =>
    intro id W h
    cases hg : kvGet db.blocksTable id with
    | none =>
      rw [storedPath_none db id hg] at h
      cases h
    | some b =>
      rw [storedPath_some db id b n hg] at h
      rcases List.mem_cons.1 h with e | e
      · subst e
        have := (hs (id, W) (kvGet_mem _ _ _ hg)).1
        dsimp only at this
        rw [this]
        exact hg
      · exact ih _ _ e

/-- In a linked store the blocks of a path above a height are its first blocks: following the
path further adds none. -/
theorem storedPath_filter (db : DB) (hs : db.Linked) (T : Int) (n : Nat) :
    ∀ F : InternalBlock, kvGet db.blocksTable F.blockid = some F → (F.height - T).toNat ≤ n →
      (storedPath n db F.blockid).filter (fun Z => decide (T < Z.height)) =
        storedPath (F.height - T).toNat db F.blockid := by
  induction n with
  | zero =>
    intro F _ hk
    have : (F.height - T).toNat = 0 := by omega
    rw [this]
    rfl
  | succ n ih =>
    intro F hF hk
    rw [storedPath_some db _ F n hF]
    have hlink := (hs (F.blockid, F) (kvGet_mem _ _ _ hF)).2
    dsimp only at hlink
    by_cases hh : T < F.height
    · obtain ⟨k, hk1⟩ : ∃ k, (F.height - T).toNat = k + 1 := ⟨(F.height - T).toNat - 1, by omega⟩
      rw [hk1, storedPath_some db _ F k hF, List.filter_cons_of_pos (by simpa using hh)]
      congr 1
      cases hz : kvGet db.blocksTable F.preHash with
      | none =>
        rw [storedPath_none db _ hz, storedPath_none db _ hz]
        rfl
      | some Z =>
        have hZid : Z.blockid = F.preHash := (hs (F.preHash, Z) (kvGet_mem _ _ _ hz)).1
        have hZh := hlink Z hz
        have hk2 : (Z.height - T).toNat = k := by omega
        have := ih Z (by rw [hZid]; exact hz) (by omega)
        rw [hZid, hk2] at this
        exact this
    · have hk0 : (F.height - T).toNat = 0 := by omega
      rw [hk0, List.filter_cons_of_neg (by simpa using hh)]
      show _ = []
      cases hz : kvGet db.blocksTable F.preHash with
      | none =>
        rw [storedPath_none db _ hz]
        rfl
      | some Z =>
        have hZid : Z.blockid = F.preHash := (hs (F.preHash, Z) (kvGet_mem _ _ _ hz)).1
        have hZh := hlink Z hz
        have hk2 : (Z.height - T).toNat = 0 := by omega
        have := ih Z (by rw [hZid]; exact hz) (by omega)
        rw [hZid, hk2] at this
        exact this

/-- The loop of `removeBlocks` on a linked store whose header cache shows it: standing on the
stored block `F`, with fuel for one round per level above the target height `T` and one more,
it ends, having queued the deletes of the blocks on the path from `F` that are above `T`. -/
theorem removeLoop_walk (db : DB) (T : Int) (hs : db.Linked) (fuel : Nat) :
    ∀ (l : Ledger) (fromA toA : Addr) (batch : Batch) (F : InternalBlock),
      l.CacheShowsStore → l.db = db → toA < l.heap.length →
      kvGet db.blocksTable F.blockid = some F →
      (l.deref fromA).link = F.link → (l.deref fromA).inTrunk = F.inTrunk →
      (l.deref toA).height = T →
      (F.height - T).toNat + 1 ≤ fuel →
      ∃ L2, removeLoop fuel l fromA toA batch =
          some (L2, batch ++ (storedPath (F.height - T).toNat db F.blockid).flatMap removeOps) ∧
        L2.db = db ∧ L2.meta = l.meta ∧ L2.CacheShowsStore ∧
        l.heap.length ≤ L2.heap.length ∧ ∀ a, a < l.heap.length → L2.deref a = l.deref a := by
  induction fuel with
  | zero =>
    intro l fromA toA batch F _ _ _ _ _ _ _ hf
    omega
  | succ fuel ih =>
    intro l fromA toA batch F hc hdb hto hF hlink hit hT hf
    have hid : (l.deref fromA).blockid = F.blockid := congrArg (fun x => x.1) hlink
    have hpre : (l.deref fromA).preHash = F.preHash := congrArg (fun x => x.2.1) hlink
    have hht : (l.deref fromA).height = F.height := congrArg (fun x => x.2.2) hlink
    unfold removeLoop
    by_cases hh : (l.deref fromA).height > (l.deref toA).height
    · rw [if_pos hh]
      rw [hht, hT] at hh
      obtain ⟨k, hk1⟩ : ∃ k, (F.height - T).toNat = k + 1 := ⟨(F.height - T).toNat - 1, by omega⟩
      rw [hk1, storedPath_some db _ F k hF, List.flatMap_cons]
      obtain ⟨l1, hl1⟩ : ∃ l1, l1 = (l.setHeaderCache
          (l.blkHeaderCache.Del (l.deref fromA).blockid)).setBlockCache
          (l.blockCache.Del (l.deref fromA).blockid) := ⟨_, rfl⟩
      have hc1 : l1.CacheShowsStore := by
        rw [hl1]
        refine ⟨⟨fun p hp => hc.1.1 p (lru_del_entries_mem _ _ _ hp),
          fun p hp => hc.1.2 p (lru_del_entries_mem _ _ _ hp)⟩, ?_⟩
        intro e he
        exact hc.2 e (lru_del_entries_mem _ _ _ he)
      have hdb1 : l1.db = db := by rw [hl1]; exact hdb
      have hm1 : l1.meta = l.meta := by rw [hl1]; rfl
      have hlen1 : l1.heap.length = l.heap.length := by rw [hl1]; rfl
      have hto1 : l1.deref toA = l.deref toA := by rw [hl1]; rfl
      have hb1 : batch ++ [BatchOp.delBlock (l.deref fromA).blockid] ++
          (if (l.deref fromA).inTrunk then
            [BatchOp.delHeight (heightKey (l.deref fromA).height)] else []) =
          batch ++ removeOps F := by
        unfold removeOps
        rw [hid, hit, hht, List.append_assoc]
      simp only [← hl1, hb1]
      cases hf2 : fetchBlock l1 (l.deref fromA).preHash with
      | mk r2 l2 =>
        obtain ⟨hc2, hdb2, hm2, hle2, hold2, hok2, herr2⟩ :=
          fetchBlock_shows l1 l2 _ r2 hc1 hf2
        cases r2 with
        | error e =>
          have hz := herr2 e rfl
          rw [hdb1, hpre] at hz
          rw [storedPath_none db _ hz]
          exact ⟨l2, by simp, by rw [hdb2, hdb1], by rw [hm2, hm1], hc2, by rw [← hlen1]; exact hle2,
            fun a ha => by rw [hold2 a (by rw [hlen1]; exact ha), hl1]; rfl⟩
        | ok a2 =>
          obtain ⟨ha2, Z, hz, hzl, hzt⟩ := hok2 a2 rfl
          rw [hdb1, hpre] at hz
          have hZid : Z.blockid = F.preHash := (hs (F.preHash, Z) (kvGet_mem _ _ _ hz)).1
          have hZh := (hs (F.blockid, F) (kvGet_mem _ _ _ hF)).2 Z hz
          dsimp only at hZh
          have hk2 : (Z.height - T).toNat = k := by omega
          have hto1l : toA < l1.heap.length := by rw [hlen1]; exact hto
          have hto2 : toA < l2.heap.length := Nat.lt_of_lt_of_le hto1l hle2
          obtain ⟨L2, hr, h1, h2, h3, h4, h5⟩ := ih l2 a2 toA (batch ++ removeOps F) Z hc2
            (by rw [hdb2, hdb1]) hto2 (by rw [hZid]; exact hz) hzl hzt
            (by rw [hold2 toA hto1l, hto1]; exact hT) (by omega)
          rw [hk2, hZid] at hr
          refine ⟨L2, ?_, h1, by rw [h2, hm2, hm1], h3,
            le_trans (by rw [← hlen1]; exact hle2) h4, ?_⟩
          · simp only [hr, List.append_assoc]
          · intro a ha
            have ha1 : a < l1.heap.length := by rw [hlen1]; exact ha
            rw [h5 a (Nat.lt_of_lt_of_le ha1 hle2), hold2 a ha1, hl1]
            rfl
    · rw [if_neg hh]
      rw [hht, hT] at hh
      have hk0 : (F.height - T).toNat = 0 := by omega
      rw [hk0]
      exact ⟨l, by simp [storedPath], hdb, rfl, hc, le_refl _, fun _ _ => rfl⟩

/-- `removeBlocks` on a linked store whose header cache shows it, for stored blocks `F` and
`T`, with fuel for one round per level of `F` above `T` and one more. -/
theorem removeBlocks_spec (l : Ledger) (F T : InternalBlock) (batch : Batch) (fuel : Nat)
    (hs : l.db.Linked) (hc : l.CacheShowsStore)
    (hF : kvGet l.db.blocksTable F.blockid = some F)
    (hT : kvGet l.db.blocksTable T.blockid = some T)
    (hfuel : (F.height - T.height).toNat + 1 ≤ fuel) :
    ∃ L2, removeBlocks fuel l F.blockid T.blockid batch =
        some (.ok (), L2,
          batch ++ (storedPath (F.height - T.height).toNat l.db F.blockid).flatMap removeOps) ∧
      L2.db = l.db ∧ L2.meta = l.meta ∧ L2.CacheShowsStore ∧
      l.heap.length ≤ L2.heap.length ∧ ∀ a, a < l.heap.length → L2.deref a = l.deref a := by
  unfold removeBlocks
  cases hf1 : fetchBlock l F.blockid with
  | mk r1 l1 =>
    obtain ⟨hc1, hdb1, hm1, hle1, hold1, hok1, herr1⟩ := fetchBlock_shows l l1 _ r1 hc hf1
    cases r1 with
    | error e =>
      have := herr1 e rfl
      rw [hF] at this
      cases this
    | ok fromA =>
      obtain ⟨hfa, Z, hz, hzl, hzt⟩ := hok1 fromA rfl
      rw [hF] at hz
      cases hz
      simp only
      cases hf2 : fetchBlock l1 T.blockid with
      | mk r2 l2 =>
        obtain ⟨hc2, hdb2, hm2, hle2, hold2, hok2, herr2⟩ := fetchBlock_shows l1 l2 _ r2 hc1 hf2
        cases r2 with
        | error e =>
          have := herr2 e rfl
          rw [hdb1, hT] at this
          cases this
        | ok toA =>
          obtain ⟨hta, Z2, hz2, hzl2, _⟩ := hok2 toA rfl
          rw [hdb1, hT] at hz2
          cases hz2
          simp only
          have hTh : (l2.deref toA).height = T.height := congrArg (fun x => x.2.2) hzl2
          obtain ⟨L2, hr, h1, h2, h3, h4, h5⟩ := removeLoop_walk l.db T.height hs fuel l2 fromA toA batch F
            hc2 (by rw [hdb2, hdb1]) hta hF (by rw [hold2 _ hfa]; exact hzl)
            (by rw [hold2 _ hfa]; exact hzt) hTh hfuel
          rw [hr]
          refine ⟨L2, rfl, h1, by rw [h2, hm2, hm1], h3, le_trans hle1 (le_trans hle2 h4), ?_⟩
          intro a ha
          have ha1 : a < l1.heap.length := Nat.lt_of_lt_of_le ha hle1
          rw [h5 a (Nat.lt_of_lt_of_le ha1 hle2), hold2 a ha1, hold1 a ha]

/-- The walk of `removeBlocks` where the header cache shows the store.  On a store whose
blocks are linked (stored under their ids, and one
higher than their predecessor when that is stored; a predecessor may be missing), with a
header cache that shows the store, let `F` and `T` be stored blocks.  With one unit of fuel
per level of `F` above `T` and one more, `removeBlocks(F.id, T.id)` ends without an error, the
store being as before, and appends to the batch, for each block of `ps` in path order, the
delete of its Blocks table entry and, when it is `in_trunk`, of its Height Index entry.  `ps`
is the list of the blocks above `T.height` on the `pre_hash` path from `F`, however far the
path is followed; it ends where a predecessor is missing.  No stored block of height
`<= T.height` is deleted. -/
theorem removeBlocks_walk (l : Ledger) (F T : InternalBlock) (batch : Batch) (fuel : Nat)
    (hs : l.db.Linked) (hc : l.CacheShowsStore)
    (hF : kvGet l.db.blocksTable F.blockid = some F)
    (hT : kvGet l.db.blocksTable T.blockid = some T)
    (hfuel : (F.height - T.height).toNat + 1 ≤ fuel) :
    ∃ L2 ps,
      removeBlocks fuel l F.blockid T.blockid batch =
        some (.ok (), L2, batch ++ ps.flatMap removeOps) ∧
      L2.db = l.db ∧ L2.meta = l.meta ∧
      (∀ n, (F.height - T.height).toNat ≤ n →
        (storedPath n l.db F.blockid).filter (fun Z => decide (T.height < Z.height)) = ps) ∧
      (∀ Z, kvGet l.db.blocksTable Z.blockid = some Z → Z.height ≤ T.height →
        BatchOp.delBlock Z.blockid ∉ ps.flatMap removeOps) := by
  obtain ⟨L2, hr, h1, h2, _, _, _⟩ := removeBlocks_spec l F T batch fuel hs hc hF hT hfuel
  have hfil := storedPath_filter l.db hs T.height
  refine ⟨L2, _, hr, h1, h2, fun n hn => hfil n F hF hn, ?_⟩
  intro Z hZ hZh hmem
  obtain ⟨W, hW, hop⟩ := List.mem_flatMap.1 hmem
  have hWs := storedPath_mem l.db hs _ _ _ hW
  have hWh : T.height < W.height := by
    have := hfil _ F hF (le_refl _)
    rw [← this] at hW
    simpa using (List.mem_filter.1 hW).2
  have hid : Z.blockid = W.blockid := by
    unfold removeOps at hop
    rcases List.mem_append.1 hop with e | e
    · simpa using e
    · split_ifs at e
      · simp at e
      · cases e
  rw [hid, hWs] at hZ
  cases hZ
  omega

/-- The walk on the reopened example chain and on a store with an orphan. -/
theorem removeBlocks_walk_witness :
    (∃ L2 ps,
      removeBlocks 3 Example.s4r (Example.stored Example.s4r [4]).blockid
          (Example.stored Example.s4r [1]).blockid [] =
        some (.ok (), L2, [] ++ ps.flatMap removeOps) ∧
      L2.db = Example.s4r.db ∧ L2.meta = Example.s4r.meta ∧
      (∀ n, ((Example.stored Example.s4r [4]).height -
          (Example.stored Example.s4r [1]).height).toNat ≤ n →
        (storedPath n Example.s4r.db (Example.stored Example.s4r [4]).blockid).filter
          (fun Z => decide ((Example.stored Example.s4r [1]).height < Z.height)) = ps) ∧
      (∀ Z, kvGet Example.s4r.db.blocksTable Z.blockid = some Z →
        Z.height ≤ (Example.stored Example.s4r [1]).height →
        BatchOp.delBlock Z.blockid ∉ ps.flatMap removeOps)) ∧
    (Example.stored Example.s4r [4]).link = ([4], [3], 2) ∧
    (Example.stored Example.s4r [1]).link = ([1], [], 0) ∧
    (removeBlocks 3 Example.s4r [4] [1] []).map (fun r => r.2.2) =
      some [BatchOp.delBlock [4], BatchOp.delHeight (heightKey 2), BatchOp.delBlock [3],
        BatchOp.delHeight (heightKey 1)] ∧
    (∃ L2 ps,
      removeBlocks 4 Example.sOrphan Example.orphan.blockid
          (Example.hdrG.setInTrunk true).blockid [] =
        some (.ok (), L2, [] ++ ps.flatMap removeOps) ∧
      L2.db = Example.sOrphan.db ∧ L2.meta = Example.sOrphan.meta ∧
      (∀ n, (Example.orphan.height - (Example.hdrG.setInTrunk true).height).toNat ≤ n →
        (storedPath n Example.sOrphan.db Example.orphan.blockid).filter
          (fun Z => decide ((Example.hdrG.setInTrunk true).height < Z.height)) = ps) ∧
      (∀ Z, kvGet Example.sOrphan.db.blocksTable Z.blockid = some Z →
        Z.height ≤ (Example.hdrG.setInTrunk true).height →
        BatchOp.delBlock Z.blockid ∉ ps.flatMap removeOps)) ∧
    kvGet Example.sOrphan.db.blocksTable Example.orphan.preHash = none ∧
    (removeBlocks 4 Example.sOrphan [8] [1] []).map (fun r => (r.1, r.2.2)) =
      some (.ok (), [BatchOp.delBlock [8]]) :=
  ⟨removeBlocks_walk Example.s4r (Example.stored Example.s4r [4])
      (Example.stored Example.s4r [1]) [] 3 (by unfold DB.Linked; decide)
      (by unfold Ledger.CacheShowsStore Ledger.PtrsValid; decide)
      (by decide) (by decide) (by decide),
    by decide, by decide, by decide,
    removeBlocks_walk Example.sOrphan Example.orphan (Example.hdrG.setInTrunk true) [] 4
      (by unfold DB.Linked; decide) (by unfold Ledger.CacheShowsStore Ledger.PtrsValid; decide)
      (by decide) (by decide) (by decide),
    by decide, by decide⟩

/-! ## C21: the meta record after Truncate -/

/-- The loop of `Truncate` over branch tips that are stored, on a linked store whose header
cache shows it: it ends without an error, and store, meta and the target object are as
before. -/
theorem truncateTips_ok (db : DB) (T : InternalBlock) (hs : db.Linked) (fuel : Nat)
    (blockA : Addr) (hT : kvGet db.blocksTable T.blockid = some T) (tips : List Bytes) :
    ∀ (l : Ledger) (batch : Batch), l.CacheShowsStore → l.db = db → blockA < l.heap.length →
      (l.deref blockA).link = T.link →
      (∀ tip ∈ tips, ∃ F, kvGet db.blocksTable tip = some F ∧
        (F.height - T.height).toNat + 1 ≤ fuel) →
      ∃ L2 bw, truncateTips fuel blockA tips l batch = some (.ok (), L2, bw) ∧
        L2.db = db ∧ L2.meta = l.meta ∧ L2.deref blockA = l.deref blockA := by
  induction tips with
  | nil =>
    intro l batch _ hdb _ _ _
    exact ⟨l, batch, rfl, hdb, rfl, rfl⟩
  | cons tip rest ih =>
    intro l batch hc hdb ha hlink htips
    obtain ⟨F, hF, hfuel⟩ := htips tip (List.mem_cons_self _ _)
    have hFid : F.blockid = tip := (hs (tip, F) (kvGet_mem _ _ _ hF)).1
    have hid : (l.deref blockA).blockid = T.blockid := congrArg (fun x => x.1) hlink
    obtain ⟨L1, hr, h1, h2, h3, h4, h5⟩ := removeBlocks_spec l F T batch fuel
      (by rw [hdb]; exact hs) hc (by rw [hdb, hFid]; exact hF) (by rw [hdb]; exact hT) hfuel
    rw [hFid] at hr
    unfold truncateTips
    rw [hid, hr]
    simp only [updateBranchInfo]
    obtain ⟨L2, bw, hr2, k1, k2, k3⟩ := ih L1 _ h3 (by rw [h1, hdb])
      (Nat.lt_of_lt_of_le ha h4) (by rw [h5 _ ha]; exact hlink)
      (fun t ht => htips t (List.mem_cons_of_mem _ ht))
    exact ⟨L2, bw, hr2, k1, by rw [k2, h2], by rw [k3, h5 _ ha]⟩

/-- `Truncate` on a linked store whose header cache shows it.  When `t` names the stored block
`T`, every recorded branch tip is stored, the fuel covers the levels of each tip above `T` and
the batch write succeeds, `Truncate(t)` returns no error and leaves the meta
`{root as before, tip = t, trunk_height = T.height}`, which is the persisted meta record.  When
`t` names no stored block, it returns the not-found error of the store and the ledger is as
before. -/
theorem truncate_meta (l : Ledger) (t : Bytes) (T : InternalBlock) (fuel : Nat)
    (kvErr : Option LedgerError) (hs : l.db.Linked) (hc : l.CacheShowsStore) :
    (kvGet l.db.blocksTable t = some T →
      (∀ e ∈ l.db.branchTable, ∃ F, kvGet l.db.blocksTable e.1 = some F ∧
        (F.height - T.height).toNat + 1 ≤ fuel) →
      ∃ L2, Truncate none fuel l t = some (.ok (), L2) ∧
        L2.meta = ⟨l.meta.rootBlockid, t, T.height⟩ ∧
        kvGet L2.db.metaTable [] = some L2.meta) ∧
    (kvGet l.db.blocksTable t = none →
      Truncate kvErr fuel l t = some (.error .ErrKVNotFound, l)) := by
  constructor
  · intro hT htips
    have hTid : T.blockid = t := (hs (t, T) (kvGet_mem _ _ _ hT)).1
    unfold Truncate
    cases hf : fetchBlock l t with
    | mk r1 l1 =>
      obtain ⟨hc1, hdb1, hm1, hle1, hold1, hok1, herr1⟩ := fetchBlock_shows l l1 _ r1 hc hf
      cases r1 with
      | error e =>
        have := herr1 e rfl
        rw [hT] at this
        cases this
      | ok blockA =>
        obtain ⟨ha, Z, hz, hzl, _⟩ := hok1 blockA rfl
        rw [hT] at hz
        cases hz
        simp only [GetBranchInfo]
        obtain ⟨L2, bw, hr, k1, k2, k3⟩ := truncateTips_ok l.db T hs fuel blockA
          (by rw [hTid]; exact hT) (l1.db.branchTable.map (fun e => e.1)) l1 [] hc1 hdb1 ha hzl
          (by
            intro tip htip
            obtain ⟨e, he, rfl⟩ := List.mem_map.1 htip
            rw [hdb1] at he
            exact htips e he)
        rw [hr]
        simp only
        have hh : (L2.deref blockA).height = T.height := by
          rw [k3]
          exact congrArg (fun x => x.2.2) hzl
        refine ⟨_, rfl, ?_, ?_⟩
        · show (⟨l.meta.rootBlockid, t, (L2.deref blockA).height⟩ : LedgerMeta) = _
          rw [hh]
        · show kvGet (applyBatch L2.db (bw ++ [BatchOp.putMeta _])).metaTable [] = some _
          rw [applyBatch_append]
          simp [applyBatch, applyOp, kvGet_kvPut_self, Ledger.written]
  · intro hT
    unfold Truncate
    rw [fetchBlock_err l t (by
      unfold headerAt
      cases hg : kvGet l.blkHeaderCache.entries t with
      | none => exact hT
      | some a =>
        have := hc.2 (t, a) (kvGet_mem _ _ _ hg)
        rw [hT] at this
        cases this)]

/-- C21 (Truncate meta) at its failing input.  The genesis ledger stores no block under `[9]`,
and `Truncate([9])` returns the not-found error and leaves the ledger as it is.  After
`ConfirmBlock(A1cb, false)`, which is refused with `TxDuplicated` and leaves store and meta as
they were, the Blocks table still holds nothing under `[9]`, but `Truncate([9])` returns no
error: the meta becomes `{root [1], tip [9], trunk_height 1}`, the Meta table holds that
record, and the key-value store is not the one before. -/
theorem truncate_accepts_unstored_block :
    kvGet Example.s1.db.blocksTable [9] = none ∧
    Truncate none 8 Example.s1 [9] = some (.error .ErrKVNotFound, Example.s1) ∧
    (ConfirmBlock Example.env none 8 Example.s1 Example.A1cb false).map
        (fun r => (r.1.succ, r.1.error, decide (r.2.db = Example.s1.db),
          decide (r.2.meta = Example.s1.meta))) =
      some (false, some LedgerError.ErrTxDuplicated, true, true) ∧
    kvGet (Example.after Example.s1 Example.A1cb false).db.blocksTable [9] = none ∧
    (Truncate none 8 (Example.after Example.s1 Example.A1cb false) [9]).map
        (fun r => (r.1, r.2.meta, kvGet r.2.db.metaTable [],
          decide (r.2.db = Example.s1.db))) =
      some (.ok (), { rootBlockid := [1], tipBlockid := [9], trunkHeight := 1 },
        some { rootBlockid := [1], tipBlockid := [9], trunkHeight := 1 }, false) := by
  decide

/-! ## C33: the keys of a write batch -/

/-- A run with one more call at its end. -/
theorem run_append (cs : List BatchCall) (c : BatchCall) :
    ∀ bt : ldbBatch, bt.run (cs ++ [c]) =
      ((bt.run cs).1 ++ [(c, ((bt.run cs).2.call c).1)], ((bt.run cs).2.call c).2) := by
  induction cs with
  | nil => intro bt; rfl
  | cons d rest ih =>
    intro bt
    show bt.run (d :: (rest ++ [c])) = _
    rw [ldbBatch.run, ih]
    rfl

/-- Nothing has succeeded in the empty history. -/
theorem succeededSince_nil (key : Bytes) : ¬ SucceededSince [] key := by
  rintro ⟨before, later, value, h, _⟩
  cases before <;> cases h

/-- A history with one more entry: either the entry is a successful `PutIfAbsent` of the key,
or one has succeeded before and the entry is not a `Reset`. -/
theorem succeededSince_snoc (hist : List (BatchCall × BatchRet)) (e : BatchCall × BatchRet)
    (key : Bytes) :
    SucceededSince (hist ++ [e]) key ↔
      (∃ value, e = (BatchCall.PutIfAbsent key value, BatchRet.err none)) ∨
      (SucceededSince hist key ∧ e.1 ≠ BatchCall.Reset) := by
  constructor
  · rintro ⟨before, later, value, h, hl⟩
    rcases List.eq_nil_or_concat later with rfl | ⟨init, last, rfl⟩
    · left
      have h2 : hist ++ [e] =
          before ++ [(BatchCall.PutIfAbsent key value, BatchRet.err none)] := h
      have := List.append_inj_right' h2 rfl
      exact ⟨value, by simpa using this⟩
    · right
      have h2 : hist ++ [e] =
          (before ++ (BatchCall.PutIfAbsent key value, BatchRet.err none) :: init) ++ [last] := by
        rw [h]; simp
      have h3 := List.append_inj_left' h2 rfl
      have h4 := List.append_inj_right' h2 rfl
      have h5 : e = last := by simpa using h4
      refine ⟨⟨before, init, value, h3, fun x hx => hl x (by simp [hx])⟩, ?_⟩
      rw [h5]
      exact hl last (by simp)
  · rintro (⟨value, rfl⟩ | ⟨⟨before, later, value, h, hl⟩, hne⟩)
    · exact ⟨hist, [], value, rfl, fun x hx => by cases hx⟩
    · refine ⟨before, later ++ [e], value, by rw [h]; simp, ?_⟩
      intro x hx
      rcases List.mem_append.1 hx with hx | hx
      · exact hl x hx
      · rw [List.mem_singleton.1 hx]; exact hne

/-- After any sequence of calls on a new batch, `keys` holds exactly the keys of which a
`PutIfAbsent` has succeeded since the last `Reset`. -/
theorem run_exist (cs : List BatchCall) (key : Bytes) :
    (NewBatch.run cs).2.Exist key = true ↔ SucceededSince (NewBatch.run cs).1 key := by
  induction cs using List.reverseRecOn with
  | nil =>
    constructor
    · intro h; cases h
    · intro h; exact absurd h (succeededSince_nil key)
  | append_singleton cs c ih =>
    rw [run_append]
    simp only
    rw [succeededSince_snoc, ← ih]
    obtain ⟨bt, hbt⟩ : ∃ bt, bt = (NewBatch.run cs).2 := ⟨_, rfl⟩
    rw [← hbt]
    cases c with
    | Put k v => simp [ldbBatch.call, ldbBatch.Put, ldbBatch.Exist]
    | Delete k => simp [ldbBatch.call, ldbBatch.Delete, ldbBatch.Exist]
    | Exist k => simp [ldbBatch.call]
    | Write w => simp [ldbBatch.call, ldbBatch.Write]
    | ValueSize => simp [ldbBatch.call]
    | Reset => simp [ldbBatch.call, ldbBatch.Reset, ldbBatch.Exist, kvGet]
    | PutIfAbsent k v =>
      by_cases hk : k = key
      · subst hk
        cases hx : (kvGet bt.keys k).getD false with
        | true =>
          simp [ldbBatch.call, ldbBatch.PutIfAbsent, ldbBatch.Exist, hx]
        | false =>
          simp [ldbBatch.call, ldbBatch.PutIfAbsent, ldbBatch.Exist, hx, kvGet_kvPut_self]
      · have hne : ∀ value, ¬ ((BatchCall.PutIfAbsent k v, (bt.call (BatchCall.PutIfAbsent k v)).1) =
            (BatchCall.PutIfAbsent key value, BatchRet.err none)) := by
          intro value h
          injection h with h1 _
          injection h1 with h2 _
          exact hk h2
        cases hx : (kvGet bt.keys k).getD false with
        | true =>
          simp [ldbBatch.call, ldbBatch.PutIfAbsent, ldbBatch.Exist, hx, hk]
        | false =>
          simp [ldbBatch.call, ldbBatch.PutIfAbsent, ldbBatch.Exist, hx, hk,
            kvGet_kvPut_ne _ _ _ _ (fun e => hk e.symm)]

/-- C33: batch key tracking.  After any sequence of calls on a new batch (`NewBatch`),
`PutIfAbsent(key, value)` returns nil exactly when no `PutIfAbsent` of that key has returned
nil since the last `Reset`; a call that does not return nil returns the duplicated-key error
and leaves the batch (its records, `ValueSize` and `keys`) as it was; `Exist(key)` is true
exactly when a `PutIfAbsent` of that key has returned nil since the last `Reset`; `Put` and
`Delete`, of any key, return nil and leave `Exist(key)` as it was; and after `Reset`,
`ValueSize` is 0 and `Exist` is false for every key. -/
theorem ldbBatch_key_tracking (calls : List BatchCall) (key value : Bytes) :
    (((NewBatch.run calls).2.PutIfAbsent key value).1 = none ↔
      ¬ SucceededSince (NewBatch.run calls).1 key) ∧
    (((NewBatch.run calls).2.PutIfAbsent key value).1 ≠ none →
      ((NewBatch.run calls).2.PutIfAbsent key value).1 = some (LdbError.duplicatedKey key) ∧
      ((NewBatch.run calls).2.PutIfAbsent key value).2 = (NewBatch.run calls).2) ∧
    ((NewBatch.run calls).2.Exist key = true ↔ SucceededSince (NewBatch.run calls).1 key) ∧
    (∀ k2 v2 : Bytes,
      ((NewBatch.run calls).2.Put k2 v2).1 = none ∧
      ((NewBatch.run calls).2.Put k2 v2).2.Exist key = (NewBatch.run calls).2.Exist key ∧
      ((NewBatch.run calls).2.Delete k2).1 = none ∧
      ((NewBatch.run calls).2.Delete k2).2.Exist key = (NewBatch.run calls).2.Exist key) ∧
    (NewBatch.run calls).2.Reset.ValueSize = 0 ∧
    (∀ k : Bytes, (NewBatch.run calls).2.Reset.Exist k = false) := by
  have hex := run_exist calls key
  obtain ⟨bt, hbt⟩ : ∃ bt, bt = (NewBatch.run calls).2 := ⟨_, rfl⟩
  rw [← hbt] at hex ⊢
  refine ⟨?_, ?_, hex, fun k2 v2 => ⟨rfl, rfl, rfl, rfl⟩, rfl, fun k => rfl⟩
  · rw [← hex]
    unfold ldbBatch.PutIfAbsent ldbBatch.Exist
    cases (kvGet bt.keys key).getD false <;> simp
  · unfold ldbBatch.PutIfAbsent
    cases (kvGet bt.keys key).getD false <;> simp

theorem ldbBatch_key_tracking_witness :
    ((NewBatch.run Example.batchCalls).2.PutIfAbsent [2] [6]).1 ≠ none ∧
    ((NewBatch.run Example.batchCalls).2.PutIfAbsent [2] [6]).1 =
      some (LdbError.duplicatedKey [2]) ∧
    ((NewBatch.run Example.batchCalls).2.PutIfAbsent [2] [6]).2 =
      (NewBatch.run Example.batchCalls).2 ∧
    (NewBatch.run Example.batchCalls).2 =
      { b := [LdbRecord.put [2] [5]], size := 1, keys := [([2], true)] } ∧
    SucceededSince (NewBatch.run Example.batchCalls).1 [2] ∧
    ¬ SucceededSince (NewBatch.run Example.batchCalls).1 [1] ∧
    ((NewBatch.run Example.batchCalls).2.PutIfAbsent [1] [6]).1 = none :=
  ⟨by decide,
    ((ldbBatch_key_tracking Example.batchCalls [2] [6]).2.1 (by decide)).1,
    ((ldbBatch_key_tracking Example.batchCalls [2] [6]).2.1 (by decide)).2,
    by decide,
    (ldbBatch_key_tracking Example.batchCalls [2] [6]).2.2.1.1 (by decide),
    (ldbBatch_key_tracking Example.batchCalls [1] [6]).1.1 (by decide),
    by decide⟩

/-! ## C32: the flags of the returned status -/

/-- The tail of `ConfirmBlock` leaves the flags `Split`, `Orphan` and `TrunkSwitch` as they
are, and reports success only with the `Error` field it was entered with. -/
theorem confirmCommit_flags (env : Env) (kvErr : Option LedgerError) (L : Ledger) (a : Addr)
    (txs : List Transaction) (nm : LedgerMeta) (sh : Int) (st : ConfirmStatus) (isRoot : Bool)
    (bw : Batch) :
    (confirmCommit env kvErr L a txs nm sh st isRoot bw).1.split = st.split ∧
    (confirmCommit env kvErr L a txs nm sh st isRoot bw).1.orphan = st.orphan ∧
    (confirmCommit env kvErr L a txs nm sh st isRoot bw).1.trunkSwitch = st.trunkSwitch ∧
    ((confirmCommit env kvErr L a txs nm sh st isRoot bw).1.succ = true →
      (confirmCommit env kvErr L a txs nm sh st isRoot bw).1.error = st.error) := by
  unfold confirmCommit updateBranchInfo
  simp only
  cases confirmTxs (saveBlock L a bw).1.db ((saveBlock L a bw).1.deref a).inTrunk sh
      (parallelCheckTx env (saveBlock L a bw).1 txs ((saveBlock L a bw).1.deref a)).1
      (parallelCheckTx env (saveBlock L a bw).1 txs ((saveBlock L a bw).1.deref a)).2.1
      (parallelCheckTx env (saveBlock L a bw).1 txs ((saveBlock L a bw).1.deref a)).2.2 0 []
      ((saveBlock L a bw).2 ++ branchOps ((saveBlock L a bw).1.deref a).blockid
        ((saveBlock L a bw).1.deref a).preHash ((saveBlock L a bw).1.deref a).height) with
  | error e => exact ⟨rfl, rfl, rfl, fun h => (by cases h)⟩
  | ok bw3 =>
    simp only
    unfold confirmFinish
    cases kvErr with
    | some e =>
      cases isRoot with
      | false => exact ⟨rfl, rfl, rfl, fun h => (by cases h)⟩
      | true =>
        simp only [if_true]
        split
        · exact ⟨rfl, rfl, rfl, fun h => (by cases h)⟩
        · exact ⟨rfl, rfl, rfl, fun h => (by cases h)⟩
    | none =>
      cases isRoot with
      | false => exact ⟨rfl, rfl, rfl, fun _ => rfl⟩
      | true =>
        simp only [if_true]
        split
        · exact ⟨rfl, rfl, rfl, fun h => (by cases h)⟩
        · exact ⟨rfl, rfl, rfl, fun _ => rfl⟩

/-- C32: ConfirmStatus consistency.  For every ledger, block, `isRoot` flag, outcome of the
batch write and fuel, the status `ConfirmBlock` returns satisfies: `Orphan` implies `Split` and
not `TrunkSwitch`; `TrunkSwitch` implies `Split` and not `Orphan`; `Succ` implies a nil
`Error`; and for `isRoot = true` the flags `Split`, `Orphan` and `TrunkSwitch` are all false.
The only call without a status is a non-root call whose fork walk does not finish within the
fuel. -/
theorem confirmStatus_consistent (env : Env) (kvErr : Option LedgerError) (fuel : Nat)
    (l : Ledger) (B : InternalBlock) (isRoot : Bool) :
    (∀ r, ConfirmBlock env kvErr fuel l B isRoot = some r →
      (r.1.orphan = true → r.1.split = true ∧ r.1.trunkSwitch = false) ∧
      (r.1.trunkSwitch = true → r.1.split = true ∧ r.1.orphan = false) ∧
      (r.1.succ = true → r.1.error = none) ∧
      (isRoot = true → r.1.split = false ∧ r.1.orphan = false ∧ r.1.trunkSwitch = false)) ∧
    (ConfirmBlock env kvErr fuel l B isRoot = none →
      isRoot = false ∧ forkStep fuel l B = none) := by
  refine ⟨?_, ?_⟩
  · intro r hr
    -- a status with the flags of `st0` and, on success, its nil error
    have key : ∀ (L : Ledger) (a : Addr) (nm : LedgerMeta) (sh : Int) (st0 : ConfirmStatus)
        (bw : Batch), st0.error = none →
        (st0.orphan = true → st0.split = true ∧ st0.trunkSwitch = false) →
        (st0.trunkSwitch = true → st0.split = true ∧ st0.orphan = false) →
        (isRoot = true → st0.split = false ∧ st0.orphan = false ∧ st0.trunkSwitch = false) →
        r = confirmCommit env kvErr L a B.transactions nm sh st0 isRoot bw →
        (r.1.orphan = true → r.1.split = true ∧ r.1.trunkSwitch = false) ∧
        (r.1.trunkSwitch = true → r.1.split = true ∧ r.1.orphan = false) ∧
        (r.1.succ = true → r.1.error = none) ∧
        (isRoot = true → r.1.split = false ∧ r.1.orphan = false ∧ r.1.trunkSwitch = false) := by
      intro L a nm sh st0 bw he h1 h2 h3 hreq
      obtain ⟨f1, f2, f3, f4⟩ := confirmCommit_flags env kvErr L a B.transactions nm sh st0
        isRoot bw
      rw [← hreq] at f1 f2 f3 f4
      rw [f1, f2, f3]
      exact ⟨h1, h2, fun hs => (f4 hs).trans he, h3⟩
    have fail : ∀ (e : Option LedgerError) (L : Ledger),
        r = ({ ({} : ConfirmStatus) with succ := false, error := e }, L) →
        (r.1.orphan = true → r.1.split = true ∧ r.1.trunkSwitch = false) ∧
        (r.1.trunkSwitch = true → r.1.split = true ∧ r.1.orphan = false) ∧
        (r.1.succ = true → r.1.error = none) ∧
        (isRoot = true → r.1.split = false ∧ r.1.orphan = false ∧ r.1.trunkSwitch = false) := by
      intro e L hreq
      subst hreq
      exact ⟨fun h => (by cases h), fun h => (by cases h), fun h => (by cases h),
        fun _ => ⟨rfl, rfl, rfl⟩⟩
    unfold ConfirmBlock at hr
    simp only at hr
    cases isRoot with
    | true =>
      simp only [if_true] at hr
      split_ifs at hr
      · exact fail none _ (Option.some.inj hr).symm
      · exact fail _ _ (Option.some.inj hr).symm
      · exact key _ _ _ _ {} _ rfl (fun h => (by cases h)) (fun h => (by cases h))
          (fun _ => ⟨rfl, rfl, rfl⟩) (Option.some.inj hr).symm
    | false =>
      simp only [Bool.false_eq_true, if_false] at hr
      cases hf : fetchBlock (l.alloc (B.setTransactions [])) B.preHash with
      | mk r1 l1 =>
        rw [hf] at hr
        cases r1 with
        | error e => exact fail none _ (Option.some.inj hr).symm
        | ok pa =>
          simp only at hr
          split_ifs at hr
          · exact key _ _ _ _ {} _ rfl (fun h => (by cases h)) (fun h => (by cases h))
              (fun h => (by cases h)) (Option.some.inj hr).symm
          · exact key _ _ _ _ {} _ rfl (fun h => (by cases h)) (fun h => (by cases h))
              (fun h => (by cases h)) (Option.some.inj hr).symm
          · revert hr
            split
            · intro hr; cases hr
            · intro hr; exact fail none _ (Option.some.inj hr).symm
            · intro hr
              exact key _ _ _ _ { split := true, trunkSwitch := true } _ rfl
                (fun h => (by cases h)) (fun _ => ⟨rfl, rfl⟩) (fun h => (by cases h))
                (Option.some.inj hr).symm
          · exact key _ _ _ _ { split := true, trunkSwitch := false, orphan := true } _ rfl
              (fun _ => ⟨rfl, rfl⟩) (fun h => (by cases h)) (fun h => (by cases h))
              (Option.some.inj hr).symm
  · intro hn
    rcases confirmBlock_shape env kvErr fuel l B isRoot with ⟨_, h2, h3⟩ | ⟨st, L, h, _⟩ |
        ⟨L, a, nm, sh, st, bw, h, _⟩
    · exact ⟨h2, h3⟩
    · rw [hn] at h; cases h
    · rw [hn] at h; cases h

theorem confirmStatus_consistent_witness :
    (∃ r, ConfirmBlock Example.env none 8 Example.s2 Example.F1 false = some r ∧
      r.1.orphan = true ∧ r.1.split = true ∧ r.1.trunkSwitch = false ∧
      r.1.succ = true ∧ r.1.error = none) ∧
    (∃ r, ConfirmBlock Example.env none 8 Example.s3 Example.F2 false = some r ∧
      r.1.trunkSwitch = true ∧ r.1.split = true ∧ r.1.orphan = false ∧
      r.1.succ = true ∧ r.1.error = none) ∧
    (∃ r, ConfirmBlock Example.env none 8 {} Example.G true = some r ∧
      r.1.succ = true ∧ r.1.error = none ∧
      r.1.split = false ∧ r.1.orphan = false ∧ r.1.trunkSwitch = false) := by
  refine ⟨?_, ?_, ?_⟩
  · obtain ⟨r, hr⟩ := Option.isSome_iff_exists.1
      (show (ConfirmBlock Example.env none 8 Example.s2 Example.F1 false).isSome = true by
        decide)
    have ho : r.1.orphan = true := by
      have h2 : (ConfirmBlock Example.env none 8 Example.s2 Example.F1 false).map
          (fun r => r.1.orphan) = some true := by decide
      rw [hr] at h2
      exact Option.some.inj h2
    have hs : r.1.succ = true := by
      have h2 : (ConfirmBlock Example.env none 8 Example.s2 Example.F1 false).map
          (fun r => r.1.succ) = some true := by decide
      rw [hr] at h2
      exact Option.some.inj h2
    have h := (confirmStatus_consistent Example.env none 8 Example.s2 Example.F1 false).1 r hr
    exact ⟨r, hr, ho, (h.1 ho).1, (h.1 ho).2, hs, h.2.2.1 hs⟩
  · obtain ⟨r, hr⟩ := Option.isSome_iff_exists.1
      (show (ConfirmBlock Example.env none 8 Example.s3 Example.F2 false).isSome = true by
        decide)
    have ho : r.1.trunkSwitch = true := by
      have h2 : (ConfirmBlock Example.env none 8 Example.s3 Example.F2 false).map
          (fun r => r.1.trunkSwitch) = some true := by decide
      rw [hr] at h2
      exact Option.some.inj h2
    have hs : r.1.succ = true := by
      have h2 : (ConfirmBlock Example.env none 8 Example.s3 Example.F2 false).map
          (fun r => r.1.succ) = some true := by decide
      rw [hr] at h2
      exact Option.some.inj h2
    have h := (confirmStatus_consistent Example.env none 8 Example.s3 Example.F2 false).1 r hr
    exact ⟨r, hr, ho, (h.2.1 ho).1, (h.2.1 ho).2, hs, h.2.2.1 hs⟩
  · obtain ⟨r, hr⟩ := Option.isSome_iff_exists.1
      (show (ConfirmBlock Example.env none 8 {} Example.G true).isSome = true by decide)
    have hs : r.1.succ = true := by
      have h2 : (ConfirmBlock Example.env none 8 {} Example.G true).map
          (fun r => r.1.succ) = some true := by decide
      rw [hr] at h2
      exact Option.some.inj h2
    have h := (confirmStatus_consistent Example.env none 8 {} Example.G true).1 r hr
    exact ⟨r, hr, hs, h.2.2.1 hs, (h.2.2.2 rfl).1, (h.2.2.2 rfl).2.1, (h.2.2.2 rfl).2.2⟩

/-! ## C31: heights along a run of ConfirmBlock calls -/

/-- On an honest ledger, the header fetched for an id has that id and agrees with the
predecessor map. -/
theorem headerResult_honest (pre : Bytes → Bytes) (l : Ledger) (hl : l.Honest pre)
    (id : Bytes) (b : InternalBlock) (h : headerResult l id = .ok b) :
    b.blockid = id ∧ HonestBlock pre b := by
  unfold headerResult QueryBlockHeader at h
  cases hf : fetchBlock l id with
  | mk r l1 =>
    obtain ⟨_, hfetch⟩ := fetchBlock_honest pre l l1 id r hl.cache hl.store hf
    rw [hf] at h
    cases r with
    | error e => cases h
    | ok a =>
      simp only at h
      obtain ⟨_, h1, h2⟩ := hfetch a rfl
      cases h
      exact ⟨h1, h2⟩

/-- On an honest ledger every fetched header is one higher than its fetched predecessor, and
no higher than the trunk when its id is stored. -/
theorem honest_fetch_heights (pre : Bytes → Bytes) (l : Ledger) (hl : l.Honest pre)
    (id : Bytes) (b : InternalBlock) (h : headerResult l id = .ok b) :
    ((kvGet l.db.blocksTable id).isSome = true → b.height ≤ l.meta.trunkHeight) ∧
    (∀ p, headerResult l b.preHash = .ok p → b.height = p.height + 1) := by
  obtain ⟨hid, hne, hpre, hd⟩ := headerResult_honest pre l hl id b h
  constructor
  · intro hs
    obtain ⟨s, hs⟩ := Option.isSome_iff_exists.1 hs
    have hmem := kvGet_mem _ _ _ hs
    obtain ⟨h1, _, _, h3⟩ := hl.store _ hmem
    have h4 := hl.below _ hmem
    have h5 : s.blockid = b.blockid := by rw [hid]; exact h1
    rw [h5] at h3
    have := depth_fun pre _ _ _ h3 hd
    show b.height ≤ _
    have h6 : s.height ≤ l.meta.trunkHeight := h4
    omega
  · intro p hp
    obtain ⟨hpid, _, _, hpd⟩ := headerResult_honest pre l hl _ p hp
    have h1 := depth_pre pre _ _ hd hne
    rw [← hpre, ← hpid] at h1
    have := depth_fun pre _ _ _ h1 hpd
    omega

/-- The header of a stored id can be fetched on an honest ledger. -/
theorem headerResult_stored (l : Ledger)
    (id : Bytes) (hs : (kvGet l.db.blocksTable id).isSome = true) :
    ∃ b, headerResult l id = .ok b := by
  unfold headerResult QueryBlockHeader fetchBlock
  cases hg : l.blkHeaderCache.Get id with
  | mk o c =>
    cases o with
    | some a => exact ⟨_, rfl⟩
    | none =>
      simp only
      obtain ⟨s, hs⟩ := Option.isSome_iff_exists.1 hs
      rw [hs]
      exact ⟨_, rfl⟩

/-- What a call that takes the reorg branch is: the predecessor is fetched, it is not the tip
and it is at least as high as the trunk. -/
theorem reorgPre_spec (l : Ledger) (B P : InternalBlock) (hv : l.PtrsValid)
    (h : reorgPre l B = some P) :
    ∃ pa l1, fetchBlock (l.alloc (B.setTransactions [])) B.preHash = (.ok pa, l1) ∧
      P = l1.deref pa ∧ pa ≠ l.heap.length ∧ P.blockid ≠ l.meta.tipBlockid ∧
      P.height + 1 > l.meta.trunkHeight := by
  unfold reorgPre at h
  cases hf : fetchBlock (l.alloc (B.setTransactions [])) B.preHash with
  | mk r l1 =>
    rw [hf] at h
    cases r with
    | error e => cases h
    | ok pa =>
      have hu0 := unaliased_alloc l (B.setTransactions []) hv
      obtain ⟨_, _, hpane⟩ := fetchBlock_unaliased _ l1 _ _ _ hu0 hf
      have hne : pa ≠ l.heap.length := hpane pa rfl
      have hd : (l1.modify l.heap.length
          (InternalBlock.setHeight ((l1.deref pa).height + 1))).deref pa = l1.deref pa :=
        deref_modify_ne _ _ _ _ (fun e => hne e.symm)
      simp only [hd] at h
      split_ifs at h with h1 h2
      cases h
      exact ⟨pa, l1, rfl, rfl, hne, h1, h2⟩

/-- A call on the reorg branch, in terms of its `handleFork` call. -/
theorem confirmBlock_reorg_call (env : Env) (kvErr : Option LedgerError) (fuel : Nat)
    (l : Ledger) (B P : InternalBlock) (hv : l.PtrsValid) (h : reorgPre l B = some P) :
    ConfirmBlock env kvErr fuel l B false =
      match forkStep fuel l B with
      | none => none
      | some (.error _, L4, _) => some ({ succ := false }, L4)
      | some (.ok sa, L4, bw1) =>
        some (confirmCommit env kvErr L4 l.heap.length B.transactions
          { l.meta with trunkHeight := P.height + 1, tipBlockid := B.blockid }
          (L4.deref sa).height { split := true, trunkSwitch := true } false bw1) := by
  obtain ⟨pa, l1, hf, hP, hne, ht, hh⟩ := reorgPre_spec l B P hv h
  have hu0 := unaliased_alloc l (B.setTransactions []) hv
  have hlt0 : l.heap.length < (l.alloc (B.setTransactions [])).heap.length := hu0.1
  obtain ⟨_, _, _, _, _, hold, _, _⟩ := fetchBlock_frame _ l1 _ _ hf
  obtain ⟨hu1, _, _⟩ := fetchBlock_unaliased _ l1 _ _ _ hu0 hf
  have hderef : l1.deref l.heap.length = B.setTransactions [] := by
    rw [hold _ hlt0, deref_alloc_new]
  obtain ⟨l2, hl2⟩ : ∃ l2, l2 = l1.modify l.heap.length
      (InternalBlock.setHeight ((l1.deref pa).height + 1)) := ⟨_, rfl⟩
  have hu2 : l2.Unaliased l.heap.length := by
    rw [hl2]; exact unaliased_modify _ _ _ _ hu1
  have hd2p : l2.deref pa = l1.deref pa := by
    rw [hl2, deref_modify_ne _ _ _ _ (fun e => hne e.symm)]
  have hd2a : l2.deref l.heap.length =
      (B.setTransactions []).setHeight ((l1.deref pa).height + 1) := by
    rw [hl2, deref_modify_same _ _ _ hu1.1, hderef]
  obtain ⟨l3, hl3⟩ : ∃ l3, l3 = l2.modify l.heap.length (InternalBlock.setInTrunk true) :=
    ⟨_, rfl⟩
  have hd3a : l3.deref l.heap.length =
      ((B.setTransactions []).setHeight ((l1.deref pa).height + 1)).setInTrunk true := by
    rw [hl3, deref_modify_same _ _ _ hu2.1, hd2a]
  have hd3p : l3.deref pa = l1.deref pa := by
    rw [hl3, deref_modify_ne _ _ _ _ (fun e => hne e.symm), hd2p]
  rw [hP] at ht hh
  have hfs : forkStep fuel l B =
      handleFork fuel l3 l.meta.tipBlockid (l1.deref pa).blockid B.blockid [] := by
    unfold forkStep
    rw [hf]
    simp only
    rw [← hl2, ← hl3]
  rw [hfs]
  unfold ConfirmBlock
  simp only [Bool.false_eq_true, if_false, hf, alloc_meta]
  rw [← hl2]
  simp only [hd2p, ht, hh, if_true, if_false]
  rw [← hl3]
  simp only [hd3p, hd3a]
  rw [show (((B.setTransactions []).setHeight ((l1.deref pa).height + 1)).setInTrunk
    true).blockid = B.blockid from rfl, hP]
  cases handleFork fuel l3 l.meta.tipBlockid (l1.deref pa).blockid B.blockid [] with
  | none => rfl
  | some res =>
    obtain ⟨r2, L4, bw1⟩ := res
    cases r2 with
    | error e => rfl
    | ok sa =>
      simp only [hd2a]
      rfl

/-- The `handleFork` call of a call on the reorg branch of an honest ledger is made on a
ledger whose header cache is honest. -/
theorem forkStep_reorg (pre : Bytes → Bytes) (l : Ledger) (hl : l.Honest pre)
    (B P : InternalBlock) (h : reorgPre l B = some P) :
    P.blockid = B.preHash ∧ HonestBlock pre P ∧
    ∃ l3, l3.CacheHonest pre ∧ l3.db = l.db ∧
      ∀ fuel, forkStep fuel l B =
        handleFork fuel l3 l.meta.tipBlockid P.blockid B.blockid [] := by
  obtain ⟨pa, l1, hf, hP, hne, ht, hh⟩ := reorgPre_spec l B P hl.cache.1 h
  have hc0 : (l.alloc (B.setTransactions [])).CacheHonest pre :=
    cacheHonest_alloc pre l _ hl.cache
  have hu0 := unaliased_alloc l (B.setTransactions []) hl.cache.1
  obtain ⟨hdb, _⟩ := fetchBlock_frame _ l1 _ _ hf
  obtain ⟨hc1, hfetch⟩ := fetchBlock_honest pre _ l1 _ _ hc0
    (by rw [alloc_db]; exact hl.store) hf
  obtain ⟨hu1, _, _⟩ := fetchBlock_unaliased _ l1 _ _ _ hu0 hf
  obtain ⟨_, hpid, hph⟩ := hfetch pa rfl
  have hu2 := unaliased_modify l1 l.heap.length l.heap.length
    (InternalBlock.setHeight ((l1.deref pa).height + 1)) hu1
  refine ⟨by rw [hP]; exact hpid, by rw [hP]; exact hph,
    (l1.modify l.heap.length (InternalBlock.setHeight ((l1.deref pa).height + 1))).modify
      l.heap.length (InternalBlock.setInTrunk true),
    cacheHonest_modify_unaliased pre _ _ _ hu2 (cacheHonest_modify_unaliased pre _ _ _ hu1 hc1),
    by rw [modify_db, modify_db, hdb, alloc_db], ?_⟩
  intro fuel
  unfold forkStep
  rw [hf, hP]

/-- On an honest ledger, a call on the reorg branch whose predecessor is stored, or whose
`handleFork` returns a block, has a predecessor as high as the trunk, and so is the old tip. -/
theorem reorg_equal_heights (pre : Bytes → Bytes) (l : Ledger) (hl : l.Honest pre)
    (B P : InternalBlock) (h : reorgPre l B = some P)
    (hor : (kvGet l.db.blocksTable B.preHash).isSome = true ∨
      ∃ fuel sa L4 bw, forkStep fuel l B = some (.ok sa, L4, bw)) :
    P.height = l.meta.trunkHeight ∧
    ∃ T, headerResult l l.meta.tipBlockid = .ok T ∧ T.height = P.height := by
  obtain ⟨_, _, _, _, _, _, hh⟩ := reorgPre_spec l B P hl.cache.1 h
  obtain ⟨hpid, hph, l3, hc3, hdb3, hfs⟩ := forkStep_reorg pre l hl B P h
  have key : l.meta.rootBlockid ≠ [] ∧ P.height ≤ l.meta.trunkHeight := by
    rcases hor with hs | ⟨fuel, sa, L4, bw, hk⟩
    · obtain ⟨s, hs⟩ := Option.isSome_iff_exists.1 hs
      have hmem := kvGet_mem _ _ _ hs
      refine ⟨fun e => ?_, ?_⟩
      · rw [(hl.empty e).1] at hmem
        cases hmem
      · obtain ⟨h1, _, _, h3⟩ := hl.store _ hmem
        have h4 : s.height ≤ l.meta.trunkHeight := hl.below _ hmem
        have h5 : s.blockid = P.blockid := by rw [hpid]; exact h1
        have h6 : Depth pre s.blockid s.height := h3
        rw [h5] at h6
        have := depth_fun pre _ _ _ h6 hph.2.2
        omega
    · rw [hfs] at hk
      obtain ⟨_, hres⟩ := handleFork_honest pre fuel l3 _ _ _ _ _ _ _ hc3
        (by rw [hdb3]; exact hl.store) hk
      obtain ⟨_, k, fext, _, hdone⟩ := hres sa rfl
      have hroot : l.meta.rootBlockid ≠ [] := by
        intro e
        obtain ⟨_, _, htip, _⟩ := hl.empty e
        have := hdone.old_ne 0 (Nat.zero_le _)
        rw [htip] at this
        exact this rfl
      refine ⟨hroot, ?_⟩
      have htr := hl.trunk hroot
      have hn := htr.height_nonneg
      have hkle : k ≤ l.meta.trunkHeight.toNat := by
        by_contra hcon
        have h1 := hdone.old_ne (l.meta.trunkHeight.toNat + 1) (by omega)
        have h2 := depth_iterate pre (l.meta.trunkHeight.toNat + 1) _ _ htr.tip_depth
          (by push_cast; omega)
        have e : l.meta.trunkHeight - ((l.meta.trunkHeight.toNat + 1 : Nat) : Int) =
            -1 := by push_cast; omega
        rw [e] at h2
        exact h1 (depth_neg_one pre _ h2)
      have h1 := depth_iterate pre k _ _ htr.tip_depth (by omega)
      have h2 := depth_iterate pre k _ _ hph.2.2 (by omega)
      rw [hdone.meet] at h1
      have := depth_fun pre _ _ _ h1 h2
      omega
  obtain ⟨hroot, hle⟩ := key
  have htr := hl.trunk hroot
  have heq : P.height = l.meta.trunkHeight := by omega
  refine ⟨heq, ?_⟩
  obtain ⟨T, hT⟩ := headerResult_stored l l.meta.tipBlockid (htr.stored 0 (Nat.zero_le _))
  obtain ⟨hTid, _, _, hTd⟩ := headerResult_honest pre l hl _ T hT
  rw [hTid] at hTd
  have := depth_fun pre _ _ _ hTd htr.tip_depth
  exact ⟨T, hT, by omega⟩

/-- A call on the reorg branch that reports success: its `handleFork` returned a block, and
the trunk height it leaves is the height of its predecessor plus one. -/
theorem reorg_success (env : Env) (kvErr : Option LedgerError) (fuel : Nat) (l : Ledger)
    (B P : InternalBlock) (hv : l.PtrsValid) (h : reorgPre l B = some P)
    (r : ConfirmStatus × Ledger) (hr : ConfirmBlock env kvErr fuel l B false = some r)
    (hs : r.1.succ = true) :
    (∃ sa L4 bw, forkStep fuel l B = some (.ok sa, L4, bw)) ∧
    r.2.meta.trunkHeight = P.height + 1 := by
  rw [confirmBlock_reorg_call env kvErr fuel l B P hv h] at hr
  cases hk : forkStep fuel l B with
  | none => rw [hk] at hr; cases hr
  | some res =>
    obtain ⟨r2, L4, bw1⟩ := res
    rw [hk] at hr
    cases r2 with
    | error e =>
      simp only [Option.some.injEq] at hr
      rw [← hr] at hs
      cases hs
    | ok sa =>
      simp only [Option.some.injEq] at hr
      rw [← hr] at hs ⊢
      obtain ⟨_, _, ext, _, _, _, hm⟩ := confirmCommit_succ _ _ _ _ _ _ _ _ _ _ hs
      exact ⟨⟨sa, L4, bw1, rfl⟩, by rw [hm]⟩

/-- C31 (as stated, refuted): three runs of `ConfirmBlock` calls from the empty ledger.
After the root `[1]`, its child `[2]` and a block that has the id `[1]` again with `pre_hash`
`[2]`, the block `[2]` is fetched with height 1 and its predecessor `[1]` with height 2.  After
a root with an empty id, a block `[5]` on top of it and a second root `[1]`, the trunk height is
0 and the stored block `[5]` has height 1.  After the root `[1]` and the block `[9]` on top of
it, which is refused because it holds the coinbase transaction of the root again, the trunk
height is 0 and nothing is stored under `[9]`, but `fetchBlock` returns `[9]` with height 1;
the next call, for a block on top of `[9]`, takes the reorg branch with a predecessor of height
1, `handleFork` is called with the old tip `[1]` of height 0, fails, and the call reports
failure with the trunk height unchanged. -/
theorem height_bound_fails :
    (∃ l, runConfirms Example.env 10 {} Example.runCollide = some l ∧
      (headerResult l [2]).toOption.map (fun b => (b.preHash, b.height)) = some ([1], 1) ∧
      (headerResult l [1]).toOption.map (fun b => b.height) = some 2) ∧
    (∃ l, runConfirms Example.env 10 {} Example.runNoId = some l ∧
      l.meta.trunkHeight = 0 ∧
      (kvGet l.db.blocksTable [5]).map (fun b => b.height) = some 1 ∧
      (headerResult l [5]).toOption.map (fun b => b.height) = some 1) ∧
    (∃ l, runConfirms Example.env 10 {} Example.runRefused = some l ∧
      l.meta = { rootBlockid := [1], tipBlockid := [1], trunkHeight := 0 } ∧
      kvGet l.db.blocksTable [9] = none ∧
      (headerResult l [9]).toOption.map (fun b => (b.preHash, b.height)) = some ([1], 1) ∧
      (headerResult l [1]).toOption.map (fun b => b.height) = some 0 ∧
      (reorgPre l Example.onA1cb).map (fun P => (P.blockid, P.height)) = some ([9], 1) ∧
      (forkStep 10 l Example.onA1cb).map (fun r => r.1) =
        some (.error LedgerError.ErrBlockNotExist) ∧
      (ConfirmBlock Example.env none 10 l Example.onA1cb false).map
        (fun r => (r.1, r.2.meta.trunkHeight)) = some ({ succ := false }, 0)) := by
  refine ⟨⟨_, rfl, by decide, by decide⟩, ⟨_, rfl, by decide, by decide, by decide⟩,
    ⟨_, rfl, by decide, by decide, by decide, by decide, by decide, by decide, by decide⟩⟩

/-- C31 (amended): heights in the states reachable from the empty ledger, for calls whose
blocks have non-empty ids that determine their `pre_hash` (`pre` maps the id of every block of
the run to its `pre_hash`).  A run of `ConfirmBlock` calls, whatever each call returns and
whether or not its batch write succeeds, returns (with three units of fuel more than the number
of calls) and leaves a ledger in which: every header `fetchBlock` returns is one higher than
the header it returns for its `pre_hash`, and no higher than `trunk_height` when its id is in
the Blocks table; and for any next block `B` whose call takes the reorg branch with the
predecessor `P`: when `P` is in the Blocks table, or when `handleFork` returns a block, then
`P.height = trunk_height` and the old tip is fetched with the same height; a call that reports
success leaves `trunk_height + 1`; and the call returns, with three units of fuel more than
the trunk height. -/
theorem height_bound_invariant (pre : Bytes → Bytes) (env : Env) (fuel : Nat)
    (calls : List ConfirmCall)
    (hcalls : ∀ c ∈ calls, c.block.blockid ≠ [] ∧ c.block.preHash = pre c.block.blockid)
    (hfuel : calls.length + 3 ≤ fuel) :
    ∃ l, runConfirms env fuel {} calls = some l ∧
      (∀ id b, headerResult l id = .ok b →
        ((kvGet l.db.blocksTable id).isSome = true → b.height ≤ l.meta.trunkHeight) ∧
        (∀ p, headerResult l b.preHash = .ok p → b.height = p.height + 1)) ∧
      (∀ B P, reorgPre l B = some P →
        ((kvGet l.db.blocksTable B.preHash).isSome = true ∨
            (∃ fuel2 sa L4 bw, forkStep fuel2 l B = some (.ok sa, L4, bw)) →
          P.height = l.meta.trunkHeight ∧
          ∃ T, headerResult l l.meta.tipBlockid = .ok T ∧ T.height = P.height) ∧
        (∀ kvErr fuel2 r, ConfirmBlock env kvErr fuel2 l B false = some r →
          r.1.succ = true → r.2.meta.trunkHeight = l.meta.trunkHeight + 1) ∧
        (∀ (kvErr : Option LedgerError) (fuel2 : Nat), l.meta.trunkHeight + 3 ≤ (fuel2 : Int) →
          ∃ r, ConfirmBlock env kvErr fuel2 l B false = some r)) := by
  obtain ⟨l, hrun, hl⟩ := runConfirms_honest pre env fuel calls {} (honest_empty pre) hcalls
    (by
      have : (({} : Ledger).meta.trunkHeight) = 0 := rfl
      rw [this]
      omega)
  refine ⟨l, hrun, fun id b hb => honest_fetch_heights pre l hl id b hb, ?_⟩
  intro B P hP
  refine ⟨fun hor => reorg_equal_heights pre l hl B P hP hor, ?_,
    fun kvErr fuel2 hf2 => confirmBlock_returns pre env kvErr fuel2 l B false hl hf2⟩
  intro kvErr fuel2 r hr hs
  obtain ⟨⟨sa, L4, bw, hk⟩, hm⟩ := reorg_success env kvErr fuel2 l B P hl.cache.1 hP r hr hs
  obtain ⟨heq, _⟩ := reorg_equal_heights pre l hl B P hP (Or.inr ⟨fuel2, sa, L4, bw, hk⟩)
  rw [hm, heq]

/-- The calls `run3` build the ledger `s3`. -/
theorem run3_s3 : runConfirms Example.env 7 {} Example.run3 = some Example.s3 := by decide

/-- In `s3` the branch block `[3]` is stored and fetched above the stored root `[1]`. -/
theorem s3_headers :
    (kvGet Example.s3.db.blocksTable [3]).isSome = true ∧
    (headerResult Example.s3 [3]).toOption.map (fun b => b.preHash) = some [1] ∧
    (headerResult Example.s3 [1]).toOption.isSome = true := by decide

/-- The call `ConfirmBlock(F2, false)` on `s3` takes the reorg branch and reports success. -/
theorem s3_reorg :
    (reorgPre Example.s3 Example.F2).isSome = true ∧
    (ConfirmBlock Example.env none 7 Example.s3 Example.F2 false).map (fun r => r.1.succ) =
      some true := by decide

theorem height_bound_invariant_witness :
    (∀ c ∈ Example.run3,
      c.block.blockid ≠ [] ∧ c.block.preHash = Example.parentOf c.block.blockid) ∧
    Example.run3.length + 3 ≤ 7 ∧
    ∃ l, runConfirms Example.env 7 {} Example.run3 = some l ∧
      l.meta = { rootBlockid := [1], tipBlockid := [2], trunkHeight := 1 } ∧
      (∃ b p, headerResult l [3] = .ok b ∧ (kvGet l.db.blocksTable [3]).isSome = true ∧
        headerResult l b.preHash = .ok p ∧ b.height ≤ l.meta.trunkHeight ∧
        b.height = p.height + 1) ∧
      (∃ P, reorgPre l Example.F2 = some P ∧
        (kvGet l.db.blocksTable Example.F2.preHash).isSome = true ∧
        P.height = l.meta.trunkHeight ∧
        (∃ T, headerResult l l.meta.tipBlockid = .ok T ∧ T.height = P.height) ∧
        ∃ r, ConfirmBlock Example.env none 7 l Example.F2 false = some r ∧
          r.1.succ = true ∧ r.2.meta.trunkHeight = l.meta.trunkHeight + 1) := by
  refine ⟨by decide, by decide, ?_⟩
  obtain ⟨l, hrun, h1, h2⟩ := height_bound_invariant Example.parentOf Example.env 7
    Example.run3 (by decide) (by decide)
  have e : l = Example.s3 := Option.some.inj (hrun.symm.trans run3_s3)
  subst e
  obtain ⟨k1, k2, k3⟩ := s3_headers
  obtain ⟨k4, k5⟩ := s3_reorg
  refine ⟨_, hrun, by decide, ?_, ?_⟩
  · cases hb : headerResult Example.s3 [3] with
    | error e => rw [hb] at k2; cases k2
    | ok b =>
      rw [hb] at k2
      have hpre : b.preHash = [1] := Option.some.inj k2
      cases hp : headerResult Example.s3 [1] with
      | error e => rw [hp] at k3; cases k3
      | ok p =>
        rw [← hpre] at hp
        exact ⟨b, p, rfl, k1, hp, (h1 [3] b hb).1 k1, (h1 [3] b hb).2 p hp⟩
  · obtain ⟨P, hP⟩ := Option.isSome_iff_exists.1 k4
    cases hr : ConfirmBlock Example.env none 7 Example.s3 Example.F2 false with
    | none => rw [hr] at k5; cases k5
    | some r =>
      rw [hr] at k5
      have hs : r.1.succ = true := Option.some.inj k5
      obtain ⟨h3, h4, _⟩ := h2 Example.F2 P hP
      exact ⟨P, hP, k1, (h3 (Or.inl k1)).1, (h3 (Or.inl k1)).2, r, rfl, hs,
        h4 none 7 r hr hs⟩

/-! ## The methods with failures, against the methods without -/

/-- `saveBlock` on a header that can be marshalled is `saveBlock`. -/
theorem faulty_saveBlock_ok (f : Faults) (l : Ledger) (a : Addr) (bw : Batch)
    (h : f.marshalBlock (l.deref a) = false) :
    Faulty.saveBlock f l a bw = (none, (saveBlock l a bw).1, (saveBlock l a bw).2) := by
  unfold Faulty.saveBlock saveBlock
  simp [h]

/-- `saveBlock` on a header that cannot be marshalled returns the error, with the pointer in
the header cache and nothing queued. -/
theorem faulty_saveBlock_err (f : Faults) (l : Ledger) (a : Addr) (bw : Batch)
    (h : f.marshalBlock (l.deref a) = true) :
    Faulty.saveBlock f l a bw =
      (some .marshalFailed, (saveBlock l a bw).1, bw) := by
  unfold Faulty.saveBlock saveBlock
  simp [h]

/-- A `saveBlock` that returns nil is the `saveBlock` without failures. -/
theorem faulty_saveBlock_none (f : Faults) (l : Ledger) (a : Addr) (bw : Batch) (L : Ledger)
    (bw2 : Batch) (h : Faulty.saveBlock f l a bw = (none, L, bw2)) :
    f.marshalBlock (l.deref a) = false ∧ L = (saveBlock l a bw).1 ∧ bw2 = (saveBlock l a bw).2 := by
  cases hm : f.marshalBlock (l.deref a) with
  | true =>
    rw [faulty_saveBlock_err f l a bw hm] at h
    cases h
  | false =>
    rw [faulty_saveBlock_ok f l a bw hm] at h
    simp only [Prod.mk.injEq, true_and] at h
    exact ⟨rfl, h.1.symm, h.2.symm⟩

/-- A `saveBlock` that returns an error met a header that cannot be marshalled. -/
theorem faulty_saveBlock_some (f : Faults) (l : Ledger) (a : Addr) (bw : Batch)
    (e : LedgerError) (L : Ledger) (bw2 : Batch)
    (h : Faulty.saveBlock f l a bw = (some e, L, bw2)) :
    f.marshalBlock (l.deref a) = true ∧ L = (saveBlock l a bw).1 := by
  cases hm : f.marshalBlock (l.deref a) with
  | true =>
    rw [faulty_saveBlock_err f l a bw hm] at h
    simp only [Prod.mk.injEq] at h
    exact ⟨rfl, h.2.1.symm⟩
  | false =>
    rw [faulty_saveBlock_ok f l a bw hm] at h
    cases h

/-- The loop of `correctTxsBlockid` that ends without an error is the loop without failures. -/
theorem faulty_correctTxs_ok (f : Faults) (id : Bytes) (txs : List Transaction) :
    ∀ (bw bw2 : Batch), Faulty.correctTxs f id txs bw = .ok bw2 →
      bw2 = txs.foldl (correctTx id) bw := by
  induction txs with
  | nil =>
    intro bw bw2 h
    simp only [Faulty.correctTxs, Except.ok.injEq] at h
    exact h.symm
  | cons tx rest ih =>
    intro bw bw2 h
    rw [Faulty.correctTxs] at h
    rw [List.foldl_cons]
    by_cases hb : tx.blockid ≠ id
    · rw [if_pos hb] at h
      cases hm : f.marshalTx (tx.setBlockid id) with
      | true => rw [hm] at h; simp at h
      | false =>
        rw [hm] at h
        simp only [Bool.false_eq_true, if_false] at h
        rw [ih _ _ h]
        unfold correctTx
        rw [if_pos hb]
    · rw [if_neg hb] at h
      rw [ih _ _ h]
      unfold correctTx
      rw [if_neg hb]

/-- Without failures the loop of `correctTxsBlockid` is the loop above. -/
theorem faulty_correctTxs_quiet (f : Faults) (hq : f.Quiet) (id : Bytes)
    (txs : List Transaction) :
    ∀ bw : Batch, Faulty.correctTxs f id txs bw = .ok (txs.foldl (correctTx id) bw) := by
  induction txs with
  | nil => intro bw; rfl
  | cons tx rest ih =>
    intro bw
    rw [Faulty.correctTxs, List.foldl_cons]
    by_cases hb : tx.blockid ≠ id
    · rw [if_pos hb, hq.2.1]
      simp only [Bool.false_eq_true, if_false]
      rw [ih]
      unfold correctTx
      rw [if_pos hb]
    · rw [if_neg hb, ih]
      unfold correctTx
      rw [if_neg hb]

theorem faulty_correctTxsBlockid_ok (f : Faults) (l : Ledger) (id : Bytes) (bw bw2 : Batch)
    (h : Faulty.correctTxsBlockid f l id bw = .ok bw2) :
    correctTxsBlockid l id bw = .ok bw2 := by
  unfold Faulty.correctTxsBlockid at h
  unfold correctTxsBlockid
  cases hq : queryBlock l id true with
  | error e => rw [hq] at h; cases h
  | ok block =>
    rw [hq] at h
    simp only at h ⊢
    rw [faulty_correctTxs_ok f id _ _ _ h]

theorem faulty_correctTxsBlockid_quiet (f : Faults) (hq : f.Quiet) (l : Ledger) (id : Bytes)
    (bw : Batch) : Faulty.correctTxsBlockid f l id bw = correctTxsBlockid l id bw := by
  unfold Faulty.correctTxsBlockid correctTxsBlockid
  cases queryBlock l id true with
  | error e => rfl
  | ok block =>
    simp only
    rw [faulty_correctTxs_quiet f hq]

/-- A `handleFork` that returns a block did what `handleFork` without failures does. -/
theorem faulty_handleFork_ok (f : Faults) (fuel : Nat) :
    ∀ (l : Ledger) (p q n : Bytes) (bw : Batch) (sa : Addr) (L : Ledger) (bw2 : Batch),
      Faulty.handleFork f fuel l p q n bw = some (.ok sa, L, bw2) →
      handleFork fuel l p q n bw = some (.ok sa, L, bw2) := by
  induction fuel with
  | zero =>
    intro l p q n bw sa L bw2 h
    simp [Faulty.handleFork] at h
  | succ fuel ih =>
    intro l p q n bw sa L bw2 h
    rw [Faulty.handleFork] at h
    rw [handleFork]
    by_cases hpq : p = q
    · simp only [hpq, if_true] at h ⊢
      cases hf : fetchBlock l q with
      | mk r1 l1 =>
        rw [hf] at h
        cases r1 with
        | error e => simp at h
        | ok a =>
          simp only at h ⊢
          cases hs : Faulty.saveBlock f
              ((l1.modify a (InternalBlock.setInTrunk true)).modify a
                (InternalBlock.setNextHash n)) a bw with
          | mk o rest =>
            obtain ⟨L3, bw3⟩ := rest
            rw [hs] at h
            cases o with
            | some e => simp at h
            | none =>
              obtain ⟨_, h1, h2⟩ := faulty_saveBlock_none f _ _ _ _ _ hs
              simp only [Option.some.injEq, Prod.mk.injEq, Except.ok.injEq] at h
              obtain ⟨rfl, rfl, rfl⟩ := h
              rw [← h1, ← h2]
    · simp only [hpq, if_false] at h ⊢
      cases hf : fetchBlock l p with
      | mk r1 l1 =>
        rw [hf] at h
        cases r1 with
        | error e => simp at h
        | ok pa =>
          simp only at h ⊢
          cases hf2 : fetchBlock ((l1.modify pa (InternalBlock.setInTrunk false)).modify pa
              (InternalBlock.setNextHash [])) q with
          | mk r2 l3 =>
            rw [hf2] at h
            cases r2 with
            | error e => simp at h
            | ok qa =>
              simp only at h ⊢
              cases hc : Faulty.correctTxsBlockid f (l3.modify qa (InternalBlock.setInTrunk true))
                  ((l3.modify qa (InternalBlock.setInTrunk true)).deref qa).blockid bw with
              | error e => rw [hc] at h; simp at h
              | ok bw1 =>
                rw [hc] at h
                rw [faulty_correctTxsBlockid_ok f _ _ _ _ hc]
                simp only at h ⊢
                cases hs1 : Faulty.saveBlock f
                    ((l3.modify qa (InternalBlock.setInTrunk true)).modify qa
                      (InternalBlock.setNextHash n)) pa bw1 with
                | mk o1 rest1 =>
                  obtain ⟨L6, bw6⟩ := rest1
                  rw [hs1] at h
                  cases o1 with
                  | some e => simp at h
                  | none =>
                    obtain ⟨_, h1, h2⟩ := faulty_saveBlock_none f _ _ _ _ _ hs1
                    simp only at h
                    cases hs2 : Faulty.saveBlock f L6 qa bw6 with
                    | mk o2 rest2 =>
                      obtain ⟨L7, bw7⟩ := rest2
                      rw [hs2] at h
                      cases o2 with
                      | some e => simp at h
                      | none =>
                        obtain ⟨_, h3, h4⟩ := faulty_saveBlock_none f _ _ _ _ _ hs2
                        simp only at h
                        have := ih _ _ _ _ _ _ _ _ h
                        rw [h3, h4, h1, h2] at this
                        exact this

/-- Without failures `handleFork` is the `handleFork` above. -/
theorem faulty_handleFork_quiet (f : Faults) (hq : f.Quiet) (fuel : Nat) :
    ∀ (l : Ledger) (p q n : Bytes) (bw : Batch),
      Faulty.handleFork f fuel l p q n bw = handleFork fuel l p q n bw := by
  induction fuel with
  | zero => intro l p q n bw; rfl
  | succ fuel ih =>
    intro l p q n bw
    rw [Faulty.handleFork, handleFork]
    by_cases hpq : p = q
    · simp only [hpq, if_true]
      cases hf : fetchBlock l q with
      | mk r1 l1 =>
        cases r1 with
        | error e => rfl
        | ok a =>
          simp only
          rw [faulty_saveBlock_ok f _ _ _ (hq.1 _)]
    · simp only [hpq, if_false]
      cases hf : fetchBlock l p with
      | mk r1 l1 =>
        cases r1 with
        | error e => rfl
        | ok pa =>
          simp only
          cases hf2 : fetchBlock ((l1.modify pa (InternalBlock.setInTrunk false)).modify pa
              (InternalBlock.setNextHash [])) q with
          | mk r2 l3 =>
            cases r2 with
            | error e => rfl
            | ok qa =>
              simp only
              rw [faulty_correctTxsBlockid_quiet f hq]
              cases correctTxsBlockid (l3.modify qa (InternalBlock.setInTrunk true))
                  ((l3.modify qa (InternalBlock.setInTrunk true)).deref qa).blockid bw with
              | error e => rfl
              | ok bw1 =>
                simp only
                rw [faulty_saveBlock_ok f _ _ _ (hq.1 _)]
                simp only
                rw [faulty_saveBlock_ok f _ _ _ (hq.1 _)]
                simp only
                rw [ih]

/-- When every transaction can be marshalled, `txData` is the map without failures. -/
theorem faulty_mkTxData_ok (f : Faults) (txs : List Transaction)
    (h : ∀ tx ∈ txs, f.marshalTx tx = false) : Faulty.mkTxData f txs = mkTxData txs := by
  unfold Faulty.mkTxData mkTxData
  have key : ∀ (m0 : Table Transaction),
      txs.foldl (fun m tx => if f.marshalTx tx then kvDel m tx.txid else kvPut m tx.txid tx) m0 =
        txs.foldl (fun m tx => kvPut m tx.txid tx) m0 := by
    induction txs with
    | nil => intro m0; rfl
    | cons tx rest ih =>
      intro m0
      rw [List.foldl_cons, List.foldl_cons, h tx (List.mem_cons_self _ _)]
      simp only [Bool.false_eq_true, if_false]
      exact ih (fun t ht => h t (List.mem_cons_of_mem _ ht)) _
  exact key []

/-- The commit tail with failures: either the header of the block, a transaction of the
block or the new meta record cannot be marshalled, or `updateBranchInfo` returns an error, or
the tail is the tail without failures. -/
theorem faulty_confirmCommit_cases (f : Faults) (env : Env) (kvErr : Option LedgerError)
    (L : Ledger) (a : Addr) (txs : List Transaction) (nm : LedgerMeta) (sh : Int)
    (st : ConfirmStatus) (isRoot : Bool) (bw : Batch) :
    f.marshalBlock (L.deref a) = true ∨
    f.updateBranchInfo ≠ none ∨
    (∃ tx ∈ txs, f.marshalTx (tx.setBlockid (L.deref a).blockid) = true) ∨
    f.marshalMeta nm = true ∨
    Faulty.confirmCommit f env kvErr L a txs nm sh st isRoot bw =
      confirmCommit env kvErr L a txs nm sh st isRoot bw := by
  cases h1 : f.marshalBlock (L.deref a) with
  | true => exact Or.inl rfl
  | false =>
    right
    cases h2 : f.updateBranchInfo with
    | some e => exact Or.inl (fun h => by cases h)
    | none =>
      right
      by_cases h3 : ∃ tx ∈ txs, f.marshalTx (tx.setBlockid (L.deref a).blockid) = true
      · exact Or.inl h3
      · right
        cases h4 : f.marshalMeta nm with
        | true => exact Or.inl rfl
        | false =>
          right
          have h3b : ∀ tx ∈ txs.map (Transaction.setBlockid (L.deref a).blockid),
              f.marshalTx tx = false := by
            intro tx htx
            obtain ⟨t, ht, rfl⟩ := List.mem_map.1 htx
            cases hm : f.marshalTx (Transaction.setBlockid (L.deref a).blockid t) with
            | false => rfl
            | true => exact absurd ⟨t, ht, hm⟩ h3
          unfold Faulty.confirmCommit confirmCommit
          rw [faulty_saveBlock_ok f L a bw h1]
          simp only
          unfold Faulty.updateBranchInfo updateBranchInfo
          rw [h2]
          simp only
          unfold Faulty.parallelCheckTx parallelCheckTx
          simp only [saveBlock_eq, setHeaderCache_deref]
          rw [faulty_mkTxData_ok f _ h3b, h4]
          simp only [Bool.false_eq_true, if_false]

/-- Without failures the commit tail is the commit tail above. -/
theorem faulty_confirmCommit_quiet (f : Faults) (hq : f.Quiet) (env : Env)
    (kvErr : Option LedgerError) (L : Ledger) (a : Addr) (txs : List Transaction)
    (nm : LedgerMeta) (sh : Int) (st : ConfirmStatus) (isRoot : Bool) (bw : Batch) :
    Faulty.confirmCommit f env kvErr L a txs nm sh st isRoot bw =
      confirmCommit env kvErr L a txs nm sh st isRoot bw := by
  rcases faulty_confirmCommit_cases f env kvErr L a txs nm sh st isRoot bw with
    h | h | ⟨tx, _, h⟩ | h | h
  · rw [hq.1] at h; cases h
  · exact absurd hq.2.2.2 h
  · rw [hq.2.1] at h; cases h
  · rw [hq.2.2.1] at h; cases h
  · exact h

/-- Without failures `ConfirmBlock` is the `ConfirmBlock` above. -/
theorem faulty_confirmBlock_quiet (f : Faults) (hq : f.Quiet) (env : Env)
    (kvErr : Option LedgerError) (fuel : Nat) (l : Ledger) (B : InternalBlock) (isRoot : Bool) :
    Faulty.ConfirmBlock f env kvErr fuel l B isRoot = ConfirmBlock env kvErr fuel l B isRoot := by
  unfold Faulty.ConfirmBlock ConfirmBlock
  simp only [faulty_confirmCommit_quiet f hq, faulty_handleFork_quiet f hq,
    faulty_saveBlock_ok f _ _ _ (hq.1 _)]

/-- Without failures the `handleFork` call of a confirm is the one above. -/
theorem faulty_forkStep_quiet (f : Faults) (hq : f.Quiet) (fuel : Nat) (l : Ledger)
    (B : InternalBlock) : Faulty.forkStep f fuel l B = forkStep fuel l B := by
  unfold Faulty.forkStep forkStep
  simp only [faulty_handleFork_quiet f hq]

/-! ## C9: the error field of a failed confirm -/

/-- C9 (error field), amended.  `Faulty.ConfirmBlock` is `ConfirmBlock` with the failures of
`proto.Marshal` and of `updateBranchInfo`.  Whenever it returns `succ = false` the error field
is set, except in the cases below, in which the status is returned with a nil error.  Stated
contrapositively, a status with `succ = false` and a nil error comes from one of: a root block
with a non-empty `pre_hash`; a missing predecessor block; a failed fork handling on the reorg
branch; the old tip, with its new `next_hash`, that cannot be marshalled (trunk extension with
dedup enabled); the header of the block, with the height the call gave it, that cannot be
marshalled; an error of `updateBranchInfo`; more than one coinbase transaction; a transaction
of the block that cannot be marshalled; the new meta record that cannot be marshalled. -/
theorem confirmBlock_nil_error_cases (f : Faults) (env : Env) (kvErr : Option LedgerError)
    (fuel : Nat) (l l2 : Ledger) (B : InternalBlock) (isRoot : Bool) (st : ConfirmStatus)
    (hv : l.PtrsValid)
    (hs : Faulty.ConfirmBlock f env kvErr fuel l B isRoot = some (st, l2))
    (hf : st.succ = false) (he : st.error = none) :
    (isRoot = true ∧ B.preHash ≠ []) ∨
    (isRoot = false ∧ headerAt l B.preHash = none) ∨
    (isRoot = false ∧ ∃ P e L2 bw, reorgPre l B = some P ∧
      Faulty.forkStep f fuel l B = some (.error e, L2, bw)) ∨
    (isRoot = false ∧ env.DisableTxDedup = false ∧ ∃ P, headerAt l B.preHash = some P ∧
      P.blockid = l.meta.tipBlockid ∧ f.marshalBlock (P.setNextHash B.blockid) = true) ∨
    (∃ h t, ((isRoot = true ∧ h = 0 ∧ t = true) ∨
        (isRoot = false ∧ ∃ P, headerAt l B.preHash = some P ∧ h = P.height + 1)) ∧
      f.marshalBlock (((B.setTransactions []).setHeight h).setInTrunk t) = true) ∨
    f.updateBranchInfo ≠ none ∨
    coinbaseCount B.transactions > 1 ∨
    (∃ tx ∈ B.transactions, f.marshalTx (tx.setBlockid B.blockid) = true) ∨
    (∃ m, (m = l.meta ∨ m.tipBlockid = B.blockid) ∧ f.marshalMeta m = true) := by
  have key : ∀ (L : Ledger) (a : Addr) (nm : LedgerMeta) (sh : Int) (st0 : ConfirmStatus)
      (bw : Batch) (h : Int) (t : Bool),
      L.deref a = ((B.setTransactions []).setHeight h).setInTrunk t →
      ((isRoot = true ∧ h = 0 ∧ t = true) ∨
        (isRoot = false ∧ ∃ P, headerAt l B.preHash = some P ∧ h = P.height + 1)) →
      (nm = l.meta ∨ nm.tipBlockid = B.blockid) →
      Faulty.confirmCommit f env kvErr L a B.transactions nm sh st0 isRoot bw = (st, l2) →
      (∃ h t, ((isRoot = true ∧ h = 0 ∧ t = true) ∨
          (isRoot = false ∧ ∃ P, headerAt l B.preHash = some P ∧ h = P.height + 1)) ∧
        f.marshalBlock (((B.setTransactions []).setHeight h).setInTrunk t) = true) ∨
      f.updateBranchInfo ≠ none ∨
      coinbaseCount B.transactions > 1 ∨
      (∃ tx ∈ B.transactions, f.marshalTx (tx.setBlockid B.blockid) = true) ∨
      (∃ m, (m = l.meta ∨ m.tipBlockid = B.blockid) ∧ f.marshalMeta m = true) := by
    intro L a nm sh st0 bw h t hd hht hnm hcc
    rcases faulty_confirmCommit_cases f env kvErr L a B.transactions nm sh st0 isRoot bw with
      h1 | h2 | ⟨tx, htx, h3⟩ | h4 | heq
    · rw [hd] at h1
      exact Or.inl ⟨h, t, hht, h1⟩
    · exact Or.inr (Or.inl h2)
    · rw [hd] at h3
      exact Or.inr (Or.inr (Or.inr (Or.inl ⟨tx, htx, h3⟩)))
    · exact Or.inr (Or.inr (Or.inr (Or.inr ⟨nm, hnm, h4⟩)))
    · rw [heq] at hcc
      refine Or.inr (Or.inr (Or.inl ?_))
      apply confirmCommit_nil_error env kvErr L a B.transactions nm sh st0 isRoot bw
      · rw [hcc]; exact hf
      · rw [hcc]; exact he
  have hlt0 : l.heap.length < (l.alloc (B.setTransactions [])).heap.length := by
    rw [alloc_heap_length]; exact Nat.lt_succ_self _
  cases isRoot with
  | true =>
    by_cases hp : B.preHash = []
    · right; right; right; right
      unfold Faulty.ConfirmBlock at hs
      simp only [if_true, hp, List.length_nil, gt_iff_lt, lt_self_iff_false, if_false,
        alloc_meta] at hs
      split at hs
      · simp only [Option.some.injEq, Prod.mk.injEq] at hs
        rw [← hs.1] at he
        cases he
      · simp only [Option.some.injEq] at hs
        refine key _ _ _ _ _ _ 0 true ?_ (Or.inl ⟨rfl, rfl, rfl⟩) (Or.inr rfl) hs
        rw [deref_modify_same _ _ _ (by rw [modify_heap_length]; exact hlt0),
          deref_modify_same _ _ _ hlt0, deref_alloc_new]
        rfl
    · exact Or.inl ⟨rfl, hp⟩
  | false =>
    right
    rcases Option.eq_none_or_eq_some (headerAt l B.preHash) with hh | ⟨P, hh⟩
    · exact Or.inl ⟨rfl, hh⟩
    · right
      have hv0 := ptrsValid_alloc l (B.setTransactions []) hv
      have ht0 : headerAt (l.alloc (B.setTransactions [])) B.preHash = some P := by
        rw [headerAt_alloc _ _ _ hv, hh]
      obtain ⟨pa, l1, hfetch, hfo⟩ := fetchBlock_ok _ _ _ hv0 ht0
      obtain ⟨hne, hlt, hderef⟩ := fetchOk_alloc_ne l _ _ _ _ _ hv hfo
      have hdp := hfo.deref_pa
      have hpa := hfo.pa_lt
      have hne2 : l.heap.length ≠ pa := fun e => hne e.symm
      obtain ⟨hu1, _, _⟩ := fetchBlock_unaliased _ _ _ _ _ (unaliased_alloc l _ hv) hfetch
      obtain ⟨L2, hL2⟩ : ∃ L2, L2 = l1.modify l.heap.length
          (InternalBlock.setHeight ((l1.deref pa).height + 1)) := ⟨_, rfl⟩
      have hd2p : L2.deref pa = P := by
        rw [hL2, deref_modify_ne _ _ _ _ hne2, hdp]
      have hd2a : L2.deref l.heap.length = (B.setTransactions []).setHeight (P.height + 1) := by
        rw [hL2, deref_modify_same _ _ _ hlt, hderef, hdp]
      have hlt2 : l.heap.length < L2.heap.length := by rw [hL2, modify_heap_length]; exact hlt
      have hht : ∀ t : Bool, (false = true ∧ P.height + 1 = 0 ∧ t = true) ∨
          (false = false ∧ ∃ P2, headerAt l B.preHash = some P2 ∧ P.height + 1 = P2.height + 1) :=
        fun t => Or.inr ⟨rfl, P, hh, rfl⟩
      unfold Faulty.ConfirmBlock at hs
      simp only [Bool.false_eq_true, if_false, hfetch, alloc_meta] at hs
      rw [← hL2] at hs
      simp only [hd2p] at hs
      by_cases htip : P.blockid = l.meta.tipBlockid
      · -- on top of the tip
        simp only [htip, if_true] at hs
        obtain ⟨L3, hL3⟩ : ∃ L3, L3 = L2.modify l.heap.length (InternalBlock.setInTrunk true) :=
          ⟨_, rfl⟩
        have hd3a : L3.deref l.heap.length =
            ((B.setTransactions []).setHeight (P.height + 1)).setInTrunk true := by
          rw [hL3, deref_modify_same _ _ _ hlt2, hd2a]
        have hd3p : L3.deref pa = P := by
          rw [hL3, deref_modify_ne _ _ _ _ hne2, hd2p]
        have hpa3 : pa < L3.heap.length := by
          rw [hL3, modify_heap_length, hL2, modify_heap_length]; exact hpa
        rw [← hL3] at hs
        simp only [hd3a] at hs
        obtain ⟨L4, hL4⟩ : ∃ L4, L4 = L3.modify pa (InternalBlock.setNextHash
            (((B.setTransactions []).setHeight (P.height + 1)).setInTrunk true).blockid) :=
          ⟨_, rfl⟩
        have hd4a : L4.deref l.heap.length =
            ((B.setTransactions []).setHeight (P.height + 1)).setInTrunk true := by
          rw [hL4, deref_modify_ne _ _ _ _ hne, hd3a]
        have hd4p : L4.deref pa = P.setNextHash B.blockid := by
          rw [hL4, deref_modify_same _ _ _ hpa3, hd3p]
          rfl
        rw [← hL4] at hs
        simp only [hd4a] at hs
        cases hdd : env.DisableTxDedup with
        | true =>
          simp only [hdd, Bool.not_true, Bool.false_eq_true, if_false, Option.some.injEq] at hs
          right; right
          exact key _ _ _ _ _ _ _ true hd4a (hht true) (Or.inr rfl) hs
        | false =>
          simp only [hdd, Bool.not_false, if_true] at hs
          cases hsv : Faulty.saveBlock f L4 pa [] with
          | mk o rest =>
            obtain ⟨L5, bw5⟩ := rest
            rw [hsv] at hs
            cases o with
            | some e =>
              obtain ⟨hm, _⟩ := faulty_saveBlock_some f _ _ _ _ _ _ hsv
              rw [hd4p] at hm
              exact Or.inr (Or.inl ⟨rfl, rfl, P, hh, htip, hm⟩)
            | none =>
              obtain ⟨_, h5, _⟩ := faulty_saveBlock_none f _ _ _ _ _ hsv
              simp only [Option.some.injEq] at hs
              right; right
              refine key _ _ _ _ _ _ _ true ?_ (hht true) (Or.inr rfl) hs
              rw [setBlockCache_deref, h5, saveBlock_eq, setHeaderCache_deref, hd4a]
      · simp only [htip, if_false] at hs
        by_cases hgt : P.height + 1 > l.meta.trunkHeight
        · -- the branch becomes the trunk
          simp only [hgt, if_true] at hs
          obtain ⟨L3, hL3⟩ : ∃ L3, L3 = L2.modify l.heap.length (InternalBlock.setInTrunk true) :=
            ⟨_, rfl⟩
          have hd3a : L3.deref l.heap.length =
              ((B.setTransactions []).setHeight (P.height + 1)).setInTrunk true := by
            rw [hL3, deref_modify_same _ _ _ hlt2, hd2a]
          have hd3p : L3.deref pa = P := by
            rw [hL3, deref_modify_ne _ _ _ _ hne2, hd2p]
          have hu3 : L3.Unaliased l.heap.length := by
            rw [hL3, hL2]
            exact unaliased_modify _ _ _ _ (unaliased_modify _ _ _ _ hu1)
          rw [← hL3] at hs
          simp only [hd3a, hd3p, hd2a] at hs
          have hre : reorgPre l B = some P := by
            unfold reorgPre
            rw [hfetch]
            simp only
            rw [← hL2, hd2p]
            simp only [htip, if_false, hgt, if_true]
          have hfs : Faulty.forkStep f fuel l B =
              Faulty.handleFork f fuel L3 l.meta.tipBlockid P.blockid B.blockid [] := by
            unfold Faulty.forkStep
            rw [hfetch]
            simp only
            rw [← hL2, ← hL3, hdp]
          have hbid : (((B.setTransactions []).setHeight (P.height + 1)).setInTrunk
              true).blockid = B.blockid := rfl
          rw [hbid] at hs
          cases hk : Faulty.handleFork f fuel L3 l.meta.tipBlockid P.blockid B.blockid [] with
          | none => rw [hk] at hs; cases hs
          | some res =>
            obtain ⟨r2, L4, bw1⟩ := res
            rw [hk] at hs
            cases r2 with
            | error e =>
              exact Or.inl ⟨rfl, P, e, L4, bw1, hre, by rw [hfs, hk]⟩
            | ok sa =>
              have hb := faulty_handleFork_ok f fuel _ _ _ _ _ _ _ _ hk
              obtain ⟨_, _, _, _, _, k6, _⟩ := handleFork_frame _ _ _ _ _ _ _ _ _ _ hu3 hb
              simp only [Option.some.injEq] at hs
              right; right
              refine key _ _ _ _ _ _ _ true ?_ (hht true) (Or.inr rfl) hs
              rw [k6, hd3a]
        · -- a block on a branch
          simp only [hgt, if_false, Option.some.injEq] at hs
          right; right
          refine key _ _ _ _ _ _ _ false ?_ (hht false) (Or.inl rfl) hs
          rw [deref_modify_same _ _ _ hlt2, hd2a]

theorem confirmBlock_nil_error_cases_witness :
    Example.s1.PtrsValid ∧
    (∃ st l2, Faulty.ConfirmBlock noFaults Example.env none 0 Example.s1
        { blockid := [9], preHash := [8] } false = some (st, l2) ∧
      st.succ = false ∧ st.error = none ∧
      headerAt Example.s1 ({ blockid := [9], preHash := [8] } : InternalBlock).preHash = none) ∧
    (∃ st l2, Faulty.ConfirmBlock Example.faultsMeta Example.env none 0 Example.s1 Example.A1
        false = some (st, l2) ∧
      st.succ = false ∧ st.error = none ∧
      ((false = true ∧ Example.A1.preHash ≠ []) ∨
      (false = false ∧ headerAt Example.s1 Example.A1.preHash = none) ∨
      (false = false ∧ ∃ P e L2 bw, reorgPre Example.s1 Example.A1 = some P ∧
        Faulty.forkStep Example.faultsMeta 0 Example.s1 Example.A1 = some (.error e, L2, bw)) ∨
      (false = false ∧ Example.env.DisableTxDedup = false ∧
        ∃ P, headerAt Example.s1 Example.A1.preHash = some P ∧
          P.blockid = Example.s1.meta.tipBlockid ∧
          Example.faultsMeta.marshalBlock (P.setNextHash Example.A1.blockid) = true) ∨
      (∃ h t, ((false = true ∧ h = 0 ∧ t = true) ∨
          (false = false ∧ ∃ P, headerAt Example.s1 Example.A1.preHash = some P ∧
            h = P.height + 1)) ∧
        Example.faultsMeta.marshalBlock
          (((Example.A1.setTransactions []).setHeight h).setInTrunk t) = true) ∨
      Example.faultsMeta.updateBranchInfo ≠ none ∨
      coinbaseCount Example.A1.transactions > 1 ∨
      (∃ tx ∈ Example.A1.transactions,
        Example.faultsMeta.marshalTx (tx.setBlockid Example.A1.blockid) = true) ∨
      (∃ m, (m = Example.s1.meta ∨ m.tipBlockid = Example.A1.blockid) ∧
        Example.faultsMeta.marshalMeta m = true))) := by
  have hv : Example.s1.PtrsValid := by unfold Ledger.PtrsValid; decide
  refine ⟨hv, ?_, ?_⟩
  · have hs : Faulty.ConfirmBlock noFaults Example.env none 0 Example.s1
        { blockid := [9], preHash := [8] } false =
        some ({}, Example.s1.alloc (InternalBlock.setTransactions []
          { blockid := [9], preHash := [8] })) := by decide
    refine ⟨_, _, hs, rfl, rfl, ?_⟩
    rcases confirmBlock_nil_error_cases noFaults Example.env none 0 Example.s1 _
        { blockid := [9], preHash := [8] } false {} hv hs rfl rfl with
      h | h | h | h | h | h | h | h | h
    · exact absurd h.1 (by decide)
    · exact h.2
    all_goals decide
  · obtain ⟨r, hr⟩ := Option.isSome_iff_exists.1
      (show (Faulty.ConfirmBlock Example.faultsMeta Example.env none 0 Example.s1 Example.A1
        false).isSome = true by decide)
    have h1 : r.1.succ = false := by
      have h2 : (Faulty.ConfirmBlock Example.faultsMeta Example.env none 0 Example.s1 Example.A1
          false).map (fun r => r.1.succ) = some false := by decide
      rw [hr] at h2
      exact Option.some.inj h2
    have h3 : r.1.error = none := by
      have h2 : (Faulty.ConfirmBlock Example.faultsMeta Example.env none 0 Example.s1 Example.A1
          false).map (fun r => r.1.error) = some none := by decide
      rw [hr] at h2
      exact Option.some.inj h2
    exact ⟨r.1, r.2, hr, h1, h3,
      confirmBlock_nil_error_cases Example.faultsMeta Example.env none 0 Example.s1 r.2
        Example.A1 false r.1 hv hr h1 h3⟩

/-- C9 (as stated, refuted): statuses with `succ = false` and a nil error.  Without any failure
of marshalling: a root block with a non-empty `pre_hash`, a block whose predecessor is
missing, and a block with two coinbase transactions.  With the failures of `proto.Marshal` and
`updateBranchInfo`: a reorg whose `handleFork` cannot marshal the old tip; a trunk extension
that cannot marshal the old tip with its new `next_hash`; a block whose own header cannot be
marshalled; an error of `updateBranchInfo`; a transaction that cannot be marshalled; and a meta
record that cannot be marshalled. -/
theorem confirmBlock_fail_without_error :
    (ConfirmBlock Example.env none 0 Example.s1 { blockid := [9], preHash := [8] } true).map
        (fun r => r.1) = some { succ := false, error := none } ∧
    (ConfirmBlock Example.env none 0 Example.s1 { blockid := [9], preHash := [8] } false).map
        (fun r => r.1) = some { succ := false, error := none } ∧
    (ConfirmBlock Example.env none 0 Example.s1
        { blockid := [9], preHash := [1],
          transactions := [{ txid := [110], coinbase := true, txOutputs := [{ amount := [5] }] },
                           { txid := [111], coinbase := true, txOutputs := [{ amount := [5] }] }] }
        false).map (fun r => r.1) = some { succ := false, error := none } ∧
    (Faulty.ConfirmBlock Example.faultsA1 Example.env none 8 Example.s3 Example.F2 false).map
        (fun r => r.1) = some { succ := false, error := none } ∧
    (Faulty.ConfirmBlock Example.faultsTip Example.env none 8 Example.s1 Example.A1 false).map
        (fun r => r.1) = some { succ := false, error := none } ∧
    (Faulty.ConfirmBlock Example.faultsBlock9 Example.env none 8 Example.s2 Example.dupBlock
        false).map (fun r => r.1) = some { succ := false, error := none } ∧
    (Faulty.ConfirmBlock Example.faultsBranch Example.env none 8 Example.s2 Example.A2
        false).map (fun r => r.1) = some { succ := false, error := none } ∧
    (Faulty.ConfirmBlock Example.faultsTx Example.env none 8 Example.s2 Example.A2
        false).map (fun r => r.1) = some { succ := false, error := none } ∧
    (Faulty.ConfirmBlock Example.faultsMeta Example.env none 8 Example.s2 Example.A2
        false).map (fun r => r.1) = some { succ := false, error := none } := by
  refine ⟨by decide, by decide, by decide, by decide, by decide, by decide, by decide,
    by decide, by decide⟩

/-! ## C6: a transaction confirmed in the trunk, with the failures of marshalling -/

/-- C6 (double spend across trunk), amended.  `Faulty.ConfirmBlock` is `ConfirmBlock` with the
failures of `proto.Marshal` and of `updateBranchInfo`; let none of them occur.  With
`DisableTxDedup = false`, on a ledger whose Blocks table stores every record under its own
id, let `B` be a block whose `pre_hash` names a header `P` and that holds a transaction `tx`
with a Confirmed-Tx record `old` whose block `ob` is stored with `in_trunk = true`; and let
`B` be placed in the trunk, either by trunk extend (`P` is the tip, `ob.height` is at most the
old trunk height) or by reorg (`P` is not the tip, `P.height + 1` exceeds the trunk height,
fork handling succeeds with the common ancestor `sa`, and `ob.height` is at most the height
of `sa`).  Then `ConfirmBlock(B, false)` returns `succ = false`, the error is `TxDuplicated`
when `B` holds at most one coinbase transaction, and the store and the meta record are as
before. -/
theorem confirmBlock_double_spend_refused (f : Faults) (env : Env)
    (kvErr : Option LedgerError) (fuel : Nat)
    (l : Ledger) (B P : InternalBlock) (tx old : Transaction) (ob : InternalBlock)
    (hq : f.Quiet)
    (hdedup : env.DisableTxDedup = false)
    (hv : l.PtrsValid) (hco : l.db.BlocksCoherent)
    (hP : headerAt l B.preHash = some P)
    (htx : tx ∈ B.transactions)
    (hold : kvGet l.db.confirmedTable tx.txid = some old)
    (hob : kvGet l.db.blocksTable old.blockid = some ob)
    (htr : ob.inTrunk = true)
    (hplace : (P.blockid = l.meta.tipBlockid ∧ ob.height ≤ l.meta.trunkHeight) ∨
      (P.blockid ≠ l.meta.tipBlockid ∧ P.height + 1 > l.meta.trunkHeight ∧
        ∃ sa L4 bw1, Faulty.forkStep f fuel l B = some (.ok sa, L4, bw1) ∧
          ob.height ≤ (L4.deref sa).height)) :
    ∃ r, Faulty.ConfirmBlock f env kvErr fuel l B false = some r ∧
      r.1.succ = false ∧
      (coinbaseCount B.transactions ≤ 1 → r.1.error = some LedgerError.ErrTxDuplicated) ∧
      r.2.db = l.db ∧ r.2.meta = l.meta := by
  rw [faulty_confirmBlock_quiet f hq]
  rw [faulty_forkStep_quiet f hq] at hplace
  exact confirmBlock_double_spend env kvErr fuel l B P tx old ob hdedup hv hco hP htx hold hob
    htr hplace

/-- Nothing fails under `noFaults`. -/
theorem noFaults_quiet : noFaults.Quiet :=
  ⟨fun _ => rfl, fun _ => rfl, fun _ => rfl, rfl⟩

/-- Witness of C6 on the example chain: on the trunk `G <- A1` a block on top of `A1` holds
`T1` again (trunk extend), and on `G <- A1` with the branch `G <- F1` a block on top of `F1`
holds the coinbase transaction of `G` again (reorg with common ancestor `G`). -/
theorem confirmBlock_double_spend_refused_witness :
    noFaults.Quiet ∧
    (∃ r, Faulty.ConfirmBlock noFaults Example.env none 8 Example.s2 Example.dupBlock false =
        some r ∧
      r.1.succ = false ∧
      (coinbaseCount Example.dupBlock.transactions ≤ 1 →
        r.1.error = some LedgerError.ErrTxDuplicated) ∧
      r.2.db = Example.s2.db ∧ r.2.meta = Example.s2.meta) ∧
    (∃ r, Faulty.ConfirmBlock noFaults Example.env none 8 Example.s3
        (Example.F2.setTransactions [Example.cbTx]) false = some r ∧
      r.1.succ = false ∧
      (coinbaseCount (Example.F2.setTransactions [Example.cbTx]).transactions ≤ 1 →
        r.1.error = some LedgerError.ErrTxDuplicated) ∧
      r.2.db = Example.s3.db ∧ r.2.meta = Example.s3.meta) :=
  ⟨noFaults_quiet,
   confirmBlock_double_spend_refused noFaults Example.env none 8 Example.s2 Example.dupBlock
      ((headerAt Example.s2 [2]).getD default) Example.T1
      ((kvGet Example.s2.db.confirmedTable [101]).getD {})
      ((kvGet Example.s2.db.blocksTable [2]).getD default) noFaults_quiet
      rfl (by unfold Ledger.PtrsValid; decide) (by unfold DB.BlocksCoherent; decide)
      (by decide) (by decide) (by decide) (by decide) (by decide) (Or.inl (by decide)),
   confirmBlock_double_spend_refused noFaults Example.env none 8 Example.s3
      (Example.F2.setTransactions [Example.cbTx])
      ((headerAt Example.s3 [3]).getD default) Example.cbTx
      ((kvGet Example.s3.db.confirmedTable [100]).getD {})
      ((kvGet Example.s3.db.blocksTable [1]).getD default) noFaults_quiet
      rfl (by unfold Ledger.PtrsValid; decide) (by unfold DB.BlocksCoherent; decide)
      (by decide) (by decide) (by decide) (by decide) (by decide)
      (Or.inr ⟨by decide, by decide,
        (((Faulty.forkStep noFaults 8 Example.s3
          (Example.F2.setTransactions [Example.cbTx])).getD default).1.toOption).getD 0,
        ((Faulty.forkStep noFaults 8 Example.s3
          (Example.F2.setTransactions [Example.cbTx])).getD default).2.1,
        ((Faulty.forkStep noFaults 8 Example.s3
          (Example.F2.setTransactions [Example.cbTx])).getD default).2.2,
        by decide, by decide⟩)⟩

/-- C6 (as stated, refuted): four blocks that would be placed in the trunk and hold a
transaction confirmed in a trunk block at or below the split height.  On the trunk `G <- A1`,
a block on top of `A1` that holds two coinbase transactions and then `T1` (confirmed in `A1`)
is refused with a nil error: the coinbase counter fails before the loop reaches `T1`.  On the
same trunk, a block on top of `A1` that holds `T1` and whose header cannot be marshalled is
refused with a nil error before the transaction loop.  And after the genesis block, `A1`, `F1`,
the refused reorg by `F2cb` and `A2`, the trunk is `A2, A1, G` with `T1` confirmed in `A1` at
height 1, but `A1` is stored with `in_trunk = false`, and the block on top of `A2` that holds
`T1` again is confirmed with `succ = true`.  Last, on a store that holds under the key `[7]` a
record with the id `[2]` (not `in_trunk`), a block on top of `A1` that holds a transaction
confirmed in `[7]` and then `T1` is confirmed with `succ = true`: the loop keeps the blocks it
has read under their own ids and finds the record of `[7]` for `T1`. -/
theorem confirmBlock_double_spend_fails :
    (Example.T1 ∈ (Example.dupBlock.setTransactions
        [Example.cbNoOutputs, Example.cbWrongAmount, Example.T1]).transactions ∧
      (kvGet Example.s2.db.confirmedTable Example.T1.txid).map (fun t => t.blockid) = some [2] ∧
      (kvGet Example.s2.db.blocksTable [2]).map (fun b => (b.inTrunk, b.height)) =
        some (true, 1) ∧
      Example.s2.meta.tipBlockid = [2] ∧ Example.s2.meta.trunkHeight = 1 ∧
      (ConfirmBlock Example.env none 8 Example.s2
          (Example.dupBlock.setTransactions
            [Example.cbNoOutputs, Example.cbWrongAmount, Example.T1]) false).map (fun r => r.1) =
        some { succ := false, split := false, orphan := false, trunkSwitch := false,
               error := none }) ∧
    (Example.T1 ∈ Example.dupBlock.transactions ∧ Example.dupBlock.preHash = [2] ∧
      (Faulty.ConfirmBlock Example.faultsBlock9 Example.env none 8 Example.s2 Example.dupBlock
        false).map (fun r => r.1) = some { succ := false, error := none }) ∧
    ((ConfirmBlock Example.env none 8 Example.s3 Example.F2cb false).map
        (fun r => (r.1.succ, r.1.error)) = some (false, some LedgerError.ErrTxDuplicated) ∧
      Example.s5Refused.meta = { rootBlockid := [1], tipBlockid := [5], trunkHeight := 2 } ∧
      (trunkPath Example.s5Refused).map (fun b => (b.blockid, b.height, b.leaves)) =
        [([5], 2, [[103]]), ([2], 1, [[101]]), ([1], 0, [[100]])] ∧
      (kvGet Example.s5Refused.db.confirmedTable [101]).map (fun t => t.blockid) = some [2] ∧
      (kvGet Example.s5Refused.db.blocksTable [2]).map (fun b => b.inTrunk) = some false ∧
      Example.T1 ∈ Example.onA2dup.transactions ∧ Example.onA2dup.preHash = [5] ∧
      (ConfirmBlock Example.env none 8 Example.s5Refused Example.onA2dup false).map
        (fun r => (r.1, r.2.meta)) =
          some ({ succ := true }, { rootBlockid := [1], tipBlockid := [11], trunkHeight := 3 })) ∧
    (¬ Example.sIncoherent.db.BlocksCoherent ∧
      Example.T1 ∈ Example.dupAfter150.transactions ∧ Example.dupAfter150.preHash = [2] ∧
      Example.sIncoherent.meta = { rootBlockid := [1], tipBlockid := [2], trunkHeight := 1 } ∧
      (kvGet Example.sIncoherent.db.confirmedTable [101]).map (fun t => t.blockid) = some [2] ∧
      (kvGet Example.sIncoherent.db.blocksTable [2]).map (fun b => (b.inTrunk, b.height)) =
        some (true, 1) ∧
      (ConfirmBlock Example.env none 8 Example.sIncoherent Example.dupAfter150 false).map
        (fun r => r.1) = some { succ := true }) := by
  refine ⟨⟨by decide, by decide, by decide, by decide, by decide, by decide⟩,
    ⟨by decide, by decide, by decide⟩,
    ⟨by decide, by decide, by decide, by decide, by decide, by decide, by decide, by decide⟩,
    ⟨?_, by decide, by decide, by decide, by decide, by decide, by decide⟩⟩
  unfold DB.BlocksCoherent
  decide

/-! ## C27: the flag `removeBlocks` reads -/

/-- C27: the walk of `removeBlocks` reads `in_trunk` from the header cache.  After the genesis
block, `A1`, `F1` and the refused reorg by `F2cb`, the store is as after the first three calls:
its blocks are linked, `A1` is stored with `in_trunk = true` at height 1 and `F1` with
`in_trunk = false`, the Height Index maps height 1 to `A1`, and the recorded branch tips are
`F1` and `A1` (the walks `Truncate(G)` makes).  `removeBlocks(A1, G)` queues
the delete of the block `A1` and no delete of its Height Index entry, and
`removeBlocks(F1, G)` queues the delete of the block `F1` and the delete of the Height Index
entry of height 1, although `F1` is not stored `in_trunk`: the cached objects of `A1` and
`F1` still carry the flags the refused call assigned. -/
theorem removeBlocks_reads_cached_flag :
    (ConfirmBlock Example.env none 8 Example.s3 Example.F2cb false).map (fun r => r.1) =
      some { succ := false, split := true, trunkSwitch := true,
             error := some LedgerError.ErrTxDuplicated } ∧
    Example.s3Refused.db = Example.s3.db ∧ Example.s3Refused.meta = Example.s3.meta ∧
    Example.s3Refused.db.Linked ∧
    (kvGet Example.s3Refused.db.blocksTable [2]).map
      (fun b => (b.preHash, b.height, b.inTrunk)) = some ([1], 1, true) ∧
    (kvGet Example.s3Refused.db.blocksTable [3]).map
      (fun b => (b.preHash, b.height, b.inTrunk)) = some ([1], 1, false) ∧
    (kvGet Example.s3Refused.db.blocksTable [1]).map (fun b => b.height) = some 0 ∧
    kvGet Example.s3Refused.db.heightTable (heightKey 1) = some [2] ∧
    GetBranchInfo Example.s3Refused [1] 0 = .ok [[3], [2]] ∧
    (removeBlocks 8 Example.s3Refused [2] [1] []).map (fun r => (r.1, r.2.2)) =
      some (.ok (), [BatchOp.delBlock [2]]) ∧
    (removeBlocks 8 Example.s3Refused [3] [1] []).map (fun r => (r.1, r.2.2)) =
      some (.ok (), [BatchOp.delBlock [3], BatchOp.delHeight (heightKey 1)]) := by
  refine ⟨by decide, by decide, by decide, ?_, by decide, by decide, by decide, by decide,
    by decide, by decide, by decide⟩
  unfold DB.Linked
  decide

/-! ## C4: genesis, with the failures of marshalling -/

/-- C4 (genesis), amended.  `Faulty.ConfirmBlock` is `ConfirmBlock` with the failures of
`proto.Marshal` and of `updateBranchInfo`; let none of them occur.  On a ledger whose
`root_block_id` is empty, let `B0` be a block with empty `pre_hash` and a non-empty id, holding
exactly one coinbase transaction whose `desc` is a loadable genesis configuration, whose
`tx_count` lies within its merkle tree and whose first `tx_count` merkle leaves are the
(distinct) ids of its transactions, none of which has a confirmed entry.  Then
`ConfirmBlock(B0, true)` with a successful batch write returns `succ = true`; `GetMeta`
returns `{root = B0.id, tip = B0.id, trunk_height = 0}`; `B0` is stored with height 0 and
`in_trunk = true`; and `QueryBlockByHeight(0)` returns `B0` (with the height and `in_trunk`
the engine assigned and every transaction pointing at `B0.id`). -/
theorem confirmBlock_genesis_confirmed (f : Faults) (env : Env) (fuel : Nat) (l : Ledger)
    (B0 : InternalBlock) (gb : GenesisBlock)
    (hq : f.Quiet)
    (hroot : l.meta.rootBlockid = [])
    (hpre : B0.preHash = [])
    (hid : B0.blockid ≠ [])
    (hcb : coinbaseCount B0.transactions = 1)
    (hcfg : ∀ tx ∈ B0.transactions, tx.coinbase = true → env.NewGenesisBlock tx.desc = .ok gb)
    (htc : 0 ≤ B0.txCount ∧ B0.txCount ≤ (B0.merkleTree.length : Int))
    (hleaves : B0.merkleTree.take B0.txCount.toNat = B0.transactions.map (fun tx => tx.txid))
    (hnodup : (B0.transactions.map (fun tx => tx.txid)).Nodup)
    (hfresh : ∀ tx ∈ B0.transactions, kvGet l.db.confirmedTable tx.txid = none) :
    ∃ l2, Faulty.ConfirmBlock f env none fuel l B0 true =
        some ({ succ := true, split := false, orphan := false, trunkSwitch := false,
                error := none }, l2) ∧
      GetMeta l2 = { rootBlockid := B0.blockid, tipBlockid := B0.blockid, trunkHeight := 0 } ∧
      kvGet l2.db.blocksTable B0.blockid =
        some (((B0.setTransactions []).setInTrunk true).setHeight 0) ∧
      blockByHeightResult l2 0 =
        .ok (((B0.setTransactions (B0.transactions.map (Transaction.setBlockid B0.blockid))).setInTrunk
          true).setHeight 0) := by
  rw [faulty_confirmBlock_quiet f hq]
  exact confirmBlock_genesis env fuel l B0 gb hroot hpre hid hcb hcfg htc hleaves hnodup hfresh

/-- Witness of C4: the genesis block of the example chain on the empty ledger. -/
theorem confirmBlock_genesis_confirmed_witness :
    noFaults.Quiet ∧
    ∃ l2, Faulty.ConfirmBlock noFaults Example.env none 0 {} Example.G true =
        some ({ succ := true, split := false, orphan := false, trunkSwitch := false,
                error := none }, l2) ∧
      GetMeta l2 = { rootBlockid := [1], tipBlockid := [1], trunkHeight := 0 } ∧
      kvGet l2.db.blocksTable [1] =
        some (((Example.G.setTransactions []).setInTrunk true).setHeight 0) ∧
      blockByHeightResult l2 0 =
        .ok (((Example.G.setTransactions
          (Example.G.transactions.map (Transaction.setBlockid [1]))).setInTrunk true).setHeight 0) :=
  ⟨noFaults_quiet,
    confirmBlock_genesis_confirmed noFaults Example.env 0 {} Example.G { config := [7] }
      noFaults_quiet rfl rfl (by decide) (by decide) (by decide) (by decide) (by decide)
      (by decide) (by decide)⟩

/-- C4 (as stated, refuted): seven calls for genesis blocks with an empty `pre_hash` and
exactly one coinbase transaction with a loadable configuration, with a successful batch write
on a ledger whose `root_block_id` is empty, that do not return `succ = true`.  On the
empty ledger: a block with `tx_count = 0`, a block whose `tx_count` exceeds its merkle tree
(the slice expression of `queryBlock` fails), a block whose merkle leaf is not the id of its
transaction, and a block with a second transaction under the id of the coinbase transaction
are committed, the genesis configuration cannot be read back from them, and the call returns
`succ = false`; a block with an empty id is committed and leaves `root_block_id` empty, and
the call returns `succ = false`.  On the ledger this last call leaves, whose `root_block_id`
is empty, the genesis block `G` is refused with `TxDuplicated`, because its coinbase
transaction has a confirmed entry.  And on the empty ledger the genesis block `G` is refused,
with nothing written, when its meta record cannot be marshalled. -/
theorem confirmBlock_genesis_fails :
    (ConfirmBlock Example.env none 8 {} Example.rootNoCount true).map
      (fun r => (r.1, r.2.meta.rootBlockid)) =
        some ({ succ := false, error := some LedgerError.coinbaseNotFound }, [1]) ∧
    (ConfirmBlock Example.env none 8 {} Example.rootBigCount true).map
      (fun r => (r.1, r.2.meta.rootBlockid)) =
        some ({ succ := false, error := some LedgerError.sliceOutOfRange }, [1]) ∧
    (ConfirmBlock Example.env none 8 {} Example.rootWrongLeaf true).map
      (fun r => (r.1, r.2.meta.rootBlockid)) =
        some ({ succ := false, error := some LedgerError.ErrKVNotFound }, [1]) ∧
    (coinbaseCount Example.rootSameTxid.transactions = 1 ∧
      (ConfirmBlock Example.env none 8 {} Example.rootSameTxid true).map
        (fun r => (r.1, r.2.meta.rootBlockid)) =
          some ({ succ := false, error := some LedgerError.coinbaseNotFound }, [1])) ∧
    (ConfirmBlock Example.env none 8 {} Example.rootNoId true).map
      (fun r => (r.1, r.2.meta.rootBlockid)) =
        some ({ succ := false, error := some LedgerError.ErrBlockNotExist }, []) ∧
    ((Example.after {} Example.rootNoId true).meta.rootBlockid = [] ∧
      (ConfirmBlock Example.env none 8 (Example.after {} Example.rootNoId true) Example.G
        true).map (fun r => (r.1, r.2.meta.rootBlockid)) =
          some ({ succ := false, error := some LedgerError.ErrTxDuplicated }, [])) ∧
    (Faulty.ConfirmBlock Example.faultsMeta Example.env none 8 {} Example.G true).map
      (fun r => (r.1, r.2.db, r.2.meta)) = some ({ succ := false, error := none }, {}, {}) := by
  refine ⟨by decide, by decide, by decide, ⟨by decide, by decide⟩, by decide,
    ⟨by decide, by decide⟩, by decide⟩

end XLedger
